import Mathlib

/-!
Chess rule engine: board and piece model.

Shallow embedding of `board.cc`, `piece.cc`, `position.cc`, and of the parts of
`player.cc` and `game.cc` that enumerate and apply moves.

* C++ `int` is modelled by `Int`. The one place where a coordinate that comes
  from the 8x8 grid can overflow is the path loop of `Bishop::isValidMove`
  asked about `to = from`; there the additions are reduced to 32 bits
  (`wrapInt`, `pathClearInt`).
* A `std::unique_ptr<Piece>` cell is an `Option Piece`; a piece is a value.
* A call either returns (`Outcome.ok`), does not return within the given
  number of loop iterations / nested calls (`Outcome.noReturn`), or runs into
  undefined behaviour of the source: an unchecked `grid[r][c]` with an index
  outside `0..7` (`Outcome.outOfBounds`), a member call through an empty
  cell (`Outcome.nullDeref`), or a member call through a pointer whose piece
  has been destroyed by an assignment to its cell (`Outcome.useAfterFree`).
-/

set_option autoImplicit false

namespace Chess

/-! ## Outcomes -/

/-- Result of running a piece of the engine. -/
inductive Outcome (α : Type) where
  | ok (a : α)
  | noReturn
  | outOfBounds
  | nullDeref
  | useAfterFree
  deriving DecidableEq, Repr

namespace Outcome

variable {α β : Type}

/-- Sequencing: the first outcome that is not `ok` ends the run. -/
def bind (x : Outcome α) (f : α → Outcome β) : Outcome β :=
  match x with
  | ok a => f a
  | noReturn => noReturn
  | outOfBounds => outOfBounds
  | nullDeref => nullDeref
  | useAfterFree => useAfterFree

/-- Apply a function to the returned value. -/
def map (f : α → β) (x : Outcome α) : Outcome β :=
  x.bind fun a => ok (f a)

end Outcome

/-! ## Colour, Position, Piece -/

/-- The two colours of `colour.h`. -/
inductive Colour where
  | WHITE
  | BLACK
  deriving DecidableEq, Repr

/-- The opposite colour: `(colour == Colour::WHITE) ? Colour::BLACK : Colour::WHITE`. -/
def Colour.enemy (c : Colour) : Colour :=
  if c = Colour.WHITE then Colour.BLACK else Colour.WHITE

/-- A (row, col) pair as in `position.h`; any two integers can be stored. -/
structure Position where
  row : Int
  col : Int
  deriving DecidableEq, Repr

/-- Both coordinates in `1..8`: `Position::isValid`. -/
def Position.isValid (p : Position) : Bool :=
  decide (1 ≤ p.row) && decide (p.row ≤ 8) && decide (1 ≤ p.col) && decide (p.col ≤ 8)

/-- Absolute value of an `int`: `abs`. -/
def iabs (x : Int) : Int := if x < 0 then -x else x

/-- The six subclasses of `Piece`; `Pawn` carries its private member `canEnPassant`. -/
inductive PieceType where
  | King
  | Queen
  | Rook
  | Bishop
  | Knight
  | Pawn (canEnPassant : Bool)
  deriving DecidableEq, Repr

/-- Test `getType() == "Pawn"`. -/
def PieceType.isPawn : PieceType → Bool
  | PieceType.Pawn _ => true
  | _ => false

/-- A piece: its subclass, colour and `hasMoved` flag (the symbol is a function of the first two). -/
structure Piece where
  type : PieceType
  colour : Colour
  hasMoved : Bool
  deriving DecidableEq, Repr

/-- Freshly constructed piece (`hasMoved(false)`, and `canEnPassant(false)` for a pawn). -/
def Piece.create (t : PieceType) (c : Colour) : Piece :=
  { type := match t with
      | PieceType.Pawn _ => PieceType.Pawn false
      | k => k,
    colour := c, hasMoved := false }

/-- The display symbol set by each constructor. -/
def Piece.getSymbol (p : Piece) : Char :=
  match p.type, p.colour with
  | PieceType.King, Colour.WHITE => 'K'
  | PieceType.King, Colour.BLACK => 'k'
  | PieceType.Queen, Colour.WHITE => 'Q'
  | PieceType.Queen, Colour.BLACK => 'q'
  | PieceType.Rook, Colour.WHITE => 'R'
  | PieceType.Rook, Colour.BLACK => 'r'
  | PieceType.Bishop, Colour.WHITE => 'B'
  | PieceType.Bishop, Colour.BLACK => 'b'
  | PieceType.Knight, Colour.WHITE => 'N'
  | PieceType.Knight, Colour.BLACK => 'n'
  | PieceType.Pawn _, Colour.WHITE => 'P'
  | PieceType.Pawn _, Colour.BLACK => 'p'

/-- The virtual `clone()`: a new object of the same subclass and colour, then
`hasMoved` (and for a pawn `canEnPassant`) copied over. -/
def Piece.clone (p : Piece) : Piece :=
  match p.type with
  | PieceType.Pawn ep =>
    { type := PieceType.Pawn ep, colour := p.colour, hasMoved := p.hasMoved }
  | k => { (Piece.create k p.colour) with hasMoved := p.hasMoved }

/-- Effect of `setHasMoved(true)`. -/
def Piece.setHasMoved (p : Piece) (m : Bool) : Piece := { p with hasMoved := m }

/-! ## Board state -/

/-- The data members of `Board` (observers aside). `grid r c` is `grid[r][c]`, 0-indexed. -/
structure Board where
  grid : Fin 8 → Fin 8 → Option Piece
  lastMoveFrom : Position
  lastMoveTo : Position
  whiteKingMoved : Bool
  blackKingMoved : Bool
  whiteRookKingMoved : Bool
  whiteRookQueenMoved : Bool
  blackRookKingMoved : Bool
  blackRookQueenMoved : Bool

/-- The board built by the constructor `Board::Board()`. -/
def Board.empty : Board :=
  { grid := fun _ _ => none,
    lastMoveFrom := ⟨0, 0⟩, lastMoveTo := ⟨0, 0⟩,
    whiteKingMoved := false, blackKingMoved := false,
    whiteRookKingMoved := false, whiteRookQueenMoved := false,
    blackRookKingMoved := false, blackRookQueenMoved := false }

/-- Index into a vector of size 8, for an `int` already known to be in `0..7`. -/
def idx (i : Int) : Fin 8 := ⟨i.toNat % 8, Nat.mod_lt _ (by decide)⟩

/-- Both vector indices inside `0..7`. -/
def inGrid (r c : Int) : Bool :=
  decide (0 ≤ r) && decide (r < 8) && decide (0 ≤ c) && decide (c < 8)

/-- Overwrite one cell. -/
def Board.setGrid (b : Board) (r c : Fin 8) (v : Option Piece) : Board :=
  { b with grid := fun i j => if i = r ∧ j = c then v else b.grid i j }

/-- The statement `grid[r][c] = v` with unchecked `int` indices. -/
def Board.assign (b : Board) (r c : Int) (v : Option Piece) : Outcome Board :=
  if inGrid r c then Outcome.ok (b.setGrid (idx r) (idx c) v) else Outcome.outOfBounds

/-- The statement `grid[r][c] = std::move(grid[r2][c2])` with unchecked indices:
the target takes the source's piece and the source is left empty; moving a
cell onto itself keeps its content. -/
def Board.moveAssign (b : Board) (r c r2 c2 : Int) : Outcome Board :=
  if inGrid r c && inGrid r2 c2 then
    if idx r = idx r2 ∧ idx c = idx c2 then Outcome.ok b
    else Outcome.ok
      ((b.setGrid (idx r) (idx c) (b.grid (idx r2) (idx c2))).setGrid (idx r2) (idx c2) none)
  else Outcome.outOfBounds

/-- The position `Position(row + 1, col + 1)` of a grid cell. -/
def posOf (r c : Fin 8) : Position := ⟨(r.val : Int) + 1, (c.val : Int) + 1⟩

/-- Bounds-checked read: `Board::getPiece`. -/
def Board.getPiece (b : Board) (pos : Position) : Option Piece :=
  if pos.isValid then b.grid (idx (pos.row - 1)) (idx (pos.col - 1)) else none

/-- The values `0..7` of a loop counter. -/
def fin8 : List (Fin 8) := [0, 1, 2, 3, 4, 5, 6, 7]

/-- All cells in the order of `for row { for col { .. } }`. -/
def allSquares : List (Fin 8 × Fin 8) :=
  fin8.foldr (fun r acc => fin8.map (fun c => (r, c)) ++ acc) []

/-! ## Board queries that do not depend on check -/

/-- En-passant test: `Board::isEnPassant`. -/
def Board.isEnPassant (b : Board) (src dst : Position) (turn : Colour) : Bool :=
  match b.getPiece src with
  | none => false
  | some p =>
    if !p.type.isPawn then false
    else
      let direction : Int := if turn = Colour.WHITE then 1 else -1
      if iabs (dst.col - src.col) ≠ 1 ∨ dst.row - src.row ≠ direction then false
      else if (b.getPiece dst).isSome then false
      else
        let enemyPawnPos : Position := ⟨src.row, dst.col⟩
        match b.getPiece enemyPawnPos with
        | none => false
        | some enemyPawn =>
          if !enemyPawn.type.isPawn || decide (enemyPawn.colour = turn) then false
          else if b.lastMoveFrom.row = (if turn = Colour.WHITE then 7 else 2)
              ∧ b.lastMoveTo = enemyPawnPos
              ∧ iabs (b.lastMoveFrom.row - b.lastMoveTo.row) = 2 then true
          else false

/-- Cell test `x && x->getType() == t && x->getColour() == c` of the castling checks. -/
def isPieceOf (x : Option Piece) (t : PieceType) (c : Colour) : Bool :=
  match x with
  | none => false
  | some p => decide (p.type = t) && decide (p.colour = c)

/-- Body of `Board::canCastleKingSide`; `chk` stands for the call `isInCheck(colour)`. -/
def canCastleKingSideWith (chk : Colour → Outcome Bool) (b : Board) (colour : Colour) :
    Outcome Bool :=
  match colour with
  | Colour.WHITE =>
    if b.whiteKingMoved || b.whiteRookKingMoved then Outcome.ok false
    else if !isPieceOf (b.grid 0 4) PieceType.King Colour.WHITE then Outcome.ok false
    else if !isPieceOf (b.grid 0 7) PieceType.Rook Colour.WHITE then Outcome.ok false
    else if (b.grid 0 5).isSome || (b.grid 0 6).isSome then Outcome.ok false
    else (chk colour).bind fun inCheck => Outcome.ok (!inCheck)
  | Colour.BLACK =>
    if b.blackKingMoved || b.blackRookKingMoved then Outcome.ok false
    else if !isPieceOf (b.grid 7 4) PieceType.King Colour.BLACK then Outcome.ok false
    else if !isPieceOf (b.grid 7 7) PieceType.Rook Colour.BLACK then Outcome.ok false
    else if (b.grid 7 5).isSome || (b.grid 7 6).isSome then Outcome.ok false
    else (chk colour).bind fun inCheck => Outcome.ok (!inCheck)

/-- Body of `Board::canCastleQueenSide`; `chk` stands for the call `isInCheck(colour)`. -/
def canCastleQueenSideWith (chk : Colour → Outcome Bool) (b : Board) (colour : Colour) :
    Outcome Bool :=
  match colour with
  | Colour.WHITE =>
    if b.whiteKingMoved || b.whiteRookQueenMoved then Outcome.ok false
    else if !isPieceOf (b.grid 0 4) PieceType.King Colour.WHITE then Outcome.ok false
    else if !isPieceOf (b.grid 0 0) PieceType.Rook Colour.WHITE then Outcome.ok false
    else if (b.grid 0 1).isSome || (b.grid 0 2).isSome || (b.grid 0 3).isSome then
      Outcome.ok false
    else (chk colour).bind fun inCheck => Outcome.ok (!inCheck)
  | Colour.BLACK =>
    if b.blackKingMoved || b.blackRookQueenMoved then Outcome.ok false
    else if !isPieceOf (b.grid 7 4) PieceType.King Colour.BLACK then Outcome.ok false
    else if !isPieceOf (b.grid 7 0) PieceType.Rook Colour.BLACK then Outcome.ok false
    else if (b.grid 7 1).isSome || (b.grid 7 2).isSome || (b.grid 7 3).isSome then
      Outcome.ok false
    else (chk colour).bind fun inCheck => Outcome.ok (!inCheck)

/-! ## Shape rules of the pieces (`isValidMove`) -/

/-- The loop `while (current != to) { if (board.getPiece(current)) return false; current += step; }
return true;` as Queen and Rook run it, for at most `fuel` tests of its condition. Their steps
are the signs of the two differences, so `current` stays between `from` and `to` and no
coordinate leaves the range of `int`. -/
def pathClear (b : Board) (dst : Position) (rowStep colStep : Int) :
    Nat → Position → Outcome Bool
  | 0, _ => Outcome.noReturn
  | fuel + 1, current =>
    if current = dst then Outcome.ok true
    else if (b.getPiece current).isSome then Outcome.ok false
    else pathClear b dst rowStep colStep fuel ⟨current.row + rowStep, current.col + colStep⟩

/-- Sign of a coordinate difference: `(to > from) ? 1 : (to < from) ? -1 : 0`. -/
def stepOf (a b : Int) : Int := if b > a then 1 else if b < a then -1 else 0

/-- Shape rule of `King::isValidMove`. -/
def King.isValidMove (chk : Colour → Outcome Bool) (colour : Colour)
    (src dst : Position) (b : Board) : Outcome Bool :=
  let rowDiff := iabs (dst.row - src.row)
  let colDiff := iabs (dst.col - src.col)
  if rowDiff ≤ 1 ∧ colDiff ≤ 1 ∧ ¬(rowDiff = 0 ∧ colDiff = 0) then Outcome.ok true
  else if rowDiff = 0 ∧ colDiff = 2 then
    if dst.col > src.col then canCastleKingSideWith chk b colour
    else canCastleQueenSideWith chk b colour
  else Outcome.ok false

/-- Shape rule of `Queen::isValidMove`. -/
def Queen.isValidMove (fuel : Nat) (src dst : Position) (b : Board) : Outcome Bool :=
  let rowDiff := iabs (dst.row - src.row)
  let colDiff := iabs (dst.col - src.col)
  let isStraight := decide (rowDiff = 0) || decide (colDiff = 0)
  let isDiagonal := decide (rowDiff = colDiff)
  if !isStraight && !isDiagonal then Outcome.ok false
  else
    let rowStep := stepOf src.row dst.row
    let colStep := stepOf src.col dst.col
    pathClear b dst rowStep colStep fuel ⟨src.row + rowStep, src.col + colStep⟩

/-- Shape rule of `Rook::isValidMove`. -/
def Rook.isValidMove (fuel : Nat) (src dst : Position) (b : Board) : Outcome Bool :=
  if src.row ≠ dst.row ∧ src.col ≠ dst.col then Outcome.ok false
  else
    let rowStep := stepOf src.row dst.row
    let colStep := stepOf src.col dst.col
    pathClear b dst rowStep colStep fuel ⟨src.row + rowStep, src.col + colStep⟩

/-- The value of an `int` sum on 32 bits, two's complement: a sum outside the range of `int`
(a signed overflow, which the language leaves undefined) comes back wrapped around. -/
def wrapInt (x : Int) : Int := (x + 2147483648) % 4294967296 - 2147483648

/-- The same loop as Bishop runs it, with the additions `current.getRow() + rowStep` and
`current.getCol() + colStep` computed on 32-bit `int`: the bishop's steps are never 0, so for
`to = from` the walk leads away from `to`, leaves the board and goes on until the
coordinates overflow. -/
def pathClearInt (b : Board) (dst : Position) (rowStep colStep : Int) :
    Nat → Position → Outcome Bool
  | 0, _ => Outcome.noReturn
  | fuel + 1, current =>
    if current = dst then Outcome.ok true
    else if (b.getPiece current).isSome then Outcome.ok false
    else pathClearInt b dst rowStep colStep fuel
      ⟨wrapInt (current.row + rowStep), wrapInt (current.col + colStep)⟩

/-- Shape rule of `Bishop::isValidMove`; its steps are `(to > from) ? 1 : -1`. -/
def Bishop.isValidMove (fuel : Nat) (src dst : Position) (b : Board) : Outcome Bool :=
  let rowDiff := iabs (dst.row - src.row)
  let colDiff := iabs (dst.col - src.col)
  if rowDiff ≠ colDiff then Outcome.ok false
  else
    let rowStep : Int := if dst.row > src.row then 1 else -1
    let colStep : Int := if dst.col > src.col then 1 else -1
    pathClearInt b dst rowStep colStep fuel
      ⟨wrapInt (src.row + rowStep), wrapInt (src.col + colStep)⟩

/-- Shape rule of `Knight::isValidMove`. -/
def Knight.isValidMove (src dst : Position) : Bool :=
  let rowDiff := iabs (dst.row - src.row)
  let colDiff := iabs (dst.col - src.col)
  (decide (rowDiff = 2) && decide (colDiff = 1)) || (decide (rowDiff = 1) && decide (colDiff = 2))

/-- Shape rule of `Pawn::isValidMove`. -/
def Pawn.isValidMove (colour : Colour) (hasMoved : Bool) (src dst : Position) (b : Board) : Bool :=
  let direction : Int := if colour = Colour.WHITE then 1 else -1
  let rowDiff := dst.row - src.row
  let colDiff := iabs (dst.col - src.col)
  if colDiff = 0 then
    if rowDiff = direction ∧ (b.getPiece dst).isNone then true
    else if rowDiff = 2 * direction ∧ hasMoved = false ∧ (b.getPiece dst).isNone
        ∧ (b.getPiece ⟨src.row + direction, src.col⟩).isNone then true
    else false
  else if colDiff = 1 ∧ rowDiff = direction then
    if (match b.getPiece dst with
        | some targetPiece => decide (targetPiece.colour ≠ colour)
        | none => false) then true
    else if b.isEnPassant src dst colour then true
    else false
  else false

/-- Virtual dispatch of `piece->isValidMove(from, to, board)`. `fuel` bounds the
path loops; `chk` stands for `board.isInCheck`, reached through the castling tests. -/
def Piece.isValidMoveWith (fuel : Nat) (chk : Colour → Outcome Bool) (p : Piece)
    (src dst : Position) (b : Board) : Outcome Bool :=
  match p.type with
  | PieceType.King => King.isValidMove chk p.colour src dst b
  | PieceType.Queen => Queen.isValidMove fuel src dst b
  | PieceType.Rook => Rook.isValidMove fuel src dst b
  | PieceType.Bishop => Bishop.isValidMove fuel src dst b
  | PieceType.Knight => Outcome.ok (Knight.isValidMove src dst)
  | PieceType.Pawn _ => Outcome.ok (Pawn.isValidMove p.colour p.hasMoved src dst b)

/-! ## Check detection -/

/-- First king of the colour in scan order: the search loop of `Board::isInCheck`. -/
def findKing (b : Board) (colour : Colour) : Option Position :=
  (allSquares.find? fun sq => isPieceOf (b.grid sq.1 sq.2) PieceType.King colour).map
    fun sq => posOf sq.1 sq.2

/-- The second loop of `Board::isInCheck`: the first enemy piece whose shape rule
reaches `kingPos` answers `true`. -/
def attackScan (valid : Piece → Position → Outcome Bool) (b : Board) (enemyColour : Colour) :
    List (Fin 8 × Fin 8) → Outcome Bool
  | [] => Outcome.ok false
  | sq :: rest =>
    match b.grid sq.1 sq.2 with
    | none => attackScan valid b enemyColour rest
    | some p =>
      if p.colour = enemyColour then
        (valid p (posOf sq.1 sq.2)).bind fun hit =>
          if hit then Outcome.ok true else attackScan valid b enemyColour rest
      else attackScan valid b enemyColour rest

/-- Body of `Board::isInCheck`, the nested call to itself abstracted as `chk`. -/
def isInCheckWith (fuel : Nat) (chk : Colour → Outcome Bool) (b : Board) (colour : Colour) :
    Outcome Bool :=
  match findKing b colour with
  | none => Outcome.ok false
  | some kingPos =>
    attackScan (fun p src => Piece.isValidMoveWith fuel chk p src kingPos b) b colour.enemy
      allSquares

/-- Check test `Board::isInCheck`. The fuel bounds both the depth of the recursion
`isInCheck -> King::isValidMove -> canCastle*Side -> isInCheck` and the path loops. -/
def Board.isInCheck : Nat → Board → Colour → Outcome Bool
  | 0, _, _ => Outcome.noReturn
  | fuel + 1, b, colour => isInCheckWith fuel (fun c => Board.isInCheck fuel b c) b colour

/-- Castling test `Board::canCastleKingSide`. -/
def Board.canCastleKingSide (fuel : Nat) (b : Board) (colour : Colour) : Outcome Bool :=
  canCastleKingSideWith (fun c => Board.isInCheck fuel b c) b colour

/-- Castling test `Board::canCastleQueenSide`. -/
def Board.canCastleQueenSide (fuel : Nat) (b : Board) (colour : Colour) : Outcome Bool :=
  canCastleQueenSideWith (fun c => Board.isInCheck fuel b c) b colour

/-- The call `piece->isValidMove(from, to, board)`. -/
def Piece.isValidMove (fuel : Nat) (p : Piece) (src dst : Position) (b : Board) : Outcome Bool :=
  Piece.isValidMoveWith fuel (fun c => Board.isInCheck fuel b c) p src dst b

/-- Turn-aware shape test `Board::isValidMove`. -/
def Board.isValidMove (fuel : Nat) (b : Board) (src dst : Position) (turn : Colour) :
    Outcome Bool :=
  if !src.isValid || !dst.isValid then Outcome.ok false
  else
    match b.getPiece src with
    | none => Outcome.ok false
    | some piece =>
      if piece.colour ≠ turn then Outcome.ok false
      else if (match b.getPiece dst with
          | some targetPiece => decide (targetPiece.colour = turn)
          | none => false) then Outcome.ok false
      else Piece.isValidMove fuel piece src dst b

/-! ## Move generation (`getPossibleMoves`) -/

/-- The loop counter values `i = 1 .. 7` of the ray loops. -/
def raySteps : List Int := [1, 2, 3, 4, 5, 6, 7]

/-- One ray of a sliding piece: the inner `for (int i = 1; i < 8; i++)` loop with its two
`break`s (off the board, or on the first occupied square, kept only when it is an enemy). -/
def slideRay (b : Board) (colour : Colour) (src : Position) (dr dc : Int) :
    List Int → List Position
  | [] => []
  | i :: rest =>
    let dst : Position := ⟨src.row + i * dr, src.col + i * dc⟩
    if !dst.isValid then []
    else
      match b.getPiece dst with
      | some targetPiece => if targetPiece.colour ≠ colour then [dst] else []
      | none => dst :: slideRay b colour src dr dc rest

/-- The outer loop over the direction table of a sliding piece. -/
def slideMoves (b : Board) (colour : Colour) (src : Position) :
    List (Int × Int) → List Position
  | [] => []
  | dir :: rest =>
    slideRay b colour src dir.1 dir.2 raySteps ++ slideMoves b colour src rest

/-- Direction table of `Queen::getPossibleMoves`. -/
def queenDirections : List (Int × Int) :=
  [(-1, -1), (-1, 0), (-1, 1), (0, -1), (0, 1), (1, -1), (1, 0), (1, 1)]

/-- Direction table of `Rook::getPossibleMoves`. -/
def rookDirections : List (Int × Int) := [(-1, 0), (1, 0), (0, -1), (0, 1)]

/-- Direction table of `Bishop::getPossibleMoves`. -/
def bishopDirections : List (Int × Int) := [(-1, -1), (-1, 1), (1, -1), (1, 1)]

/-- Offset table of `Knight::getPossibleMoves`. -/
def knightMoves : List (Int × Int) :=
  [(-2, -1), (-2, 1), (-1, -2), (-1, 2), (1, -2), (1, 2), (2, -1), (2, 1)]

/-- The pairs `(dr, dc)` visited by the two loops of `King::getPossibleMoves`. -/
def kingOffsets : List (Int × Int) :=
  [(-1, -1), (-1, 0), (-1, 1), (0, -1), (0, 1), (1, -1), (1, 0), (1, 1)]

/-- Test `!targetPiece || targetPiece->getColour() != colour`. -/
def emptyOrEnemy (b : Board) (colour : Colour) (dst : Position) : Bool :=
  match b.getPiece dst with
  | none => true
  | some targetPiece => decide (targetPiece.colour ≠ colour)

/-- Test `targetPiece && targetPiece->getColour() != colour`. -/
def holdsEnemy (b : Board) (colour : Colour) (dst : Position) : Bool :=
  match b.getPiece dst with
  | none => false
  | some targetPiece => decide (targetPiece.colour ≠ colour)

/-- Body of `Knight::getPossibleMoves`. -/
def Knight.getPossibleMoves (colour : Colour) (src : Position) (b : Board) : List Position :=
  (knightMoves.map fun m => (⟨src.row + m.1, src.col + m.2⟩ : Position)).filter
    fun dst => dst.isValid && emptyOrEnemy b colour dst

/-- Body of `King::getPossibleMoves` over the remaining offsets. -/
def King.movesFrom (chk : Colour → Outcome Bool) (colour : Colour) (src : Position)
    (b : Board) : List (Int × Int) → Outcome (List Position)
  | [] => Outcome.ok []
  | d :: rest =>
    let dst : Position := ⟨src.row + d.1, src.col + d.2⟩
    if dst.isValid then
      (King.isValidMove chk colour src dst b).bind fun valid =>
        (King.movesFrom chk colour src b rest).bind fun tail =>
          Outcome.ok (if valid && emptyOrEnemy b colour dst then dst :: tail else tail)
    else King.movesFrom chk colour src b rest

/-- Body of `Pawn::getPossibleMoves`. -/
def Pawn.getPossibleMoves (colour : Colour) (hasMoved : Bool) (src : Position) (b : Board) :
    List Position :=
  let direction : Int := if colour = Colour.WHITE then 1 else -1
  let oneStep : Position := ⟨src.row + direction, src.col⟩
  let twoStep : Position := ⟨src.row + 2 * direction, src.col⟩
  let forward : List Position :=
    if oneStep.isValid && (b.getPiece oneStep).isNone then
      oneStep :: (if !hasMoved && (twoStep.isValid && (b.getPiece twoStep).isNone)
        then [twoStep] else [])
    else []
  let captures : List Position :=
    (([-1, 1] : List Int).map fun dc => (⟨src.row + direction, src.col + dc⟩ : Position)).filter
      fun capture => capture.isValid && holdsEnemy b colour capture
  forward ++ captures

/-- Virtual dispatch of `piece->getPossibleMoves(from, board)`. -/
def Piece.getPossibleMovesWith (chk : Colour → Outcome Bool) (p : Piece) (src : Position)
    (b : Board) : Outcome (List Position) :=
  match p.type with
  | PieceType.King => King.movesFrom chk p.colour src b kingOffsets
  | PieceType.Queen => Outcome.ok (slideMoves b p.colour src queenDirections)
  | PieceType.Rook => Outcome.ok (slideMoves b p.colour src rookDirections)
  | PieceType.Bishop => Outcome.ok (slideMoves b p.colour src bishopDirections)
  | PieceType.Knight => Outcome.ok (Knight.getPossibleMoves p.colour src b)
  | PieceType.Pawn _ => Outcome.ok (Pawn.getPossibleMoves p.colour p.hasMoved src b)

/-- The call `piece->getPossibleMoves(from, board)`. -/
def Piece.getPossibleMoves (fuel : Nat) (p : Piece) (src : Position) (b : Board) :
    Outcome (List Position) :=
  Piece.getPossibleMovesWith (fun c => Board.isInCheck fuel b c) p src b

/-! ## Simulation of a move -/

/-- King-safety simulation `Board::wouldBeInCheck`. The method is `const` but writes the grid
through `const_cast`, so the board it leaves behind is returned next to its answer. -/
def Board.wouldBeInCheck (fuel : Nat) (b : Board) (src dst : Position) (turn : Colour) :
    Outcome (Bool × Board) :=
  match b.getPiece src with
  | none => Outcome.ok (true, b)
  | some _ =>
    let capturedPieceClone : Option Piece := (b.getPiece dst).map Piece.clone
    (b.moveAssign (dst.row - 1) (dst.col - 1) (src.row - 1) (src.col - 1)).bind fun b1 =>
    (b1.assign (src.row - 1) (src.col - 1) none).bind fun b2 =>
    (b2.isInCheck fuel turn).bind fun inCheck =>
    (b2.moveAssign (src.row - 1) (src.col - 1) (dst.row - 1) (dst.col - 1)).bind fun b3 =>
    (b3.assign (dst.row - 1) (dst.col - 1) capturedPieceClone).bind fun b4 =>
    Outcome.ok (inCheck, b4)

/-! ## Checkmate and stalemate -/

/-- The loop `for (const auto& to : moves)` of `isInCheckmate` / `isInStalemate`:
answers `true` as soon as a move passes `isValidMove && !wouldBeInCheck`. -/
def tryMoves (fuel : Nat) (colour : Colour) (src : Position) :
    List Position → Board → Outcome (Bool × Board)
  | [], b => Outcome.ok (false, b)
  | dst :: rest, b =>
    (b.isValidMove fuel src dst colour).bind fun valid =>
      if valid then
        (b.wouldBeInCheck fuel src dst colour).bind fun r =>
          if !r.1 then Outcome.ok (true, r.2) else tryMoves fuel colour src rest r.2
      else tryMoves fuel colour src rest b

/-- The loops over all cells of `isInCheckmate` / `isInStalemate` (both functions
contain the same text): `true` when a legal move was found. -/
def findLegalMove (fuel : Nat) (colour : Colour) :
    List (Fin 8 × Fin 8) → Board → Outcome (Bool × Board)
  | [], b => Outcome.ok (false, b)
  | sq :: rest, b =>
    match b.grid sq.1 sq.2 with
    | none => findLegalMove fuel colour rest b
    | some p =>
      if p.colour = colour then
        (p.getPossibleMoves fuel (posOf sq.1 sq.2) b).bind fun moves =>
          (tryMoves fuel colour (posOf sq.1 sq.2) moves b).bind fun r =>
            if r.1 then Outcome.ok (true, r.2) else findLegalMove fuel colour rest r.2
      else findLegalMove fuel colour rest b

/-- Checkmate test `Board::isInCheckmate`; the board left behind is returned as well. -/
def Board.isInCheckmate (fuel : Nat) (b : Board) (colour : Colour) : Outcome (Bool × Board) :=
  (b.isInCheck fuel colour).bind fun inCheck =>
    if !inCheck then Outcome.ok (false, b)
    else (findLegalMove fuel colour allSquares b).bind fun r => Outcome.ok (!r.1, r.2)

/-- Stalemate test `Board::isInStalemate`; the board left behind is returned as well. -/
def Board.isInStalemate (fuel : Nat) (b : Board) (colour : Colour) : Outcome (Bool × Board) :=
  (b.isInCheck fuel colour).bind fun inCheck =>
    if inCheck then Outcome.ok (false, b)
    else (findLegalMove fuel colour allSquares b).bind fun r => Outcome.ok (!r.1, r.2)

/-! ## Applying a move -/

/-- The castling block of `Board::makeMove`: a king moving two files drags the rook of the
matching side along when the castling test of that side succeeds. When the rook's target
cell is the cell of the moving king itself (a king on the f-file, resp. d-file), the
assignment destroys that king and the later `piece->getType()` reads a dead object. -/
def castleRook (fuel : Nat) (b : Board) (piece : Piece) (src dst : Position) : Outcome Board :=
  if piece.type = PieceType.King ∧ iabs (dst.col - src.col) = 2 then
    (if dst.col > src.col then b.canCastleKingSide fuel piece.colour
      else Outcome.ok false).bind fun kingSide =>
    if kingSide then
      (b.moveAssign (src.row - 1) 5 (src.row - 1) 7).bind fun b1 =>
        (b1.assign (src.row - 1) 7 none).bind fun b2 =>
          if src.col - 1 = 5 then Outcome.useAfterFree else Outcome.ok b2
    else
      (if dst.col < src.col then b.canCastleQueenSide fuel piece.colour
        else Outcome.ok false).bind fun queenSide =>
      if queenSide then
        (b.moveAssign (src.row - 1) 3 (src.row - 1) 0).bind fun b1 =>
          (b1.assign (src.row - 1) 0 none).bind fun b2 =>
            if src.col - 1 = 3 then Outcome.useAfterFree else Outcome.ok b2
      else Outcome.ok b
  else Outcome.ok b

/-- The block "Update special rule flags" of `Board::makeMove`. -/
def updateFlags (b : Board) (piece : Piece) (src : Position) : Board :=
  let b1 : Board :=
    if piece.type = PieceType.King then
      if piece.colour = Colour.WHITE then { b with whiteKingMoved := true }
      else { b with blackKingMoved := true }
    else b
  if piece.type = PieceType.Rook then
    if piece.colour = Colour.WHITE then
      let b2 : Board := if src.col = 1 then { b1 with whiteRookQueenMoved := true } else b1
      if src.col = 8 then { b2 with whiteRookKingMoved := true } else b2
    else
      let b2 : Board := if src.col = 1 then { b1 with blackRookQueenMoved := true } else b1
      if src.col = 8 then { b2 with blackRookKingMoved := true } else b2
  else b1

/-- Promotion test `Pawn::isPromotionRank`. -/
def isPromotionRank (colour : Colour) (pos : Position) : Bool :=
  (decide (colour = Colour.WHITE) && decide (pos.row = 8))
    || (decide (colour = Colour.BLACK) && decide (pos.row = 1))

/-- The `switch (promotion)` of `Board::makeMove`: the piece type asked for, if any. -/
def promotionType (promotion : Char) : Option PieceType :=
  if promotion = 'Q' ∨ promotion = 'q' then some PieceType.Queen
  else if promotion = 'R' ∨ promotion = 'r' then some PieceType.Rook
  else if promotion = 'B' ∨ promotion = 'b' then some PieceType.Bishop
  else if promotion = 'N' ∨ promotion = 'n' then some PieceType.Knight
  else none

/-- The block "Handle pawn promotion" of `Board::makeMove`, given the piece now on `dst`. -/
def promote (b : Board) (moved : Piece) (dst : Position) (promotion : Char) : Outcome Board :=
  if moved.type.isPawn && isPromotionRank moved.colour dst
      && decide (promotion ≠ Char.ofNat 0) then
    match promotionType promotion with
    | some t => b.assign (dst.row - 1) (dst.col - 1) (some (Piece.create t moved.colour))
    | none => Outcome.ok b
  else Outcome.ok b

/-- Unconditional application of a move: `Board::makeMove` (observer notification aside). -/
def Board.makeMove (fuel : Nat) (b : Board) (src dst : Position) (promotion : Char) :
    Outcome Board :=
  match b.getPiece src with
  | none => Outcome.ok b
  | some piece =>
    (if piece.type.isPawn && b.isEnPassant src dst piece.colour
      then b.assign (src.row - 1) (dst.col - 1) none else Outcome.ok b).bind fun b1 =>
    (castleRook fuel b1 piece src dst).bind fun b2 =>
    ((updateFlags b2 piece src).moveAssign
      (dst.row - 1) (dst.col - 1) (src.row - 1) (src.col - 1)).bind fun b3 =>
    (b3.assign (src.row - 1) (src.col - 1) none).bind fun b4 =>
    match b4.grid (idx (dst.row - 1)) (idx (dst.col - 1)) with
    | none => Outcome.nullDeref
    | some arrived =>
      let moved := arrived.setHasMoved true
      (b4.assign (dst.row - 1) (dst.col - 1) (some moved)).bind fun b5 =>
      (promote b5 moved dst promotion).bind fun b6 =>
      Outcome.ok { b6 with lastMoveFrom := src, lastMoveTo := dst }

/-- The block "Handle en passant capture" of `Board::makeMove` on its own. -/
def enPassantStep (b : Board) (piece : Piece) (src dst : Position) : Outcome Board :=
  if piece.type.isPawn && b.isEnPassant src dst piece.colour
    then b.assign (src.row - 1) (dst.col - 1) none else Outcome.ok b

/-- The blocks of `Board::makeMove` that follow the castling block, on their own: flags, the
move of the piece, `setHasMoved`, promotion and the last-move record. -/
def relocate (b2 : Board) (piece : Piece) (src dst : Position) (promotion : Char) :
    Outcome Board :=
  ((updateFlags b2 piece src).moveAssign
    (dst.row - 1) (dst.col - 1) (src.row - 1) (src.col - 1)).bind fun b3 =>
  (b3.assign (src.row - 1) (src.col - 1) none).bind fun b4 =>
  match b4.grid (idx (dst.row - 1)) (idx (dst.col - 1)) with
  | none => Outcome.nullDeref
  | some arrived =>
    let moved := arrived.setHasMoved true
    (b4.assign (dst.row - 1) (dst.col - 1) (some moved)).bind fun b5 =>
    (promote b5 moved dst promotion).bind fun b6 =>
    Outcome.ok { b6 with lastMoveFrom := src, lastMoveTo := dst }

/-! ## Setup operations -/

/-- Placement `Board::addPiece`. -/
def Board.addPiece (b : Board) (pieceChar : Char) (pos : Position) : Board :=
  if !pos.isValid then b
  else
    let colour : Colour := if pieceChar.isUpper then Colour.WHITE else Colour.BLACK
    let lowerChar := pieceChar.toLower
    let r := idx (pos.row - 1)
    let c := idx (pos.col - 1)
    if lowerChar = 'k' then b.setGrid r c (some (Piece.create PieceType.King colour))
    else if lowerChar = 'q' then b.setGrid r c (some (Piece.create PieceType.Queen colour))
    else if lowerChar = 'r' then b.setGrid r c (some (Piece.create PieceType.Rook colour))
    else if lowerChar = 'b' then b.setGrid r c (some (Piece.create PieceType.Bishop colour))
    else if lowerChar = 'n' then b.setGrid r c (some (Piece.create PieceType.Knight colour))
    else if lowerChar = 'p' then b.setGrid r c (some (Piece.create (PieceType.Pawn false) colour))
    else b

/-- Removal `Board::removePiece`. -/
def Board.removePiece (b : Board) (pos : Position) : Board :=
  if !pos.isValid then b else b.setGrid (idx (pos.row - 1)) (idx (pos.col - 1)) none

/-- Emptying the grid: `Board::clear` (flags and last move are not touched). -/
def Board.clear (b : Board) : Board := { b with grid := fun _ _ => none }

/-- The back rank of `Board::setupStartingPosition`, files a to h. -/
def backRank : Fin 8 → PieceType
  | 0 => PieceType.Rook
  | 1 => PieceType.Knight
  | 2 => PieceType.Bishop
  | 3 => PieceType.Queen
  | 4 => PieceType.King
  | 5 => PieceType.Bishop
  | 6 => PieceType.Knight
  | 7 => PieceType.Rook

/-- Standard layout: `Board::setupStartingPosition` (it clears the grid and places 32 new
pieces; flags and last move are not touched). -/
def Board.setupStartingPosition (b : Board) : Board :=
  { b with grid := fun r c =>
      if r = 0 then some (Piece.create (backRank c) Colour.WHITE)
      else if r = 1 then some (Piece.create (PieceType.Pawn false) Colour.WHITE)
      else if r = 6 then some (Piece.create (PieceType.Pawn false) Colour.BLACK)
      else if r = 7 then some (Piece.create (backRank c) Colour.BLACK)
      else none }

/-- The counting loop `Board::countPieces`: cells whose symbol agrees with `piece` in letter
and in case. -/
def Board.countPieces (b : Board) (piece : Char) : Nat :=
  let lowerPiece := piece.toLower
  let isWhite := piece.isUpper
  allSquares.countP fun sq =>
    match b.grid sq.1 sq.2 with
    | none => false
    | some p =>
      let pieceSymbol := p.getSymbol
      decide (pieceSymbol.toLower = lowerPiece) && decide (pieceSymbol.isUpper = isWhite)

/-- The two row scans of `Board::hasPawnsOnEndRanks`. -/
def Board.hasPawnsOnEndRanks (b : Board) : Bool :=
  (fin8.any fun col =>
    match b.grid 0 col with
    | none => false
    | some p => p.type.isPawn)
  || (fin8.any fun col =>
    match b.grid 7 col with
    | none => false
    | some p => p.type.isPawn)

/-- Acceptance test of setup mode: `Board::isValidSetup`, with its early returns. -/
def Board.isValidSetup (fuel : Nat) (b : Board) : Outcome Bool :=
  if b.countPieces 'K' ≠ 1 ∨ b.countPieces 'k' ≠ 1 then Outcome.ok false
  else if b.hasPawnsOnEndRanks then Outcome.ok false
  else (b.isInCheck fuel Colour.WHITE).bind fun whiteInCheck =>
    if whiteInCheck then Outcome.ok false
    else (b.isInCheck fuel Colour.BLACK).bind fun blackInCheck =>
      if blackInCheck then Outcome.ok false else Outcome.ok true

/-! ## Change notification -/

/-- The part of `Board` that the notification contract involves: the board state, the member
`observers` (each display is named by its address, 0 being the null pointer) and, for each
display, the number of `notify()` calls it has received so far. -/
structure ObservedBoard where
  board : Board
  observers : List Nat
  notified : Nat → Nat

/-- The loop of `Board::notifyObservers`: every non-null entry of `observers` gets one
`notify()` call. -/
def ObservedBoard.notifyObservers (s : ObservedBoard) : ObservedBoard :=
  let counts := s.observers.foldl
    (fun counts observer =>
      if observer ≠ 0 then (fun o => if o = observer then counts o + 1 else counts o)
      else counts) s.notified
  { s with notified := counts }

/-- Subscription `Board::addObserver`: a non-null display is appended. -/
def ObservedBoard.addObserver (s : ObservedBoard) (observer : Nat) : ObservedBoard :=
  if observer ≠ 0 then { s with observers := s.observers ++ [observer] } else s

/-- Unsubscription `Board::removeObserver`: every entry equal to the display is erased. -/
def ObservedBoard.removeObserver (s : ObservedBoard) (observer : Nat) : ObservedBoard :=
  { s with observers := s.observers.filter fun o => decide (o ≠ observer) }

/-- The call `addPiece` with its notification: none on the early return. -/
def ObservedBoard.addPiece (s : ObservedBoard) (pieceChar : Char) (pos : Position) :
    ObservedBoard :=
  if !pos.isValid then s
  else ({ s with board := s.board.addPiece pieceChar pos } : ObservedBoard).notifyObservers

/-- The call `removePiece` with its notification: none on the early return. -/
def ObservedBoard.removePiece (s : ObservedBoard) (pos : Position) : ObservedBoard :=
  if !pos.isValid then s
  else ({ s with board := s.board.removePiece pos } : ObservedBoard).notifyObservers

/-- The call `clear`: its body holds no call of `notifyObservers`. -/
def ObservedBoard.clear (s : ObservedBoard) : ObservedBoard :=
  { s with board := s.board.clear }

/-- The call `setupStartingPosition`: `clear()`, the placements, one notification. -/
def ObservedBoard.setupStartingPosition (s : ObservedBoard) : ObservedBoard :=
  ({ s.clear with board := s.clear.board.setupStartingPosition } :
    ObservedBoard).notifyObservers

/-- The call `makeMove` with its notification, the last statement of its body: none on the
early return for an empty `src`. -/
def ObservedBoard.makeMove (fuel : Nat) (s : ObservedBoard) (src dst : Position)
    (promotion : Char) : Outcome ObservedBoard :=
  match s.board.getPiece src with
  | none => Outcome.ok s
  | some _ =>
    (s.board.makeMove fuel src dst promotion).bind fun b1 =>
      Outcome.ok ({ s with board := b1 } : ObservedBoard).notifyObservers

/-! ## Players -/

/-- Square name `Player::positionToString`: the file letter `'a' + (col - 1)` followed by the
rank digit `'0' + row` (the callers only pass squares of the board). -/
def Player.positionToString (pos : Position) : String :=
  String.mk [Char.ofNat (97 + (pos.col - 1)).toNat, Char.ofNat (48 + pos.row).toNat]

/-- The strings pushed for one accepted move in `Player::getAllLegalMoves`: four promotion
moves for a pawn that reaches its promotion rank, the bare move otherwise. -/
def Player.moveStrings (piece : Piece) (src dst : Position) : List String :=
  let baseMove := Player.positionToString src ++ Player.positionToString dst
  if piece.type.isPawn then
    if isPromotionRank piece.colour dst then
      [baseMove ++ "Q", baseMove ++ "R", baseMove ++ "B", baseMove ++ "N"]
    else [baseMove]
  else [baseMove]

/-- The loop `for (const Position& to : possibleMoves)` of `Player::getAllLegalMoves`. The
simulation writes the board through `const_cast`, so the board is threaded along. -/
def Player.movesOfPiece (fuel : Nat) (colour : Colour) (piece : Piece) (src : Position) :
    List Position → Board → Outcome (List String × Board)
  | [], b => Outcome.ok ([], b)
  | dst :: rest, b =>
    (b.isValidMove fuel src dst colour).bind fun valid =>
      if valid then
        (b.wouldBeInCheck fuel src dst colour).bind fun r =>
          (Player.movesOfPiece fuel colour piece src rest r.2).bind fun tail =>
            Outcome.ok
              (if !r.1 then Player.moveStrings piece src dst ++ tail.1 else tail.1, tail.2)
      else Player.movesOfPiece fuel colour piece src rest b

/-- The two loops over the squares of `Player::getAllLegalMoves`. -/
def Player.collectMoves (fuel : Nat) (colour : Colour) :
    List (Fin 8 × Fin 8) → Board → Outcome (List String × Board)
  | [], b => Outcome.ok ([], b)
  | sq :: rest, b =>
    match b.getPiece (posOf sq.1 sq.2) with
    | none => Player.collectMoves fuel colour rest b
    | some piece =>
      if piece.colour = colour then
        (piece.getPossibleMoves fuel (posOf sq.1 sq.2) b).bind fun possibleMoves =>
          (Player.movesOfPiece fuel colour piece (posOf sq.1 sq.2) possibleMoves b).bind
            fun r =>
              (Player.collectMoves fuel colour rest r.2).bind fun tail =>
                Outcome.ok (r.1 ++ tail.1, tail.2)
      else Player.collectMoves fuel colour rest b

/-- List of the legal moves of a player: `Player::getAllLegalMoves`; the board left behind
is returned as well. -/
def Player.getAllLegalMoves (fuel : Nat) (colour : Colour) (b : Board) :
    Outcome (List String × Board) :=
  Player.collectMoves fuel colour allSquares b

/-- Choice of `ComputerPlayer1::getMove`, `rnd` being the value of `rand()`: the entry
`rnd % legalMoves.size()` of the list. The remainder by zero has no defined result, which
is marked `none`. -/
def ComputerPlayer1.getMove (fuel : Nat) (colour : Colour) (b : Board) (rnd : Nat) :
    Outcome (Option String × Board) :=
  (Player.getAllLegalMoves fuel colour b).bind fun r =>
    if r.1.length = 0 then Outcome.ok (none, r.2)
    else Outcome.ok (r.1.get? (rnd % r.1.length), r.2)

/-! ## The game -/

/-- The state of `Game` that `makePlayerMove` reads and writes. -/
structure Game where
  board : Board
  currentTurn : Colour
  gameInProgress : Bool
  isSetupBoard : Bool
  whiteScore : Int
  blackScore : Int

/-- Turn change `Game::switchTurn`. -/
def Game.switchTurn (g : Game) : Game :=
  { g with currentTurn := if g.currentTurn = Colour.WHITE then Colour.BLACK else Colour.WHITE }

/-- Score update `Game::updateScore`. -/
def Game.updateScore (g : Game) (winner : Colour) : Game :=
  if winner = Colour.WHITE then { g with whiteScore := g.whiteScore + 1 }
  else { g with blackScore := g.blackScore + 1 }

/-- A move asked for by a human player: `Game::makePlayerMove` (console output aside). -/
def Game.makePlayerMove (fuel : Nat) (g : Game) (curr dest : Position) (promotion : Char) :
    Outcome Game :=
  if !g.gameInProgress then Outcome.ok g
  else
    (g.board.isValidMove fuel curr dest g.currentTurn).bind fun valid =>
    if !valid then Outcome.ok g
    else
      (g.board.wouldBeInCheck fuel curr dest g.currentTurn).bind fun r =>
      if r.1 then Outcome.ok { g with board := r.2 }
      else
        (r.2.makeMove fuel curr dest promotion).bind fun b1 =>
        let g1 := ({ g with board := b1 } : Game).switchTurn
        (b1.isInCheckmate fuel g1.currentTurn).bind fun mate =>
        if mate.1 then
          let winner := if g1.currentTurn = Colour.WHITE then Colour.BLACK else Colour.WHITE
          Outcome.ok { ({ g1 with board := mate.2 } : Game).updateScore winner with
            gameInProgress := false }
        else
          (mate.2.isInStalemate fuel g1.currentTurn).bind fun stale =>
          if stale.1 then Outcome.ok { g1 with board := stale.2, gameInProgress := false }
          else
            (stale.2.isInCheck fuel g1.currentTurn).bind fun _ =>
              Outcome.ok { g1 with board := stale.2 }

/-! ## Vocabulary of the specification -/

/-- The board of a new game: the constructor followed by `setupStartingPosition`. -/
def startingBoard : Board := Board.empty.setupStartingPosition

/-- A piece of the given type and colour stands on `pos`. -/
def Holds (b : Board) (pos : Position) (t : PieceType) (c : Colour) : Prop :=
  ∃ p, b.getPiece pos = some p ∧ p.type = t ∧ p.colour = c

/-- The back rank of a colour: rank 1 for White, rank 8 for Black. -/
def homeRank (c : Colour) : Int :=
  match c with
  | Colour.WHITE => 1
  | Colour.BLACK => 8

/-- The king-moved flag of a colour. -/
def kingMovedFlag (b : Board) (c : Colour) : Bool :=
  match c with
  | Colour.WHITE => b.whiteKingMoved
  | Colour.BLACK => b.blackKingMoved

/-- The king-side rook-moved flag of a colour. -/
def rookKingMovedFlag (b : Board) (c : Colour) : Bool :=
  match c with
  | Colour.WHITE => b.whiteRookKingMoved
  | Colour.BLACK => b.blackRookKingMoved

/-- The queen-side rook-moved flag of a colour. -/
def rookQueenMovedFlag (b : Board) (c : Colour) : Bool :=
  match c with
  | Colour.WHITE => b.whiteRookQueenMoved
  | Colour.BLACK => b.blackRookQueenMoved

/-- At most one king of each colour stands on the board. -/
def OneKingPerColour (b : Board) : Prop :=
  ∀ c pos1 pos2, Holds b pos1 PieceType.King c → Holds b pos2 PieceType.King c → pos1 = pos2

/-- A board with two kings of each colour, as `addPiece` can build it: White kings a1 and e1,
White rook h1, Black kings c1 and e8, Black rook a8, Black knight d3. -/
def twoKingsBoard : Board :=
  ((((((Board.empty.addPiece 'K' ⟨1, 1⟩).addPiece 'K' ⟨1, 5⟩).addPiece 'R' ⟨1, 8⟩).addPiece
    'k' ⟨1, 3⟩).addPiece 'k' ⟨8, 5⟩).addPiece 'r' ⟨8, 1⟩).addPiece 'n' ⟨3, 4⟩

/-- White king e1, Black king e8, Black rook e5: White is in check along the e-file. -/
def checkDemo : Board :=
  ((Board.empty.addPiece 'K' ⟨1, 5⟩).addPiece 'k' ⟨8, 5⟩).addPiece 'r' ⟨5, 5⟩

/-- The value an outcome returned, or a default when the run did not return. -/
def Outcome.getD {α : Type} (x : Outcome α) (d : α) : α :=
  match x with
  | Outcome.ok a => a
  | _ => d

/-- The castling scenario of the specification: White king e1 and White rook h1, nothing
else. -/
def castleDemo : Board := (Board.empty.addPiece 'K' ⟨1, 5⟩).addPiece 'R' ⟨1, 8⟩

/-- Black king a8, White queen b6, White king h1, White pawns d3 and e2, Black pawn d4. -/
def beforeDoubleStep : Board :=
  (((((Board.empty.addPiece 'k' ⟨8, 1⟩).addPiece 'Q' ⟨6, 2⟩).addPiece 'K' ⟨1, 8⟩).addPiece
    'P' ⟨3, 4⟩).addPiece 'P' ⟨2, 5⟩).addPiece 'p' ⟨4, 4⟩

/-- The board after White's double step e2-e4 on `beforeDoubleStep`: Black's only move is the
en-passant capture d4xe3. -/
def enPassantBoard : Board :=
  (beforeDoubleStep.makeMove 8 ⟨2, 5⟩ ⟨4, 5⟩ (Char.ofNat 0)).getD Board.empty

/-- A legal move in the sense of the enumeration of `isInCheckmate` / `isInStalemate`: `src`
holds a piece of colour `c`, `dst` is one of its generated moves, `Board.isValidMove` answers
`true` and `wouldBeInCheck` answers `false`. -/
def EnumeratedLegalMove (fuel : Nat) (b : Board) (c : Colour) (src dst : Position) : Prop :=
  ∃ p moves, b.getPiece src = some p ∧ p.colour = c
    ∧ p.getPossibleMoves fuel src b = Outcome.ok moves ∧ dst ∈ moves
    ∧ b.isValidMove fuel src dst c = Outcome.ok true
    ∧ b.wouldBeInCheck fuel src dst c = Outcome.ok (false, b)

/-- The enumeration finds no legal move: for every piece of colour `c` and every generated
move of it, `Board.isValidMove` answers `false` or `wouldBeInCheck` answers `true`. -/
def AllEnumeratedRejected (fuel : Nat) (b : Board) (c : Colour) : Prop :=
  ∀ src p moves, b.getPiece src = some p → p.colour = c →
    p.getPossibleMoves fuel src b = Outcome.ok moves →
    ∀ dst ∈ moves, b.isValidMove fuel src dst c = Outcome.ok false
      ∨ b.wouldBeInCheck fuel src dst c = Outcome.ok (true, b)

/-- The back-rank mate of the specification: Black king h8, White rook h1, White king f7. -/
def backRankMate : Board :=
  ((Board.empty.addPiece 'k' ⟨8, 8⟩).addPiece 'R' ⟨1, 8⟩).addPiece 'K' ⟨7, 6⟩

/-- The calls that C9 lets follow one another on a board. -/
inductive Op where
  | makeMove (src dst : Position) (promotion : Char)
  | addPiece (pieceChar : Char) (pos : Position)
  | removePiece (pos : Position)
  | clear
  | wouldBeInCheck (src dst : Position) (turn : Colour)

/-- The board left by one call (run with its own fuel). -/
def Board.applyOp (fuel : Nat) (b : Board) : Op → Outcome Board
  | Op.makeMove src dst promotion => b.makeMove fuel src dst promotion
  | Op.addPiece pieceChar pos => Outcome.ok (b.addPiece pieceChar pos)
  | Op.removePiece pos => Outcome.ok (b.removePiece pos)
  | Op.clear => Outcome.ok b.clear
  | Op.wouldBeInCheck src dst turn => (b.wouldBeInCheck fuel src dst turn).map Prod.snd

/-- The board left by a sequence of calls, each with its own fuel. -/
def Board.runOps (b : Board) : List (Nat × Op) → Outcome Board
  | [] => Outcome.ok b
  | step :: rest => (b.applyOp step.1 step.2).bind fun b1 => b1.runOps rest

/-- The board left by a sequence of `makeMove` calls without promotion. -/
def Board.runMoves (fuel : Nat) (b : Board) : List (Position × Position) → Outcome Board
  | [] => Outcome.ok b
  | m :: rest => (b.makeMove fuel m.1 m.2 (Char.ofNat 0)).bind fun b1 => b1.runMoves fuel rest

/-- A game played by the rules of `Game::makePlayerMove`: the side to move may only make a
move with `isValidMove` true and `wouldBeInCheck` false; then `makeMove` is applied and the
turn passes. `none` when a move is refused or a call does not return. -/
def playLegal (fuel : Nat) : Board → Colour → List (Position × Position) → Option Board
  | b, _, [] => some b
  | b, turn, m :: rest =>
    if b.isValidMove fuel m.1 m.2 turn = Outcome.ok true
        ∧ (b.wouldBeInCheck fuel m.1 m.2 turn).map Prod.fst = Outcome.ok false then
      match b.makeMove fuel m.1 m.2 (Char.ofNat 0) with
      | Outcome.ok b1 => playLegal fuel b1 turn.enemy rest
      | _ => none
    else none

/-- A legal game from the starting position: 1. g4 Nf6 2. Nh3 Ne4 3. Bg2 Ng3 4. a4 Nxh1
5. Ra3 a6 6. Bd5 a5 7. Rg3 b6 8. Rg1 b5 9. Rxh1. The rook that started on a1 ends on h1;
the rook that started on h1 was captured there without ever moving. -/
def rookSwapGame : List (Position × Position) :=
  [(⟨2, 7⟩, ⟨4, 7⟩), (⟨8, 7⟩, ⟨6, 6⟩),
   (⟨1, 7⟩, ⟨3, 8⟩), (⟨6, 6⟩, ⟨4, 5⟩),
   (⟨1, 6⟩, ⟨2, 7⟩), (⟨4, 5⟩, ⟨3, 7⟩),
   (⟨2, 1⟩, ⟨4, 1⟩), (⟨3, 7⟩, ⟨1, 8⟩),
   (⟨1, 1⟩, ⟨3, 1⟩), (⟨7, 1⟩, ⟨6, 1⟩),
   (⟨2, 7⟩, ⟨5, 4⟩), (⟨6, 1⟩, ⟨5, 1⟩),
   (⟨3, 1⟩, ⟨3, 7⟩), (⟨7, 2⟩, ⟨6, 2⟩),
   (⟨3, 7⟩, ⟨1, 7⟩), (⟨6, 2⟩, ⟨5, 2⟩),
   (⟨1, 7⟩, ⟨1, 8⟩)]

/-- Every castling flag set in `a` is set in `b`. -/
def FlagsKept (a b : Board) : Prop :=
  (a.whiteKingMoved = true → b.whiteKingMoved = true)
  ∧ (a.blackKingMoved = true → b.blackKingMoved = true)
  ∧ (a.whiteRookKingMoved = true → b.whiteRookKingMoved = true)
  ∧ (a.whiteRookQueenMoved = true → b.whiteRookQueenMoved = true)
  ∧ (a.blackRookKingMoved = true → b.blackRookKingMoved = true)
  ∧ (a.blackRookQueenMoved = true → b.blackRookQueenMoved = true)

/-- The board `castleDemo` after the king has stepped e1-f1. -/
def kingAway : Board :=
  (castleDemo.makeMove 8 ⟨1, 5⟩ ⟨1, 6⟩ (Char.ofNat 0)).getD Board.empty

/-- The board `kingAway` after the king has stepped back f1-e1. -/
def kingBack : Board :=
  (kingAway.runOps [(8, Op.makeMove ⟨1, 6⟩ ⟨1, 5⟩ (Char.ofNat 0))]).getD Board.empty

/-- The piece that `makeMove` leaves on `dst` when `piece` moves there: the promoted piece
when the promotion block fires, else `piece` with its has-moved mark set. -/
def arrivalPiece (piece : Piece) (dst : Position) (promotion : Char) : Piece :=
  if piece.type.isPawn && isPromotionRank piece.colour dst
      && decide (promotion ≠ Char.ofNat 0) then
    match promotionType promotion with
    | some t => Piece.create t piece.colour
    | none => piece.setHasMoved true
  else piece.setHasMoved true

/-- The board that `relocate` leaves, in closed form. -/
def settled (b2 : Board) (piece : Piece) (src dst : Position) (promotion : Char) : Board :=
  { (updateFlags b2 piece src) with
    grid := fun i j =>
      if i = idx (dst.row - 1) ∧ j = idx (dst.col - 1) then
        some (arrivalPiece piece dst promotion)
      else if i = idx (src.row - 1) ∧ j = idx (src.col - 1) then none
      else b2.grid i j,
    lastMoveFrom := src, lastMoveTo := dst }

/-- The promotion symbols of the specification with the piece type each one asks for. -/
def promotionSymbols : List (Char × PieceType) :=
  [('Q', PieceType.Queen), ('q', PieceType.Queen), ('R', PieceType.Rook),
   ('r', PieceType.Rook), ('B', PieceType.Bishop), ('b', PieceType.Bishop),
   ('N', PieceType.Knight), ('n', PieceType.Knight)]

/-- No pawn of either colour stands on rank 1 or rank 8. -/
def NoPawnOnEndRanks (b : Board) : Prop :=
  ∀ pos p, b.getPiece pos = some p → p.type.isPawn = true → pos.row ≠ 1 ∧ pos.row ≠ 8

/-- The queen-side castling scenario: White king e1 and White rook a1, nothing else. -/
def castleDemoQueenSide : Board := (Board.empty.addPiece 'K' ⟨1, 5⟩).addPiece 'R' ⟨1, 1⟩

/-- Black pawns d5 and e7, and the Black pawn e7 has just made its double step to e5. -/
def blackDoubleStep : Board :=
  (((Board.empty.addPiece 'p' ⟨5, 4⟩).addPiece 'p' ⟨7, 5⟩).makeMove 8 ⟨7, 5⟩ ⟨5, 5⟩
    (Char.ofNat 0)).getD Board.empty

/-- White king e1, Black king e8, White pawn e2, Black pawn d4. -/
def windowStart : Board :=
  (((Board.empty.addPiece 'K' ⟨1, 5⟩).addPiece 'k' ⟨8, 5⟩).addPiece 'P' ⟨2, 5⟩).addPiece
    'p' ⟨4, 4⟩

/-- The board `windowStart` after White's double step e2-e4. -/
def windowOpen : Board :=
  (windowStart.makeMove 8 ⟨2, 5⟩ ⟨4, 5⟩ (Char.ofNat 0)).getD Board.empty

/-- The board `windowOpen` after Black's king move e8-e7. -/
def windowBlackMoved : Board :=
  (windowOpen.makeMove 8 ⟨8, 5⟩ ⟨7, 5⟩ (Char.ofNat 0)).getD Board.empty

/-- The board `windowBlackMoved` after White's king move e1-d1. -/
def windowClosed : Board :=
  (windowBlackMoved.makeMove 8 ⟨1, 5⟩ ⟨1, 4⟩ (Char.ofNat 0)).getD Board.empty

/-- A White pawn on a8, as `addPiece` accepts it. -/
def pawnOnFarRank : Board := Board.empty.addPiece 'P' ⟨8, 1⟩

/-- A White pawn on a7 and a Black rook on b8. -/
def promotionDemo : Board := (Board.empty.addPiece 'P' ⟨7, 1⟩).addPiece 'r' ⟨8, 2⟩

/-- Kings on e1 and e8 with a White pawn on a1. -/
def pawnOnFirstRank : Board :=
  ((Board.empty.addPiece 'K' ⟨1, 5⟩).addPiece 'k' ⟨8, 5⟩).addPiece 'P' ⟨1, 1⟩

/-- White kings on e1 and d1, Black king on e8. -/
def twoWhiteKings : Board :=
  ((Board.empty.addPiece 'K' ⟨1, 5⟩).addPiece 'K' ⟨1, 4⟩).addPiece 'k' ⟨8, 5⟩

/-- The rank step of a pawn of the colour: `+1` for White, `-1` for Black. -/
def forwardOf (c : Colour) : Int :=
  match c with
  | Colour.WHITE => 1
  | Colour.BLACK => -1

/-- The rank on which the pawns of the colour start: 2 for White, 7 for Black. -/
def pawnStartRank (c : Colour) : Int :=
  match c with
  | Colour.WHITE => 2
  | Colour.BLACK => 7

/-- The promotion rank of the colour: 8 for White, 1 for Black. -/
def farRank (c : Colour) : Int :=
  match c with
  | Colour.WHITE => 8
  | Colour.BLACK => 1

/-- The twelve piece symbols with the type and colour each one stands for. -/
def symbolTable : List (Char × PieceType × Colour) :=
  [('K', PieceType.King, Colour.WHITE), ('Q', PieceType.Queen, Colour.WHITE),
   ('R', PieceType.Rook, Colour.WHITE), ('B', PieceType.Bishop, Colour.WHITE),
   ('N', PieceType.Knight, Colour.WHITE), ('P', PieceType.Pawn false, Colour.WHITE),
   ('k', PieceType.King, Colour.BLACK), ('q', PieceType.Queen, Colour.BLACK),
   ('r', PieceType.Rook, Colour.BLACK), ('b', PieceType.Bishop, Colour.BLACK),
   ('n', PieceType.Knight, Colour.BLACK), ('p', PieceType.Pawn false, Colour.BLACK)]

/-- The twelve piece symbols. -/
def pieceSymbols : List Char := symbolTable.map Prod.fst

/-- The six castling flags of a board, in the order of their declaration. -/
def castlingFlags (b : Board) : List Bool :=
  [b.whiteKingMoved, b.blackKingMoved, b.whiteRookKingMoved, b.whiteRookQueenMoved,
   b.blackRookKingMoved, b.blackRookQueenMoved]

/-- The cells whose piece has exactly the symbol `s`. -/
def cellsWithSymbol (b : Board) (s : Char) : List (Fin 8 × Fin 8) :=
  allSquares.filter fun sq => decide ((b.grid sq.1 sq.2).map Piece.getSymbol = some s)

/-- Chebyshev distance of two positions. -/
def chebyshev (src dst : Position) : Nat :=
  max (dst.row - src.row).natAbs (dst.col - src.col).natAbs

/-- The square `k` steps from `src` towards `dst`. -/
def pathSquare (src dst : Position) (k : Nat) : Position :=
  ⟨src.row + k * stepOf src.row dst.row, src.col + k * stepOf src.col dst.col⟩

/-- Every square strictly between `src` and `dst` is empty. -/
def PathEmpty (b : Board) (src dst : Position) : Prop :=
  ∀ k : Nat, 0 < k → k < chebyshev src dst → b.getPiece (pathSquare src dst k) = none

/-- The stalemate scenario of the specification: Black king a8, White queen b6, White king
h1. -/
def cornerStalemate : Board :=
  ((Board.empty.addPiece 'k' ⟨8, 1⟩).addPiece 'Q' ⟨6, 2⟩).addPiece 'K' ⟨1, 8⟩

/-- The number of occupied cells. -/
def pieceCount (b : Board) : Nat :=
  allSquares.countP fun sq => (b.grid sq.1 sq.2).isSome

/-- A legal game from the starting position: 1. h4 a6 2. Rh3 b6 3. Ra3 c6. The rook that
started on h1 stands on a3; the rook on a1 and the White king have not moved. -/
def rookLiftGame : List (Position × Position) :=
  [(⟨2, 8⟩, ⟨4, 8⟩), (⟨7, 1⟩, ⟨6, 1⟩),
   (⟨1, 8⟩, ⟨3, 8⟩), (⟨7, 2⟩, ⟨6, 2⟩),
   (⟨3, 8⟩, ⟨3, 1⟩), (⟨7, 3⟩, ⟨6, 3⟩)]

/-- The board after `rookLiftGame`. -/
def rookLiftBoard : Board :=
  (startingBoard.runMoves 8 rookLiftGame).getD Board.empty

/-- A new board with no display subscribed. -/
def ObservedBoard.fresh : ObservedBoard :=
  { board := Board.empty, observers := [], notified := fun _ => 0 }

/-- The calls of the notification contract. -/
inductive SubjectOp where
  | addPiece (pieceChar : Char) (pos : Position)
  | removePiece (pos : Position)
  | makeMove (fuel : Nat) (src dst : Position) (promotion : Char)
  | clear
  | setupStartingPosition
  | notifyObservers
  | addObserver (observer : Nat)
  | removeObserver (observer : Nat)

/-- The state left by one call. -/
def ObservedBoard.applyOp (s : ObservedBoard) : SubjectOp → Outcome ObservedBoard
  | SubjectOp.addPiece pieceChar pos => Outcome.ok (s.addPiece pieceChar pos)
  | SubjectOp.removePiece pos => Outcome.ok (s.removePiece pos)
  | SubjectOp.makeMove fuel src dst promotion => s.makeMove fuel src dst promotion
  | SubjectOp.clear => Outcome.ok s.clear
  | SubjectOp.setupStartingPosition => Outcome.ok s.setupStartingPosition
  | SubjectOp.notifyObservers => Outcome.ok s.notifyObservers
  | SubjectOp.addObserver observer => Outcome.ok (s.addObserver observer)
  | SubjectOp.removeObserver observer => Outcome.ok (s.removeObserver observer)

/-- The state left by a sequence of calls. -/
def ObservedBoard.runOps (s : ObservedBoard) : List SubjectOp → Outcome ObservedBoard
  | [] => Outcome.ok s
  | op :: rest => (s.applyOp op).bind fun s1 => s1.runOps rest

/-- White king e1 and rook h1 unmoved, Black rook f8 on the open f-file, Black king a8. -/
def transitDemo : Board :=
  (((Board.empty.addPiece 'K' ⟨1, 5⟩).addPiece 'R' ⟨1, 8⟩).addPiece 'r' ⟨8, 6⟩).addPiece
    'k' ⟨8, 1⟩

/-- A set-up position with Black to move: White king h5 and pawn e5, Black rook a5, pawn d7
and king a8. -/
def pinnedPawnSetup : Board :=
  ((((Board.empty.addPiece 'K' ⟨5, 8⟩).addPiece 'P' ⟨5, 5⟩).addPiece 'r' ⟨5, 1⟩).addPiece
    'p' ⟨7, 4⟩).addPiece 'k' ⟨8, 1⟩

/-- The board `pinnedPawnSetup` after Black's double step d7-d5: the pawns d5 and e5 stand
between the rook a5 and the king h5. -/
def pinnedPawnBoard : Board :=
  (pinnedPawnSetup.makeMove 8 ⟨7, 4⟩ ⟨5, 4⟩ (Char.ofNat 0)).getD Board.empty

/-- A game in progress on the standard starting position, White to move, scores 0 : 0. -/
def Game.standardStart : Game :=
  { board := startingBoard, currentTurn := Colour.WHITE, gameInProgress := true,
    isSetupBoard := false, whiteScore := 0, blackScore := 0 }

/-! ## Basic facts about outcomes, indices and cells -/

namespace Outcome

variable {α β : Type}

@[simp] theorem bind_ok (a : α) (f : α → Outcome β) : (ok a).bind f = f a := rfl

@[simp] theorem bind_noReturn (f : α → Outcome β) : (noReturn : Outcome α).bind f = noReturn :=
  rfl

@[simp] theorem bind_outOfBounds (f : α → Outcome β) :
    (outOfBounds : Outcome α).bind f = outOfBounds := rfl

@[simp] theorem bind_nullDeref (f : α → Outcome β) :
    (nullDeref : Outcome α).bind f = nullDeref := rfl

@[simp] theorem bind_useAfterFree (f : α → Outcome β) :
    (useAfterFree : Outcome α).bind f = useAfterFree := rfl

/-- A sequenced run returns exactly when both of its parts return. -/
theorem bind_eq_ok {x : Outcome α} {f : α → Outcome β} {y : β} :
    x.bind f = ok y ↔ ∃ a, x = ok a ∧ f a = ok y := by
  cases x <;> simp [bind]

end Outcome

theorem Piece.clone_eq (p : Piece) : p.clone = p := by
  rcases p with ⟨t, c, m⟩
  cases t <;> rfl

theorem Board.ext_iff' {a b : Board} :
    a = b ↔ a.grid = b.grid ∧ a.lastMoveFrom = b.lastMoveFrom ∧ a.lastMoveTo = b.lastMoveTo
      ∧ a.whiteKingMoved = b.whiteKingMoved ∧ a.blackKingMoved = b.blackKingMoved
      ∧ a.whiteRookKingMoved = b.whiteRookKingMoved
      ∧ a.whiteRookQueenMoved = b.whiteRookQueenMoved
      ∧ a.blackRookKingMoved = b.blackRookKingMoved
      ∧ a.blackRookQueenMoved = b.blackRookQueenMoved := by
  constructor
  · intro h; subst h; simp
  · intro h
    cases a; cases b
    simp only at h
    obtain ⟨h1, h2, h3, h4, h5, h6, h7, h8, h9⟩ := h
    subst h1 h2 h3 h4 h5 h6 h7 h8 h9
    rfl

theorem idx_coe (r : Fin 8) : idx ((r.val : Int) + 1 - 1) = r := by
  apply Fin.ext
  simp only [idx, Int.add_sub_cancel, Int.toNat_ofNat]
  exact Nat.mod_eq_of_lt r.isLt

theorem posOf_isValid (r c : Fin 8) : (posOf r c).isValid = true := by
  have hr := r.isLt
  have hc := c.isLt
  simp only [posOf, Position.isValid, Bool.and_eq_true, decide_eq_true_eq]
  omega

theorem Position.isValid_iff (p : Position) :
    p.isValid = true ↔ 1 ≤ p.row ∧ p.row ≤ 8 ∧ 1 ≤ p.col ∧ p.col ≤ 8 := by
  simp only [Position.isValid, Bool.and_eq_true, decide_eq_true_eq]
  tauto

theorem inGrid_iff (r c : Int) : inGrid r c = true ↔ 0 ≤ r ∧ r < 8 ∧ 0 ≤ c ∧ c < 8 := by
  simp only [inGrid, Bool.and_eq_true, decide_eq_true_eq]
  tauto

theorem inGrid_pred_iff (p : Position) : inGrid (p.row - 1) (p.col - 1) = p.isValid := by
  rw [Bool.eq_iff_iff, inGrid_iff, Position.isValid_iff]
  omega

theorem idx_val {i : Int} (h0 : 0 ≤ i) (h8 : i < 8) : ((idx i).val : Int) = i := by
  simp only [idx]
  omega

theorem posOf_idx {p : Position} (h : p.isValid = true) :
    posOf (idx (p.row - 1)) (idx (p.col - 1)) = p := by
  rw [Position.isValid_iff] at h
  have h1 := @idx_val (p.row - 1) (by omega) (by omega)
  have h2 := @idx_val (p.col - 1) (by omega) (by omega)
  rcases p with ⟨r, c⟩
  simp only [posOf, Position.mk.injEq]
  simp only at h1 h2
  omega

theorem getPiece_posOf (b : Board) (r c : Fin 8) : b.getPiece (posOf r c) = b.grid r c := by
  simp only [Board.getPiece, posOf_isValid, if_true]
  simp only [posOf, idx_coe]

theorem getPiece_of_valid (b : Board) {p : Position} (h : p.isValid = true) :
    b.getPiece p = b.grid (idx (p.row - 1)) (idx (p.col - 1)) := by
  simp [Board.getPiece, h]

theorem getPiece_isValid {b : Board} {p : Position} {x : Piece} (h : b.getPiece p = some x) :
    p.isValid = true := by
  unfold Board.getPiece at h
  split at h
  · assumption
  · cases h

/-- Every position on the board is the position of exactly one cell. -/
theorem exists_cell_of_valid {p : Position} (h : p.isValid = true) :
    ∃ r c, posOf r c = p := ⟨_, _, posOf_idx h⟩

theorem posOf_injective {r c r2 c2 : Fin 8} (h : posOf r c = posOf r2 c2) : r = r2 ∧ c = c2 := by
  simp only [posOf, Position.mk.injEq] at h
  constructor <;> apply Fin.ext <;> omega

theorem mem_allSquares (sq : Fin 8 × Fin 8) : sq ∈ allSquares := by
  revert sq
  decide

@[simp] theorem setGrid_grid (b : Board) (r c : Fin 8) (v : Option Piece) (i j : Fin 8) :
    (b.setGrid r c v).grid i j = if i = r ∧ j = c then v else b.grid i j := rfl

/-! ## Simulation leaves the board as it was -/

/-- Boards that differ from `b` by cell writes only are equal to `b` once all cells agree. -/
theorem Board.eq_of_grid {a b : Board} (hg : ∀ i j, a.grid i j = b.grid i j)
    (h : { a with grid := b.grid } = b) : a = b := by
  have : a.grid = b.grid := by funext i j; exact hg i j
  rw [← h]
  cases a
  simp only at this
  subst this
  rfl

theorem restore_same (b : Board) (sr sc : Fin 8) (p : Piece) (hp : b.grid sr sc = some p) :
    (b.setGrid sr sc none).setGrid sr sc ((b.grid sr sc).map Piece.clone) = b := by
  apply Board.eq_of_grid
  · intro i j
    simp only [setGrid_grid, hp, Option.map_some', Piece.clone_eq]
    by_cases h : i = sr ∧ j = sc
    · rw [if_pos h, h.1, h.2, hp]
    · rw [if_neg h, if_neg h]
  · rfl

theorem restore_diff (b : Board) (sr sc dr dc : Fin 8) (p : Piece) (hp : b.grid sr sc = some p)
    (hne : ¬(dr = sr ∧ dc = sc)) :
    ((((((b.setGrid dr dc (b.grid sr sc)).setGrid sr sc none).setGrid sr sc none).setGrid sr sc
      ((((b.setGrid dr dc (b.grid sr sc)).setGrid sr sc none).setGrid sr sc none).grid dr
        dc)).setGrid dr dc none).setGrid dr dc ((b.grid dr dc).map Piece.clone)) = b := by
  apply Board.eq_of_grid
  · intro i j
    simp only [setGrid_grid]
    by_cases hd : i = dr ∧ j = dc
    · rw [if_pos hd, hd.1, hd.2]
      cases b.grid dr dc with
      | none => rfl
      | some q => simp only [Option.map_some', Piece.clone_eq]
    · rw [if_neg hd, if_neg hd]
      by_cases hs : i = sr ∧ j = sc
      · obtain ⟨rfl, rfl⟩ := hs
        simp [hne, hp]
      · rw [if_neg hs, if_neg hs, if_neg hs, if_neg hd]
  · rfl

/-- Whenever `wouldBeInCheck` returns, the board it leaves behind is the board it was called
on: cells, castling flags and last move. -/
theorem wouldBeInCheck_restores {fuel : Nat} {b : Board} {src dst : Position} {turn : Colour}
    {r : Bool} {b' : Board} (h : b.wouldBeInCheck fuel src dst turn = Outcome.ok (r, b')) :
    b' = b := by
  unfold Board.wouldBeInCheck at h
  cases hp : b.getPiece src with
  | none =>
    simp only [hp, Outcome.ok.injEq, Prod.mk.injEq] at h
    exact h.2.symm
  | some p =>
    have hsv := getPiece_isValid hp
    simp only [hp] at h
    obtain ⟨b1, h1, h⟩ := Outcome.bind_eq_ok.1 h
    obtain ⟨b2, h2, h⟩ := Outcome.bind_eq_ok.1 h
    obtain ⟨ic, _, h⟩ := Outcome.bind_eq_ok.1 h
    obtain ⟨b3, h4, h⟩ := Outcome.bind_eq_ok.1 h
    obtain ⟨b4, h5, h⟩ := Outcome.bind_eq_ok.1 h
    simp only [Outcome.ok.injEq, Prod.mk.injEq] at h
    rw [← h.2]
    have hdv : dst.isValid = true := by
      unfold Board.moveAssign at h1
      rw [inGrid_pred_iff, inGrid_pred_iff] at h1
      cases hd : dst.isValid
      · simp [hd] at h1
      · rfl
    rw [getPiece_of_valid b hsv] at hp
    simp only [Board.moveAssign, Board.assign, inGrid_pred_iff, hsv, hdv, Bool.and_self,
      if_true] at h1 h2 h4 h5
    rw [getPiece_of_valid b hdv] at h5
    by_cases hsame :
        idx (dst.row - 1) = idx (src.row - 1) ∧ idx (dst.col - 1) = idx (src.col - 1)
    · have hsame' :
          idx (src.row - 1) = idx (dst.row - 1) ∧ idx (src.col - 1) = idx (dst.col - 1) :=
        ⟨hsame.1.symm, hsame.2.symm⟩
      rw [if_pos hsame, Outcome.ok.injEq] at h1
      rw [if_pos hsame', Outcome.ok.injEq] at h4
      rw [Outcome.ok.injEq] at h2 h5
      subst h1 h2 h4
      rw [← h5, hsame.1, hsame.2]
      exact restore_same b _ _ p hp
    · have hsame' :
          ¬(idx (src.row - 1) = idx (dst.row - 1) ∧ idx (src.col - 1) = idx (dst.col - 1)) :=
        fun h => hsame ⟨h.1.symm, h.2.symm⟩
      rw [if_neg hsame, Outcome.ok.injEq] at h1
      rw [if_neg hsame', Outcome.ok.injEq] at h4
      rw [Outcome.ok.injEq] at h2 h5
      subst h1 h2 h4
      rw [← h5]
      exact restore_diff b _ _ _ _ p hp hsame

/-- With a piece on `src` and `dst` off the board, `wouldBeInCheck` writes `grid[to]` with an
index outside `0..7`: the destination is never validated. -/
theorem wouldBeInCheck_outOfBounds {fuel : Nat} {b : Board} {src dst : Position}
    {turn : Colour} {p : Piece} (hp : b.getPiece src = some p) (hd : dst.isValid = false) :
    b.wouldBeInCheck fuel src dst turn = Outcome.outOfBounds := by
  unfold Board.wouldBeInCheck
  simp only [hp, Board.moveAssign, inGrid_pred_iff, hd, Bool.false_and]
  rfl

/-- C1 (failing input): on the standard starting position, `wouldBeInCheck` from a1 to the
out-of-range position (0, 0) does not leave the board unchanged: it runs into the unchecked
write `grid[-1][-1]`. -/
theorem wouldBeInCheck_unchecked_destination (fuel : Nat) (turn : Colour) :
    startingBoard.wouldBeInCheck fuel ⟨1, 1⟩ ⟨0, 0⟩ turn = Outcome.outOfBounds :=
  wouldBeInCheck_outOfBounds (p := Piece.create PieceType.Rook Colour.WHITE) rfl rfl

/-! ## `Board::isValidMove` -/

/-- C2: `Board.isValidMove` answers `true` exactly when both squares are in range, `src` holds
a piece of colour `turn`, `dst` holds no piece of colour `turn`, and the piece's own
`isValidMove` answers `true`; when one of the first three conditions fails it answers `false`
without asking the piece. Its outcome is a plain Boolean: no simulation is involved. -/
theorem isValidMove_iff (fuel : Nat) (b : Board) (src dst : Position) (turn : Colour) :
    (b.isValidMove fuel src dst turn = Outcome.ok true ↔
      src.isValid = true ∧ dst.isValid = true ∧
        ∃ piece, b.getPiece src = some piece ∧ piece.colour = turn ∧
          (∀ t, b.getPiece dst = some t → t.colour ≠ turn) ∧
          piece.isValidMove fuel src dst b = Outcome.ok true)
    ∧ (¬(src.isValid = true ∧ dst.isValid = true ∧
        ∃ piece, b.getPiece src = some piece ∧ piece.colour = turn ∧
          (∀ t, b.getPiece dst = some t → t.colour ≠ turn)) →
        b.isValidMove fuel src dst turn = Outcome.ok false) := by
  unfold Board.isValidMove
  cases hs : src.isValid <;> cases hd : dst.isValid <;> simp
  cases hp : b.getPiece src with
  | none => simp
  | some piece =>
    by_cases hc : piece.colour = turn
    · cases ht : b.getPiece dst with
      | none => simp [hc]
      | some t =>
        by_cases hct : t.colour = turn
        · simp [hc, hct]
        · simp [hc, hct]
    · simp [hc]

/-! ## Castling tests -/

theorem isPieceOf_iff (x : Option Piece) (t : PieceType) (c : Colour) :
    isPieceOf x t c = true ↔ ∃ p, x = some p ∧ p.type = t ∧ p.colour = c := by
  cases x <;> simp [isPieceOf]

theorem castle_tail (x : Outcome Bool) :
    (x.bind fun inCheck => Outcome.ok (!inCheck)) = Outcome.ok true ↔ x = Outcome.ok false := by
  cases x with
  | ok a => cases a <;> simp
  | _ => simp

/-- C8: `canCastleKingSide(c)` answers `true` exactly when c's king-moved and king-side
rook-moved flags are both false, a king of colour c stands on the e-file square of c's back
rank and a rook of colour c on the h-file square, the f- and g-file squares are empty, and
`isInCheck(c)` answers `false`; `canCastleQueenSide(c)` likewise with the queen-side rook
flag, the rook on the a-file square and the b-, c- and d-file squares empty. -/
theorem canCastle_iff (fuel : Nat) (b : Board) (c : Colour) :
    (b.canCastleKingSide fuel c = Outcome.ok true ↔
      kingMovedFlag b c = false ∧ rookKingMovedFlag b c = false
      ∧ Holds b ⟨homeRank c, 5⟩ PieceType.King c ∧ Holds b ⟨homeRank c, 8⟩ PieceType.Rook c
      ∧ b.getPiece ⟨homeRank c, 6⟩ = none ∧ b.getPiece ⟨homeRank c, 7⟩ = none
      ∧ b.isInCheck fuel c = Outcome.ok false)
    ∧ (b.canCastleQueenSide fuel c = Outcome.ok true ↔
      kingMovedFlag b c = false ∧ rookQueenMovedFlag b c = false
      ∧ Holds b ⟨homeRank c, 5⟩ PieceType.King c ∧ Holds b ⟨homeRank c, 1⟩ PieceType.Rook c
      ∧ b.getPiece ⟨homeRank c, 2⟩ = none ∧ b.getPiece ⟨homeRank c, 3⟩ = none
      ∧ b.getPiece ⟨homeRank c, 4⟩ = none
      ∧ b.isInCheck fuel c = Outcome.ok false) := by
  have g11 : b.getPiece ⟨1, 1⟩ = b.grid 0 0 := rfl
  have g12 : b.getPiece ⟨1, 2⟩ = b.grid 0 1 := rfl
  have g13 : b.getPiece ⟨1, 3⟩ = b.grid 0 2 := rfl
  have g14 : b.getPiece ⟨1, 4⟩ = b.grid 0 3 := rfl
  have g15 : b.getPiece ⟨1, 5⟩ = b.grid 0 4 := rfl
  have g16 : b.getPiece ⟨1, 6⟩ = b.grid 0 5 := rfl
  have g17 : b.getPiece ⟨1, 7⟩ = b.grid 0 6 := rfl
  have g18 : b.getPiece ⟨1, 8⟩ = b.grid 0 7 := rfl
  have g81 : b.getPiece ⟨8, 1⟩ = b.grid 7 0 := rfl
  have g82 : b.getPiece ⟨8, 2⟩ = b.grid 7 1 := rfl
  have g83 : b.getPiece ⟨8, 3⟩ = b.grid 7 2 := rfl
  have g84 : b.getPiece ⟨8, 4⟩ = b.grid 7 3 := rfl
  have g85 : b.getPiece ⟨8, 5⟩ = b.grid 7 4 := rfl
  have g86 : b.getPiece ⟨8, 6⟩ = b.grid 7 5 := rfl
  have g87 : b.getPiece ⟨8, 7⟩ = b.grid 7 6 := rfl
  have g88 : b.getPiece ⟨8, 8⟩ = b.grid 7 7 := rfl
  cases c
  · constructor
    · simp only [Board.canCastleKingSide, canCastleKingSideWith, Holds, homeRank, kingMovedFlag,
        rookKingMovedFlag, g15, g18, g16, g17, ← isPieceOf_iff]
      cases b.whiteKingMoved <;> cases b.whiteRookKingMoved <;>
        cases isPieceOf (b.grid 0 4) PieceType.King Colour.WHITE <;>
        cases isPieceOf (b.grid 0 7) PieceType.Rook Colour.WHITE <;>
        cases b.grid 0 5 <;> cases b.grid 0 6 <;> simp [castle_tail]
    · simp only [Board.canCastleQueenSide, canCastleQueenSideWith, Holds, homeRank,
        kingMovedFlag, rookQueenMovedFlag, g15, g11, g12, g13, g14, ← isPieceOf_iff]
      cases b.whiteKingMoved <;> cases b.whiteRookQueenMoved <;>
        cases isPieceOf (b.grid 0 4) PieceType.King Colour.WHITE <;>
        cases isPieceOf (b.grid 0 0) PieceType.Rook Colour.WHITE <;>
        cases b.grid 0 1 <;> cases b.grid 0 2 <;> cases b.grid 0 3 <;> simp [castle_tail]
  · constructor
    · simp only [Board.canCastleKingSide, canCastleKingSideWith, Holds, homeRank, kingMovedFlag,
        rookKingMovedFlag, g85, g88, g86, g87, ← isPieceOf_iff]
      cases b.blackKingMoved <;> cases b.blackRookKingMoved <;>
        cases isPieceOf (b.grid 7 4) PieceType.King Colour.BLACK <;>
        cases isPieceOf (b.grid 7 7) PieceType.Rook Colour.BLACK <;>
        cases b.grid 7 5 <;> cases b.grid 7 6 <;> simp [castle_tail]
    · simp only [Board.canCastleQueenSide, canCastleQueenSideWith, Holds, homeRank,
        kingMovedFlag, rookQueenMovedFlag, g85, g81, g82, g83, g84, ← isPieceOf_iff]
      cases b.blackKingMoved <;> cases b.blackRookQueenMoved <;>
        cases isPieceOf (b.grid 7 4) PieceType.King Colour.BLACK <;>
        cases isPieceOf (b.grid 7 0) PieceType.Rook Colour.BLACK <;>
        cases b.grid 7 1 <;> cases b.grid 7 2 <;> cases b.grid 7 3 <;> simp [castle_tail]

/-! ## Generated moves stay on the board and off own pieces -/

theorem emptyOrEnemy_iff (b : Board) (colour : Colour) (dst : Position) :
    emptyOrEnemy b colour dst = true ↔ ∀ q, b.getPiece dst = some q → q.colour ≠ colour := by
  unfold emptyOrEnemy
  cases b.getPiece dst <;> simp

theorem holdsEnemy_imp {b : Board} {colour : Colour} {dst : Position}
    (h : holdsEnemy b colour dst = true) : emptyOrEnemy b colour dst = true := by
  unfold holdsEnemy at h
  unfold emptyOrEnemy
  cases hq : b.getPiece dst <;> simp_all

theorem slideRay_sound (b : Board) (colour : Colour) (src : Position) (dr dc : Int)
    (l : List Int) (dst : Position) (h : dst ∈ slideRay b colour src dr dc l) :
    dst.isValid = true ∧ emptyOrEnemy b colour dst = true := by
  induction l with
  | nil => simp [slideRay] at h
  | cons i rest ih =>
    simp only [slideRay] at h
    split at h
    · simp at h
    · rename_i hv
      simp only [Bool.not_eq_true, Bool.not_eq_false] at hv
      split at h
      · rename_i t ht
        split at h
        · rename_i hc
          simp only [List.mem_singleton] at h
          subst h
          refine ⟨by simpa using hv, ?_⟩
          simp [emptyOrEnemy, ht, hc]
        · simp at h
      · rename_i hn
        rcases List.mem_cons.1 h with h | h
        · subst h
          refine ⟨by simpa using hv, ?_⟩
          simp [emptyOrEnemy, hn]
        · exact ih h

theorem slideMoves_sound (b : Board) (colour : Colour) (src : Position)
    (dirs : List (Int × Int)) (dst : Position) (h : dst ∈ slideMoves b colour src dirs) :
    dst.isValid = true ∧ emptyOrEnemy b colour dst = true := by
  induction dirs with
  | nil => simp [slideMoves] at h
  | cons d rest ih =>
    simp only [slideMoves, List.mem_append] at h
    rcases h with h | h
    · exact slideRay_sound b colour src _ _ _ dst h
    · exact ih h

theorem knightMoves_sound (b : Board) (colour : Colour) (src dst : Position)
    (h : dst ∈ Knight.getPossibleMoves colour src b) :
    dst.isValid = true ∧ emptyOrEnemy b colour dst = true := by
  unfold Knight.getPossibleMoves at h
  have := (List.mem_filter.1 h).2
  simpa using this

theorem pawnMoves_sound (b : Board) (colour : Colour) (hasMoved : Bool) (src dst : Position)
    (h : dst ∈ Pawn.getPossibleMoves colour hasMoved src b) :
    dst.isValid = true ∧ emptyOrEnemy b colour dst = true := by
  simp only [Pawn.getPossibleMoves] at h
  generalize (if colour = Colour.WHITE then (1 : Int) else -1) = dir at h
  simp only [List.mem_append] at h
  rcases h with h | h
  · split at h
    · rename_i h1
      simp only [Bool.and_eq_true, Option.isNone_iff_eq_none] at h1
      rcases List.mem_cons.1 h with h | h
      · subst h
        exact ⟨h1.1, by simp [emptyOrEnemy, h1.2]⟩
      · split at h
        · rename_i h2
          simp only [Bool.and_eq_true, Option.isNone_iff_eq_none] at h2
          simp only [List.mem_singleton] at h
          subst h
          exact ⟨h2.2.1, by simp [emptyOrEnemy, h2.2.2]⟩
        · simp at h
    · simp at h
  · have := (List.mem_filter.1 h).2
    simp only [Bool.and_eq_true] at this
    exact ⟨this.1, holdsEnemy_imp this.2⟩

/-- A one-square king step is accepted by `King::isValidMove` without any castling test. -/
theorem King.isValidMove_adjacent (chk : Colour → Outcome Bool) (colour : Colour)
    (src : Position) (b : Board) (d : Int × Int) (hd : d ∈ kingOffsets) :
    King.isValidMove chk colour src ⟨src.row + d.1, src.col + d.2⟩ b = Outcome.ok true := by
  unfold King.isValidMove
  simp only [kingOffsets, List.mem_cons, List.mem_singleton, List.not_mem_nil, or_false] at hd
  rcases hd with h | h | h | h | h | h | h | h <;> subst h <;> simp [iabs]

theorem kingMoves_spec (chk : Colour → Outcome Bool) (colour : Colour) (src : Position)
    (b : Board) (l : List (Int × Int)) (hl : ∀ d ∈ l, d ∈ kingOffsets) :
    ∃ moves, King.movesFrom chk colour src b l = Outcome.ok moves ∧
      ∀ dst ∈ moves, dst.isValid = true ∧ emptyOrEnemy b colour dst = true := by
  induction l with
  | nil => exact ⟨[], rfl, by simp⟩
  | cons d rest ih =>
    obtain ⟨tail, ht, hs⟩ := ih (fun d hd => hl d (List.mem_cons_of_mem _ hd))
    have hv := King.isValidMove_adjacent chk colour src b d (hl d (List.mem_cons_self _ _))
    simp only [King.movesFrom]
    by_cases hval : (⟨src.row + d.1, src.col + d.2⟩ : Position).isValid = true
    · simp only [hval, if_true, hv, ht, Outcome.bind_ok, Bool.true_and]
      by_cases he : emptyOrEnemy b colour ⟨src.row + d.1, src.col + d.2⟩ = true
      · refine ⟨_, by rw [if_pos he], ?_⟩
        intro dst hdst
        rcases List.mem_cons.1 hdst with h | h
        · subst h; exact ⟨hval, he⟩
        · exact hs dst h
      · exact ⟨_, by rw [if_neg he], hs⟩
    · simp only [hval]
      exact ⟨tail, ht, hs⟩

/-- The generated list always exists; its squares are on the board and not own-occupied. -/
theorem getPossibleMoves_sound (fuel : Nat) (b : Board) (p : Piece) (src : Position) :
    ∃ moves, p.getPossibleMoves fuel src b = Outcome.ok moves ∧
      ∀ dst ∈ moves, dst.isValid = true ∧ emptyOrEnemy b p.colour dst = true := by
  unfold Piece.getPossibleMoves Piece.getPossibleMovesWith
  rcases p with ⟨t, c, m⟩
  cases t with
  | King => exact kingMoves_spec _ c src b kingOffsets (fun d hd => hd)
  | Queen => exact ⟨_, rfl, slideMoves_sound b c src _⟩
  | Rook => exact ⟨_, rfl, slideMoves_sound b c src _⟩
  | Bishop => exact ⟨_, rfl, slideMoves_sound b c src _⟩
  | Knight => exact ⟨_, rfl, knightMoves_sound b c src⟩
  | Pawn ep => exact ⟨_, rfl, pawnMoves_sound b c m src⟩

/-- C6: for each of the six piece types, every board and every square, `getPossibleMoves`
returns a list, and every square in it is in range and not occupied by a piece of the
mover's colour. -/
theorem possibleMoves_in_range_not_own (fuel : Nat) (b : Board) (p : Piece) (src : Position) :
    ∃ moves, p.getPossibleMoves fuel src b = Outcome.ok moves ∧
      ∀ dst ∈ moves, dst.isValid = true ∧
        ∀ q, b.getPiece dst = some q → q.colour ≠ p.colour := by
  simp only [← emptyOrEnemy_iff]
  exact getPossibleMoves_sound fuel b p src

/-! ## Termination of the path loops -/

theorem iabs_eq (x : Int) : iabs x = (x.natAbs : Int) := by
  unfold iabs; split <;> omega

/-- The path loop returns when the target lies `k` steps ahead and `k` is below the fuel. -/
theorem pathClear_returns (b : Board) (dst : Position) (rs cs : Int) :
    ∀ (k fuel : Nat) (cur : Position), k < fuel →
      dst = ⟨cur.row + k * rs, cur.col + k * cs⟩ →
      ∃ r, pathClear b dst rs cs fuel cur = Outcome.ok r := by
  intro k
  induction k with
  | zero =>
    intro fuel cur hk hd
    cases fuel with
    | zero => omega
    | succ f =>
      have : cur = dst := by
        rw [hd]; simp
      simp [pathClear, this]
  | succ k ih =>
    intro fuel cur hk hd
    cases fuel with
    | zero => omega
    | succ f =>
      simp only [pathClear]
      by_cases h1 : cur = dst
      · simp [h1]
      · by_cases h2 : (b.getPiece cur).isSome = true
        · simp [h1, h2]
        · simp only [h1, h2, if_false]
          apply ih f _ (by omega)
          rw [hd]
          simp only [Position.mk.injEq]
          constructor <;> push_cast <;> ring

theorem queen_isValidMove_returns (fuel : Nat) (hf : 7 ≤ fuel) (b : Board) (src dst : Position)
    (hs : src.isValid = true) (hd : dst.isValid = true) :
    ∃ r, Queen.isValidMove fuel src dst b = Outcome.ok r := by
  rw [Position.isValid_iff] at hs hd
  rcases src with ⟨sr, sc⟩
  rcases dst with ⟨dr, dc⟩
  simp only at hs hd
  simp only [Queen.isValidMove, iabs_eq]
  split
  · exact ⟨_, rfl⟩
  · rename_i hcond
    simp only [Bool.and_eq_true, Bool.not_eq_true', Bool.or_eq_false_iff,
      decide_eq_false_iff_not, not_and, Bool.not_eq_false, decide_eq_true_eq] at hcond
    by_cases hrow : dr = sr
    · apply pathClear_returns b _ _ _ ((dc - sc).natAbs - 1) fuel _ (by omega)
      simp only [Position.mk.injEq, stepOf]
      split_ifs <;> constructor <;> omega
    · apply pathClear_returns b _ _ _ ((dr - sr).natAbs - 1) fuel _ (by omega)
      have : (↑(dr - sr).natAbs : Int) = ↑(dc - sc).natAbs ∨ dc = sc := by
        by_cases hc : dc = sc
        · exact Or.inr hc
        · left
          by_contra hne
          have := hcond (by omega)
          omega
      simp only [Position.mk.injEq, stepOf]
      split_ifs <;> constructor <;> omega

theorem rook_isValidMove_returns (fuel : Nat) (hf : 7 ≤ fuel) (b : Board) (src dst : Position)
    (hs : src.isValid = true) (hd : dst.isValid = true) :
    ∃ r, Rook.isValidMove fuel src dst b = Outcome.ok r := by
  rw [Position.isValid_iff] at hs hd
  rcases src with ⟨sr, sc⟩
  rcases dst with ⟨dr, dc⟩
  simp only at hs hd
  simp only [Rook.isValidMove]
  split
  · exact ⟨_, rfl⟩
  · rename_i hcond
    by_cases hrow : dr = sr
    · apply pathClear_returns b _ _ _ ((dc - sc).natAbs - 1) fuel _ (by omega)
      simp only [Position.mk.injEq, stepOf]
      split_ifs <;> constructor <;> omega
    · apply pathClear_returns b _ _ _ ((dr - sr).natAbs - 1) fuel _ (by omega)
      simp only [Position.mk.injEq, stepOf]
      split_ifs <;> constructor <;> omega

theorem wrapInt_inRange {x : Int} (h1 : -2147483648 ≤ x) (h2 : x ≤ 2147483647) :
    wrapInt x = x := by
  unfold wrapInt
  omega

/-- While the target lies `k` steps ahead of a square within the range of `int`, the loop on
32-bit coordinates and the loop on the integers are the same computation. -/
theorem pathClearInt_toward (b : Board) (dst : Position) (rs cs : Int)
    (hrs : -1 ≤ rs ∧ rs ≤ 1) (hcs : -1 ≤ cs ∧ cs ≤ 1) :
    ∀ (k fuel : Nat) (cur : Position),
      dst = ⟨cur.row + k * rs, cur.col + k * cs⟩ →
      -2147483648 + (k : Int) ≤ cur.row → cur.row + k ≤ 2147483647 →
      -2147483648 + (k : Int) ≤ cur.col → cur.col + k ≤ 2147483647 →
      pathClearInt b dst rs cs fuel cur = pathClear b dst rs cs fuel cur := by
  intro k
  induction k with
  | zero =>
    intro fuel cur hd _ _ _ _
    have : cur = dst := by
      rw [hd]; simp
    cases fuel with
    | zero => rfl
    | succ f => simp [pathClearInt, pathClear, this]
  | succ k ih =>
    intro fuel cur hd h1 h2 h3 h4
    cases fuel with
    | zero => rfl
    | succ f =>
      simp only [pathClearInt, pathClear]
      push_cast at h1 h2 h3 h4
      rw [wrapInt_inRange (by omega) (by omega), wrapInt_inRange (by omega) (by omega)]
      by_cases e1 : cur = dst
      · simp [e1]
      · by_cases e2 : (b.getPiece cur).isSome = true
        · simp [e1, e2]
        · simp only [e1, e2, if_false]
          apply ih f _ _ (by simp only; omega) (by simp only; omega) (by simp only; omega)
            (by simp only; omega)
          rw [hd]
          simp only [Position.mk.injEq]
          constructor <;> push_cast <;> ring

/-- Between two different squares of the board the bishop rule is the walk on the integers:
the walk ends on `dst` before any coordinate can overflow. -/
theorem bishop_isValidMove_plain (fuel : Nat) (b : Board) (src dst : Position)
    (hs : src.isValid = true) (hd : dst.isValid = true) (hne : src ≠ dst) :
    Bishop.isValidMove fuel src dst b =
      if iabs (dst.row - src.row) ≠ iabs (dst.col - src.col) then Outcome.ok false
      else pathClear b dst (if dst.row > src.row then 1 else -1)
        (if dst.col > src.col then 1 else -1) fuel
        ⟨src.row + (if dst.row > src.row then 1 else -1),
          src.col + (if dst.col > src.col then 1 else -1)⟩ := by
  rw [Position.isValid_iff] at hs hd
  rcases src with ⟨sr, sc⟩
  rcases dst with ⟨dr, dc⟩
  simp only at hs hd
  simp only [ne_eq, Position.mk.injEq] at hne
  simp only [Bishop.isValidMove, iabs_eq]
  split
  · rfl
  · rename_i hcond
    have w1 : wrapInt (sr + (if dr > sr then 1 else -1)) = sr + (if dr > sr then 1 else -1) := by
      apply wrapInt_inRange <;> split_ifs <;> omega
    have w2 : wrapInt (sc + (if dc > sc then 1 else -1)) = sc + (if dc > sc then 1 else -1) := by
      apply wrapInt_inRange <;> split_ifs <;> omega
    rw [w1, w2]
    apply pathClearInt_toward b _ _ _ (by split_ifs <;> omega) (by split_ifs <;> omega)
      ((dr - sr).natAbs - 1) fuel
    · simp only [Position.mk.injEq]
      split_ifs <;> constructor <;> omega
    · simp only; split_ifs <;> omega
    · simp only; split_ifs <;> omega
    · simp only; split_ifs <;> omega
    · simp only; split_ifs <;> omega

theorem bishop_isValidMove_returns (fuel : Nat) (hf : 7 ≤ fuel) (b : Board)
    (src dst : Position) (hs : src.isValid = true) (hd : dst.isValid = true)
    (hne : src ≠ dst) :
    ∃ r, Bishop.isValidMove fuel src dst b = Outcome.ok r := by
  rw [bishop_isValidMove_plain fuel b src dst hs hd hne]
  rw [Position.isValid_iff] at hs hd
  rcases src with ⟨sr, sc⟩
  rcases dst with ⟨dr, dc⟩
  simp only at hs hd
  simp only [ne_eq, Position.mk.injEq] at hne
  simp only [iabs_eq]
  split
  · exact ⟨_, rfl⟩
  · rename_i hcond
    apply pathClear_returns b _ _ _ ((dr - sr).natAbs - 1) fuel _ (by omega)
    simp only [Position.mk.injEq]
    split_ifs <;> constructor <;> omega

/-! ## The castling recursion on a board with two kings of each colour -/

theorem twoKings_white_step (chk : Colour → Outcome Bool) (fuel : Nat)
    (h : chk Colour.BLACK = Outcome.noReturn) :
    isInCheckWith fuel chk twoKingsBoard Colour.WHITE = Outcome.noReturn := by
  have e : ∃ f g, isInCheckWith fuel chk twoKingsBoard Colour.WHITE
      = Outcome.bind (Outcome.bind (chk Colour.BLACK) f) g := ⟨_, _, rfl⟩
  obtain ⟨f, g, e⟩ := e
  rw [e, h]; rfl

theorem twoKings_black_step (chk : Colour → Outcome Bool) (fuel : Nat)
    (h : chk Colour.WHITE = Outcome.noReturn) :
    isInCheckWith fuel chk twoKingsBoard Colour.BLACK = Outcome.noReturn := by
  have e : ∃ f g, isInCheckWith fuel chk twoKingsBoard Colour.BLACK
      = Outcome.bind (Outcome.bind (chk Colour.WHITE) f) g := ⟨_, _, rfl⟩
  obtain ⟨f, g, e⟩ := e
  rw [e, h]; rfl

/-- On `twoKingsBoard` the call `isInCheck` of either colour re-enters itself through the
castling tests of the two kings on rank 1 and never returns. -/
theorem twoKings_isInCheck_noReturn : ∀ fuel c,
    twoKingsBoard.isInCheck fuel c = Outcome.noReturn
  | 0, _ => rfl
  | n + 1, Colour.WHITE => twoKings_white_step _ n (twoKings_isInCheck_noReturn n Colour.BLACK)
  | n + 1, Colour.BLACK => twoKings_black_step _ n (twoKings_isInCheck_noReturn n Colour.WHITE)

/-! ## Check detection on boards with one king per colour -/

theorem holds_posOf (b : Board) (r c : Fin 8) (t : PieceType) (col : Colour) :
    Holds b (posOf r c) t col ↔ isPieceOf (b.grid r c) t col = true := by
  simp only [Holds, getPiece_posOf, isPieceOf_iff]

theorem holds_isValid {b : Board} {pos : Position} {t : PieceType} {c : Colour}
    (h : Holds b pos t c) : pos.isValid = true := by
  obtain ⟨p, hp, _⟩ := h
  exact getPiece_isValid hp

/-- A board is a one-king board when each colour has a cell that every king of the colour
must stand on. -/
theorem oneKing_of_unique (b : Board)
    (h : ∀ c : Colour, ∃ k : Fin 8 × Fin 8, ∀ sq : Fin 8 × Fin 8,
      isPieceOf (b.grid sq.1 sq.2) PieceType.King c = true → sq = k) :
    OneKingPerColour b := by
  intro c p1 p2 h1 h2
  obtain ⟨k, hk⟩ := h c
  obtain ⟨r1, c1, rfl⟩ := exists_cell_of_valid (holds_isValid h1)
  obtain ⟨r2, c2, rfl⟩ := exists_cell_of_valid (holds_isValid h2)
  rw [holds_posOf] at h1 h2
  have e1 := hk (r1, c1) h1
  have e2 := hk (r2, c2) h2
  rw [← e2] at e1
  simp only [Prod.mk.injEq] at e1
  rw [e1.1, e1.2]

theorem findKing_some {b : Board} {c : Colour} {kp : Position} (h : findKing b c = some kp) :
    Holds b kp PieceType.King c := by
  unfold findKing at h
  rw [Option.map_eq_some'] at h
  obtain ⟨sq, hsq, rfl⟩ := h
  have := List.find?_some hsq
  exact (holds_posOf b _ _ _ _).2 this

theorem findKing_none {b : Board} {c : Colour} (h : findKing b c = none) (pos : Position) :
    ¬ Holds b pos PieceType.King c := by
  intro hk
  unfold findKing at h
  rw [Option.map_eq_none', List.find?_eq_none] at h
  obtain ⟨r, cc, rfl⟩ := exists_cell_of_valid (holds_isValid hk)
  have := h (r, cc) (mem_allSquares _)
  rw [holds_posOf] at hk
  simp [hk] at this

/-- The scan over enemy pieces, when it returns, answers whether some enemy piece accepts
the move onto the king's square. -/
theorem attackScan_ok (valid : Piece → Position → Outcome Bool) (b : Board) (e : Colour) :
    ∀ (l : List (Fin 8 × Fin 8)) (r : Bool), attackScan valid b e l = Outcome.ok r →
      (r = true ↔ ∃ sq ∈ l, ∃ p, b.grid sq.1 sq.2 = some p ∧ p.colour = e
        ∧ valid p (posOf sq.1 sq.2) = Outcome.ok true) := by
  intro l
  induction l with
  | nil =>
    intro r h
    simp only [attackScan, Outcome.ok.injEq] at h
    subst h
    simp
  | cons sq rest ih =>
    intro r h
    simp only [attackScan] at h
    cases hg : b.grid sq.1 sq.2 with
    | none =>
      simp only [hg] at h
      rw [ih r h]
      simp [hg]
    | some p =>
      simp only [hg] at h
      by_cases hc : p.colour = e
      · simp only [hc, if_true] at h
        obtain ⟨hit, hv, h⟩ := Outcome.bind_eq_ok.1 h
        cases hit with
        | true =>
          simp only [if_true, Outcome.ok.injEq] at h
          subst h
          simp only [true_iff]
          exact ⟨sq, List.mem_cons_self _ _, p, hg, hc, hv⟩
        | false =>
          simp only [Bool.false_eq_true, if_false] at h
          rw [ih r h]
          constructor
          · rintro ⟨sq', hm, x⟩
            exact ⟨sq', List.mem_cons_of_mem _ hm, x⟩
          · rintro ⟨sq', hm, q, hq, hqc, hqv⟩
            rcases List.mem_cons.1 hm with heq | hm
            · subst heq
              rw [hg] at hq
              cases hq
              rw [hv] at hqv
              cases hqv
            · exact ⟨sq', hm, q, hq, hqc, hqv⟩
      · simp only [hc, if_false] at h
        rw [ih r h]
        constructor
        · rintro ⟨sq', hm, x⟩
          exact ⟨sq', List.mem_cons_of_mem _ hm, x⟩
        · rintro ⟨sq', hm, q, hq, hqc, hqv⟩
          rcases List.mem_cons.1 hm with heq | hm
          · subst heq
            rw [hg] at hq
            cases hq
            exact absurd hqc hc
          · exact ⟨sq', hm, q, hq, hqc, hqv⟩

/-- The scan returns when every enemy piece's shape test returns. -/
theorem attackScan_returns (valid : Piece → Position → Outcome Bool) (b : Board) (e : Colour) :
    ∀ (l : List (Fin 8 × Fin 8)),
      (∀ sq ∈ l, ∀ p, b.grid sq.1 sq.2 = some p → p.colour = e →
        ∃ r, valid p (posOf sq.1 sq.2) = Outcome.ok r) →
      ∃ r, attackScan valid b e l = Outcome.ok r := by
  intro l
  induction l with
  | nil => intro _; exact ⟨false, rfl⟩
  | cons sq rest ih =>
    intro h
    have ih' := ih (fun sq' hm => h sq' (List.mem_cons_of_mem _ hm))
    simp only [attackScan]
    cases hg : b.grid sq.1 sq.2 with
    | none => exact ih'
    | some p =>
      by_cases hc : p.colour = e
      · obtain ⟨r, hr⟩ := h sq (List.mem_cons_self _ _) p hg hc
        simp only [hc, if_true, hr, Outcome.bind_ok]
        cases r
        · exact ih'
        · exact ⟨true, rfl⟩
      · simp only [hc, if_false]
        exact ih'

theorem canCastleKingSideWith_blocked (chk : Colour → Outcome Bool) (b : Board) (e : Colour)
    (h : Holds b ⟨homeRank e, 5⟩ PieceType.King e → b.getPiece ⟨homeRank e, 7⟩ ≠ none) :
    canCastleKingSideWith chk b e = Outcome.ok false := by
  have g15 : b.getPiece ⟨1, 5⟩ = b.grid 0 4 := rfl
  have g17 : b.getPiece ⟨1, 7⟩ = b.grid 0 6 := rfl
  have g85 : b.getPiece ⟨8, 5⟩ = b.grid 7 4 := rfl
  have g87 : b.getPiece ⟨8, 7⟩ = b.grid 7 6 := rfl
  cases e
  · simp only [Holds, homeRank, g15, g17, ← isPieceOf_iff] at h
    simp only [canCastleKingSideWith]
    cases b.whiteKingMoved <;> cases b.whiteRookKingMoved <;>
      cases hk : isPieceOf (b.grid 0 4) PieceType.King Colour.WHITE <;>
      cases isPieceOf (b.grid 0 7) PieceType.Rook Colour.WHITE <;>
      cases b.grid 0 5 <;> cases h6 : b.grid 0 6 <;> simp_all
  · simp only [Holds, homeRank, g85, g87, ← isPieceOf_iff] at h
    simp only [canCastleKingSideWith]
    cases b.blackKingMoved <;> cases b.blackRookKingMoved <;>
      cases hk : isPieceOf (b.grid 7 4) PieceType.King Colour.BLACK <;>
      cases isPieceOf (b.grid 7 7) PieceType.Rook Colour.BLACK <;>
      cases b.grid 7 5 <;> cases h6 : b.grid 7 6 <;> simp_all

theorem canCastleQueenSideWith_blocked (chk : Colour → Outcome Bool) (b : Board) (e : Colour)
    (h : Holds b ⟨homeRank e, 5⟩ PieceType.King e → b.getPiece ⟨homeRank e, 3⟩ ≠ none) :
    canCastleQueenSideWith chk b e = Outcome.ok false := by
  have g15 : b.getPiece ⟨1, 5⟩ = b.grid 0 4 := rfl
  have g13 : b.getPiece ⟨1, 3⟩ = b.grid 0 2 := rfl
  have g85 : b.getPiece ⟨8, 5⟩ = b.grid 7 4 := rfl
  have g83 : b.getPiece ⟨8, 3⟩ = b.grid 7 2 := rfl
  cases e
  · simp only [Holds, homeRank, g15, g13, ← isPieceOf_iff] at h
    simp only [canCastleQueenSideWith]
    cases b.whiteKingMoved <;> cases b.whiteRookQueenMoved <;>
      cases hk : isPieceOf (b.grid 0 4) PieceType.King Colour.WHITE <;>
      cases isPieceOf (b.grid 0 0) PieceType.Rook Colour.WHITE <;>
      cases b.grid 0 1 <;> cases h6 : b.grid 0 2 <;> cases b.grid 0 3 <;> simp_all
  · simp only [Holds, homeRank, g85, g83, ← isPieceOf_iff] at h
    simp only [canCastleQueenSideWith]
    cases b.blackKingMoved <;> cases b.blackRookQueenMoved <;>
      cases hk : isPieceOf (b.grid 7 4) PieceType.King Colour.BLACK <;>
      cases isPieceOf (b.grid 7 0) PieceType.Rook Colour.BLACK <;>
      cases b.grid 7 1 <;> cases h6 : b.grid 7 2 <;> cases b.grid 7 3 <;> simp_all

/-- On a board with one king per colour, a king's shape test against an occupied square
returns without entering `isInCheck`: a castling test can only be reached with the target
two files beside the king's home square, where the target's own occupant blocks the path. -/
theorem King.isValidMove_returns_of_oneKing (chk : Colour → Outcome Bool) (b : Board)
    (hone : OneKingPerColour b) (e : Colour) (s kp : Position)
    (hs : Holds b s PieceType.King e) (hk : b.getPiece kp ≠ none) :
    ∃ r, King.isValidMove chk e s kp b = Outcome.ok r := by
  simp only [King.isValidMove, iabs_eq]
  split
  · exact ⟨_, rfl⟩
  · split
    · rename_i h2
      have key : ∀ d : Int, (d = 2 ∨ d = -2) → kp.col = s.col + d →
          Holds b ⟨homeRank e, 5⟩ PieceType.King e →
          b.getPiece ⟨homeRank e, 5 + d⟩ ≠ none := by
        intro d hd hcol hh
        have := hone e _ _ hh hs
        have hkp : kp = ⟨homeRank e, 5 + d⟩ := by
          rcases kp with ⟨kr, kc⟩
          rw [← this] at hcol h2
          simp only at hcol h2
          simp only [Position.mk.injEq]
          omega
        rw [← hkp]
        exact hk
      split
      · rename_i h3
        refine ⟨false, canCastleKingSideWith_blocked chk b e ?_⟩
        exact key 2 (Or.inl rfl) (by omega)
      · rename_i h3
        refine ⟨false, canCastleQueenSideWith_blocked chk b e ?_⟩
        exact key (-2) (Or.inr rfl) (by omega)
    · exact ⟨_, rfl⟩

theorem Colour.enemy_ne (c : Colour) : c.enemy ≠ c := by
  cases c <;> decide

/-- On a board with one king per colour, the shape test of a piece against the square of an
enemy king returns once the fuel covers the longest path on the board. -/
theorem attacker_returns (fuel : Nat) (hf : 7 ≤ fuel) (chk : Colour → Outcome Bool) (b : Board)
    (hone : OneKingPerColour b) (c : Colour) (p : Piece) (s kp : Position)
    (hp : b.getPiece s = some p) (hpc : p.colour = c.enemy)
    (hk : Holds b kp PieceType.King c) :
    ∃ r, Piece.isValidMoveWith fuel chk p s kp b = Outcome.ok r := by
  have hsv := getPiece_isValid hp
  have hkv := holds_isValid hk
  have hne : s ≠ kp := by
    rintro rfl
    obtain ⟨q, hq, _, hqc⟩ := hk
    rw [hp] at hq
    cases hq
    rw [hpc] at hqc
    exact Colour.enemy_ne c hqc
  unfold Piece.isValidMoveWith
  cases ht : p.type with
  | King =>
    refine King.isValidMove_returns_of_oneKing chk b hone p.colour s kp ⟨p, hp, ht, rfl⟩ ?_
    obtain ⟨q, hq, _⟩ := hk
    rw [hq]; simp
  | Queen => exact queen_isValidMove_returns fuel hf b s kp hsv hkv
  | Rook => exact rook_isValidMove_returns fuel hf b s kp hsv hkv
  | Bishop => exact bishop_isValidMove_returns fuel hf b s kp hsv hkv hne
  | Knight => exact ⟨_, rfl⟩
  | Pawn ep => exact ⟨_, rfl⟩

theorem isInCheck_succ (fuel : Nat) (b : Board) (c : Colour) :
    b.isInCheck (fuel + 1) c =
      match findKing b c with
      | none => Outcome.ok false
      | some kingPos =>
        attackScan (fun p s => p.isValidMove fuel s kingPos b) b c.enemy allSquares := rfl

/-- Everything `isInCheck` does on a board with one king per colour: it returns, and its
answer is `true` exactly when the king of the colour is attacked. -/
theorem isInCheck_spec (fuel : Nat) (b : Board) (c : Colour) (hf : 7 ≤ fuel)
    (hone : OneKingPerColour b) :
    (∃ r, b.isInCheck (fuel + 1) c = Outcome.ok r)
    ∧ (b.isInCheck (fuel + 1) c = Outcome.ok true ↔
        ∃ kingPos, Holds b kingPos PieceType.King c ∧
          ∃ s p, b.getPiece s = some p ∧ p.colour = c.enemy
            ∧ p.isValidMove fuel s kingPos b = Outcome.ok true)
    ∧ ((∀ pos, ¬ Holds b pos PieceType.King c) →
        b.isInCheck (fuel + 1) c = Outcome.ok false) := by
  rw [isInCheck_succ]
  cases hfk : findKing b c with
  | none =>
    refine ⟨⟨false, rfl⟩, ?_, fun _ => rfl⟩
    simp only [Outcome.ok.injEq, Bool.false_eq_true, false_iff]
    rintro ⟨kp, hk, _⟩
    exact findKing_none hfk kp hk
  | some kp =>
    have hk := findKing_some hfk
    have hret : ∃ r, attackScan (fun p s => p.isValidMove fuel s kp b) b c.enemy allSquares
        = Outcome.ok r := by
      apply attackScan_returns
      intro sq _ p hg hpc
      exact attacker_returns fuel hf _ b hone c p _ kp (by rw [getPiece_posOf]; exact hg) hpc hk
    refine ⟨hret, ?_, fun h => absurd hk (h kp)⟩
    simp only []
    obtain ⟨r, hr⟩ := hret
    rw [hr]
    have := attackScan_ok _ b c.enemy allSquares r hr
    simp only [Outcome.ok.injEq]
    rw [this]
    constructor
    · rintro ⟨sq, _, p, hg, hpc, hv⟩
      exact ⟨kp, hk, posOf sq.1 sq.2, p, by rw [getPiece_posOf]; exact hg, hpc, hv⟩
    · rintro ⟨kp', hk', s, p, hp, hpc, hv⟩
      have : kp' = kp := hone c _ _ hk' hk
      subst this
      obtain ⟨r', c', rfl⟩ := exists_cell_of_valid (getPiece_isValid hp)
      rw [getPiece_posOf] at hp
      exact ⟨(r', c'), mem_allSquares _, p, hp, hpc, hv⟩

/-- C3 (amended): on every board with at most one king of each colour, `isInCheck(c)`
returns, and it answers `true` exactly when a king of colour c is on the board and some
piece of the opposite colour, standing on a square s, has `isValidMove(s, kingSquare, board)`
true; when no king of colour c is on the board it answers `false`. -/
theorem isInCheck_iff_of_oneKing (fuel : Nat) (b : Board) (c : Colour) (hf : 7 ≤ fuel)
    (hone : OneKingPerColour b) :
    (∃ r, b.isInCheck (fuel + 1) c = Outcome.ok r)
    ∧ (b.isInCheck (fuel + 1) c = Outcome.ok true ↔
        ∃ kingPos, Holds b kingPos PieceType.King c ∧
          ∃ s p, b.getPiece s = some p ∧ p.colour = c.enemy
            ∧ p.isValidMove fuel s kingPos b = Outcome.ok true)
    ∧ ((∀ pos, ¬ Holds b pos PieceType.King c) →
        b.isInCheck (fuel + 1) c = Outcome.ok false) :=
  isInCheck_spec fuel b c hf hone

theorem checkDemo_oneKing : OneKingPerColour checkDemo := by
  apply oneKing_of_unique
  intro c
  cases c
  · exact ⟨(0, 4), by decide⟩
  · exact ⟨(7, 4), by decide⟩

/-- Witness for C3 (amended): White king e1 attacked by the Black rook e5. -/
theorem isInCheck_iff_of_oneKing_witness :
    (7 ≤ 7 ∧ OneKingPerColour checkDemo)
      ∧ checkDemo.isInCheck 8 Colour.WHITE = Outcome.ok true :=
  ⟨⟨le_refl 7, checkDemo_oneKing⟩,
    ((isInCheck_iff_of_oneKing 7 checkDemo Colour.WHITE (le_refl 7) checkDemo_oneKing).2.1).2
      ⟨⟨1, 5⟩, ⟨_, rfl, rfl, rfl⟩, ⟨5, 5⟩, _, rfl, rfl, by decide⟩⟩

/-- C3 (counterexample): on `twoKingsBoard` the White king found by the scan stands on a1 and
the Black rook a8 has `isValidMove(a8, a1, board)` true, yet `isInCheck(White)` never answers
`true`: it does not return at all. -/
theorem isInCheck_two_kings_counterexample :
    (∀ fuel, twoKingsBoard.isInCheck fuel Colour.WHITE ≠ Outcome.ok true)
    ∧ findKing twoKingsBoard Colour.WHITE = some ⟨1, 1⟩
    ∧ Holds twoKingsBoard ⟨1, 1⟩ PieceType.King Colour.WHITE
    ∧ twoKingsBoard.getPiece ⟨8, 1⟩ = some (Piece.create PieceType.Rook Colour.BLACK)
    ∧ ∀ fuel, (Piece.create PieceType.Rook Colour.BLACK).isValidMove (fuel + 7) ⟨8, 1⟩ ⟨1, 1⟩
        twoKingsBoard = Outcome.ok true := by
  refine ⟨?_, by decide, ⟨_, rfl, rfl, rfl⟩, rfl, fun fuel => rfl⟩
  intro fuel h
  rw [twoKings_isInCheck_noReturn] at h
  cases h

/-! ## Generated moves cover the accepted moves, castling and en passant aside -/

/-- When the path loop answers `true`, the target lies some `k` steps ahead and the `k`
squares walked over are empty. -/
theorem pathClear_true (b : Board) (dst : Position) (rs cs : Int) :
    ∀ (fuel : Nat) (cur : Position), pathClear b dst rs cs fuel cur = Outcome.ok true →
      ∃ k : Nat, dst = ⟨cur.row + k * rs, cur.col + k * cs⟩ ∧
        ∀ j : Nat, j < k → b.getPiece ⟨cur.row + j * rs, cur.col + j * cs⟩ = none := by
  intro fuel
  induction fuel with
  | zero => intro cur h; simp [pathClear] at h
  | succ f ih =>
    intro cur h
    simp only [pathClear] at h
    by_cases h1 : cur = dst
    · refine ⟨0, ?_, fun j hj => absurd hj (Nat.not_lt_zero j)⟩
      rw [← h1]; simp
    · simp only [h1, if_false] at h
      by_cases h2 : (b.getPiece cur).isSome = true
      · simp [h2] at h
      · simp only [h2, if_false] at h
        obtain ⟨k, hk, hfree⟩ := ih _ h
        refine ⟨k + 1, ?_, ?_⟩
        · rw [hk]
          simp only [Position.mk.injEq]
          constructor <;> push_cast <;> ring
        · intro j hj
          cases j with
          | zero =>
            simp only [Bool.not_eq_true, Option.not_isSome, Option.isNone_iff_eq_none] at h2
            simpa using h2
          | succ j =>
            have := hfree j (by omega)
            rw [← this]
            congr 1
            simp only [Position.mk.injEq]
            constructor <;> push_cast <;> ring

theorem slideRay_mem_split (b : Board) (colour : Colour) (src : Position) (dr dc : Int)
    (m : Int) (l2 : List Int)
    (hv : (⟨src.row + m * dr, src.col + m * dc⟩ : Position).isValid = true)
    (he : emptyOrEnemy b colour ⟨src.row + m * dr, src.col + m * dc⟩ = true) :
    ∀ l1 : List Int,
      (∀ i ∈ l1, (⟨src.row + i * dr, src.col + i * dc⟩ : Position).isValid = true
        ∧ b.getPiece ⟨src.row + i * dr, src.col + i * dc⟩ = none) →
      (⟨src.row + m * dr, src.col + m * dc⟩ : Position)
        ∈ slideRay b colour src dr dc (l1 ++ m :: l2) := by
  intro l1
  induction l1 with
  | nil =>
    intro _
    simp only [List.nil_append, slideRay, hv, Bool.not_true, Bool.false_eq_true, if_false]
    unfold emptyOrEnemy at he
    cases hg : b.getPiece ⟨src.row + m * dr, src.col + m * dc⟩ with
    | none => simp
    | some t =>
      rw [hg] at he
      simp only [decide_eq_true_eq] at he
      simp [he]
  | cons i rest ih =>
    intro h
    have hi := h i (List.mem_cons_self _ _)
    simp only [List.cons_append, slideRay, hi.1, hi.2, Bool.not_true, Bool.false_eq_true,
      if_false]
    exact List.mem_cons_of_mem _ (ih (fun j hj => h j (List.mem_cons_of_mem _ hj)))

/-- The `m`-th square of a ray is generated when it is on the board and not own-occupied and
the squares before it are on the board and empty. -/
theorem slideRay_mem (b : Board) (colour : Colour) (src : Position) (dr dc : Int)
    (m : Nat) (hm1 : 1 ≤ m) (hm7 : m ≤ 7)
    (hfree : ∀ i : Nat, 1 ≤ i → i < m →
      (⟨src.row + i * dr, src.col + i * dc⟩ : Position).isValid = true
        ∧ b.getPiece ⟨src.row + i * dr, src.col + i * dc⟩ = none)
    (hv : (⟨src.row + m * dr, src.col + m * dc⟩ : Position).isValid = true)
    (he : emptyOrEnemy b colour ⟨src.row + m * dr, src.col + m * dc⟩ = true) :
    (⟨src.row + m * dr, src.col + m * dc⟩ : Position)
      ∈ slideRay b colour src dr dc raySteps := by
  have hfree' : ∀ i : Int, 1 ≤ i → i < m →
      (⟨src.row + i * dr, src.col + i * dc⟩ : Position).isValid = true
        ∧ b.getPiece ⟨src.row + i * dr, src.col + i * dc⟩ = none := by
    intro i h1 h2
    have := hfree i.toNat (by omega) (by omega)
    rwa [Int.toNat_of_nonneg (by omega)] at this
  interval_cases m
  · exact slideRay_mem_split b colour src dr dc 1 [2, 3, 4, 5, 6, 7] hv he []
      (by simp)
  · exact slideRay_mem_split b colour src dr dc 2 [3, 4, 5, 6, 7] hv he [1]
      (by intro i hi; simp at hi; subst hi; exact hfree' _ (by norm_num) (by norm_num))
  · exact slideRay_mem_split b colour src dr dc 3 [4, 5, 6, 7] hv he [1, 2]
      (by
        intro i hi; simp at hi
        rcases hi with rfl | rfl <;> exact hfree' _ (by norm_num) (by norm_num))
  · exact slideRay_mem_split b colour src dr dc 4 [5, 6, 7] hv he [1, 2, 3]
      (by
        intro i hi; simp at hi
        rcases hi with rfl | rfl | rfl <;> exact hfree' _ (by norm_num) (by norm_num))
  · exact slideRay_mem_split b colour src dr dc 5 [6, 7] hv he [1, 2, 3, 4]
      (by
        intro i hi; simp at hi
        rcases hi with rfl | rfl | rfl | rfl <;> exact hfree' _ (by norm_num) (by norm_num))
  · exact slideRay_mem_split b colour src dr dc 6 [7] hv he [1, 2, 3, 4, 5]
      (by
        intro i hi; simp at hi
        rcases hi with rfl | rfl | rfl | rfl | rfl <;>
          exact hfree' _ (by norm_num) (by norm_num))
  · exact slideRay_mem_split b colour src dr dc 7 [] hv he [1, 2, 3, 4, 5, 6]
      (by
        intro i hi; simp at hi
        rcases hi with rfl | rfl | rfl | rfl | rfl | rfl <;>
          exact hfree' _ (by norm_num) (by norm_num))

theorem slideMoves_mem_of_ray (b : Board) (colour : Colour) (src dst : Position)
    (dirs : List (Int × Int)) (d : Int × Int) (hd : d ∈ dirs)
    (h : dst ∈ slideRay b colour src d.1 d.2 raySteps) :
    dst ∈ slideMoves b colour src dirs := by
  induction dirs with
  | nil => cases hd
  | cons x rest ih =>
    simp only [slideMoves, List.mem_append]
    rcases List.mem_cons.1 hd with rfl | hd
    · exact Or.inl h
    · exact Or.inr (ih hd)

/-- A clear path along a unit direction of the table puts the target among the generated
moves of a sliding piece. -/
theorem slide_complete (b : Board) (colour : Colour) (src dst : Position)
    (dirs : List (Int × Int)) (rs cs : Int) (hdir : (rs, cs) ∈ dirs)
    (hrs : rs = 1 ∨ rs = 0 ∨ rs = -1) (hcs : cs = 1 ∨ cs = 0 ∨ cs = -1)
    (hnz : rs ≠ 0 ∨ cs ≠ 0)
    (hs : src.isValid = true) (hd : dst.isValid = true)
    (he : emptyOrEnemy b colour dst = true) (fuel : Nat)
    (h : pathClear b dst rs cs fuel ⟨src.row + rs, src.col + cs⟩ = Outcome.ok true) :
    dst ∈ slideMoves b colour src dirs := by
  obtain ⟨k, hk, hfree⟩ := pathClear_true b dst rs cs fuel _ h
  apply slideMoves_mem_of_ray b colour src dst dirs (rs, cs) hdir
  have hdst : dst = ⟨src.row + ((k + 1 : Nat) : Int) * rs, src.col + ((k + 1 : Nat) : Int) * cs⟩ := by
    rw [hk]
    simp only [Position.mk.injEq]
    constructor <;> push_cast <;> ring
  rw [Position.isValid_iff] at hs
  have hd' := hd
  rw [hdst, Position.isValid_iff] at hd'
  simp only at hd'
  have hk7 : k + 1 ≤ 7 := by
    rcases hrs with rfl | rfl | rfl <;> rcases hcs with rfl | rfl | rfl <;>
      first
      | (exfalso; simp at hnz; done)
      | (push_cast at hd'; omega)
  have hfree2 : ∀ i : Nat, 1 ≤ i → i < k + 1 →
      (⟨src.row + i * rs, src.col + i * cs⟩ : Position).isValid = true
        ∧ b.getPiece ⟨src.row + i * rs, src.col + i * cs⟩ = none := by
    intro i hi1 hi2
    constructor
    · rw [Position.isValid_iff]
      simp only
      rcases hrs with rfl | rfl | rfl <;> rcases hcs with rfl | rfl | rfl <;>
        first
        | (exfalso; simp at hnz; done)
        | (push_cast at hd'; omega)
    · have := hfree (i - 1) (by omega)
      rw [← this]
      congr 1
      simp only [Position.mk.injEq]
      have e : ((i - 1 : Nat) : Int) = (i : Int) - 1 := by omega
      rw [e]
      constructor <;> ring
  have := slideRay_mem b colour src rs cs (k + 1) (by omega) hk7 hfree2
    (by rw [← hdst]; exact hd) (by rw [← hdst]; exact he)
  rw [hdst]
  exact this

theorem queen_moves_complete (fuel : Nat) (b : Board) (colour : Colour) (src dst : Position)
    (hs : src.isValid = true) (hd : dst.isValid = true) (hne : src ≠ dst)
    (he : emptyOrEnemy b colour dst = true)
    (h : Queen.isValidMove fuel src dst b = Outcome.ok true) :
    dst ∈ slideMoves b colour src queenDirections := by
  simp only [Queen.isValidMove] at h
  split at h
  · cases h
  · have hnz : stepOf src.row dst.row ≠ 0 ∨ stepOf src.col dst.col ≠ 0 := by
      by_contra hcon
      simp only [not_or, not_not] at hcon
      apply hne
      rcases src with ⟨sr, sc⟩
      rcases dst with ⟨dr, dc⟩
      simp only [stepOf] at hcon
      simp only [Position.mk.injEq]
      constructor
      · have := hcon.1; split_ifs at this <;> omega
      · have := hcon.2; split_ifs at this <;> omega
    have hrs : stepOf src.row dst.row = 1 ∨ stepOf src.row dst.row = 0
        ∨ stepOf src.row dst.row = -1 := by
      unfold stepOf; split_ifs <;> simp
    have hcs : stepOf src.col dst.col = 1 ∨ stepOf src.col dst.col = 0
        ∨ stepOf src.col dst.col = -1 := by
      unfold stepOf; split_ifs <;> simp
    refine slide_complete b colour src dst queenDirections _ _ ?_ hrs hcs hnz hs hd he fuel h
    rcases hrs with e1 | e1 | e1 <;> rcases hcs with e2 | e2 | e2 <;> rw [e1, e2] <;>
      first
      | decide
      | (exfalso; rw [e1, e2] at hnz; simp at hnz)

theorem rook_moves_complete (fuel : Nat) (b : Board) (colour : Colour) (src dst : Position)
    (hs : src.isValid = true) (hd : dst.isValid = true) (hne : src ≠ dst)
    (he : emptyOrEnemy b colour dst = true)
    (h : Rook.isValidMove fuel src dst b = Outcome.ok true) :
    dst ∈ slideMoves b colour src rookDirections := by
  simp only [Rook.isValidMove] at h
  split at h
  · cases h
  · rename_i hline
    have hrc : src.row = dst.row ∨ src.col = dst.col := by
      by_contra hcon
      exact hline ⟨fun e => hcon (Or.inl e), fun e => hcon (Or.inr e)⟩
    have hne' : src.row ≠ dst.row ∨ src.col ≠ dst.col := by
      by_contra hcon
      simp only [not_or, not_not] at hcon
      apply hne
      rcases src with ⟨sr, sc⟩
      rcases dst with ⟨dr, dc⟩
      simp only at hcon
      simp only [Position.mk.injEq]
      exact hcon
    have hsteps : (stepOf src.row dst.row, stepOf src.col dst.col) ∈ rookDirections := by
      unfold stepOf
      split_ifs <;> first | decide | (exfalso; omega)
    have hrs : stepOf src.row dst.row = 1 ∨ stepOf src.row dst.row = 0
        ∨ stepOf src.row dst.row = -1 := by
      unfold stepOf; split_ifs <;> simp
    have hcs : stepOf src.col dst.col = 1 ∨ stepOf src.col dst.col = 0
        ∨ stepOf src.col dst.col = -1 := by
      unfold stepOf; split_ifs <;> simp
    have hnz : stepOf src.row dst.row ≠ 0 ∨ stepOf src.col dst.col ≠ 0 := by
      unfold stepOf
      split_ifs <;> first | (left; decide) | (right; decide) | (exfalso; omega)
    exact slide_complete b colour src dst rookDirections _ _ hsteps hrs hcs hnz hs hd he fuel h

theorem bishop_moves_complete (fuel : Nat) (b : Board) (colour : Colour) (src dst : Position)
    (hs : src.isValid = true) (hd : dst.isValid = true) (hne : src ≠ dst)
    (he : emptyOrEnemy b colour dst = true)
    (h : Bishop.isValidMove fuel src dst b = Outcome.ok true) :
    dst ∈ slideMoves b colour src bishopDirections := by
  rw [bishop_isValidMove_plain fuel b src dst hs hd hne] at h
  split at h
  · cases h
  · refine slide_complete b colour src dst bishopDirections _ _ ?_ ?_ ?_ ?_ hs hd he fuel h
    · split_ifs <;> decide
    · split_ifs <;> simp
    · split_ifs <;> simp
    · left; split_ifs <;> decide

theorem kingMoves_mem (chk : Colour → Outcome Bool) (colour : Colour) (src : Position)
    (b : Board) (d : Int × Int)
    (hv : (⟨src.row + d.1, src.col + d.2⟩ : Position).isValid = true)
    (he : emptyOrEnemy b colour ⟨src.row + d.1, src.col + d.2⟩ = true) :
    ∀ l : List (Int × Int), (∀ x ∈ l, x ∈ kingOffsets) → d ∈ l →
      ∃ moves, King.movesFrom chk colour src b l = Outcome.ok moves
        ∧ (⟨src.row + d.1, src.col + d.2⟩ : Position) ∈ moves := by
  intro l
  induction l with
  | nil => intro _ hd; cases hd
  | cons x rest ih =>
    intro hl hd
    have hl' : ∀ y ∈ rest, y ∈ kingOffsets := fun y hy => hl y (List.mem_cons_of_mem _ hy)
    obtain ⟨tail, ht, _⟩ := kingMoves_spec chk colour src b rest hl'
    have hx := King.isValidMove_adjacent chk colour src b x (hl x (List.mem_cons_self _ _))
    simp only [King.movesFrom]
    rcases List.mem_cons.1 hd with rfl | hd
    · simp only [hv, if_true, hx, ht, Outcome.bind_ok, Bool.true_and, he]
      exact ⟨_, rfl, List.mem_cons_self _ _⟩
    · obtain ⟨moves, hm, hmem⟩ := ih hl' hd
      by_cases hxv : (⟨src.row + x.1, src.col + x.2⟩ : Position).isValid = true
      · simp only [hxv, if_true, hx, hm, Outcome.bind_ok, Bool.true_and]
        split
        · exact ⟨_, rfl, List.mem_cons_of_mem _ hmem⟩
        · exact ⟨_, rfl, hmem⟩
      · simp only [hxv]
        exact ⟨moves, hm, hmem⟩

theorem king_moves_complete (chk : Colour → Outcome Bool) (b : Board) (colour : Colour)
    (src dst : Position) (hd : dst.isValid = true) (he : emptyOrEnemy b colour dst = true)
    (hcastle : ¬(dst.row = src.row ∧ iabs (dst.col - src.col) = 2))
    (h : King.isValidMove chk colour src dst b = Outcome.ok true) :
    ∃ moves, King.movesFrom chk colour src b kingOffsets = Outcome.ok moves ∧ dst ∈ moves := by
  simp only [King.isValidMove, iabs_eq] at h
  rw [iabs_eq] at hcastle
  split at h
  · rename_i hadj
    have hoff : (dst.row - src.row, dst.col - src.col) ∈ kingOffsets := by
      have h1 : dst.row - src.row = -1 ∨ dst.row - src.row = 0 ∨ dst.row - src.row = 1 := by
        omega
      have h2 : dst.col - src.col = -1 ∨ dst.col - src.col = 0 ∨ dst.col - src.col = 1 := by
        omega
      rcases h1 with e1 | e1 | e1 <;> rcases h2 with e2 | e2 | e2 <;> rw [e1, e2] <;>
        first
        | decide
        | (exfalso; omega)
    have hdst : dst = ⟨src.row + (dst.row - src.row, dst.col - src.col).1,
        src.col + (dst.row - src.row, dst.col - src.col).2⟩ := by
      rcases dst with ⟨dr, dc⟩
      simp only [Position.mk.injEq]
      constructor <;> omega
    have := kingMoves_mem chk colour src b (dst.row - src.row, dst.col - src.col)
      (by rw [← hdst]; exact hd) (by rw [← hdst]; exact he) kingOffsets (fun x hx => hx) hoff
    rw [← hdst] at this
    exact this
  · split at h
    · rename_i hc
      exfalso
      apply hcastle
      constructor <;> omega
    · cases h

theorem knight_moves_complete (b : Board) (colour : Colour) (src dst : Position)
    (hd : dst.isValid = true) (he : emptyOrEnemy b colour dst = true)
    (h : Knight.isValidMove src dst = true) :
    dst ∈ Knight.getPossibleMoves colour src b := by
  simp only [Knight.isValidMove, iabs_eq, Bool.or_eq_true, Bool.and_eq_true,
    decide_eq_true_eq] at h
  unfold Knight.getPossibleMoves
  rw [List.mem_filter]
  refine ⟨?_, by simp [hd, he]⟩
  rw [List.mem_map]
  refine ⟨(dst.row - src.row, dst.col - src.col), ?_, ?_⟩
  · have h1 : dst.row - src.row = -2 ∨ dst.row - src.row = -1 ∨ dst.row - src.row = 1
        ∨ dst.row - src.row = 2 := by omega
    have h2 : dst.col - src.col = -2 ∨ dst.col - src.col = -1 ∨ dst.col - src.col = 1
        ∨ dst.col - src.col = 2 := by omega
    rcases h1 with e1 | e1 | e1 | e1 <;> rcases h2 with e2 | e2 | e2 | e2 <;> rw [e1, e2] <;>
      first
      | decide
      | (exfalso; omega)
  · rcases dst with ⟨dr, dc⟩
    simp only [Position.mk.injEq]
    constructor <;> omega

theorem pawn_moves_complete (b : Board) (colour : Colour) (hasMoved : Bool)
    (src dst : Position) (hs : src.isValid = true) (hd : dst.isValid = true)
    (hep : b.isEnPassant src dst colour = false)
    (h : Pawn.isValidMove colour hasMoved src dst b = true) :
    dst ∈ Pawn.getPossibleMoves colour hasMoved src b := by
  simp only [Pawn.isValidMove, iabs_eq, hep] at h
  simp only [Pawn.getPossibleMoves]
  have hdir : (if colour = Colour.WHITE then (1 : Int) else -1) = 1
      ∨ (if colour = Colour.WHITE then (1 : Int) else -1) = -1 := by
    split_ifs <;> simp
  generalize (if colour = Colour.WHITE then (1 : Int) else -1) = dir at h hdir ⊢
  rw [Position.isValid_iff] at hs
  have hd' := (Position.isValid_iff dst).1 hd
  rw [List.mem_append]
  split at h
  · rename_i hc0
    left
    split at h
    · rename_i h1
      have hdst : dst = ⟨src.row + dir, src.col⟩ := by
        rcases dst with ⟨dr, dc⟩
        simp only [Position.mk.injEq]
        simp only at hc0 h1
        constructor <;> omega
      rw [← hdst]
      simp [hd, h1.2]
    · split at h
      · rename_i h2
        have hdst : dst = ⟨src.row + 2 * dir, src.col⟩ := by
          rcases dst with ⟨dr, dc⟩
          simp only [Position.mk.injEq]
          simp only at hc0 h2
          constructor <;> omega
        have hmid : (⟨src.row + dir, src.col⟩ : Position).isValid = true := by
          rw [Position.isValid_iff]
          simp only
          simp only [hdst] at hd'
          rcases hdir with rfl | rfl <;> omega
        rw [← hdst]
        simp [hd, hmid, h2.2.1, h2.2.2.1, h2.2.2.2]
      · cases h
  · right
    split at h
    · rename_i hdiag
      split at h
      · rename_i htgt
        rw [List.mem_filter]
        constructor
        · rw [List.mem_map]
          refine ⟨dst.col - src.col, ?_, ?_⟩
          · have : dst.col - src.col = -1 ∨ dst.col - src.col = 1 := by omega
            rcases this with e | e <;> rw [e] <;> decide
          · rcases dst with ⟨dr, dc⟩
            simp only [Position.mk.injEq]
            simp only at hdiag
            constructor <;> omega
        · simp only [Bool.and_eq_true, hd, true_and]
          unfold holdsEnemy
          revert htgt
          cases b.getPiece dst <;> simp
      · simp at h
    · cases h

/-- Facts read off a `true` answer of `Board::isValidMove`. -/
theorem isValidMove_true {fuel : Nat} {b : Board} {src dst : Position} {turn : Colour}
    (h : b.isValidMove fuel src dst turn = Outcome.ok true) :
    src.isValid = true ∧ dst.isValid = true ∧
      ∃ piece, b.getPiece src = some piece ∧ piece.colour = turn ∧
        emptyOrEnemy b turn dst = true ∧
        piece.isValidMove fuel src dst b = Outcome.ok true := by
  unfold Board.isValidMove at h
  cases hs : src.isValid <;> cases hd : dst.isValid <;> simp [hs, hd] at h
  cases hp : b.getPiece src with
  | none => simp [hp] at h
  | some piece =>
    simp only [hp] at h
    by_cases hc : piece.colour = turn
    · refine ⟨rfl, rfl, piece, rfl, hc, ?_⟩
      unfold emptyOrEnemy
      cases ht : b.getPiece dst with
      | none => simpa [hc, ht] using h
      | some t =>
        by_cases hct : t.colour = turn
        · simp [hc, ht, hct] at h
        · simpa [hc, ht, hct] using h
    · simp [hc] at h

/-- Every move accepted by `Board::isValidMove` is generated by `getPossibleMoves`, except the
two-file king moves (castling) and the en-passant captures. -/
theorem isValidMove_mem_possibleMoves (fuel : Nat) (b : Board) (c : Colour)
    (src dst : Position) (p : Piece) (hp : b.getPiece src = some p)
    (hv : b.isValidMove fuel src dst c = Outcome.ok true)
    (hcastle : ¬(p.type = PieceType.King ∧ dst.row = src.row ∧ iabs (dst.col - src.col) = 2))
    (hep : b.isEnPassant src dst c = false) :
    ∃ moves, p.getPossibleMoves fuel src b = Outcome.ok moves ∧ dst ∈ moves := by
  obtain ⟨hs, hd, q, hq, hqc, he, hval⟩ := isValidMove_true hv
  rw [hp] at hq
  cases hq
  have hne : src ≠ dst := by
    rintro rfl
    unfold emptyOrEnemy at he
    rw [hp] at he
    simp [hqc] at he
  subst hqc
  unfold Piece.isValidMove Piece.isValidMoveWith at hval
  unfold Piece.getPossibleMoves Piece.getPossibleMovesWith
  cases ht : p.type with
  | King =>
    simp only [ht] at hval
    exact king_moves_complete _ b p.colour src dst hd he (fun hc => hcastle ⟨ht, hc⟩) hval
  | Queen =>
    simp only [ht] at hval
    exact ⟨_, rfl, queen_moves_complete fuel b p.colour src dst hs hd hne he hval⟩
  | Rook =>
    simp only [ht] at hval
    exact ⟨_, rfl, rook_moves_complete fuel b p.colour src dst hs hd hne he hval⟩
  | Bishop =>
    simp only [ht] at hval
    exact ⟨_, rfl, bishop_moves_complete fuel b p.colour src dst hs hd hne he hval⟩
  | Knight =>
    simp only [ht, Outcome.ok.injEq] at hval
    exact ⟨_, rfl, knight_moves_complete b p.colour src dst hd he hval⟩
  | Pawn ep =>
    simp only [ht, Outcome.ok.injEq] at hval
    exact ⟨_, rfl, pawn_moves_complete b p.colour p.hasMoved src dst hs hd hep hval⟩

/-- C7 (amended): for every board, colour c, square `src` holding a piece of colour c and
square `dst`, if `Board.isValidMove(src, dst, c)` is true and `wouldBeInCheck(src, dst, c)` is
false, and the move is neither a two-file king move along a rank (castling) nor an en-passant
capture, then `dst` is an element of that piece's `possibleMoves(src, board)`. -/
theorem legal_subset_possibleMoves (fuel : Nat) (b : Board) (c : Colour)
    (src dst : Position) (p : Piece) (hp : b.getPiece src = some p) (_hc : p.colour = c)
    (hv : b.isValidMove fuel src dst c = Outcome.ok true)
    (_hw : (b.wouldBeInCheck fuel src dst c).map Prod.fst = Outcome.ok false)
    (hcastle : ¬(p.type = PieceType.King ∧ dst.row = src.row ∧ iabs (dst.col - src.col) = 2))
    (hep : b.isEnPassant src dst c = false) :
    ∃ moves, p.getPossibleMoves fuel src b = Outcome.ok moves ∧ dst ∈ moves :=
  isValidMove_mem_possibleMoves fuel b c src dst p hp hv hcastle hep

/-- Witness for C7 (amended): on the starting position the knight move g1-f3 is accepted,
safe, neither castling nor en passant, and generated. -/
theorem legal_subset_possibleMoves_witness :
    (startingBoard.isValidMove 8 ⟨1, 7⟩ ⟨3, 6⟩ Colour.WHITE = Outcome.ok true
      ∧ (startingBoard.wouldBeInCheck 8 ⟨1, 7⟩ ⟨3, 6⟩ Colour.WHITE).map Prod.fst
          = Outcome.ok false
      ∧ startingBoard.isEnPassant ⟨1, 7⟩ ⟨3, 6⟩ Colour.WHITE = false)
    ∧ ∃ moves, (Piece.create PieceType.Knight Colour.WHITE).getPossibleMoves 8 ⟨1, 7⟩
        startingBoard = Outcome.ok moves ∧ (⟨3, 6⟩ : Position) ∈ moves :=
  ⟨⟨by decide, by decide, by decide⟩,
    legal_subset_possibleMoves 8 startingBoard Colour.WHITE ⟨1, 7⟩ ⟨3, 6⟩
      (Piece.create PieceType.Knight Colour.WHITE) rfl rfl (by decide) (by decide) (by decide)
      (by decide)⟩

/-- C7 (counterexample): the castling move e1-g1 on `castleDemo` and the en-passant capture
d4xe3 on `enPassantBoard` are accepted by `Board.isValidMove` and pass `wouldBeInCheck`, but
are not in the mover's `possibleMoves`. -/
theorem legal_not_subset_possibleMoves :
    (castleDemo.getPiece ⟨1, 5⟩ = some (Piece.create PieceType.King Colour.WHITE)
      ∧ castleDemo.isValidMove 8 ⟨1, 5⟩ ⟨1, 7⟩ Colour.WHITE = Outcome.ok true
      ∧ (castleDemo.wouldBeInCheck 8 ⟨1, 5⟩ ⟨1, 7⟩ Colour.WHITE).map Prod.fst = Outcome.ok false
      ∧ ((Piece.create PieceType.King Colour.WHITE).getPossibleMoves 8 ⟨1, 5⟩ castleDemo).map
          (fun moves => decide ((⟨1, 7⟩ : Position) ∈ moves)) = Outcome.ok false)
    ∧ (enPassantBoard.getPiece ⟨4, 4⟩ = some (Piece.create (PieceType.Pawn false) Colour.BLACK)
      ∧ enPassantBoard.isValidMove 8 ⟨4, 4⟩ ⟨3, 5⟩ Colour.BLACK = Outcome.ok true
      ∧ (enPassantBoard.wouldBeInCheck 8 ⟨4, 4⟩ ⟨3, 5⟩ Colour.BLACK).map Prod.fst
          = Outcome.ok false
      ∧ ((Piece.create (PieceType.Pawn false) Colour.BLACK).getPossibleMoves 8 ⟨4, 4⟩
          enPassantBoard).map (fun moves => decide ((⟨3, 5⟩ : Position) ∈ moves))
          = Outcome.ok false) := by
  refine ⟨⟨rfl, ?_, ?_, ?_⟩, ⟨rfl, ?_, ?_, ?_⟩⟩ <;> decide

/-! ## Checkmate and stalemate -/

theorem kingMoves_adjacent (chk : Colour → Outcome Bool) (colour : Colour) (src : Position)
    (b : Board) :
    ∀ (l : List (Int × Int)) (moves : List Position),
      King.movesFrom chk colour src b l = Outcome.ok moves →
      ∀ dst ∈ moves, ∃ d ∈ l, dst = ⟨src.row + d.1, src.col + d.2⟩ := by
  intro l
  induction l with
  | nil =>
    intro moves h dst hd
    simp only [King.movesFrom, Outcome.ok.injEq] at h
    subst h
    cases hd
  | cons x rest ih =>
    intro moves h dst hd
    simp only [King.movesFrom] at h
    split at h
    · obtain ⟨v, _, h⟩ := Outcome.bind_eq_ok.1 h
      obtain ⟨tail, ht, h⟩ := Outcome.bind_eq_ok.1 h
      simp only [Outcome.ok.injEq] at h
      subst h
      split at hd
      · rcases List.mem_cons.1 hd with rfl | hd
        · exact ⟨x, List.mem_cons_self _ _, rfl⟩
        · obtain ⟨d, hdm, hdd⟩ := ih tail ht dst hd
          exact ⟨d, List.mem_cons_of_mem _ hdm, hdd⟩
      · obtain ⟨d, hdm, hdd⟩ := ih tail ht dst hd
        exact ⟨d, List.mem_cons_of_mem _ hdm, hdd⟩
    · obtain ⟨d, hdm, hdd⟩ := ih moves h dst hd
      exact ⟨d, List.mem_cons_of_mem _ hdm, hdd⟩

/-- For a generated move the turn-aware shape test returns, once the fuel covers the longest
path on the board. -/
theorem isValidMove_returns_of_generated (fuel : Nat) (hf : 7 ≤ fuel) (b : Board) (c : Colour)
    (src dst : Position) (p : Piece) (moves : List Position)
    (hp : b.getPiece src = some p) (hpc : p.colour = c)
    (hm : p.getPossibleMoves fuel src b = Outcome.ok moves) (hd : dst ∈ moves) :
    ∃ v, b.isValidMove fuel src dst c = Outcome.ok v := by
  obtain ⟨moves', hm', hsound⟩ := getPossibleMoves_sound fuel b p src
  rw [hm] at hm'
  cases hm'
  obtain ⟨hdv, he⟩ := hsound dst hd
  have hsv := getPiece_isValid hp
  have hne : src ≠ dst := by
    rintro rfl
    unfold emptyOrEnemy at he
    rw [hp] at he
    simp at he
  unfold Board.isValidMove
  simp only [hsv, hdv, Bool.not_true, Bool.or_self, Bool.false_eq_true, if_false, hp, hpc,
    ne_eq, not_true_eq_false]
  split
  · exact ⟨_, rfl⟩
  · unfold Piece.isValidMove Piece.isValidMoveWith
    unfold Piece.getPossibleMoves Piece.getPossibleMovesWith at hm
    cases ht : p.type with
    | King =>
      simp only [ht] at hm
      obtain ⟨d, hdm, hdd⟩ := kingMoves_adjacent _ p.colour src b _ _ hm dst hd
      rw [hdd]
      exact ⟨true, King.isValidMove_adjacent _ p.colour src b d hdm⟩
    | Queen => exact queen_isValidMove_returns fuel hf b src dst hsv hdv
    | Rook => exact rook_isValidMove_returns fuel hf b src dst hsv hdv
    | Bishop => exact bishop_isValidMove_returns fuel hf b src dst hsv hdv hne
    | Knight => exact ⟨_, rfl⟩
    | Pawn ep => exact ⟨_, rfl⟩

theorem oneKing_cells {b : Board} (h : OneKingPerColour b) (c : Colour)
    (r1 c1 r2 c2 : Fin 8)
    (h1 : isPieceOf (b.grid r1 c1) PieceType.King c = true)
    (h2 : isPieceOf (b.grid r2 c2) PieceType.King c = true) : r1 = r2 ∧ c1 = c2 :=
  posOf_injective (h c _ _ ((holds_posOf b r1 c1 _ _).2 h1) ((holds_posOf b r2 c2 _ _).2 h2))

theorem oneKing_of_cells {b : Board}
    (h : ∀ (c : Colour) (r1 c1 r2 c2 : Fin 8),
      isPieceOf (b.grid r1 c1) PieceType.King c = true →
      isPieceOf (b.grid r2 c2) PieceType.King c = true → r1 = r2 ∧ c1 = c2) :
    OneKingPerColour b := by
  intro c p1 p2 h1 h2
  obtain ⟨r1, c1, rfl⟩ := exists_cell_of_valid (holds_isValid h1)
  obtain ⟨r2, c2, rfl⟩ := exists_cell_of_valid (holds_isValid h2)
  rw [holds_posOf] at h1 h2
  obtain ⟨e1, e2⟩ := h c r1 c1 r2 c2 h1 h2
  rw [e1, e2]

/-- Moving the content of one cell onto another (the simulated move) keeps the number of
kings of each colour at most one. -/
theorem oneKing_simulated {b : Board} (h : OneKingPerColour b) (sr sc dr dc : Fin 8)
    (b2 : Board)
    (hsrc : b2.grid sr sc = none)
    (hdst : ¬(dr = sr ∧ dc = sc) → b2.grid dr dc = b.grid sr sc)
    (hrest : ∀ i j, ¬(i = sr ∧ j = sc) → ¬(i = dr ∧ j = dc) → b2.grid i j = b.grid i j) :
    OneKingPerColour b2 := by
  apply oneKing_of_cells
  intro c r1 c1 r2 c2 h1 h2
  have pre : ∀ i j, isPieceOf (b2.grid i j) PieceType.King c = true →
      ¬(i = sr ∧ j = sc) ∧
        ((i = dr ∧ j = dc ∧ isPieceOf (b.grid sr sc) PieceType.King c = true)
          ∨ (¬(i = dr ∧ j = dc) ∧ isPieceOf (b.grid i j) PieceType.King c = true)) := by
    intro i j hk
    have hns : ¬(i = sr ∧ j = sc) := by
      rintro ⟨rfl, rfl⟩
      rw [hsrc] at hk
      simp [isPieceOf] at hk
    refine ⟨hns, ?_⟩
    by_cases hd : i = dr ∧ j = dc
    · left
      obtain ⟨rfl, rfl⟩ := hd
      rw [hdst hns] at hk
      exact ⟨rfl, rfl, hk⟩
    · right
      rw [hrest i j hns hd] at hk
      exact ⟨hd, hk⟩
  obtain ⟨n1, p1⟩ := pre r1 c1 h1
  obtain ⟨n2, p2⟩ := pre r2 c2 h2
  rcases p1 with ⟨rfl, rfl, k1⟩ | ⟨d1, k1⟩ <;> rcases p2 with ⟨rfl, rfl, k2⟩ | ⟨d2, k2⟩
  · exact ⟨rfl, rfl⟩
  · have := oneKing_cells h c _ _ _ _ k1 k2
    exact absurd ⟨this.1.symm, this.2.symm⟩ n2
  · have := oneKing_cells h c _ _ _ _ k1 k2
    exact absurd this n1
  · exact oneKing_cells h c _ _ _ _ k1 k2

/-- On a one-king board `wouldBeInCheck` returns for every occupied source square and every
destination on the board, and hands the board back unchanged. -/
theorem wouldBeInCheck_returns (fuel : Nat) (hf : 8 ≤ fuel) (b : Board)
    (hone : OneKingPerColour b) (src dst : Position) (turn : Colour) (p : Piece)
    (hp : b.getPiece src = some p) (hdv : dst.isValid = true) :
    ∃ w, b.wouldBeInCheck fuel src dst turn = Outcome.ok (w, b) := by
  have hsv := getPiece_isValid hp
  suffices hs : ∃ w b', b.wouldBeInCheck fuel src dst turn = Outcome.ok (w, b') by
    obtain ⟨w, b', hw⟩ := hs
    have := wouldBeInCheck_restores hw
    subst this
    exact ⟨w, hw⟩
  obtain ⟨f, rfl⟩ : ∃ f, fuel = f + 1 := ⟨fuel - 1, by omega⟩
  have hf' : 7 ≤ f := by omega
  unfold Board.wouldBeInCheck
  simp only [hp, Board.moveAssign, Board.assign, inGrid_pred_iff, hsv, hdv, Bool.and_self,
    if_true]
  by_cases hsame :
      idx (dst.row - 1) = idx (src.row - 1) ∧ idx (dst.col - 1) = idx (src.col - 1)
  · have hsame' :
        idx (src.row - 1) = idx (dst.row - 1) ∧ idx (src.col - 1) = idx (dst.col - 1) :=
      ⟨hsame.1.symm, hsame.2.symm⟩
    simp only [if_pos hsame, Outcome.bind_ok]
    have h2 : OneKingPerColour (b.setGrid (idx (src.row - 1)) (idx (src.col - 1)) none) := by
      apply oneKing_simulated hone (idx (src.row - 1)) (idx (src.col - 1))
        (idx (dst.row - 1)) (idx (dst.col - 1))
      · simp
      · intro hn; exact absurd hsame hn
      · intro i j hn _
        simp [hn]
    obtain ⟨r, hr⟩ := (isInCheck_spec f _ turn hf' h2).1
    rw [hr]
    simp only [Outcome.bind_ok, if_pos hsame']
    exact ⟨_, _, rfl⟩
  · have hsame' :
        ¬(idx (src.row - 1) = idx (dst.row - 1) ∧ idx (src.col - 1) = idx (dst.col - 1)) :=
      fun h => hsame ⟨h.1.symm, h.2.symm⟩
    simp only [if_neg hsame, Outcome.bind_ok]
    have h2 : OneKingPerColour ((((b.setGrid (idx (dst.row - 1)) (idx (dst.col - 1))
        (b.grid (idx (src.row - 1)) (idx (src.col - 1)))).setGrid (idx (src.row - 1))
        (idx (src.col - 1)) none).setGrid (idx (src.row - 1)) (idx (src.col - 1)) none)) := by
      apply oneKing_simulated hone (idx (src.row - 1)) (idx (src.col - 1))
        (idx (dst.row - 1)) (idx (dst.col - 1))
      · simp
      · intro hn; simp [hn]
      · intro i j hn hd
        simp [hn, hd]
    obtain ⟨r, hr⟩ := (isInCheck_spec f _ turn hf' h2).1
    rw [hr]
    simp only [Outcome.bind_ok, if_neg hsame']
    exact ⟨_, _, rfl⟩

/-- The inner loop, when every step returns: it hands the board back and answers whether one
of the moves is accepted and safe. -/
theorem tryMoves_spec (fuel : Nat) (c : Colour) (src : Position) (b : Board) :
    ∀ moves : List Position,
      (∀ dst ∈ moves, ∃ v, b.isValidMove fuel src dst c = Outcome.ok v
        ∧ (v = true → ∃ w, b.wouldBeInCheck fuel src dst c = Outcome.ok (w, b))) →
      ∃ found, tryMoves fuel c src moves b = Outcome.ok (found, b)
        ∧ (found = true ↔ ∃ dst ∈ moves, b.isValidMove fuel src dst c = Outcome.ok true
            ∧ b.wouldBeInCheck fuel src dst c = Outcome.ok (false, b)) := by
  intro moves
  induction moves with
  | nil => intro _; exact ⟨false, rfl, by simp⟩
  | cons dst rest ih =>
    intro h
    obtain ⟨found, hfound, hiff⟩ := ih (fun d hd => h d (List.mem_cons_of_mem _ hd))
    obtain ⟨v, hv, hw⟩ := h dst (List.mem_cons_self _ _)
    simp only [tryMoves, hv, Outcome.bind_ok]
    cases v with
    | false =>
      refine ⟨found, by simpa using hfound, ?_⟩
      rw [hiff]
      constructor
      · rintro ⟨d, hd, x⟩
        exact ⟨d, List.mem_cons_of_mem _ hd, x⟩
      · rintro ⟨d, hd, x1, x2⟩
        rcases List.mem_cons.1 hd with rfl | hd
        · rw [hv] at x1; cases x1
        · exact ⟨d, hd, x1, x2⟩
    | true =>
      obtain ⟨w, hw⟩ := hw rfl
      simp only [if_true, hw, Outcome.bind_ok]
      cases w with
      | false =>
        refine ⟨true, by simp, ?_⟩
        simp only [true_iff]
        exact ⟨dst, List.mem_cons_self _ _, hv, hw⟩
      | true =>
        refine ⟨found, by simpa using hfound, ?_⟩
        rw [hiff]
        constructor
        · rintro ⟨d, hd, x⟩
          exact ⟨d, List.mem_cons_of_mem _ hd, x⟩
        · rintro ⟨d, hd, x1, x2⟩
          rcases List.mem_cons.1 hd with rfl | hd
          · rw [hw] at x2; cases x2
          · exact ⟨d, hd, x1, x2⟩

/-- The loop over all cells, when every step returns: it hands the board back and answers
whether some piece of the colour has a generated move that is accepted and safe. -/
theorem findLegalMove_spec (fuel : Nat) (c : Colour) (b : Board) :
    ∀ l : List (Fin 8 × Fin 8),
      (∀ sq ∈ l, ∀ p, b.grid sq.1 sq.2 = some p → p.colour = c →
        ∀ moves, p.getPossibleMoves fuel (posOf sq.1 sq.2) b = Outcome.ok moves →
        ∀ dst ∈ moves, ∃ v, b.isValidMove fuel (posOf sq.1 sq.2) dst c = Outcome.ok v
          ∧ (v = true →
            ∃ w, b.wouldBeInCheck fuel (posOf sq.1 sq.2) dst c = Outcome.ok (w, b))) →
      ∃ found, findLegalMove fuel c l b = Outcome.ok (found, b)
        ∧ (found = true ↔ ∃ sq ∈ l, ∃ p moves, b.grid sq.1 sq.2 = some p ∧ p.colour = c
            ∧ p.getPossibleMoves fuel (posOf sq.1 sq.2) b = Outcome.ok moves
            ∧ ∃ dst ∈ moves, b.isValidMove fuel (posOf sq.1 sq.2) dst c = Outcome.ok true
              ∧ b.wouldBeInCheck fuel (posOf sq.1 sq.2) dst c = Outcome.ok (false, b)) := by
  intro l
  induction l with
  | nil => intro _; exact ⟨false, rfl, by simp⟩
  | cons sq rest ih =>
    intro h
    obtain ⟨found, hfound, hiff⟩ := ih (fun s hs => h s (List.mem_cons_of_mem _ hs))
    have lift : (∃ s ∈ rest, ∃ p moves, b.grid s.1 s.2 = some p ∧ p.colour = c
            ∧ p.getPossibleMoves fuel (posOf s.1 s.2) b = Outcome.ok moves
            ∧ ∃ dst ∈ moves, b.isValidMove fuel (posOf s.1 s.2) dst c = Outcome.ok true
              ∧ b.wouldBeInCheck fuel (posOf s.1 s.2) dst c = Outcome.ok (false, b)) →
        (∃ s ∈ sq :: rest, ∃ p moves, b.grid s.1 s.2 = some p ∧ p.colour = c
            ∧ p.getPossibleMoves fuel (posOf s.1 s.2) b = Outcome.ok moves
            ∧ ∃ dst ∈ moves, b.isValidMove fuel (posOf s.1 s.2) dst c = Outcome.ok true
              ∧ b.wouldBeInCheck fuel (posOf s.1 s.2) dst c = Outcome.ok (false, b)) := by
      rintro ⟨s, hs, x⟩
      exact ⟨s, List.mem_cons_of_mem _ hs, x⟩
    simp only [findLegalMove]
    cases hg : b.grid sq.1 sq.2 with
    | none =>
      refine ⟨found, hfound, ?_⟩
      rw [hiff]
      refine ⟨lift, ?_⟩
      rintro ⟨s, hs, p, moves, hp, x⟩
      rcases List.mem_cons.1 hs with rfl | hs
      · rw [hg] at hp; cases hp
      · exact ⟨s, hs, p, moves, hp, x⟩
    | some p =>
      by_cases hc : p.colour = c
      · obtain ⟨moves, hm, _⟩ := getPossibleMoves_sound fuel b p (posOf sq.1 sq.2)
        obtain ⟨fnd, hfnd, hfiff⟩ := tryMoves_spec fuel c (posOf sq.1 sq.2) b moves
          (h sq (List.mem_cons_self _ _) p hg hc moves hm)
        simp only [hc, if_true, hm, hfnd, Outcome.bind_ok]
        cases fnd with
        | true =>
          refine ⟨true, by simp, ?_⟩
          simp only [true_iff]
          exact ⟨sq, List.mem_cons_self _ _, p, moves, hg, hc, hm, hfiff.1 rfl⟩
        | false =>
          refine ⟨found, by simpa using hfound, ?_⟩
          rw [hiff]
          refine ⟨lift, ?_⟩
          rintro ⟨s, hs, q, mq, hq, hqc, hqm, x⟩
          rcases List.mem_cons.1 hs with rfl | hs
          · rw [hg] at hq
            cases hq
            rw [hm] at hqm
            cases hqm
            have := hfiff.2 x
            cases this
          · exact ⟨s, hs, q, mq, hq, hqc, hqm, x⟩
      · refine ⟨found, by simpa [hc] using hfound, ?_⟩
        rw [hiff]
        refine ⟨lift, ?_⟩
        rintro ⟨s, hs, q, mq, hq, hqc, x⟩
        rcases List.mem_cons.1 hs with rfl | hs
        · rw [hg] at hq
          cases hq
          exact absurd hqc hc
        · exact ⟨s, hs, q, mq, hq, hqc, x⟩

/-- When the inner loop ends without a legal move, it hands the board back and every move
was rejected. -/
theorem tryMoves_false (fuel : Nat) (c : Colour) (src : Position) (b : Board) :
    ∀ (moves : List Position) (b' : Board),
      tryMoves fuel c src moves b = Outcome.ok (false, b') →
      b' = b ∧ ∀ dst ∈ moves, b.isValidMove fuel src dst c = Outcome.ok false
        ∨ b.wouldBeInCheck fuel src dst c = Outcome.ok (true, b) := by
  intro moves
  induction moves with
  | nil =>
    intro b' h
    simp only [tryMoves, Outcome.ok.injEq, Prod.mk.injEq, true_and] at h
    exact ⟨h.symm, by simp⟩
  | cons dst rest ih =>
    intro b' h
    simp only [tryMoves] at h
    obtain ⟨v, hv, h⟩ := Outcome.bind_eq_ok.1 h
    cases v with
    | false =>
      simp only [Bool.false_eq_true, if_false] at h
      obtain ⟨e, hr⟩ := ih b' h
      refine ⟨e, ?_⟩
      intro d hd
      rcases List.mem_cons.1 hd with rfl | hd
      · exact Or.inl hv
      · exact hr d hd
    | true =>
      simp only [if_true] at h
      obtain ⟨r, hw, h⟩ := Outcome.bind_eq_ok.1 h
      obtain ⟨w, b1⟩ := r
      have e1 : b = b1 := (wouldBeInCheck_restores hw).symm
      subst e1
      cases w with
      | false => simp at h
      | true =>
        simp only [Bool.not_true, Bool.false_eq_true, if_false] at h
        obtain ⟨e, hr⟩ := ih b' h
        refine ⟨e, ?_⟩
        intro d hd
        rcases List.mem_cons.1 hd with rfl | hd
        · exact Or.inr hw
        · exact hr d hd

theorem tryMoves_board (fuel : Nat) (c : Colour) (src : Position) (b : Board) :
    ∀ (moves : List Position) (r : Bool) (b' : Board),
      tryMoves fuel c src moves b = Outcome.ok (r, b') → b' = b := by
  intro moves
  induction moves with
  | nil =>
    intro r b' h
    simp only [tryMoves, Outcome.ok.injEq, Prod.mk.injEq] at h
    exact h.2.symm
  | cons dst rest ih =>
    intro r b' h
    simp only [tryMoves] at h
    obtain ⟨v, hv, h⟩ := Outcome.bind_eq_ok.1 h
    cases v with
    | false =>
      simp only [Bool.false_eq_true, if_false] at h
      exact ih r b' h
    | true =>
      simp only [if_true] at h
      obtain ⟨x, hw, h⟩ := Outcome.bind_eq_ok.1 h
      obtain ⟨w, b1⟩ := x
      have e1 : b = b1 := (wouldBeInCheck_restores hw).symm
      subst e1
      cases w with
      | false =>
        simp only [Bool.not_false, if_true, Outcome.ok.injEq, Prod.mk.injEq] at h
        exact h.2.symm
      | true =>
        simp only [Bool.not_true, Bool.false_eq_true, if_false] at h
        exact ih r b' h

/-- When the loop over all cells ends without a legal move, it hands the board back and
every generated move of every piece of the colour was rejected. -/
theorem findLegalMove_false (fuel : Nat) (c : Colour) (b : Board) :
    ∀ (l : List (Fin 8 × Fin 8)) (b' : Board),
      findLegalMove fuel c l b = Outcome.ok (false, b') →
      b' = b ∧ ∀ sq ∈ l, ∀ p moves, b.grid sq.1 sq.2 = some p → p.colour = c →
        p.getPossibleMoves fuel (posOf sq.1 sq.2) b = Outcome.ok moves →
        ∀ dst ∈ moves, b.isValidMove fuel (posOf sq.1 sq.2) dst c = Outcome.ok false
          ∨ b.wouldBeInCheck fuel (posOf sq.1 sq.2) dst c = Outcome.ok (true, b) := by
  intro l
  induction l with
  | nil =>
    intro b' h
    simp only [findLegalMove, Outcome.ok.injEq, Prod.mk.injEq, true_and] at h
    exact ⟨h.symm, by simp⟩
  | cons sq rest ih =>
    intro b' h
    simp only [findLegalMove] at h
    cases hg : b.grid sq.1 sq.2 with
    | none =>
      simp only [hg] at h
      obtain ⟨e, hr⟩ := ih b' h
      refine ⟨e, ?_⟩
      intro s hs p moves hp
      rcases List.mem_cons.1 hs with rfl | hs
      · rw [hg] at hp; cases hp
      · exact hr s hs p moves hp
    | some p =>
      simp only [hg] at h
      by_cases hc : p.colour = c
      · simp only [hc, if_true] at h
        obtain ⟨moves, hm, h⟩ := Outcome.bind_eq_ok.1 h
        obtain ⟨x, ht, h⟩ := Outcome.bind_eq_ok.1 h
        obtain ⟨fnd, b1⟩ := x
        have e1 : b = b1 := (tryMoves_board fuel c _ b moves fnd b1 ht).symm
        subst e1
        cases fnd with
        | true => simp at h
        | false =>
          simp only [Bool.false_eq_true, if_false] at h
          obtain ⟨e, hr⟩ := ih b' h
          refine ⟨e, ?_⟩
          intro s hs q mq hq hqc hqm
          rcases List.mem_cons.1 hs with rfl | hs
          · rw [hg] at hq
            cases hq
            rw [hm] at hqm
            cases hqm
            exact (tryMoves_false fuel c _ b moves b ht).2
          · exact hr s hs q mq hq hqc hqm
      · simp only [hc, if_false] at h
        obtain ⟨e, hr⟩ := ih b' h
        refine ⟨e, ?_⟩
        intro s hs q mq hq hqc
        rcases List.mem_cons.1 hs with rfl | hs
        · rw [hg] at hq
          cases hq
          exact absurd hqc hc
        · exact hr s hs q mq hq hqc

theorem allEnumeratedRejected_of_findLegalMove {fuel : Nat} {c : Colour} {b b' : Board}
    (h : findLegalMove fuel c allSquares b = Outcome.ok (false, b')) :
    AllEnumeratedRejected fuel b c := by
  intro src p moves hp hpc hm
  obtain ⟨r, cc, rfl⟩ := exists_cell_of_valid (getPiece_isValid hp)
  rw [getPiece_posOf] at hp
  exact (findLegalMove_false fuel c b allSquares b' h).2 (r, cc) (mem_allSquares _) p moves hp
    hpc hm

/-- On a one-king board, with fuel for the longest path plus one nested call, the
enumeration returns, hands the board back, and finds a move exactly when an enumerated legal
move exists; it finds none exactly when every enumerated move is rejected. -/
theorem findLegalMove_oneKing (fuel : Nat) (hf : 8 ≤ fuel) (b : Board)
    (hone : OneKingPerColour b) (c : Colour) :
    ∃ found, findLegalMove fuel c allSquares b = Outcome.ok (found, b)
      ∧ (found = true ↔ ∃ src dst, EnumeratedLegalMove fuel b c src dst)
      ∧ (found = false ↔ AllEnumeratedRejected fuel b c) := by
  have htot : ∀ sq ∈ allSquares, ∀ p, b.grid sq.1 sq.2 = some p → p.colour = c →
      ∀ moves, p.getPossibleMoves fuel (posOf sq.1 sq.2) b = Outcome.ok moves →
      ∀ dst ∈ moves, ∃ v, b.isValidMove fuel (posOf sq.1 sq.2) dst c = Outcome.ok v
        ∧ (v = true →
          ∃ w, b.wouldBeInCheck fuel (posOf sq.1 sq.2) dst c = Outcome.ok (w, b)) := by
    intro sq _ p hg hpc moves hm dst hd
    have hp : b.getPiece (posOf sq.1 sq.2) = some p := by rw [getPiece_posOf]; exact hg
    obtain ⟨v, hv⟩ := isValidMove_returns_of_generated fuel (by omega) b c _ dst p moves hp hpc
      hm hd
    refine ⟨v, hv, fun _ => ?_⟩
    obtain ⟨moves', hm', hsound⟩ := getPossibleMoves_sound fuel b p (posOf sq.1 sq.2)
    rw [hm] at hm'
    cases hm'
    exact wouldBeInCheck_returns fuel hf b hone _ dst c p hp (hsound dst hd).1
  obtain ⟨found, hfound, hiff⟩ := findLegalMove_spec fuel c b allSquares htot
  have hex : found = true ↔ ∃ src dst, EnumeratedLegalMove fuel b c src dst := by
    rw [hiff]
    constructor
    · rintro ⟨sq, _, p, moves, hg, hpc, hm, dst, hd, hv, hw⟩
      exact ⟨posOf sq.1 sq.2, dst, p, moves, by rw [getPiece_posOf]; exact hg, hpc, hm, hd, hv,
        hw⟩
    · rintro ⟨src, dst, p, moves, hp, hpc, hm, hd, hv, hw⟩
      obtain ⟨r, cc, rfl⟩ := exists_cell_of_valid (getPiece_isValid hp)
      rw [getPiece_posOf] at hp
      exact ⟨(r, cc), mem_allSquares _, p, moves, hp, hpc, hm, dst, hd, hv, hw⟩
  refine ⟨found, hfound, hex, ?_⟩
  constructor
  · intro hff
    subst hff
    exact allEnumeratedRejected_of_findLegalMove hfound
  · intro hall
    cases found with
    | false => rfl
    | true =>
      obtain ⟨src, dst, p, moves, hp, hpc, hm, hd, hv, hw⟩ := hex.1 rfl
      rcases hall src p moves hp hpc hm dst hd with h1 | h1
      · rw [hv] at h1; cases h1
      · rw [hw] at h1; cases h1

theorem Outcome.map_fst_eq_ok {α β : Type} {x : Outcome (α × β)} {a : α}
    (h : x.map Prod.fst = Outcome.ok a) : ∃ y, x = Outcome.ok (a, y) := by
  unfold Outcome.map at h
  obtain ⟨r, hr, h⟩ := Outcome.bind_eq_ok.1 h
  obtain ⟨r1, r2⟩ := r
  simp only [Outcome.ok.injEq] at h
  subst h
  exact ⟨r2, hr⟩

/-- Values of the two terminal tests on a one-king board, in terms of the check test and of
the enumeration. -/
theorem mate_stale_values (fuel : Nat) (hf : 8 ≤ fuel) (b : Board)
    (hone : OneKingPerColour b) (c : Colour) :
    ∃ inCheck found, b.isInCheck fuel c = Outcome.ok inCheck
      ∧ b.isInCheckmate fuel c = Outcome.ok (inCheck && !found, b)
      ∧ b.isInStalemate fuel c = Outcome.ok (!inCheck && !found, b)
      ∧ (found = true ↔ ∃ src dst, EnumeratedLegalMove fuel b c src dst)
      ∧ (found = false ↔ AllEnumeratedRejected fuel b c) := by
  obtain ⟨f, rfl⟩ : ∃ f, fuel = f + 1 := ⟨fuel - 1, by omega⟩
  obtain ⟨ic, hic⟩ := (isInCheck_spec f b c (by omega) hone).1
  obtain ⟨found, hfound, h1, h2⟩ := findLegalMove_oneKing (f + 1) hf b hone c
  refine ⟨ic, found, hic, ?_, ?_, h1, h2⟩
  · unfold Board.isInCheckmate
    rw [hic]
    cases ic <;> simp [hfound]
  · unfold Board.isInStalemate
    rw [hic]
    cases ic <;> simp [hfound]

/-- What the two terminal tests compute, in terms of their own enumeration: on every board
with at most one king of each colour, `isInCheckmate(c)` and
`isInStalemate(c)` return and leave the board unchanged; `isInCheckmate(c)` is true exactly
when `isInCheck(c)` is true and the enumeration finds no legal move, where a legal move is a
pair (src, dst) with a piece of colour c on `src`, `dst` in that piece's `possibleMoves`,
`Board.isValidMove(src, dst, c)` true and `wouldBeInCheck(src, dst, c)` false;
`isInStalemate(c)` is true exactly when `isInCheck(c)` is false and no such pair exists. -/
theorem checkmate_stalemate_iff (fuel : Nat) (b : Board) (c : Colour) (hf : 8 ≤ fuel)
    (hone : OneKingPerColour b) :
    (b.isInCheckmate fuel c = Outcome.ok (true, b) ↔
      b.isInCheck fuel c = Outcome.ok true
        ∧ ¬∃ src dst, EnumeratedLegalMove fuel b c src dst)
    ∧ (b.isInStalemate fuel c = Outcome.ok (true, b) ↔
      b.isInCheck fuel c = Outcome.ok false
        ∧ ¬∃ src dst, EnumeratedLegalMove fuel b c src dst)
    ∧ (∃ r, b.isInCheckmate fuel c = Outcome.ok (r, b))
    ∧ (∃ r, b.isInStalemate fuel c = Outcome.ok (r, b)) := by
  obtain ⟨ic, found, hic, hm, hs, h1, _⟩ := mate_stale_values fuel hf b hone c
  rw [hm, hs, hic, ← h1]
  refine ⟨?_, ?_, ⟨_, rfl⟩, ⟨_, rfl⟩⟩
  · cases ic <;> cases found <;> simp
  · cases ic <;> cases found <;> simp

/-- C5 (amended): on every board with at most one king of each colour, `isInCheckmate(c)` and
`isInStalemate(c)` are never both true, and one of them is true exactly when the enumeration
finds no legal move: for every piece of colour c on a square `src` and every `dst` in that
piece's `possibleMoves(src, board)`, `Board.isValidMove(src, dst, c)` is false or
`wouldBeInCheck(src, dst, c)` is true. -/
theorem checkmate_stalemate_exclusive (fuel : Nat) (b : Board) (c : Colour) (hf : 8 ≤ fuel)
    (hone : OneKingPerColour b) :
    ¬(b.isInCheckmate fuel c = Outcome.ok (true, b)
        ∧ b.isInStalemate fuel c = Outcome.ok (true, b))
    ∧ ((b.isInCheckmate fuel c = Outcome.ok (true, b)
        ∨ b.isInStalemate fuel c = Outcome.ok (true, b))
      ↔ AllEnumeratedRejected fuel b c) := by
  obtain ⟨ic, found, _, hm, hs, _, h2⟩ := mate_stale_values fuel hf b hone c
  rw [hm, hs, ← h2]
  constructor
  · cases ic <;> cases found <;> simp
  · cases ic <;> cases found <;> simp

theorem backRankMate_oneKing : OneKingPerColour backRankMate := by
  apply oneKing_of_unique
  intro c
  cases c
  · exact ⟨(6, 5), by decide⟩
  · exact ⟨(7, 7), by decide⟩

theorem backRankMate_fst :
    (backRankMate.isInCheckmate 8 Colour.BLACK).map Prod.fst = Outcome.ok true := by
  decide

theorem backRankMate_isInCheckmate :
    backRankMate.isInCheckmate 8 Colour.BLACK = Outcome.ok (true, backRankMate) := by
  obtain ⟨ic, found, _, hm, _⟩ :=
    mate_stale_values 8 (le_refl 8) backRankMate backRankMate_oneKing Colour.BLACK
  have hd := backRankMate_fst
  rw [hm] at hd
  simp only [Outcome.map, Outcome.bind_ok, Outcome.ok.injEq] at hd
  rw [hm, hd]

/-- Example for `checkmate_stalemate_iff`: the back-rank mate; Black is in check and the
enumeration finds no legal move. -/
theorem checkmate_stalemate_iff_witness :
    (8 ≤ 8 ∧ OneKingPerColour backRankMate)
    ∧ backRankMate.isInCheck 8 Colour.BLACK = Outcome.ok true
    ∧ ¬∃ src dst, EnumeratedLegalMove 8 backRankMate Colour.BLACK src dst :=
  ⟨⟨le_refl 8, backRankMate_oneKing⟩,
    (checkmate_stalemate_iff 8 backRankMate Colour.BLACK (le_refl 8) backRankMate_oneKing).1.1
      backRankMate_isInCheckmate⟩

/-- C4 (failing input): `beforeDoubleStep` is accepted by `isValidSetup` and White's double
step e2-e4 is legal. On the board it leaves, `enPassantBoard`, Black is not in check and
`isInStalemate(Black)` is true, although the pair (d4, e3) has `Board.isValidMove` true and
`wouldBeInCheck` false: the en-passant capture is a legal move that the enumeration never
tries. `Game::makePlayerMove` for e2-e4 therefore ends the game as a draw, with Black to
move and both scores unchanged. -/
theorem stalemate_despite_en_passant :
    (enPassantBoard.isInStalemate 8 Colour.BLACK).map Prod.fst = Outcome.ok true
    ∧ enPassantBoard.isInCheck 8 Colour.BLACK = Outcome.ok false
    ∧ enPassantBoard.isValidMove 8 ⟨4, 4⟩ ⟨3, 5⟩ Colour.BLACK = Outcome.ok true
    ∧ (enPassantBoard.wouldBeInCheck 8 ⟨4, 4⟩ ⟨3, 5⟩ Colour.BLACK).map Prod.fst
        = Outcome.ok false
    ∧ beforeDoubleStep.isValidSetup 8 = Outcome.ok true
    ∧ playLegal 8 beforeDoubleStep Colour.WHITE [(⟨2, 5⟩, ⟨4, 5⟩)] = some enPassantBoard
    ∧ ((Game.makePlayerMove 8
          { board := beforeDoubleStep, currentTurn := Colour.WHITE, gameInProgress := true,
            isSetupBoard := true, whiteScore := 0, blackScore := 0 }
          ⟨2, 5⟩ ⟨4, 5⟩ (Char.ofNat 0)).map
        fun g => (g.gameInProgress, g.currentTurn, g.whiteScore, g.blackScore))
        = Outcome.ok (false, Colour.BLACK, 0, 0) := by
  refine ⟨by decide, by decide, by decide, by decide, by decide, rfl, by decide⟩

/-- Witness for C5 (amended): on the back-rank mate every generated move of Black is
rejected. -/
theorem checkmate_stalemate_exclusive_witness :
    (8 ≤ 8 ∧ OneKingPerColour backRankMate)
    ∧ AllEnumeratedRejected 8 backRankMate Colour.BLACK :=
  ⟨⟨le_refl 8, backRankMate_oneKing⟩,
    (checkmate_stalemate_exclusive 8 backRankMate Colour.BLACK (le_refl 8)
      backRankMate_oneKing).2.1 (Or.inl backRankMate_isInCheckmate)⟩

theorem twoKings_enumeration :
    (findLegalMove 8 Colour.WHITE allSquares twoKingsBoard).map Prod.fst = Outcome.ok false := by
  decide

/-- C5 (counterexample): on `twoKingsBoard` every generated move of White is rejected
(`wouldBeInCheck` answers `true` for each accepted one), yet neither `isInCheckmate(White)`
nor `isInStalemate(White)` is true: both start with `isInCheck(White)`, which never
returns. -/
theorem neither_mate_nor_stalemate_two_kings :
    AllEnumeratedRejected 8 twoKingsBoard Colour.WHITE
    ∧ ∀ fuel, twoKingsBoard.isInCheckmate fuel Colour.WHITE = Outcome.noReturn
        ∧ twoKingsBoard.isInStalemate fuel Colour.WHITE = Outcome.noReturn := by
  constructor
  · obtain ⟨b', hb⟩ := Outcome.map_fst_eq_ok twoKings_enumeration
    exact allEnumeratedRejected_of_findLegalMove hb
  · intro fuel
    unfold Board.isInCheckmate Board.isInStalemate
    rw [twoKings_isInCheck_noReturn]
    exact ⟨rfl, rfl⟩

/-! ## Castling rights are revoked for good -/

theorem FlagsKept.refl (a : Board) : FlagsKept a a :=
  ⟨id, id, id, id, id, id⟩

theorem FlagsKept.trans {a b c : Board} (h1 : FlagsKept a b) (h2 : FlagsKept b c) :
    FlagsKept a c :=
  ⟨fun h => h2.1 (h1.1 h), fun h => h2.2.1 (h1.2.1 h), fun h => h2.2.2.1 (h1.2.2.1 h),
    fun h => h2.2.2.2.1 (h1.2.2.2.1 h), fun h => h2.2.2.2.2.1 (h1.2.2.2.2.1 h),
    fun h => h2.2.2.2.2.2 (h1.2.2.2.2.2 h)⟩

theorem flagsKept_setGrid (b : Board) (r c : Fin 8) (v : Option Piece) :
    FlagsKept b (b.setGrid r c v) := FlagsKept.refl b

theorem flagsKept_assign {b b' : Board} {r c : Int} {v : Option Piece}
    (h : b.assign r c v = Outcome.ok b') : FlagsKept b b' := by
  unfold Board.assign at h
  split at h
  · simp only [Outcome.ok.injEq] at h
    subst h
    exact FlagsKept.refl b
  · cases h

theorem flagsKept_moveAssign {b b' : Board} {r c r2 c2 : Int}
    (h : b.moveAssign r c r2 c2 = Outcome.ok b') : FlagsKept b b' := by
  unfold Board.moveAssign at h
  split at h
  · split at h
    · simp only [Outcome.ok.injEq] at h
      subst h
      exact FlagsKept.refl b
    · simp only [Outcome.ok.injEq] at h
      subst h
      exact FlagsKept.refl b
  · cases h

theorem flagsKept_castleRook {fuel : Nat} {b b' : Board} {piece : Piece}
    {src dst : Position} (h : castleRook fuel b piece src dst = Outcome.ok b') :
    FlagsKept b b' := by
  unfold castleRook at h
  split at h
  · obtain ⟨ks, _, h⟩ := Outcome.bind_eq_ok.1 h
    split at h
    · obtain ⟨b1, h1, h⟩ := Outcome.bind_eq_ok.1 h
      obtain ⟨b2, h2, h⟩ := Outcome.bind_eq_ok.1 h
      split at h
      · cases h
      · simp only [Outcome.ok.injEq] at h
        subst h
        exact (flagsKept_moveAssign h1).trans (flagsKept_assign h2)
    · obtain ⟨qs, _, h⟩ := Outcome.bind_eq_ok.1 h
      split at h
      · obtain ⟨b1, h1, h⟩ := Outcome.bind_eq_ok.1 h
        obtain ⟨b2, h2, h⟩ := Outcome.bind_eq_ok.1 h
        split at h
        · cases h
        · simp only [Outcome.ok.injEq] at h
          subst h
          exact (flagsKept_moveAssign h1).trans (flagsKept_assign h2)
      · simp only [Outcome.ok.injEq] at h
        subst h
        exact FlagsKept.refl b
  · simp only [Outcome.ok.injEq] at h
    subst h
    exact FlagsKept.refl b

theorem flagsKept_updateFlags (b : Board) (piece : Piece) (src : Position) :
    FlagsKept b (updateFlags b piece src) := by
  unfold updateFlags FlagsKept
  simp only []
  split_ifs <;> simp_all

theorem flagsKept_promote {b b' : Board} {moved : Piece} {dst : Position} {promotion : Char}
    (h : promote b moved dst promotion = Outcome.ok b') : FlagsKept b b' := by
  unfold promote at h
  split at h
  · split at h
    · exact flagsKept_assign h
    · simp only [Outcome.ok.injEq] at h
      subst h
      exact FlagsKept.refl b
  · simp only [Outcome.ok.injEq] at h
    subst h
    exact FlagsKept.refl b

/-- What `makeMove` does to the castling flags: the flags of the moving piece are set, and
no flag is ever cleared. -/
theorem makeMove_flags {fuel : Nat} {b b' : Board} {src dst : Position} {promotion : Char}
    {piece : Piece} (hp : b.getPiece src = some piece)
    (h : b.makeMove fuel src dst promotion = Outcome.ok b') :
    ∃ b2, FlagsKept b b2 ∧ FlagsKept (updateFlags b2 piece src) b' := by
  unfold Board.makeMove at h
  simp only [hp] at h
  obtain ⟨b1, h1, h⟩ := Outcome.bind_eq_ok.1 h
  obtain ⟨b2, h2, h⟩ := Outcome.bind_eq_ok.1 h
  obtain ⟨b3, h3, h⟩ := Outcome.bind_eq_ok.1 h
  obtain ⟨b4, h4, h⟩ := Outcome.bind_eq_ok.1 h
  have k1 : FlagsKept b b1 := by
    split at h1
    · exact flagsKept_assign h1
    · simp only [Outcome.ok.injEq] at h1
      subst h1
      exact FlagsKept.refl b
  refine ⟨b2, k1.trans (flagsKept_castleRook h2), ?_⟩
  have k3 := (flagsKept_moveAssign h3).trans (flagsKept_assign h4)
  split at h
  · cases h
  · obtain ⟨b5, h5, h⟩ := Outcome.bind_eq_ok.1 h
    obtain ⟨b6, h6, h⟩ := Outcome.bind_eq_ok.1 h
    simp only [Outcome.ok.injEq] at h
    subst h
    exact k3.trans ((flagsKept_assign h5).trans
      ((flagsKept_promote h6).trans ⟨id, id, id, id, id, id⟩))

theorem flagsKept_makeMove {fuel : Nat} {b b' : Board} {src dst : Position} {promotion : Char}
    (h : b.makeMove fuel src dst promotion = Outcome.ok b') : FlagsKept b b' := by
  cases hp : b.getPiece src with
  | none =>
    unfold Board.makeMove at h
    simp only [hp, Outcome.ok.injEq] at h
    subst h
    exact FlagsKept.refl b
  | some piece =>
    obtain ⟨b2, k1, k2⟩ := makeMove_flags hp h
    exact k1.trans ((flagsKept_updateFlags b2 piece src).trans k2)

theorem flagsKept_addPiece (b : Board) (ch : Char) (pos : Position) :
    FlagsKept b (b.addPiece ch pos) := by
  unfold Board.addPiece
  simp only []
  split_ifs <;> exact FlagsKept.refl b

theorem flagsKept_removePiece (b : Board) (pos : Position) :
    FlagsKept b (b.removePiece pos) := by
  unfold Board.removePiece
  split_ifs <;> exact FlagsKept.refl b

theorem flagsKept_applyOp {fuel : Nat} {b b' : Board} {op : Op}
    (h : b.applyOp fuel op = Outcome.ok b') : FlagsKept b b' := by
  cases op with
  | makeMove src dst promotion => exact flagsKept_makeMove h
  | addPiece ch pos =>
    simp only [Board.applyOp, Outcome.ok.injEq] at h
    subst h
    exact flagsKept_addPiece b ch pos
  | removePiece pos =>
    simp only [Board.applyOp, Outcome.ok.injEq] at h
    subst h
    exact flagsKept_removePiece b pos
  | clear =>
    simp only [Board.applyOp, Outcome.ok.injEq] at h
    subst h
    exact FlagsKept.refl b
  | wouldBeInCheck src dst turn =>
    simp only [Board.applyOp, Outcome.map] at h
    obtain ⟨r, hr, h⟩ := Outcome.bind_eq_ok.1 h
    obtain ⟨w, b1⟩ := r
    simp only [Outcome.ok.injEq] at h
    subst h
    rw [wouldBeInCheck_restores hr]
    exact FlagsKept.refl b

theorem flagsKept_runOps : ∀ (ops : List (Nat × Op)) (b b' : Board),
    b.runOps ops = Outcome.ok b' → FlagsKept b b' := by
  intro ops
  induction ops with
  | nil =>
    intro b b' h
    simp only [Board.runOps, Outcome.ok.injEq] at h
    subst h
    exact FlagsKept.refl b
  | cons step rest ih =>
    intro b b' h
    simp only [Board.runOps] at h
    obtain ⟨b1, h1, h⟩ := Outcome.bind_eq_ok.1 h
    exact (flagsKept_applyOp h1).trans (ih b1 b' h)

theorem canCastleKingSide_false_of_flag (fuel : Nat) (b : Board) (c : Colour)
    (h : kingMovedFlag b c = true ∨ rookKingMovedFlag b c = true) :
    b.canCastleKingSide fuel c = Outcome.ok false := by
  unfold Board.canCastleKingSide canCastleKingSideWith
  cases c <;> simp only [kingMovedFlag, rookKingMovedFlag] at h <;>
    rcases h with h | h <;> simp [h]

theorem canCastleQueenSide_false_of_flag (fuel : Nat) (b : Board) (c : Colour)
    (h : kingMovedFlag b c = true ∨ rookQueenMovedFlag b c = true) :
    b.canCastleQueenSide fuel c = Outcome.ok false := by
  unfold Board.canCastleQueenSide canCastleQueenSideWith
  cases c <;> simp only [kingMovedFlag, rookQueenMovedFlag] at h <;>
    rcases h with h | h <;> simp [h]

theorem FlagsKept.kingMoved {a b : Board} (h : FlagsKept a b) (c : Colour)
    (hf : kingMovedFlag a c = true) : kingMovedFlag b c = true := by
  cases c
  · exact h.1 hf
  · exact h.2.1 hf

theorem FlagsKept.rookKingMoved {a b : Board} (h : FlagsKept a b) (c : Colour)
    (hf : rookKingMovedFlag a c = true) : rookKingMovedFlag b c = true := by
  cases c
  · exact h.2.2.1 hf
  · exact h.2.2.2.2.1 hf

theorem FlagsKept.rookQueenMoved {a b : Board} (h : FlagsKept a b) (c : Colour)
    (hf : rookQueenMovedFlag a c = true) : rookQueenMovedFlag b c = true := by
  cases c
  · exact h.2.2.2.1 hf
  · exact h.2.2.2.2.2 hf

theorem updateFlags_king (b : Board) (piece : Piece) (src : Position)
    (ht : piece.type = PieceType.King) :
    kingMovedFlag (updateFlags b piece src) piece.colour = true := by
  unfold updateFlags
  cases hc : piece.colour <;> simp [ht, hc, kingMovedFlag]

theorem updateFlags_rook_queenSide (b : Board) (piece : Piece) (src : Position)
    (ht : piece.type = PieceType.Rook) (hs : src.col = 1) :
    rookQueenMovedFlag (updateFlags b piece src) piece.colour = true := by
  unfold updateFlags
  cases hc : piece.colour <;> simp [ht, hc, hs, rookQueenMovedFlag]

theorem updateFlags_rook_kingSide (b : Board) (piece : Piece) (src : Position)
    (ht : piece.type = PieceType.Rook) (hs : src.col = 8) :
    rookKingMovedFlag (updateFlags b piece src) piece.colour = true := by
  unfold updateFlags
  cases hc : piece.colour <;> simp [ht, hc, hs, rookKingMovedFlag]

/-- C9: once a `makeMove` has moved a king of colour c, `canCastleKingSide(c)` and
`canCastleQueenSide(c)` are false in every later state, and once a `makeMove` has moved a
rook of colour c off its a-file (resp. h-file) corner, `canCastleQueenSide(c)` (resp.
`canCastleKingSide(c)`) is false in every later state, whatever sequence of `makeMove`,
`addPiece`, `removePiece`, `clear` and `wouldBeInCheck` calls follows. -/
theorem castling_rights_revoked (fuel fuel' : Nat) (b b1 b2 : Board) (src dst : Position)
    (promotion : Char) (piece : Piece) (ops : List (Nat × Op))
    (hp : b.getPiece src = some piece)
    (hmove : b.makeMove fuel src dst promotion = Outcome.ok b1)
    (hrun : b1.runOps ops = Outcome.ok b2) :
    (piece.type = PieceType.King →
      b2.canCastleKingSide fuel' piece.colour = Outcome.ok false
        ∧ b2.canCastleQueenSide fuel' piece.colour = Outcome.ok false)
    ∧ (piece.type = PieceType.Rook → src = ⟨homeRank piece.colour, 1⟩ →
      b2.canCastleQueenSide fuel' piece.colour = Outcome.ok false)
    ∧ (piece.type = PieceType.Rook → src = ⟨homeRank piece.colour, 8⟩ →
      b2.canCastleKingSide fuel' piece.colour = Outcome.ok false) := by
  obtain ⟨bm, _, k2⟩ := makeMove_flags hp hmove
  have k := k2.trans (flagsKept_runOps ops b1 b2 hrun)
  refine ⟨fun ht => ?_, fun ht hs => ?_, fun ht hs => ?_⟩
  · have := k.kingMoved piece.colour (updateFlags_king bm piece src ht)
    exact ⟨canCastleKingSide_false_of_flag fuel' b2 _ (Or.inl this),
      canCastleQueenSide_false_of_flag fuel' b2 _ (Or.inl this)⟩
  · have := k.rookQueenMoved piece.colour
      (updateFlags_rook_queenSide bm piece src ht (by rw [hs]))
    exact canCastleQueenSide_false_of_flag fuel' b2 _ (Or.inr this)
  · have := k.rookKingMoved piece.colour
      (updateFlags_rook_kingSide bm piece src ht (by rw [hs]))
    exact canCastleKingSide_false_of_flag fuel' b2 _ (Or.inr this)

/-- Witness for C9: on `castleDemo` the king steps e1-f1 and back; king and rook stand on
their original squares again, and both castling tests answer `false`. -/
theorem castling_rights_revoked_witness :
    (castleDemo.getPiece ⟨1, 5⟩ = some (Piece.create PieceType.King Colour.WHITE)
      ∧ castleDemo.makeMove 8 ⟨1, 5⟩ ⟨1, 6⟩ (Char.ofNat 0) = Outcome.ok kingAway
      ∧ kingAway.runOps [(8, Op.makeMove ⟨1, 6⟩ ⟨1, 5⟩ (Char.ofNat 0))] = Outcome.ok kingBack)
    ∧ (kingBack.getPiece ⟨1, 5⟩).isSome = true
    ∧ kingBack.canCastleKingSide 8 Colour.WHITE = Outcome.ok false
    ∧ kingBack.canCastleQueenSide 8 Colour.WHITE = Outcome.ok false :=
  ⟨⟨rfl, rfl, rfl⟩, by decide,
    (castling_rights_revoked 8 8 castleDemo kingAway kingBack ⟨1, 5⟩ ⟨1, 6⟩ (Char.ofNat 0)
      (Piece.create PieceType.King Colour.WHITE)
      [(8, Op.makeMove ⟨1, 6⟩ ⟨1, 5⟩ (Char.ofNat 0))] rfl rfl rfl).1 rfl⟩

/-! ## Castling with a rook that has moved -/

/-- C10 (failing input): the game `rookSwapGame` is legal move by move from the starting
position; after it the rook on h1 is the one that started on a1 (its has-moved flag is set),
and `canCastleKingSide(White)` answers `true`. -/
theorem castling_with_moved_rook :
    (playLegal 8 startingBoard Colour.WHITE rookSwapGame).map
        (fun b => (b.getPiece ⟨1, 8⟩, b.canCastleKingSide 8 Colour.WHITE))
      = some (some ⟨PieceType.Rook, Colour.WHITE, true⟩, Outcome.ok true)
    ∧ (startingBoard.runMoves 8 rookSwapGame).map (fun b => b.getPiece ⟨1, 8⟩)
      = Outcome.ok (some ⟨PieceType.Rook, Colour.WHITE, true⟩)
    ∧ ((startingBoard.runMoves 8 rookSwapGame).bind
        fun b => b.canCastleKingSide 8 Colour.WHITE) = Outcome.ok true := by
  refine ⟨?_, ?_, ?_⟩ <;> decide

/-! ## The blocks of `makeMove` -/

theorem makeMove_blocks {fuel : Nat} {b : Board} {src dst : Position} {promotion : Char}
    {piece : Piece} (hp : b.getPiece src = some piece) :
    b.makeMove fuel src dst promotion =
      (enPassantStep b piece src dst).bind fun b1 =>
        (castleRook fuel b1 piece src dst).bind fun b2 => relocate b2 piece src dst promotion := by
  simp only [Board.makeMove, hp]
  rfl

theorem makeMove_empty {fuel : Nat} {b : Board} {src dst : Position} {promotion : Char}
    (hp : b.getPiece src = none) : b.makeMove fuel src dst promotion = Outcome.ok b := by
  simp only [Board.makeMove, hp]

theorem getPiece_invalid (b : Board) {pos : Position} (h : pos.isValid = false) :
    b.getPiece pos = none := by
  simp [Board.getPiece, h]

/-- Reading a board after one cell write, by positions. -/
theorem getPiece_setGrid (b : Board) (r c : Int) (h : inGrid r c = true) (v : Option Piece)
    (pos : Position) :
    (b.setGrid (idx r) (idx c) v).getPiece pos
      = if pos = ⟨r + 1, c + 1⟩ then v else b.getPiece pos := by
  rw [inGrid_iff] at h
  have hr := @idx_val r h.1 h.2.1
  have hc := @idx_val c h.2.2.1 h.2.2.2
  by_cases hv : pos.isValid = true
  · have hv2 := (Position.isValid_iff pos).1 hv
    have pr := @idx_val (pos.row - 1) (by omega) (by omega)
    have pc := @idx_val (pos.col - 1) (by omega) (by omega)
    simp only [getPiece_of_valid _ hv, setGrid_grid]
    have key : (idx (pos.row - 1) = idx r ∧ idx (pos.col - 1) = idx c) ↔
        pos = ⟨r + 1, c + 1⟩ := by
      rcases pos with ⟨pr0, pc0⟩
      simp only [Position.mk.injEq] at *
      constructor
      · rintro ⟨e1, e2⟩
        rw [e1] at pr
        rw [e2] at pc
        constructor <;> omega
      · rintro ⟨e1, e2⟩
        subst e1 e2
        simp
    by_cases hk : pos = ⟨r + 1, c + 1⟩
    · rw [if_pos (key.2 hk), if_pos hk]
    · rw [if_neg (fun hh => hk (key.1 hh)), if_neg hk]
  · have hv3 : pos.isValid = false := by simpa using hv
    have hne : pos ≠ ⟨r + 1, c + 1⟩ := by
      intro e
      apply hv
      rw [e, Position.isValid_iff]
      simp only
      omega
    rw [if_neg hne, getPiece_invalid _ hv3, getPiece_invalid _ hv3]

theorem getPiece_setGrid_pos (b : Board) (q : Position) (hq : q.isValid = true)
    (v : Option Piece) (pos : Position) :
    (b.setGrid (idx (q.row - 1)) (idx (q.col - 1)) v).getPiece pos
      = if pos = q then v else b.getPiece pos := by
  rw [getPiece_setGrid b _ _ (by rw [inGrid_pred_iff]; exact hq)]
  rcases q with ⟨r, c⟩
  simp

theorem updateFlags_grid (b : Board) (piece : Piece) (src : Position) :
    (updateFlags b piece src).grid = b.grid := by
  unfold updateFlags
  simp only
  split_ifs <;> rfl

theorem updateFlags_getPiece (b : Board) (piece : Piece) (src : Position) (pos : Position) :
    (updateFlags b piece src).getPiece pos = b.getPiece pos := by
  simp only [Board.getPiece, updateFlags_grid]

theorem idx_pair_ne {src dst : Position} (hs : src.isValid = true) (hd : dst.isValid = true)
    (hne : src ≠ dst) :
    ¬(idx (dst.row - 1) = idx (src.row - 1) ∧ idx (dst.col - 1) = idx (src.col - 1)) := by
  rintro ⟨e1, e2⟩
  apply hne
  rw [← posOf_idx hs, ← posOf_idx hd, e1, e2]

theorem arrivalPiece_setHasMoved (piece : Piece) (dst : Position) (promotion : Char) :
    arrivalPiece (piece.setHasMoved true) dst promotion = arrivalPiece piece dst promotion := by
  rfl

/-- With `piece` on `src` and an in-range `dst` other than `src`, the blocks after castling
return the board `settled`. -/
theorem relocate_eq (b2 : Board) (piece : Piece) (src dst : Position) (promotion : Char)
    (hd : dst.isValid = true) (hne : src ≠ dst) (h : b2.getPiece src = some piece) :
    relocate b2 piece src dst promotion = Outcome.ok (settled b2 piece src dst promotion) := by
  have hs := getPiece_isValid h
  have hg : b2.grid (idx (src.row - 1)) (idx (src.col - 1)) = some piece := by
    rw [← getPiece_of_valid _ hs]; exact h
  have hn := idx_pair_ne hs hd hne
  have hn2 : ¬(idx (src.row - 1) = idx (dst.row - 1) ∧ idx (src.col - 1) = idx (dst.col - 1)) :=
    fun e => hn ⟨e.1.symm, e.2.symm⟩
  simp only [relocate, Board.moveAssign, Board.assign, inGrid_pred_iff, hs, hd, Bool.and_self,
    if_true, if_neg hn, Outcome.bind_ok, setGrid_grid, if_neg hn2, and_self, updateFlags_grid, hg,
    promote]
  have fin : ∀ (x : Piece) (g : Board),
      g.grid = (fun i j =>
        if i = idx (dst.row - 1) ∧ j = idx (dst.col - 1) then some x
        else if i = idx (src.row - 1) ∧ j = idx (src.col - 1) then none
        else b2.grid i j) →
      { g with grid := b2.grid } = { updateFlags b2 piece src with grid := b2.grid } →
      ({ g with lastMoveFrom := src, lastMoveTo := dst } : Board)
        = { (updateFlags b2 piece src) with
            grid := fun i j =>
              if i = idx (dst.row - 1) ∧ j = idx (dst.col - 1) then some x
              else if i = idx (src.row - 1) ∧ j = idx (src.col - 1) then none
              else b2.grid i j,
            lastMoveFrom := src, lastMoveTo := dst } := by
    intro x g hgrid hrest
    rw [Board.ext_iff'] at hrest ⊢
    simp only at hrest ⊢
    exact ⟨hgrid, trivial, trivial, hrest.2.2.2⟩
  have cells : ∀ (x : Piece) (pre : Option Piece) (U : Board), U.grid = b2.grid →
      ((((U.setGrid (idx (dst.row - 1)) (idx (dst.col - 1)) pre).setGrid
          (idx (src.row - 1)) (idx (src.col - 1)) none).setGrid
          (idx (src.row - 1)) (idx (src.col - 1)) none).setGrid
          (idx (dst.row - 1)) (idx (dst.col - 1)) (some x)).grid
        = (fun i j =>
        if i = idx (dst.row - 1) ∧ j = idx (dst.col - 1) then some x
        else if i = idx (src.row - 1) ∧ j = idx (src.col - 1) then none
        else b2.grid i j) := by
    intro x pre U hU
    funext i j
    simp only [setGrid_grid, hU]
    split_ifs <;> rfl
  unfold settled arrivalPiece
  have hc : (piece.setHasMoved true).colour = piece.colour := rfl
  have ht : (piece.setHasMoved true).type = piece.type := rfl
  rw [hc, ht]
  split
  · cases promotionType promotion with
    | some t =>
      simp only [Outcome.bind_ok, Outcome.ok.injEq]
      apply fin
      · funext i j
        simp only [setGrid_grid, updateFlags_grid]
        split_ifs <;> rfl
      · rfl
    | none =>
      simp only [Outcome.bind_ok, Outcome.ok.injEq]
      exact fin _ _ (cells _ _ _ (updateFlags_grid _ _ _)) rfl
  · simp only [Outcome.bind_ok, Outcome.ok.injEq]
    exact fin _ _ (cells _ _ _ (updateFlags_grid _ _ _)) rfl

theorem getPiece_congr {a b : Board} (h : a.grid = b.grid) (pos : Position) :
    a.getPiece pos = b.getPiece pos := by
  simp only [Board.getPiece, h]

theorem settled_getPiece (b2 : Board) (piece : Piece) (src dst : Position) (promotion : Char)
    (hs : src.isValid = true) (hd : dst.isValid = true) (pos : Position) :
    (settled b2 piece src dst promotion).getPiece pos
      = if pos = dst then some (arrivalPiece piece dst promotion)
        else if pos = src then none else b2.getPiece pos := by
  have e : (settled b2 piece src dst promotion).grid
      = ((b2.setGrid (idx (src.row - 1)) (idx (src.col - 1)) none).setGrid
            (idx (dst.row - 1)) (idx (dst.col - 1))
            (some (arrivalPiece piece dst promotion))).grid := by
    funext i j
    simp only [settled, setGrid_grid]
  rw [getPiece_congr e, getPiece_setGrid_pos _ _ hd, getPiece_setGrid_pos _ _ hs]

theorem relocate_same (b2 : Board) (piece : Piece) (src : Position) (promotion : Char)
    (hs : src.isValid = true) :
    relocate b2 piece src src promotion = Outcome.nullDeref := by
  simp [relocate, Board.moveAssign, Board.assign, inGrid_pred_iff, hs]

theorem relocate_outOfBounds (b2 : Board) (piece : Piece) (src dst : Position)
    (promotion : Char) (hd : dst.isValid = false) :
    relocate b2 piece src dst promotion = Outcome.outOfBounds := by
  simp [relocate, Board.moveAssign, inGrid_pred_iff, hd]

/-- Everything `isEnPassant` tests. -/
theorem isEnPassant_spec (b : Board) (src dst : Position) (turn : Colour) :
    b.isEnPassant src dst turn = true ↔
      (∃ p, b.getPiece src = some p ∧ p.type.isPawn = true)
      ∧ iabs (dst.col - src.col) = 1
      ∧ dst.row - src.row = (if turn = Colour.WHITE then 1 else -1)
      ∧ b.getPiece dst = none
      ∧ (∃ q, b.getPiece ⟨src.row, dst.col⟩ = some q ∧ q.type.isPawn = true ∧ q.colour ≠ turn)
      ∧ b.lastMoveFrom.row = (if turn = Colour.WHITE then 7 else 2)
      ∧ b.lastMoveTo = ⟨src.row, dst.col⟩
      ∧ iabs (b.lastMoveFrom.row - b.lastMoveTo.row) = 2 := by
  unfold Board.isEnPassant
  cases hp : b.getPiece src with
  | none => simp
  | some p =>
    cases hpawn : p.type.isPawn
    · simp [hpawn]
    · by_cases hgeo : iabs (dst.col - src.col) ≠ 1
          ∨ dst.row - src.row ≠ (if turn = Colour.WHITE then 1 else -1)
      · simp only [hpawn, Bool.not_true, Bool.false_eq_true, if_false, if_pos hgeo, false_iff]
        rintro ⟨_, h1, h2, _⟩
        rcases hgeo with h | h
        · exact h h1
        · exact h h2
      · simp only [hpawn, Bool.not_true, Bool.false_eq_true, if_false, if_neg hgeo]
        push_neg at hgeo
        cases hd : b.getPiece dst with
        | some t => simp [hd]
        | none =>
          cases he : b.getPiece ⟨src.row, dst.col⟩ with
          | none => simp
          | some q =>
            cases hq : q.type.isPawn
            · simp [hq]
            · by_cases hc : q.colour = turn
              · simp [hc]
              · simp [hq, hc, hgeo.1, hgeo.2, hpawn]

/-- An en-passant capture starts on rank 5 for White and on rank 4 for Black, one file beside
its target. -/
theorem isEnPassant_rows {b : Board} {src dst : Position} {turn : Colour}
    (h : b.isEnPassant src dst turn = true) :
    src.row = (if turn = Colour.WHITE then 5 else 4)
    ∧ dst.row = (if turn = Colour.WHITE then 6 else 3)
    ∧ iabs (dst.col - src.col) = 1
    ∧ (⟨src.row, dst.col⟩ : Position).isValid = true ∧ dst.isValid = true := by
  obtain ⟨⟨p, hp, _⟩, hcol, hrow, _, ⟨q, hq, _, _⟩, hfrom, hto, habs⟩ :=
    (isEnPassant_spec b src dst turn).1 h
  have hs := (Position.isValid_iff _).1 (getPiece_isValid hp)
  have he := getPiece_isValid hq
  have he2 := (Position.isValid_iff _).1 he
  rw [hto, hfrom, iabs_eq] at habs
  simp only at habs he2
  have hdv : dst.isValid = true := by
    rw [Position.isValid_iff]
    split_ifs at habs hrow <;> omega
  refine ⟨?_, ?_, hcol, he, hdv⟩
  · split_ifs at habs ⊢ <;> omega
  · split_ifs at habs hrow ⊢ <;> omega

/-- The en-passant block always returns: its one write goes to the cell of the captured
pawn. -/
theorem enPassantStep_eq (b : Board) (piece : Piece) (src dst : Position) :
    enPassantStep b piece src dst
      = Outcome.ok (if (piece.type.isPawn && b.isEnPassant src dst piece.colour) = true
          then b.setGrid (idx (src.row - 1)) (idx (dst.col - 1)) none else b) := by
  unfold enPassantStep
  split
  · rename_i h
    simp only [Bool.and_eq_true] at h
    have hv := (isEnPassant_rows h.2).2.2.2.1
    have : inGrid (src.row - 1) (dst.col - 1) = true := by
      rw [← hv]
      exact inGrid_pred_iff ⟨src.row, dst.col⟩
    simp only [Board.assign, this, if_true]
  · rfl

/-- The en-passant block keeps the moving piece on `src`. -/
theorem enPassantStep_src {b b1 : Board} {piece : Piece} {src dst : Position}
    (h : enPassantStep b piece src dst = Outcome.ok b1) (pos : Position) :
    b1.getPiece pos
      = if (piece.type.isPawn && b.isEnPassant src dst piece.colour) = true
            ∧ pos = ⟨src.row, dst.col⟩ then none else b.getPiece pos := by
  rw [enPassantStep_eq] at h
  simp only [Outcome.ok.injEq] at h
  subst h
  by_cases hc : (piece.type.isPawn && b.isEnPassant src dst piece.colour) = true
  · rw [if_pos hc]
    simp only [Bool.and_eq_true] at hc
    have hv := (isEnPassant_rows hc.2).2.2.2.1
    have := getPiece_setGrid_pos b ⟨src.row, dst.col⟩ hv none pos
    simp only at this
    rw [this]
    simp only [Bool.and_eq_true, hc, and_self, true_and]
  · rw [if_neg hc, if_neg (fun hh => hc hh.1)]

theorem castleRook_other {fuel : Nat} {b : Board} {piece : Piece} {src dst : Position}
    (h : ¬(piece.type = PieceType.King ∧ iabs (dst.col - src.col) = 2)) :
    castleRook fuel b piece src dst = Outcome.ok b := by
  unfold castleRook
  rw [if_neg h]

/-- The king-side rook relocation of the castling block, cell by cell. -/
theorem castleRook_kingSide {fuel : Nat} {b : Board} {piece : Piece} {src dst : Position}
    (hk : piece.type = PieceType.King) (hcol : dst.col = src.col + 2)
    (hcan : b.canCastleKingSide fuel piece.colour = Outcome.ok true)
    (hrow : 1 ≤ src.row ∧ src.row ≤ 8) (hne : src.col ≠ 6) :
    ∃ b2, castleRook fuel b piece src dst = Outcome.ok b2
      ∧ (∀ pos, b2.getPiece pos = if pos = ⟨src.row, 8⟩ then none
          else if pos = ⟨src.row, 6⟩ then b.getPiece ⟨src.row, 8⟩ else b.getPiece pos)
      ∧ b2.lastMoveFrom = b.lastMoveFrom ∧ b2.lastMoveTo = b.lastMoveTo := by
  have h1 : piece.type = PieceType.King ∧ iabs (dst.col - src.col) = 2 := by
    refine ⟨hk, ?_⟩
    rw [iabs_eq]; omega
  have h2 : dst.col > src.col := by omega
  have g5 : inGrid (src.row - 1) 5 = true := by rw [inGrid_iff]; omega
  have g7 : inGrid (src.row - 1) 7 = true := by rw [inGrid_iff]; omega
  have hc5 : ¬(src.col - 1 = 5) := by omega
  refine ⟨((b.setGrid (idx (src.row - 1)) (idx 5) (b.grid (idx (src.row - 1)) (idx 7))).setGrid
    (idx (src.row - 1)) (idx 7) none).setGrid (idx (src.row - 1)) (idx 7) none, ?_, ?_, rfl, rfl⟩
  · unfold castleRook
    rw [if_pos h1, if_pos h2, hcan]
    have h57 : ¬(idx 5 = idx 7) := by decide
    simp only [Outcome.bind_ok, if_true, Board.moveAssign, Board.assign, g5, g7, Bool.and_self,
      true_and, h57, if_false, if_neg hc5]
  · intro pos
    rw [getPiece_setGrid _ _ _ g7, getPiece_setGrid _ _ _ g7, getPiece_setGrid _ _ _ g5]
    have p8 : (⟨src.row - 1 + 1, 7 + 1⟩ : Position) = ⟨src.row, 8⟩ := by
      rw [Position.mk.injEq]; constructor <;> omega
    have p6 : (⟨src.row - 1 + 1, 5 + 1⟩ : Position) = ⟨src.row, 6⟩ := by
      rw [Position.mk.injEq]; constructor <;> omega
    have hv8 : (⟨src.row, 8⟩ : Position).isValid = true := by
      rw [Position.isValid_iff]; simp only; omega
    have hget : b.getPiece ⟨src.row, 8⟩ = b.grid (idx (src.row - 1)) (idx 7) :=
      getPiece_of_valid b hv8
    rw [p8, p6, hget]
    split_ifs <;> rfl

/-- The queen-side rook relocation of the castling block, cell by cell. -/
theorem castleRook_queenSide {fuel : Nat} {b : Board} {piece : Piece} {src dst : Position}
    (hk : piece.type = PieceType.King) (hcol : dst.col = src.col - 2)
    (hcan : b.canCastleQueenSide fuel piece.colour = Outcome.ok true)
    (hrow : 1 ≤ src.row ∧ src.row ≤ 8) (hne : src.col ≠ 4) :
    ∃ b2, castleRook fuel b piece src dst = Outcome.ok b2
      ∧ (∀ pos, b2.getPiece pos = if pos = ⟨src.row, 1⟩ then none
          else if pos = ⟨src.row, 4⟩ then b.getPiece ⟨src.row, 1⟩ else b.getPiece pos)
      ∧ b2.lastMoveFrom = b.lastMoveFrom ∧ b2.lastMoveTo = b.lastMoveTo := by
  have h1 : piece.type = PieceType.King ∧ iabs (dst.col - src.col) = 2 := by
    refine ⟨hk, ?_⟩
    rw [iabs_eq]; omega
  have h2 : ¬ dst.col > src.col := by omega
  have h3 : dst.col < src.col := by omega
  have g3 : inGrid (src.row - 1) 3 = true := by rw [inGrid_iff]; omega
  have g0 : inGrid (src.row - 1) 0 = true := by rw [inGrid_iff]; omega
  have hc3 : ¬(src.col - 1 = 3) := by omega
  refine ⟨((b.setGrid (idx (src.row - 1)) (idx 3) (b.grid (idx (src.row - 1)) (idx 0))).setGrid
    (idx (src.row - 1)) (idx 0) none).setGrid (idx (src.row - 1)) (idx 0) none, ?_, ?_, rfl, rfl⟩
  · unfold castleRook
    rw [if_pos h1, if_neg h2, if_pos h3, hcan]
    have h30 : ¬(idx 3 = idx 0) := by decide
    simp only [Outcome.bind_ok, if_true, Board.moveAssign, Board.assign, g3, g0, Bool.and_self,
      true_and, h30, if_neg hc3, Bool.false_eq_true, if_false]
  · intro pos
    rw [getPiece_setGrid _ _ _ g0, getPiece_setGrid _ _ _ g0, getPiece_setGrid _ _ _ g3]
    have p1 : (⟨src.row - 1 + 1, 0 + 1⟩ : Position) = ⟨src.row, 1⟩ := by
      rw [Position.mk.injEq]; constructor <;> omega
    have p4 : (⟨src.row - 1 + 1, 3 + 1⟩ : Position) = ⟨src.row, 4⟩ := by
      rw [Position.mk.injEq]; constructor <;> omega
    have hv1 : (⟨src.row, 1⟩ : Position).isValid = true := by
      rw [Position.isValid_iff]; simp only; omega
    have hget : b.getPiece ⟨src.row, 1⟩ = b.grid (idx (src.row - 1)) (idx 0) :=
      getPiece_of_valid b hv1
    rw [p1, p4, hget]
    split_ifs <;> rfl

/-- What a successful king-side castling test has seen on the board. -/
theorem canCastleKingSideWith_true {chk : Colour → Outcome Bool} {b : Board} {c : Colour}
    (h : canCastleKingSideWith chk b c = Outcome.ok true) :
    Holds b ⟨homeRank c, 5⟩ PieceType.King c ∧ Holds b ⟨homeRank c, 8⟩ PieceType.Rook c
      ∧ b.getPiece ⟨homeRank c, 6⟩ = none ∧ b.getPiece ⟨homeRank c, 7⟩ = none := by
  have g15 : b.getPiece ⟨1, 5⟩ = b.grid 0 4 := rfl
  have g16 : b.getPiece ⟨1, 6⟩ = b.grid 0 5 := rfl
  have g17 : b.getPiece ⟨1, 7⟩ = b.grid 0 6 := rfl
  have g18 : b.getPiece ⟨1, 8⟩ = b.grid 0 7 := rfl
  have g85 : b.getPiece ⟨8, 5⟩ = b.grid 7 4 := rfl
  have g86 : b.getPiece ⟨8, 6⟩ = b.grid 7 5 := rfl
  have g87 : b.getPiece ⟨8, 7⟩ = b.grid 7 6 := rfl
  have g88 : b.getPiece ⟨8, 8⟩ = b.grid 7 7 := rfl
  revert h
  cases c
  · simp only [canCastleKingSideWith, Holds, homeRank, g15, g18, g16, g17, ← isPieceOf_iff]
    cases b.whiteKingMoved <;> cases b.whiteRookKingMoved <;>
      cases isPieceOf (b.grid 0 4) PieceType.King Colour.WHITE <;>
      cases isPieceOf (b.grid 0 7) PieceType.Rook Colour.WHITE <;>
      cases b.grid 0 5 <;> cases b.grid 0 6 <;> simp
  · simp only [canCastleKingSideWith, Holds, homeRank, g85, g88, g86, g87, ← isPieceOf_iff]
    cases b.blackKingMoved <;> cases b.blackRookKingMoved <;>
      cases isPieceOf (b.grid 7 4) PieceType.King Colour.BLACK <;>
      cases isPieceOf (b.grid 7 7) PieceType.Rook Colour.BLACK <;>
      cases b.grid 7 5 <;> cases b.grid 7 6 <;> simp

/-- What a successful queen-side castling test has seen on the board. -/
theorem canCastleQueenSideWith_true {chk : Colour → Outcome Bool} {b : Board} {c : Colour}
    (h : canCastleQueenSideWith chk b c = Outcome.ok true) :
    Holds b ⟨homeRank c, 5⟩ PieceType.King c ∧ Holds b ⟨homeRank c, 1⟩ PieceType.Rook c
      ∧ b.getPiece ⟨homeRank c, 2⟩ = none ∧ b.getPiece ⟨homeRank c, 3⟩ = none
      ∧ b.getPiece ⟨homeRank c, 4⟩ = none := by
  have g11 : b.getPiece ⟨1, 1⟩ = b.grid 0 0 := rfl
  have g12 : b.getPiece ⟨1, 2⟩ = b.grid 0 1 := rfl
  have g13 : b.getPiece ⟨1, 3⟩ = b.grid 0 2 := rfl
  have g14 : b.getPiece ⟨1, 4⟩ = b.grid 0 3 := rfl
  have g15 : b.getPiece ⟨1, 5⟩ = b.grid 0 4 := rfl
  have g81 : b.getPiece ⟨8, 1⟩ = b.grid 7 0 := rfl
  have g82 : b.getPiece ⟨8, 2⟩ = b.grid 7 1 := rfl
  have g83 : b.getPiece ⟨8, 3⟩ = b.grid 7 2 := rfl
  have g84 : b.getPiece ⟨8, 4⟩ = b.grid 7 3 := rfl
  have g85 : b.getPiece ⟨8, 5⟩ = b.grid 7 4 := rfl
  revert h
  cases c
  · simp only [canCastleQueenSideWith, Holds, homeRank, g15, g11, g12, g13, g14,
      ← isPieceOf_iff]
    cases b.whiteKingMoved <;> cases b.whiteRookQueenMoved <;>
      cases isPieceOf (b.grid 0 4) PieceType.King Colour.WHITE <;>
      cases isPieceOf (b.grid 0 0) PieceType.Rook Colour.WHITE <;>
      cases b.grid 0 1 <;> cases b.grid 0 2 <;> cases b.grid 0 3 <;> simp
  · simp only [canCastleQueenSideWith, Holds, homeRank, g85, g81, g82, g83, g84,
      ← isPieceOf_iff]
    cases b.blackKingMoved <;> cases b.blackRookQueenMoved <;>
      cases isPieceOf (b.grid 7 4) PieceType.King Colour.BLACK <;>
      cases isPieceOf (b.grid 7 0) PieceType.Rook Colour.BLACK <;>
      cases b.grid 7 1 <;> cases b.grid 7 2 <;> cases b.grid 7 3 <;> simp

/-- A castling test returns as soon as the check test it may call returns. -/
theorem canCastleWith_returns {chk : Colour → Outcome Bool} (b : Board) (c : Colour)
    (h : ∃ r, chk c = Outcome.ok r) :
    (∃ r, canCastleKingSideWith chk b c = Outcome.ok r)
    ∧ (∃ r, canCastleQueenSideWith chk b c = Outcome.ok r) := by
  obtain ⟨r, hr⟩ := h
  constructor
  · unfold canCastleKingSideWith
    cases c <;> simp only [hr, Outcome.bind_ok] <;> split_ifs <;> exact ⟨_, rfl⟩
  · unfold canCastleQueenSideWith
    cases c <;> simp only [hr, Outcome.bind_ok] <;> split_ifs <;> exact ⟨_, rfl⟩

theorem isInCheck_returns {fuel : Nat} {b : Board} (hf : 8 ≤ fuel) (hone : OneKingPerColour b)
    (c : Colour) : ∃ r, b.isInCheck fuel c = Outcome.ok r := by
  obtain ⟨n, rfl⟩ : ∃ n, fuel = n + 1 := ⟨fuel - 1, by omega⟩
  exact (isInCheck_spec n b c (by omega) hone).1

/-- The castling block keeps the moving piece on `src` when the target is on the board. -/
theorem castleRook_src {fuel : Nat} {b b2 : Board} {piece : Piece} {src dst : Position}
    (h : castleRook fuel b piece src dst = Outcome.ok b2) (hp : b.getPiece src = some piece)
    (hd : dst.isValid = true) : b2.getPiece src = some piece := by
  have hs := (Position.isValid_iff _).1 (getPiece_isValid hp)
  have hd2 := (Position.isValid_iff _).1 hd
  by_cases hk : piece.type = PieceType.King ∧ iabs (dst.col - src.col) = 2
  · have habs := hk.2
    rw [iabs_eq] at habs
    by_cases hdir : dst.col > src.col
    · cases hcan : b.canCastleKingSide fuel piece.colour with
      | ok r =>
        cases r
        · unfold castleRook at h
          have hnq : ¬ dst.col < src.col := by omega
          simp only [if_pos hk, if_pos hdir, hcan, Outcome.bind_ok, Bool.false_eq_true, if_false,
            if_neg hnq, Outcome.ok.injEq] at h
          rw [← h]; exact hp
        · by_cases h6 : src.col = 6
          · unfold castleRook at h
            have : src.col - 1 = 5 := by omega
            simp only [if_pos hk, if_pos hdir, hcan, Outcome.bind_ok, if_true, this] at h
            obtain ⟨_, _, h⟩ := Outcome.bind_eq_ok.1 h
            obtain ⟨_, _, h⟩ := Outcome.bind_eq_ok.1 h
            cases h
          · obtain ⟨b2', e, hcells, _⟩ :=
              @castleRook_kingSide fuel b piece src dst hk.1 (by omega) hcan ⟨hs.1, hs.2.1⟩ h6
            rw [e] at h
            simp only [Outcome.ok.injEq] at h
            subst h
            rw [hcells, if_neg, if_neg, hp]
            · intro e; have := congrArg Position.col e; simp only at this; omega
            · intro e; have := congrArg Position.col e; simp only at this; omega
      | noReturn => unfold castleRook at h; simp [hk, hdir, hcan] at h
      | outOfBounds => unfold castleRook at h; simp [hk, hdir, hcan] at h
      | nullDeref => unfold castleRook at h; simp [hk, hdir, hcan] at h
      | useAfterFree => unfold castleRook at h; simp [hk, hdir, hcan] at h
    · have hlt : dst.col < src.col := by omega
      cases hcan : b.canCastleQueenSide fuel piece.colour with
      | ok r =>
        cases r
        · unfold castleRook at h
          simp only [if_pos hk, if_neg hdir, if_pos hlt, hcan, Outcome.bind_ok,
            Bool.false_eq_true, if_false, Outcome.ok.injEq] at h
          rw [← h]; exact hp
        · by_cases h4 : src.col = 4
          · unfold castleRook at h
            have : src.col - 1 = 3 := by omega
            simp only [if_pos hk, if_neg hdir, if_pos hlt, hcan, Outcome.bind_ok, if_true, this,
              Bool.false_eq_true, if_false] at h
            obtain ⟨_, _, h⟩ := Outcome.bind_eq_ok.1 h
            obtain ⟨_, _, h⟩ := Outcome.bind_eq_ok.1 h
            cases h
          · obtain ⟨b2', e, hcells, _⟩ :=
              @castleRook_queenSide fuel b piece src dst hk.1 (by omega) hcan ⟨hs.1, hs.2.1⟩ h4
            rw [e] at h
            simp only [Outcome.ok.injEq] at h
            subst h
            rw [hcells, if_neg, if_neg, hp]
            · intro e; have := congrArg Position.col e; simp only at this; omega
            · intro e; have := congrArg Position.col e; simp only at this; omega
      | noReturn => unfold castleRook at h; simp [hk, hdir, hlt, hcan] at h
      | outOfBounds => unfold castleRook at h; simp [hk, hdir, hlt, hcan] at h
      | nullDeref => unfold castleRook at h; simp [hk, hdir, hlt, hcan] at h
      | useAfterFree => unfold castleRook at h; simp [hk, hdir, hlt, hcan] at h
  · rw [castleRook_other hk] at h
    simp only [Outcome.ok.injEq] at h
    rw [← h]; exact hp

theorem relocate_last {b2 b' : Board} {piece : Piece} {src dst : Position} {promotion : Char}
    (h : relocate b2 piece src dst promotion = Outcome.ok b') :
    b'.lastMoveFrom = src ∧ b'.lastMoveTo = dst := by
  unfold relocate at h
  obtain ⟨b3, _, h⟩ := Outcome.bind_eq_ok.1 h
  obtain ⟨b4, _, h⟩ := Outcome.bind_eq_ok.1 h
  split at h
  · cases h
  · obtain ⟨b5, _, h⟩ := Outcome.bind_eq_ok.1 h
    obtain ⟨b6, _, h⟩ := Outcome.bind_eq_ok.1 h
    simp only [Outcome.ok.injEq] at h
    subst h
    exact ⟨rfl, rfl⟩

theorem relocate_ok_inv {b2 b' : Board} {piece : Piece} {src dst : Position} {promotion : Char}
    (h : relocate b2 piece src dst promotion = Outcome.ok b') (hs : src.isValid = true) :
    dst.isValid = true ∧ src ≠ dst := by
  constructor
  · cases hd : dst.isValid with
    | true => rfl
    | false => rw [relocate_outOfBounds _ _ _ _ _ hd] at h; cases h
  · intro e
    subst e
    rw [relocate_same _ _ _ _ hs] at h
    cases h

/-- After `makeMove` from an occupied square the last-move record holds that move. -/
theorem makeMove_last {fuel : Nat} {b b' : Board} {src dst : Position} {promotion : Char}
    {piece : Piece} (hp : b.getPiece src = some piece)
    (h : b.makeMove fuel src dst promotion = Outcome.ok b') :
    b'.lastMoveFrom = src ∧ b'.lastMoveTo = dst ∧ dst.isValid = true ∧ src ≠ dst := by
  rw [makeMove_blocks hp] at h
  obtain ⟨b1, _, h⟩ := Outcome.bind_eq_ok.1 h
  obtain ⟨b2, _, h⟩ := Outcome.bind_eq_ok.1 h
  have := relocate_ok_inv h (getPiece_isValid hp)
  exact ⟨(relocate_last h).1, (relocate_last h).2, this.1, this.2⟩

theorem enPassantStep_keeps_src {b b1 : Board} {piece : Piece} {src dst : Position}
    (h : enPassantStep b piece src dst = Outcome.ok b1) :
    b1.getPiece src = b.getPiece src := by
  rw [enPassantStep_src h, if_neg]
  rintro ⟨hc, e⟩
  simp only [Bool.and_eq_true] at hc
  have h1 := (isEnPassant_rows hc.2).2.2.1
  have h2 := congrArg Position.col e
  simp only at h2
  rw [iabs_eq] at h1
  omega

/-- With a piece on `src` and an in-range `dst` other than `src`, `makeMove` returns as soon
as its castling block does, and the board it leaves is `settled`. -/
theorem makeMove_eq_settled {fuel : Nat} {b b1 b2 : Board} {src dst : Position}
    {piece : Piece} (promotion : Char) (hp : b.getPiece src = some piece)
    (hd : dst.isValid = true) (hne : src ≠ dst)
    (h1 : enPassantStep b piece src dst = Outcome.ok b1)
    (h2 : castleRook fuel b1 piece src dst = Outcome.ok b2) :
    b.makeMove fuel src dst promotion = Outcome.ok (settled b2 piece src dst promotion) := by
  have hp1 : b1.getPiece src = some piece := by rw [enPassantStep_keeps_src h1, hp]
  have hp2 := castleRook_src h2 hp1 hd
  rw [makeMove_blocks hp, h1, Outcome.bind_ok, h2, Outcome.bind_ok,
    relocate_eq b2 piece src dst promotion hd hne hp2]

theorem enPassantStep_not_pawn {b : Board} {piece : Piece} {src dst : Position}
    (h : piece.type.isPawn = false) : enPassantStep b piece src dst = Outcome.ok b := by
  simp [enPassantStep, h]

theorem arrivalPiece_not_pawn {piece : Piece} (dst : Position) (promotion : Char)
    (h : piece.type.isPawn = false) :
    arrivalPiece piece dst promotion = piece.setHasMoved true := by
  simp [arrivalPiece, h]

theorem homeRank_range (c : Colour) : 1 ≤ homeRank c ∧ homeRank c ≤ 8 := by
  cases c <;> simp [homeRank]

/-- The effect of castling on the cells, king side. -/
theorem makeMove_castle_kingSide (fuel : Nat) (b : Board) (c : Colour) (promotion : Char)
    (hcan : b.canCastleKingSide fuel c = Outcome.ok true) :
    ∃ b', b.makeMove fuel ⟨homeRank c, 5⟩ ⟨homeRank c, 7⟩ promotion = Outcome.ok b'
      ∧ Holds b' ⟨homeRank c, 7⟩ PieceType.King c ∧ Holds b' ⟨homeRank c, 6⟩ PieceType.Rook c
      ∧ b'.getPiece ⟨homeRank c, 5⟩ = none ∧ b'.getPiece ⟨homeRank c, 8⟩ = none
      ∧ ∀ pos, pos ≠ ⟨homeRank c, 5⟩ → pos ≠ ⟨homeRank c, 6⟩ → pos ≠ ⟨homeRank c, 7⟩ →
          pos ≠ ⟨homeRank c, 8⟩ → b'.getPiece pos = b.getPiece pos := by
  obtain ⟨⟨king, hking, hkt, hkc⟩, ⟨rook, hrook, hrt, hrc⟩, h6, h7⟩ :=
    canCastleKingSideWith_true hcan
  have hr := homeRank_range c
  have hnp : king.type.isPawn = false := by rw [hkt]; rfl
  have hs : (⟨homeRank c, 5⟩ : Position).isValid = true := getPiece_isValid hking
  have hd : (⟨homeRank c, 7⟩ : Position).isValid = true := by
    rw [Position.isValid_iff]; simp only; omega
  have hne : (⟨homeRank c, 5⟩ : Position) ≠ ⟨homeRank c, 7⟩ := by
    intro e; have := congrArg Position.col e; simp only at this; omega
  rw [← hkc] at hcan
  obtain ⟨b2, e2, hcells, _⟩ := @castleRook_kingSide fuel b king ⟨homeRank c, 5⟩
    ⟨homeRank c, 7⟩ hkt (by norm_num) hcan hr (by norm_num)
  have hm := makeMove_eq_settled promotion hking hd hne (enPassantStep_not_pawn hnp) e2
  have hget := settled_getPiece b2 king ⟨homeRank c, 5⟩ ⟨homeRank c, 7⟩ promotion hs hd
  simp only at hcells
  have ne : ∀ (r : Int) (x y : Int), x ≠ y → (⟨r, x⟩ : Position) ≠ ⟨r, y⟩ := by
    intro r x y hxy e
    exact hxy (congrArg Position.col e)
  refine ⟨_, hm, ⟨king.setHasMoved true, ?_, hkt, hkc⟩, ⟨rook, ?_, hrt, hrc⟩, ?_, ?_, ?_⟩
  · rw [hget, if_pos rfl, arrivalPiece_not_pawn _ _ hnp]
  · rw [hget, if_neg (ne _ 6 7 (by norm_num)), if_neg (ne _ 6 5 (by norm_num)), hcells,
      if_neg (ne _ 6 8 (by norm_num)), if_pos rfl, hrook]
  · rw [hget, if_neg (ne _ 5 7 (by norm_num)), if_pos rfl]
  · rw [hget, if_neg (ne _ 8 7 (by norm_num)), if_neg (ne _ 8 5 (by norm_num)), hcells,
      if_pos rfl]
  · intro pos n5 n6 n7 n8
    rw [hget, if_neg n7, if_neg n5, hcells, if_neg n8, if_neg n6]

/-- The effect of castling on the cells, queen side. -/
theorem makeMove_castle_queenSide (fuel : Nat) (b : Board) (c : Colour) (promotion : Char)
    (hcan : b.canCastleQueenSide fuel c = Outcome.ok true) :
    ∃ b', b.makeMove fuel ⟨homeRank c, 5⟩ ⟨homeRank c, 3⟩ promotion = Outcome.ok b'
      ∧ Holds b' ⟨homeRank c, 3⟩ PieceType.King c ∧ Holds b' ⟨homeRank c, 4⟩ PieceType.Rook c
      ∧ b'.getPiece ⟨homeRank c, 5⟩ = none ∧ b'.getPiece ⟨homeRank c, 1⟩ = none
      ∧ ∀ pos, pos ≠ ⟨homeRank c, 5⟩ → pos ≠ ⟨homeRank c, 4⟩ → pos ≠ ⟨homeRank c, 3⟩ →
          pos ≠ ⟨homeRank c, 1⟩ → b'.getPiece pos = b.getPiece pos := by
  obtain ⟨⟨king, hking, hkt, hkc⟩, ⟨rook, hrook, hrt, hrc⟩, h2, h3, h4⟩ :=
    canCastleQueenSideWith_true hcan
  have hr := homeRank_range c
  have hnp : king.type.isPawn = false := by rw [hkt]; rfl
  have hs : (⟨homeRank c, 5⟩ : Position).isValid = true := getPiece_isValid hking
  have hd : (⟨homeRank c, 3⟩ : Position).isValid = true := by
    rw [Position.isValid_iff]; simp only; omega
  have hne : (⟨homeRank c, 5⟩ : Position) ≠ ⟨homeRank c, 3⟩ := by
    intro e; have := congrArg Position.col e; simp only at this; omega
  rw [← hkc] at hcan
  obtain ⟨b2, e2, hcells, _⟩ := @castleRook_queenSide fuel b king ⟨homeRank c, 5⟩
    ⟨homeRank c, 3⟩ hkt (by norm_num) hcan hr (by norm_num)
  have hm := makeMove_eq_settled promotion hking hd hne (enPassantStep_not_pawn hnp) e2
  have hget := settled_getPiece b2 king ⟨homeRank c, 5⟩ ⟨homeRank c, 3⟩ promotion hs hd
  simp only at hcells
  have ne : ∀ (r : Int) (x y : Int), x ≠ y → (⟨r, x⟩ : Position) ≠ ⟨r, y⟩ := by
    intro r x y hxy e
    exact hxy (congrArg Position.col e)
  refine ⟨_, hm, ⟨king.setHasMoved true, ?_, hkt, hkc⟩, ⟨rook, ?_, hrt, hrc⟩, ?_, ?_, ?_⟩
  · rw [hget, if_pos rfl, arrivalPiece_not_pawn _ _ hnp]
  · rw [hget, if_neg (ne _ 4 3 (by norm_num)), if_neg (ne _ 4 5 (by norm_num)), hcells,
      if_neg (ne _ 4 1 (by norm_num)), if_pos rfl, hrook]
  · rw [hget, if_neg (ne _ 5 3 (by norm_num)), if_pos rfl]
  · rw [hget, if_neg (ne _ 1 3 (by norm_num)), if_neg (ne _ 1 5 (by norm_num)), hcells,
      if_pos rfl]
  · intro pos n5 n4 n3 n1
    rw [hget, if_neg n3, if_neg n5, hcells, if_neg n1, if_neg n4]

/-! ## Castling moves the rook -/

/-- C11: when `canCastleKingSide(c)` answers `true`, `makeMove` from the e-file square of c's
back rank to the g-file square returns and leaves the king of colour c on g, the rook of
colour c on f, the e- and h-file squares empty and every other cell as it was; when
`canCastleQueenSide(c)` answers `true`, `makeMove` from e to c leaves the king on c, the rook
on d, the a- and e-file squares empty and every other cell as it was. -/
theorem castling_moves_rook (fuel : Nat) (b : Board) (c : Colour) (promotion : Char) :
    (b.canCastleKingSide fuel c = Outcome.ok true →
      ∃ b', b.makeMove fuel ⟨homeRank c, 5⟩ ⟨homeRank c, 7⟩ promotion = Outcome.ok b'
        ∧ Holds b' ⟨homeRank c, 7⟩ PieceType.King c ∧ Holds b' ⟨homeRank c, 6⟩ PieceType.Rook c
        ∧ b'.getPiece ⟨homeRank c, 5⟩ = none ∧ b'.getPiece ⟨homeRank c, 8⟩ = none
        ∧ ∀ pos, pos ≠ ⟨homeRank c, 5⟩ → pos ≠ ⟨homeRank c, 6⟩ → pos ≠ ⟨homeRank c, 7⟩ →
            pos ≠ ⟨homeRank c, 8⟩ → b'.getPiece pos = b.getPiece pos)
    ∧ (b.canCastleQueenSide fuel c = Outcome.ok true →
      ∃ b', b.makeMove fuel ⟨homeRank c, 5⟩ ⟨homeRank c, 3⟩ promotion = Outcome.ok b'
        ∧ Holds b' ⟨homeRank c, 3⟩ PieceType.King c ∧ Holds b' ⟨homeRank c, 4⟩ PieceType.Rook c
        ∧ b'.getPiece ⟨homeRank c, 5⟩ = none ∧ b'.getPiece ⟨homeRank c, 1⟩ = none
        ∧ ∀ pos, pos ≠ ⟨homeRank c, 5⟩ → pos ≠ ⟨homeRank c, 4⟩ → pos ≠ ⟨homeRank c, 3⟩ →
            pos ≠ ⟨homeRank c, 1⟩ → b'.getPiece pos = b.getPiece pos) :=
  ⟨makeMove_castle_kingSide fuel b c promotion, makeMove_castle_queenSide fuel b c promotion⟩

/-- Witness for C11: White king e1 and White rook h1, nothing else: after `makeMove(e1, g1)`
the king is on g1 and the rook on f1; with the rook on a1 instead, after `makeMove(e1, c1)` the
king is on c1 and the rook on d1. -/
theorem castling_moves_rook_witness :
    (castleDemo.canCastleKingSide 8 Colour.WHITE = Outcome.ok true
      ∧ castleDemoQueenSide.canCastleQueenSide 8 Colour.WHITE = Outcome.ok true)
    ∧ (∃ b', castleDemo.makeMove 8 ⟨1, 5⟩ ⟨1, 7⟩ (Char.ofNat 0) = Outcome.ok b'
        ∧ Holds b' ⟨1, 7⟩ PieceType.King Colour.WHITE
        ∧ Holds b' ⟨1, 6⟩ PieceType.Rook Colour.WHITE
        ∧ b'.getPiece ⟨1, 5⟩ = none ∧ b'.getPiece ⟨1, 8⟩ = none
        ∧ ∀ pos, pos ≠ ⟨1, 5⟩ → pos ≠ ⟨1, 6⟩ → pos ≠ ⟨1, 7⟩ → pos ≠ ⟨1, 8⟩ →
            b'.getPiece pos = castleDemo.getPiece pos)
    ∧ (∃ b', castleDemoQueenSide.makeMove 8 ⟨1, 5⟩ ⟨1, 3⟩ (Char.ofNat 0) = Outcome.ok b'
        ∧ Holds b' ⟨1, 3⟩ PieceType.King Colour.WHITE
        ∧ Holds b' ⟨1, 4⟩ PieceType.Rook Colour.WHITE
        ∧ b'.getPiece ⟨1, 5⟩ = none ∧ b'.getPiece ⟨1, 1⟩ = none
        ∧ ∀ pos, pos ≠ ⟨1, 5⟩ → pos ≠ ⟨1, 4⟩ → pos ≠ ⟨1, 3⟩ → pos ≠ ⟨1, 1⟩ →
            b'.getPiece pos = castleDemoQueenSide.getPiece pos) :=
  ⟨⟨by decide, by decide⟩,
    (castling_moves_rook 8 castleDemo Colour.WHITE (Char.ofNat 0)).1 (by decide),
    (castling_moves_rook 8 castleDemoQueenSide Colour.WHITE (Char.ofNat 0)).2 (by decide)⟩

/-! ## En passant -/

/-- C12 (amended): `isEnPassant(src, dst, turn)` answers `true` exactly when the piece on `src`
is a pawn; `dst` is one file away from `src` and one rank ahead in the forward direction of
the colour `turn` (rank + 1 for White, rank - 1 for Black); `dst` is empty; the square on
the rank of `src` and the file of `dst` holds a pawn whose colour is not `turn`; and the last
recorded move ended on that square after starting two ranks away on the pawn start rank of
the enemy of `turn`. The colour of the pawn on `src` itself is never looked at. -/
theorem isEnPassant_iff (b : Board) (src dst : Position) (turn : Colour) :
    b.isEnPassant src dst turn = true ↔
      (∃ p, b.getPiece src = some p ∧ p.type.isPawn = true)
      ∧ iabs (dst.col - src.col) = 1
      ∧ dst.row - src.row = forwardOf turn
      ∧ b.getPiece dst = none
      ∧ (∃ q, b.getPiece ⟨src.row, dst.col⟩ = some q ∧ q.type.isPawn = true
          ∧ q.colour = turn.enemy)
      ∧ b.lastMoveTo = ⟨src.row, dst.col⟩
      ∧ b.lastMoveFrom.row = pawnStartRank turn.enemy
      ∧ iabs (b.lastMoveFrom.row - b.lastMoveTo.row) = 2 := by
  rw [isEnPassant_spec]
  cases turn
  · simp only [forwardOf, pawnStartRank, Colour.enemy, if_true]
    constructor
    · rintro ⟨h1, h2, h3, h4, ⟨q, hq, hqp, hqc⟩, h6, h7, h8⟩
      refine ⟨h1, h2, h3, h4, ⟨q, hq, hqp, ?_⟩, h7, h6, h8⟩
      cases hc : q.colour
      · exact absurd hc hqc
      · rfl
    · rintro ⟨h1, h2, h3, h4, ⟨q, hq, hqp, hqc⟩, h6, h7, h8⟩
      refine ⟨h1, h2, h3, h4, ⟨q, hq, hqp, ?_⟩, h7, h6, h8⟩
      rw [hqc]
      decide
  · simp only [forwardOf, pawnStartRank, Colour.enemy]
    constructor
    · rintro ⟨h1, h2, h3, h4, ⟨q, hq, hqp, hqc⟩, h6, h7, h8⟩
      refine ⟨h1, h2, h3, h4, ⟨q, hq, hqp, ?_⟩, h7, h6, h8⟩
      cases hc : q.colour
      · rfl
      · exact absurd hc hqc
    · rintro ⟨h1, h2, h3, h4, ⟨q, hq, hqp, hqc⟩, h6, h7, h8⟩
      refine ⟨h1, h2, h3, h4, ⟨q, hq, hqp, ?_⟩, h7, h6, h8⟩
      rw [hqc]
      decide

/-- Witness for C12 (amended): on `windowOpen`, right after White's e2-e4, all the conditions
hold for the Black pawn d4 and the target e3. -/
theorem isEnPassant_iff_witness :
    windowOpen.isEnPassant ⟨4, 4⟩ ⟨3, 5⟩ Colour.BLACK = true :=
  (isEnPassant_iff windowOpen ⟨4, 4⟩ ⟨3, 5⟩ Colour.BLACK).2
    ⟨⟨_, rfl, rfl⟩, by decide, by decide, rfl, ⟨_, rfl, rfl, rfl⟩, rfl, rfl, by decide⟩

/-- C12 (counterexample): Black pawns on d5 and e5, the latter having just made its double
step from e7. Asked with `turn` White, `isEnPassant(d5, e6, White)` answers `true`, although
the pawn on d5 is Black (e6 lies behind it: its forward direction is rank - 1) and the pawn
beside it on e5 has its own colour. -/
theorem isEnPassant_ignores_pawn_colour :
    blackDoubleStep.isEnPassant ⟨5, 4⟩ ⟨6, 5⟩ Colour.WHITE = true
    ∧ blackDoubleStep.getPiece ⟨5, 4⟩ = some ⟨PieceType.Pawn false, Colour.BLACK, false⟩
    ∧ blackDoubleStep.getPiece ⟨5, 5⟩ = some ⟨PieceType.Pawn false, Colour.BLACK, true⟩
    ∧ (6 : Int) - 5 ≠ forwardOf Colour.BLACK := by
  refine ⟨by decide, rfl, rfl, by decide⟩

theorem isEnPassant_false_of_lastMove {b : Board} {src dst : Position} (turn : Colour)
    (h : b.lastMoveTo ≠ ⟨src.row, dst.col⟩) : b.isEnPassant src dst turn = false := by
  cases he : b.isEnPassant src dst turn with
  | false => rfl
  | true =>
    have := (isEnPassant_spec b src dst turn).1 he
    exact absurd this.2.2.2.2.2.2.1 h

theorem Pawn.isValidMove_enPassant_only {b : Board} {src dst : Position} (colour : Colour)
    (hasMoved : Bool) (hempty : b.getPiece dst = none) (hcol : dst.col ≠ src.col)
    (hep : b.isEnPassant src dst colour = false) :
    Pawn.isValidMove colour hasMoved src dst b = false := by
  have h0 : ¬ iabs (dst.col - src.col) = 0 := by
    rw [iabs_eq]; omega
  simp only [Pawn.isValidMove, if_neg h0, hempty, hep, Bool.false_eq_true, if_false, ite_self]

/-- C13: the en passant window lasts one move. After any `makeMove(x, y, p)` from an occupied
square, `isEnPassant(src, dst, turn)` answers `false` for every `src`, `dst`, `turn` for which
`y` is not the square on the rank of `src` and the file of `dst`; and `Pawn::isValidMove`
rejects every diagonal step of a pawn from `src` onto the empty square `dst`, which is what
an en-passant capture of a pawn standing anywhere else than on `y` would be. -/
theorem enPassant_window (fuel : Nat) (b b' : Board) (x y : Position) (p : Char)
    (piece : Piece) (src dst : Position) (turn : Colour)
    (hx : b.getPiece x = some piece) (hm : b.makeMove fuel x y p = Outcome.ok b')
    (hy : y ≠ ⟨src.row, dst.col⟩) :
    b'.isEnPassant src dst turn = false
    ∧ ∀ hasMoved, b'.getPiece dst = none → dst.col ≠ src.col →
        Pawn.isValidMove turn hasMoved src dst b' = false := by
  have hl := (makeMove_last hx hm).2.1
  have he := @isEnPassant_false_of_lastMove b' src dst turn
    (by rw [hl]; exact hy)
  exact ⟨he, fun hasMoved hempty hcol =>
    Pawn.isValidMove_enPassant_only turn hasMoved hempty hcol he⟩

/-- Witness for C13: kings e1 and e8, White pawn e2, Black pawn d4. Right after White's e2-e4
`isEnPassant(d4, e3, Black)` is `true`; after Black's Ke8-e7 and White's Ke1-d1 it is `false`
and the pawn's own rule rejects d4-e3. -/
theorem enPassant_window_witness :
    (windowBlackMoved.getPiece ⟨1, 5⟩ = some ⟨PieceType.King, Colour.WHITE, false⟩
      ∧ windowBlackMoved.makeMove 8 ⟨1, 5⟩ ⟨1, 4⟩ (Char.ofNat 0) = Outcome.ok windowClosed
      ∧ (⟨1, 4⟩ : Position) ≠ ⟨4, 5⟩)
    ∧ windowOpen.isEnPassant ⟨4, 4⟩ ⟨3, 5⟩ Colour.BLACK = true
    ∧ windowClosed.isEnPassant ⟨4, 4⟩ ⟨3, 5⟩ Colour.BLACK = false
    ∧ ∀ hasMoved, windowClosed.getPiece ⟨3, 5⟩ = none → (5 : Int) ≠ 4 →
        Pawn.isValidMove Colour.BLACK hasMoved ⟨4, 4⟩ ⟨3, 5⟩ windowClosed = false :=
  ⟨⟨rfl, rfl, by decide⟩, by decide,
    enPassant_window 8 windowBlackMoved windowClosed ⟨1, 5⟩ ⟨1, 4⟩ (Char.ofNat 0)
      ⟨PieceType.King, Colour.WHITE, false⟩ ⟨4, 4⟩ ⟨3, 5⟩ Colour.BLACK rfl rfl (by decide)⟩

theorem arrivalPiece_off_rank {piece : Piece} {dst : Position} (promotion : Char)
    (h : isPromotionRank piece.colour dst = false) :
    arrivalPiece piece dst promotion = piece.setHasMoved true := by
  simp [arrivalPiece, h]

theorem isPromotionRank_iff (c : Colour) (pos : Position) :
    isPromotionRank c pos = true ↔ pos.row = farRank c := by
  cases c <;> simp [isPromotionRank, farRank]

theorem isPawn_not_king {piece : Piece} (h : piece.type.isPawn = true) :
    ¬(piece.type = PieceType.King) := by
  intro e
  rw [e] at h
  cases h

/-- The effect of an en-passant capture on the cells. -/
theorem makeMove_enPassant {fuel : Nat} {b : Board} {src dst : Position} (promotion : Char)
    {piece : Piece} (hp : b.getPiece src = some piece)
    (hep : b.isEnPassant src dst piece.colour = true) :
    ∃ b', b.makeMove fuel src dst promotion = Outcome.ok b'
      ∧ b'.getPiece ⟨src.row, dst.col⟩ = none
      ∧ b'.getPiece src = none
      ∧ b'.getPiece dst = some (piece.setHasMoved true)
      ∧ ∀ pos, pos ≠ ⟨src.row, dst.col⟩ → pos ≠ src → pos ≠ dst →
          b'.getPiece pos = b.getPiece pos := by
  obtain ⟨hsr, hdr, hcol, hev, hdv⟩ := isEnPassant_rows hep
  obtain ⟨⟨p0, hp0, hpawn0⟩, -⟩ := (isEnPassant_spec b src dst piece.colour).1 hep
  have hpawn : piece.type.isPawn = true := by
    rw [hp] at hp0
    cases hp0
    exact hpawn0
  have hs := getPiece_isValid hp
  have hne : src ≠ dst := by
    intro e
    rw [e, iabs_eq] at hcol
    omega
  have hnd : (⟨src.row, dst.col⟩ : Position) ≠ dst := by
    intro e
    have := congrArg Position.row e
    simp only at this
    rw [hsr, hdr] at this
    split_ifs at this <;> omega
  have hns : (⟨src.row, dst.col⟩ : Position) ≠ src := by
    intro e
    have := congrArg Position.col e
    simp only at this
    rw [this, iabs_eq] at hcol
    omega
  obtain ⟨b1, h1⟩ : ∃ b1, enPassantStep b piece src dst = Outcome.ok b1 :=
    ⟨_, enPassantStep_eq b piece src dst⟩
  have hcells := enPassantStep_src h1
  have hcond : (piece.type.isPawn && b.isEnPassant src dst piece.colour) = true := by
    rw [hpawn, hep]; rfl
  have h2 : castleRook fuel b1 piece src dst = Outcome.ok b1 :=
    castleRook_other (fun hk => isPawn_not_king hpawn hk.1)
  have hm := makeMove_eq_settled promotion hp hdv hne h1 h2
  have hget := settled_getPiece b1 piece src dst promotion hs hdv
  have hoff : isPromotionRank piece.colour dst = false := by
    cases hr : isPromotionRank piece.colour dst with
    | false => rfl
    | true =>
      rw [isPromotionRank_iff] at hr
      rw [hr] at hdr
      revert hdr
      cases piece.colour <;> simp [farRank]
  refine ⟨_, hm, ?_, ?_, ?_, ?_⟩
  · rw [hget, if_neg hnd, if_neg hns, hcells, if_pos ⟨hcond, rfl⟩]
  · rw [hget, if_neg hne, if_pos rfl]
  · rw [hget, if_pos rfl, arrivalPiece_off_rank promotion hoff]
  · intro pos n1 n2 n3
    rw [hget, if_neg n3, if_neg n2, hcells, if_neg (fun hh => n1 hh.2)]

/-- C14: when `isEnPassant(src, dst, colour of the pawn on src)` answers `true`,
`makeMove(src, dst, p)` returns and leaves the square on the rank of `src` and the file of
`dst` empty, `src` empty, on `dst` the pawn that moved (a pawn of the mover's colour), and
every other cell as it was. -/
theorem enPassant_capture (fuel : Nat) (b : Board) (src dst : Position) (promotion : Char)
    (piece : Piece) (hp : b.getPiece src = some piece)
    (hep : b.isEnPassant src dst piece.colour = true) :
    ∃ b', b.makeMove fuel src dst promotion = Outcome.ok b'
      ∧ b'.getPiece ⟨src.row, dst.col⟩ = none
      ∧ b'.getPiece src = none
      ∧ (∃ q, b'.getPiece dst = some q ∧ q.type.isPawn = true ∧ q.colour = piece.colour)
      ∧ ∀ pos, pos ≠ ⟨src.row, dst.col⟩ → pos ≠ src → pos ≠ dst →
          b'.getPiece pos = b.getPiece pos := by
  obtain ⟨b', hm, h1, h2, h3, h4⟩ := @makeMove_enPassant fuel b src dst promotion piece hp hep
  obtain ⟨⟨p0, hp0, hpawn0⟩, -⟩ := (isEnPassant_spec b src dst piece.colour).1 hep
  rw [hp] at hp0
  cases hp0
  exact ⟨b', hm, h1, h2, ⟨_, h3, hpawn0, rfl⟩, h4⟩

/-- Witness for C14: on `enPassantBoard` the Black pawn d4 captures the White pawn e4 en
passant: e4 and d4 are empty afterwards and the Black pawn stands on e3. -/
theorem enPassant_capture_witness :
    (enPassantBoard.getPiece ⟨4, 4⟩ = some ⟨PieceType.Pawn false, Colour.BLACK, false⟩
      ∧ enPassantBoard.isEnPassant ⟨4, 4⟩ ⟨3, 5⟩ Colour.BLACK = true)
    ∧ ∃ b', enPassantBoard.makeMove 8 ⟨4, 4⟩ ⟨3, 5⟩ (Char.ofNat 0) = Outcome.ok b'
      ∧ b'.getPiece ⟨4, 5⟩ = none
      ∧ b'.getPiece ⟨4, 4⟩ = none
      ∧ (∃ q, b'.getPiece ⟨3, 5⟩ = some q ∧ q.type.isPawn = true ∧ q.colour = Colour.BLACK)
      ∧ ∀ pos, pos ≠ ⟨4, 5⟩ → pos ≠ ⟨4, 4⟩ → pos ≠ ⟨3, 5⟩ →
          b'.getPiece pos = enPassantBoard.getPiece pos :=
  ⟨⟨rfl, by decide⟩,
    enPassant_capture 8 enPassantBoard ⟨4, 4⟩ ⟨3, 5⟩ (Char.ofNat 0)
      ⟨PieceType.Pawn false, Colour.BLACK, false⟩ rfl (by decide)⟩

/-! ## Promotion -/

theorem promotionType_of_mem {symbol : Char} {t : PieceType}
    (h : (symbol, t) ∈ promotionSymbols) :
    promotionType symbol = some t ∧ symbol ≠ Char.ofNat 0 ∧ t.isPawn = false := by
  simp only [promotionSymbols, List.mem_cons, Prod.mk.injEq, List.mem_singleton,
    List.not_mem_nil, or_false] at h
  rcases h with h | h | h | h | h | h | h | h <;> obtain ⟨rfl, rfl⟩ := h <;>
    exact ⟨by decide, by decide, rfl⟩

theorem promotionType_none {symbol : Char}
    (h : symbol ∉ ['Q', 'R', 'B', 'N', 'q', 'r', 'b', 'n']) : promotionType symbol = none := by
  simp only [List.mem_cons, List.mem_singleton, List.not_mem_nil, or_false, not_or] at h
  obtain ⟨h1, h2, h3, h4, h5, h6, h7, h8⟩ := h
  simp [promotionType, h1, h2, h3, h4, h5, h6, h7, h8]

/-- A move of a non-king piece onto another in-range square returns the board `settled`. -/
theorem makeMove_not_king {fuel : Nat} {b : Board} {src dst : Position} (promotion : Char)
    {piece : Piece} (hp : b.getPiece src = some piece) (hk : ¬(piece.type = PieceType.King))
    (hd : dst.isValid = true) (hne : src ≠ dst) :
    ∃ b1, enPassantStep b piece src dst = Outcome.ok b1
      ∧ b.makeMove fuel src dst promotion = Outcome.ok (settled b1 piece src dst promotion) := by
  refine ⟨_, enPassantStep_eq b piece src dst, ?_⟩
  exact makeMove_eq_settled promotion hp hd hne (enPassantStep_eq b piece src dst)
    (castleRook_other (fun h => hk h.1))

/-- C15 (amended): with a pawn of colour c on `src`, an in-range `dst` other than `src` on c's
far rank (rank 8 for White, rank 1 for Black) and a promotion symbol among Q, R, B, N in
either letter case, `makeMove(src, dst, symbol)` returns and leaves on `dst` a newly created
piece of the requested type and of colour c, and `src` empty. -/
theorem promotion_replaces_pawn (fuel : Nat) (b : Board) (src dst : Position) (symbol : Char)
    (t : PieceType) (piece : Piece) (hp : b.getPiece src = some piece)
    (hpawn : piece.type.isPawn = true) (hd : dst.isValid = true)
    (hrank : dst.row = farRank piece.colour) (hsym : (symbol, t) ∈ promotionSymbols)
    (hne : src ≠ dst) :
    ∃ b', b.makeMove fuel src dst symbol = Outcome.ok b'
      ∧ b'.getPiece dst = some (Piece.create t piece.colour)
      ∧ Holds b' dst t piece.colour
      ∧ b'.getPiece src = none := by
  obtain ⟨b1, _, hm⟩ := @makeMove_not_king fuel b src dst symbol piece hp
    (isPawn_not_king hpawn) hd hne
  have hget := settled_getPiece b1 piece src dst symbol (getPiece_isValid hp) hd
  obtain ⟨hty, hnz, hnp⟩ := promotionType_of_mem hsym
  have harr : arrivalPiece piece dst symbol = Piece.create t piece.colour := by
    have hr := (isPromotionRank_iff piece.colour dst).2 hrank
    simp [arrivalPiece, hpawn, hr, hnz, hty]
  have hcell : (settled b1 piece src dst symbol).getPiece dst
      = some (Piece.create t piece.colour) := by
    rw [hget, if_pos rfl, harr]
  refine ⟨_, hm, hcell, ⟨_, hcell, ?_, rfl⟩, ?_⟩
  · revert hnp
    cases t <;> simp [Piece.create, PieceType.isPawn]
  · rw [hget, if_neg hne, if_pos rfl]

/-- Witness for C15 (amended): the White pawn a7 captures on b8 and asks for `n`: a White
knight stands on b8 afterwards and a7 is empty. -/
theorem promotion_replaces_pawn_witness :
    (promotionDemo.getPiece ⟨7, 1⟩ = some ⟨PieceType.Pawn false, Colour.WHITE, false⟩
      ∧ (PieceType.Pawn false).isPawn = true ∧ (⟨8, 2⟩ : Position).isValid = true
      ∧ (8 : Int) = farRank Colour.WHITE ∧ ('n', PieceType.Knight) ∈ promotionSymbols
      ∧ (⟨7, 1⟩ : Position) ≠ ⟨8, 2⟩)
    ∧ ∃ b', promotionDemo.makeMove 8 ⟨7, 1⟩ ⟨8, 2⟩ 'n' = Outcome.ok b'
      ∧ b'.getPiece ⟨8, 2⟩ = some (Piece.create PieceType.Knight Colour.WHITE)
      ∧ Holds b' ⟨8, 2⟩ PieceType.Knight Colour.WHITE
      ∧ b'.getPiece ⟨7, 1⟩ = none :=
  ⟨⟨rfl, rfl, rfl, rfl, by decide, by decide⟩,
    promotion_replaces_pawn 8 promotionDemo ⟨7, 1⟩ ⟨8, 2⟩ 'n' PieceType.Knight
      ⟨PieceType.Pawn false, Colour.WHITE, false⟩ rfl rfl rfl rfl (by decide) (by decide)⟩

/-- C15 (counterexample): a White pawn stands on a8 (`addPiece` accepts it) and `dst` is a8
itself, an in-range square of White's far rank. `makeMove(a8, a8, 'Q')` empties the cell and
then calls `setHasMoved` through the null `grid[to]`; no queen is placed. -/
theorem promotion_onto_own_square :
    pawnOnFarRank.getPiece ⟨8, 1⟩ = some ⟨PieceType.Pawn false, Colour.WHITE, false⟩
    ∧ ∀ fuel, pawnOnFarRank.makeMove fuel ⟨8, 1⟩ ⟨8, 1⟩ 'Q' = Outcome.nullDeref :=
  ⟨rfl, fun _ => rfl⟩

theorem arrivalPiece_plain {piece : Piece} {dst : Position} {p : Char}
    (h : piece.type.isPawn = false ∨ dst.row ≠ farRank piece.colour
      ∨ p ∉ ['Q', 'R', 'B', 'N', 'q', 'r', 'b', 'n']) :
    arrivalPiece piece dst p = piece.setHasMoved true := by
  rcases h with h | h | h
  · exact arrivalPiece_not_pawn dst p h
  · apply arrivalPiece_off_rank
    cases hr : isPromotionRank piece.colour dst with
    | false => rfl
    | true => exact absurd ((isPromotionRank_iff _ _).1 hr) h
  · simp only [arrivalPiece, promotionType_none h]
    split <;> rfl

theorem arrivalPiece_zero (piece : Piece) (dst : Position) :
    arrivalPiece piece dst (Char.ofNat 0) = piece.setHasMoved true := by
  simp [arrivalPiece]

theorem settled_congr (b2 : Board) (piece : Piece) (src dst : Position) {p q : Char}
    (h : arrivalPiece piece dst p = arrivalPiece piece dst q) :
    settled b2 piece src dst p = settled b2 piece src dst q := by
  simp only [settled, h]

/-- A promotion symbol that does not qualify changes nothing in what `makeMove` does. -/
theorem makeMove_promotion_ignored {fuel : Nat} {b : Board} {src dst : Position} {p : Char}
    {piece : Piece} (hp : b.getPiece src = some piece)
    (h : piece.type.isPawn = false ∨ dst.row ≠ farRank piece.colour
      ∨ p ∉ ['Q', 'R', 'B', 'N', 'q', 'r', 'b', 'n']) :
    b.makeMove fuel src dst p = b.makeMove fuel src dst (Char.ofNat 0) := by
  rw [makeMove_blocks hp, makeMove_blocks hp, enPassantStep_eq, Outcome.bind_ok,
    Outcome.bind_ok]
  have hs := getPiece_isValid hp
  generalize hb1 : (if (piece.type.isPawn && b.isEnPassant src dst piece.colour) = true
    then b.setGrid (idx (src.row - 1)) (idx (dst.col - 1)) none else b) = b1
  have h1 : enPassantStep b piece src dst = Outcome.ok b1 := by
    rw [enPassantStep_eq, hb1]
  have hp1 : b1.getPiece src = some piece := by rw [enPassantStep_keeps_src h1, hp]
  cases h2 : castleRook fuel b1 piece src dst with
  | ok b2 =>
    simp only [Outcome.bind_ok]
    cases hd : dst.isValid with
    | false => rw [relocate_outOfBounds _ _ _ _ _ hd, relocate_outOfBounds _ _ _ _ _ hd]
    | true =>
      by_cases hne : src = dst
      · subst hne
        rw [relocate_same _ _ _ _ hs, relocate_same _ _ _ _ hs]
      · have hp2 := castleRook_src h2 hp1 hd
        rw [relocate_eq _ _ _ _ _ hd hne hp2, relocate_eq _ _ _ _ _ hd hne hp2]
        congr 1
        apply settled_congr
        rw [arrivalPiece_plain h, arrivalPiece_zero]
  | noReturn => rfl
  | outOfBounds => rfl
  | nullDeref => rfl
  | useAfterFree => rfl

/-- The piece that arrives on `dst` is the one that stood on `src`, marked as moved, unless
the promotion block replaced it. -/
theorem makeMove_arrival {fuel : Nat} {b b' : Board} {src dst : Position} {p : Char}
    {piece : Piece} (hp : b.getPiece src = some piece)
    (hm : b.makeMove fuel src dst p = Outcome.ok b') :
    b'.getPiece dst = some (arrivalPiece piece dst p) ∧ b'.getPiece src = none := by
  obtain ⟨_, _, hd, hne⟩ := makeMove_last hp hm
  rw [makeMove_blocks hp] at hm
  obtain ⟨b1, h1, hm⟩ := Outcome.bind_eq_ok.1 hm
  obtain ⟨b2, h2, hm⟩ := Outcome.bind_eq_ok.1 hm
  have hp1 : b1.getPiece src = some piece := by rw [enPassantStep_keeps_src h1, hp]
  have hp2 := castleRook_src h2 hp1 hd
  rw [relocate_eq _ _ _ _ _ hd hne hp2] at hm
  simp only [Outcome.ok.injEq] at hm
  subst hm
  have hget := settled_getPiece b2 piece src dst p (getPiece_isValid hp) hd
  constructor
  · rw [hget, if_pos rfl]
  · rw [hget, if_neg hne, if_pos rfl]

/-- On a board with one king per colour the castling block returns. -/
theorem castleRook_returns {fuel : Nat} {b : Board} {piece : Piece} {src : Position}
    (dst : Position) (hf : 8 ≤ fuel) (hone : OneKingPerColour b)
    (hp : b.getPiece src = some piece) :
    ∃ b2, castleRook fuel b piece src dst = Outcome.ok b2 := by
  have hs := (Position.isValid_iff _).1 (getPiece_isValid hp)
  by_cases hk : piece.type = PieceType.King ∧ iabs (dst.col - src.col) = 2
  · have habs := hk.2
    rw [iabs_eq] at habs
    have hret := @canCastleWith_returns (fun c => b.isInCheck fuel c) b piece.colour
      (isInCheck_returns hf hone piece.colour)
    have hhome : ∀ col, Holds b ⟨homeRank piece.colour, col⟩ PieceType.King piece.colour →
        src.col = col := by
      intro col hh
      have := hone piece.colour _ _ hh ⟨piece, hp, hk.1, rfl⟩
      rw [← this]
    by_cases hdir : dst.col > src.col
    · obtain ⟨r, hr⟩ := hret.1
      cases r
      · refine ⟨b, ?_⟩
        have hnq : ¬ dst.col < src.col := by omega
        have hr2 : b.canCastleKingSide fuel piece.colour = Outcome.ok false := hr
        unfold castleRook
        simp only [if_pos hk, if_pos hdir, hr2, Outcome.bind_ok, Bool.false_eq_true, if_false,
          if_neg hnq]
      · have hcol := hhome 5 (canCastleKingSideWith_true hr).1
        obtain ⟨b2, e, _⟩ := @castleRook_kingSide fuel b piece src dst hk.1
          (by omega) hr ⟨hs.1, hs.2.1⟩ (by omega)
        exact ⟨b2, e⟩
    · have hlt : dst.col < src.col := by omega
      obtain ⟨r, hr⟩ := hret.2
      cases r
      · refine ⟨b, ?_⟩
        have hr2 : b.canCastleQueenSide fuel piece.colour = Outcome.ok false := hr
        unfold castleRook
        simp only [if_pos hk, if_neg hdir, if_pos hlt, hr2, Outcome.bind_ok,
          Bool.false_eq_true, if_false]
      · have hcol := hhome 5 (canCastleQueenSideWith_true hr).1
        obtain ⟨b2, e, _⟩ := @castleRook_queenSide fuel b piece src dst hk.1
          (by omega) hr ⟨hs.1, hs.2.1⟩ (by omega)
        exact ⟨b2, e⟩
  · exact ⟨b, castleRook_other hk⟩

/-- On a board with one king per colour, `makeMove` from an occupied square onto another
in-range square returns. -/
theorem makeMove_returns {fuel : Nat} {b : Board} {src dst : Position} (promotion : Char)
    {piece : Piece} (hf : 8 ≤ fuel) (hone : OneKingPerColour b)
    (hp : b.getPiece src = some piece) (hd : dst.isValid = true) (hne : src ≠ dst) :
    ∃ b', b.makeMove fuel src dst promotion = Outcome.ok b' := by
  by_cases hk : piece.type = PieceType.King
  · have hnp : piece.type.isPawn = false := by rw [hk]; rfl
    obtain ⟨b2, h2⟩ := castleRook_returns dst hf hone hp
    exact ⟨_, makeMove_eq_settled promotion hp hd hne (enPassantStep_not_pawn hnp) h2⟩
  · obtain ⟨b1, _, hm⟩ := @makeMove_not_king fuel b src dst promotion piece hp hk hd hne
    exact ⟨_, hm⟩

theorem startingBoard_oneKing : OneKingPerColour startingBoard := by
  apply oneKing_of_unique
  intro c
  cases c
  · exact ⟨(0, 4), by decide⟩
  · exact ⟨(7, 4), by decide⟩


/-- C16: a promotion request on a non-qualifying move has no effect. With a piece on `src`,
if the mover is not a pawn, or `dst` is not on the mover's far rank, or the symbol is none of
Q, R, B, N, q, r, b, n, then `makeMove(src, dst, p)` does exactly what
`makeMove(src, dst, no promotion)` does (the same board, or the same failure); whenever it
returns, the piece on `dst` is the mover itself, so a moved pawn is still a pawn; and it does
return when `dst` is in range and differs from `src` on a board with at most one king of each
colour. -/
theorem promotion_ignored (fuel : Nat) (b : Board) (src dst : Position) (p : Char)
    (piece : Piece) (hp : b.getPiece src = some piece)
    (h : piece.type.isPawn = false ∨ dst.row ≠ farRank piece.colour
      ∨ p ∉ ['Q', 'R', 'B', 'N', 'q', 'r', 'b', 'n']) :
    b.makeMove fuel src dst p = b.makeMove fuel src dst (Char.ofNat 0)
    ∧ (∀ b', b.makeMove fuel src dst p = Outcome.ok b' →
        b'.getPiece dst = some (piece.setHasMoved true))
    ∧ (8 ≤ fuel → OneKingPerColour b → dst.isValid = true → src ≠ dst →
        ∃ b', b.makeMove fuel src dst p = Outcome.ok b'
          ∧ b.makeMove fuel src dst (Char.ofNat 0) = Outcome.ok b'
          ∧ b'.getPiece dst = some (piece.setHasMoved true)) := by
  have heq := @makeMove_promotion_ignored fuel b src dst p piece hp h
  have harr : ∀ b', b.makeMove fuel src dst p = Outcome.ok b' →
      b'.getPiece dst = some (piece.setHasMoved true) := by
    intro b' hm
    rw [(makeMove_arrival hp hm).1, arrivalPiece_plain h]
  refine ⟨heq, harr, fun hf hone hd hne => ?_⟩
  obtain ⟨b', hm⟩ := @makeMove_returns fuel b src dst p piece hf hone hp hd hne
  exact ⟨b', hm, by rw [← heq, hm], harr b' hm⟩

/-- Witness for C16: on the starting position e2-e4 with the symbol `Q` returns the board of
e2-e4 without promotion, and the pawn on e4 is still a pawn. -/
theorem promotion_ignored_witness :
    (startingBoard.getPiece ⟨2, 5⟩ = some ⟨PieceType.Pawn false, Colour.WHITE, false⟩
      ∧ ((PieceType.Pawn false).isPawn = false ∨ (4 : Int) ≠ farRank Colour.WHITE
        ∨ 'Q' ∉ ['Q', 'R', 'B', 'N', 'q', 'r', 'b', 'n'])
      ∧ 8 ≤ 8 ∧ OneKingPerColour startingBoard ∧ (⟨4, 5⟩ : Position).isValid = true
      ∧ (⟨2, 5⟩ : Position) ≠ ⟨4, 5⟩)
    ∧ ∃ b', startingBoard.makeMove 8 ⟨2, 5⟩ ⟨4, 5⟩ 'Q' = Outcome.ok b'
        ∧ startingBoard.makeMove 8 ⟨2, 5⟩ ⟨4, 5⟩ (Char.ofNat 0) = Outcome.ok b'
        ∧ b'.getPiece ⟨4, 5⟩ = some ⟨PieceType.Pawn false, Colour.WHITE, true⟩ :=
  ⟨⟨rfl, Or.inr (Or.inl (by decide)), le_refl 8, startingBoard_oneKing, rfl, by decide⟩,
    (promotion_ignored 8 startingBoard ⟨2, 5⟩ ⟨4, 5⟩ 'Q'
      ⟨PieceType.Pawn false, Colour.WHITE, false⟩ rfl (Or.inr (Or.inl (by decide)))).2.2
      (le_refl 8) startingBoard_oneKing rfl (by decide)⟩

/-! ## The last-move record and out-of-range input -/

/-- C17 (amended): a `makeMove` whose `src` square is empty or out of range changes nothing
at all; a `makeMove` from an occupied square that returns leaves `lastMoveFrom = src` and
`lastMoveTo = dst`; and it does return whenever `dst` is in range and differs from `src` on
a board with at most one king of each colour. -/
theorem makeMove_records_move (fuel : Nat) (b : Board) (src dst : Position) (p : Char) :
    (b.getPiece src = none → b.makeMove fuel src dst p = Outcome.ok b)
    ∧ (∀ piece b', b.getPiece src = some piece → b.makeMove fuel src dst p = Outcome.ok b' →
        b'.lastMoveFrom = src ∧ b'.lastMoveTo = dst)
    ∧ (∀ piece, b.getPiece src = some piece → 8 ≤ fuel → OneKingPerColour b →
        dst.isValid = true → src ≠ dst →
        ∃ b', b.makeMove fuel src dst p = Outcome.ok b'
          ∧ b'.lastMoveFrom = src ∧ b'.lastMoveTo = dst) := by
  refine ⟨fun h => makeMove_empty h, fun piece b' hp hm => ?_, ?_⟩
  · exact ⟨(makeMove_last hp hm).1, (makeMove_last hp hm).2.1⟩
  · intro piece hp hf hone hd hne
    obtain ⟨b', hm⟩ := @makeMove_returns fuel b src dst p piece hf hone hp hd hne
    exact ⟨b', hm, (makeMove_last hp hm).1, (makeMove_last hp hm).2.1⟩

/-- Witness for C17 (amended): on the starting position `makeMove(e2, e4)` records the move,
and `makeMove` from the empty square e4 or from the out-of-range position (0, 5) changes
nothing. -/
theorem makeMove_records_move_witness :
    (startingBoard.getPiece ⟨4, 5⟩ = none ∧ startingBoard.getPiece ⟨0, 5⟩ = none
      ∧ startingBoard.getPiece ⟨2, 5⟩ = some ⟨PieceType.Pawn false, Colour.WHITE, false⟩
      ∧ 8 ≤ 8 ∧ OneKingPerColour startingBoard ∧ (⟨4, 5⟩ : Position).isValid = true
      ∧ (⟨2, 5⟩ : Position) ≠ ⟨4, 5⟩)
    ∧ startingBoard.makeMove 8 ⟨4, 5⟩ ⟨5, 5⟩ (Char.ofNat 0) = Outcome.ok startingBoard
    ∧ startingBoard.makeMove 8 ⟨0, 5⟩ ⟨4, 5⟩ (Char.ofNat 0) = Outcome.ok startingBoard
    ∧ ∃ b', startingBoard.makeMove 8 ⟨2, 5⟩ ⟨4, 5⟩ (Char.ofNat 0) = Outcome.ok b'
        ∧ b'.lastMoveFrom = ⟨2, 5⟩ ∧ b'.lastMoveTo = ⟨4, 5⟩ :=
  ⟨⟨rfl, rfl, rfl, le_refl 8, startingBoard_oneKing, rfl, by decide⟩,
    (makeMove_records_move 8 startingBoard ⟨4, 5⟩ ⟨5, 5⟩ (Char.ofNat 0)).1 rfl,
    (makeMove_records_move 8 startingBoard ⟨0, 5⟩ ⟨4, 5⟩ (Char.ofNat 0)).1 rfl,
    (makeMove_records_move 8 startingBoard ⟨2, 5⟩ ⟨4, 5⟩ (Char.ofNat 0)).2.2
      ⟨PieceType.Pawn false, Colour.WHITE, false⟩ rfl (le_refl 8) startingBoard_oneKing rfl
      (by decide)⟩

/-- C17 (counterexample): with in-range squares and a piece on `src`, `makeMove` need not
leave a board at all. On the starting position `makeMove(a1, a1)` empties a1 and then calls
`setHasMoved` through the null `grid[to]`; on `twoKingsBoard` the two-file king move a1-c1
enters `canCastleKingSide`, whose call of `isInCheck` never returns. -/
theorem makeMove_without_result :
    (startingBoard.getPiece ⟨1, 1⟩ = some ⟨PieceType.Rook, Colour.WHITE, false⟩
      ∧ ∀ fuel, startingBoard.makeMove fuel ⟨1, 1⟩ ⟨1, 1⟩ (Char.ofNat 0) = Outcome.nullDeref)
    ∧ (twoKingsBoard.getPiece ⟨1, 1⟩ = some ⟨PieceType.King, Colour.WHITE, false⟩
      ∧ ∀ fuel, twoKingsBoard.makeMove fuel ⟨1, 1⟩ ⟨1, 3⟩ (Char.ofNat 0)
          = Outcome.noReturn) := by
  refine ⟨⟨rfl, fun _ => rfl⟩, rfl, fun fuel => ?_⟩
  have hp : twoKingsBoard.getPiece ⟨1, 1⟩ = some ⟨PieceType.King, Colour.WHITE, false⟩ := rfl
  have hc : twoKingsBoard.canCastleKingSide fuel Colour.WHITE = Outcome.noReturn := by
    have e : twoKingsBoard.canCastleKingSide fuel Colour.WHITE
        = (twoKingsBoard.isInCheck fuel Colour.WHITE).bind
            fun inCheck => Outcome.ok (!inCheck) := rfl
    rw [e, twoKings_isInCheck_noReturn]
    rfl
  have hep : enPassantStep twoKingsBoard ⟨PieceType.King, Colour.WHITE, false⟩ ⟨1, 1⟩ ⟨1, 3⟩
      = Outcome.ok twoKingsBoard := enPassantStep_not_pawn rfl
  rw [makeMove_blocks hp, hep, Outcome.bind_ok]
  have hcr : castleRook fuel twoKingsBoard ⟨PieceType.King, Colour.WHITE, false⟩ ⟨1, 1⟩ ⟨1, 3⟩
      = Outcome.noReturn := by
    unfold castleRook
    rw [if_pos ⟨rfl, by decide⟩, if_pos (by decide)]
    simp only [hc, Outcome.bind_noReturn]
  rw [hcr]
  rfl

/-- C18 (amended): `makeMove` and `wouldBeInCheck` are safe on an out-of-range `src`, and on
an out-of-range `dst` when `src` is empty: no cell outside the grid is indexed, the board is
left as it was, and `wouldBeInCheck` answers `true`. -/
theorem out_of_range_source_is_noop (fuel : Nat) (b : Board) (src dst : Position) (p : Char)
    (turn : Colour)
    (h : src.isValid = false ∨ (dst.isValid = false ∧ b.getPiece src = none)) :
    b.makeMove fuel src dst p = Outcome.ok b
    ∧ b.wouldBeInCheck fuel src dst turn = Outcome.ok (true, b) := by
  have hp : b.getPiece src = none := by
    rcases h with h | h
    · exact getPiece_invalid b h
    · exact h.2
  refine ⟨makeMove_empty hp, ?_⟩
  simp only [Board.wouldBeInCheck, hp]

/-- Witness for C18 (amended): on the starting position, from the out-of-range position
(0, 5), and from the empty square e4 to the out-of-range position (9, 5). -/
theorem out_of_range_source_is_noop_witness :
    ((⟨0, 5⟩ : Position).isValid = false
      ∧ (⟨9, 5⟩ : Position).isValid = false ∧ startingBoard.getPiece ⟨4, 5⟩ = none)
    ∧ (startingBoard.makeMove 8 ⟨0, 5⟩ ⟨4, 5⟩ 'Q' = Outcome.ok startingBoard
      ∧ startingBoard.wouldBeInCheck 8 ⟨0, 5⟩ ⟨4, 5⟩ Colour.WHITE
          = Outcome.ok (true, startingBoard))
    ∧ (startingBoard.makeMove 8 ⟨4, 5⟩ ⟨9, 5⟩ 'Q' = Outcome.ok startingBoard
      ∧ startingBoard.wouldBeInCheck 8 ⟨4, 5⟩ ⟨9, 5⟩ Colour.WHITE
          = Outcome.ok (true, startingBoard)) :=
  ⟨⟨rfl, rfl, rfl⟩,
    out_of_range_source_is_noop 8 startingBoard ⟨0, 5⟩ ⟨4, 5⟩ 'Q' Colour.WHITE (Or.inl rfl),
    out_of_range_source_is_noop 8 startingBoard ⟨4, 5⟩ ⟨9, 5⟩ 'Q' Colour.WHITE
      (Or.inr ⟨rfl, rfl⟩)⟩

/-- With a piece on `src` and `dst` off the board, `makeMove` writes `grid[to]` with an index
outside `0..7`, whenever its castling block returns. -/
theorem makeMove_outOfBounds {fuel : Nat} {b : Board} {src dst : Position} {p : Char}
    {piece : Piece} (hp : b.getPiece src = some piece) (hk : ¬(piece.type = PieceType.King))
    (hd : dst.isValid = false) : b.makeMove fuel src dst p = Outcome.outOfBounds := by
  rw [makeMove_blocks hp, enPassantStep_eq, Outcome.bind_ok,
    castleRook_other (fun h => hk h.1), Outcome.bind_ok, relocate_outOfBounds _ _ _ _ _ hd]

/-- C18 (counterexample): on the starting position `makeMove` from e2 to the out-of-range
position (9, 5) does not leave the board unchanged: it runs into the unchecked write
`grid[8][4]`; and `wouldBeInCheck` with the same squares does the same. -/
theorem makeMove_unchecked_destination :
    (⟨9, 5⟩ : Position).isValid = false
    ∧ ∀ fuel, startingBoard.makeMove fuel ⟨2, 5⟩ ⟨9, 5⟩ (Char.ofNat 0) = Outcome.outOfBounds
        ∧ startingBoard.wouldBeInCheck fuel ⟨2, 5⟩ ⟨9, 5⟩ Colour.WHITE
            = Outcome.outOfBounds :=
  ⟨rfl, fun _ =>
    ⟨@makeMove_outOfBounds _ _ _ _ _ ⟨PieceType.Pawn false, Colour.WHITE, false⟩ rfl
        (by decide) rfl,
      wouldBeInCheck_outOfBounds (p := ⟨PieceType.Pawn false, Colour.WHITE, false⟩) rfl rfl⟩⟩

/-- C19 (failing input): on the starting position `wouldBeInCheck(h8, (8, 9), Black)` has a
piece on `src` and an out-of-range `dst`; it does not answer `true`, it runs into the
unchecked write `grid[7][8]`. With an out-of-range or empty `src` the answer is `true`. -/
theorem wouldBeInCheck_not_conservative :
    (startingBoard.getPiece ⟨8, 8⟩ = some ⟨PieceType.Rook, Colour.BLACK, false⟩
      ∧ (⟨8, 9⟩ : Position).isValid = false
      ∧ ∀ fuel, startingBoard.wouldBeInCheck fuel ⟨8, 8⟩ ⟨8, 9⟩ Colour.BLACK
          = Outcome.outOfBounds)
    ∧ ∀ fuel (b : Board) (src dst : Position) (turn : Colour), b.getPiece src = none →
        b.wouldBeInCheck fuel src dst turn = Outcome.ok (true, b) := by
  refine ⟨⟨rfl, rfl, fun _ =>
    wouldBeInCheck_outOfBounds (p := ⟨PieceType.Rook, Colour.BLACK, false⟩) rfl rfl⟩, ?_⟩
  intro fuel b src dst turn hp
  simp only [Board.wouldBeInCheck, hp]

/-! ## Acceptance of a set-up board -/

theorem countPieces_eq (b : Board) :
    b.countPieces 'K'
        = allSquares.countP (fun sq => isPieceOf (b.grid sq.1 sq.2) PieceType.King Colour.WHITE)
    ∧ b.countPieces 'k'
        = allSquares.countP
            (fun sq => isPieceOf (b.grid sq.1 sq.2) PieceType.King Colour.BLACK) := by
  constructor
  · unfold Board.countPieces
    simp only
    congr 1
    funext sq
    cases b.grid sq.1 sq.2 with
    | none => rfl
    | some p =>
      rcases p with ⟨t, c, m⟩
      cases t <;> cases c <;> rfl
  · unfold Board.countPieces
    simp only
    congr 1
    funext sq
    cases b.grid sq.1 sq.2 with
    | none => rfl
    | some p =>
      rcases p with ⟨t, c, m⟩
      cases t <;> cases c <;> rfl

/-- A predicate counted at most once in a list without repetitions holds of at most one of
its members. -/
theorem unique_of_countP_le_one {α : Type} (p : α → Bool) :
    ∀ (l : List α), l.Nodup → l.countP p ≤ 1 →
      ∀ x ∈ l, ∀ y ∈ l, p x = true → p y = true → x = y := by
  intro l
  induction l with
  | nil => intro _ _ x hx; cases hx
  | cons a rest ih =>
    intro hnd hc x hx y hy px py
    rw [List.nodup_cons] at hnd
    rw [List.countP_cons] at hc
    by_cases pa : p a = true
    · simp only [pa, if_true] at hc
      have hz : rest.countP p = 0 := by omega
      rw [List.countP_eq_zero] at hz
      rcases List.mem_cons.1 hx with rfl | hx'
      · rcases List.mem_cons.1 hy with rfl | hy'
        · rfl
        · exact absurd py (hz y hy')
      · exact absurd px (hz x hx')
    · have hx' : x ∈ rest := by
        rcases List.mem_cons.1 hx with rfl | h
        · exact absurd px pa
        · exact h
      have hy' : y ∈ rest := by
        rcases List.mem_cons.1 hy with rfl | h
        · exact absurd py pa
        · exact h
      simp only [pa, Bool.false_eq_true, if_false, Nat.add_zero] at hc
      exact ih hnd.2 hc x hx' y hy' px py

theorem allSquares_nodup : allSquares.Nodup := by decide

/-- Exactly one counted king of each colour makes a one-king board. -/
theorem oneKing_of_counts {b : Board} (hw : b.countPieces 'K' = 1)
    (hb : b.countPieces 'k' = 1) : OneKingPerColour b := by
  rw [(countPieces_eq b).1] at hw
  rw [(countPieces_eq b).2] at hb
  apply oneKing_of_cells
  intro c r1 c1 r2 c2 h1 h2
  have key : (r1, c1) = (r2, c2) := by
    cases c
    · exact unique_of_countP_le_one _ allSquares allSquares_nodup (le_of_eq hw) (r1, c1)
        (mem_allSquares _) (r2, c2) (mem_allSquares _) h1 h2
    · exact unique_of_countP_le_one _ allSquares allSquares_nodup (le_of_eq hb) (r1, c1)
        (mem_allSquares _) (r2, c2) (mem_allSquares _) h1 h2
  simp only [Prod.mk.injEq] at key
  exact key

theorem mem_fin8 (c : Fin 8) : c ∈ fin8 := by
  revert c
  decide

theorem hasPawnsOnEndRanks_false (b : Board) :
    b.hasPawnsOnEndRanks = false ↔ NoPawnOnEndRanks b := by
  unfold Board.hasPawnsOnEndRanks NoPawnOnEndRanks
  simp only [Bool.or_eq_false_iff, List.any_eq_false]
  constructor
  · rintro ⟨h0, h7⟩ pos p hp hpawn
    have hv := getPiece_isValid hp
    obtain ⟨r, c, rfl⟩ := exists_cell_of_valid hv
    rw [getPiece_posOf] at hp
    simp only [posOf]
    constructor
    · intro e
      have hr : r = 0 := by apply Fin.ext; simp only [Fin.val_zero]; omega
      subst hr
      have := h0 c (mem_fin8 c)
      rw [hp] at this
      exact this hpawn
    · intro e
      have hr : r = 7 := by
        apply Fin.ext
        have : ((7 : Fin 8).val : Int) = 7 := rfl
        omega
      subst hr
      have := h7 c (mem_fin8 c)
      rw [hp] at this
      exact this hpawn
  · intro h
    constructor
    · intro c _
      cases hg : b.grid 0 c with
      | none => simp
      | some p =>
        intro hpawn
        have := h (posOf 0 c) p (by rw [getPiece_posOf, hg]) hpawn
        exact this.1 rfl
    · intro c _
      cases hg : b.grid 7 c with
      | none => simp
      | some p =>
        intro hpawn
        have := h (posOf 7 c) p (by rw [getPiece_posOf, hg]) hpawn
        exact this.2 rfl

/-- Everything `isValidSetup` does: it returns, and it accepts exactly the boards with one
counted king of each colour, no pawn on an end rank and no king in check. -/
theorem isValidSetup_spec {fuel : Nat} (b : Board) (hf : 8 ≤ fuel) :
    (∃ r, b.isValidSetup fuel = Outcome.ok r)
    ∧ (b.isValidSetup fuel = Outcome.ok true ↔
        b.countPieces 'K' = 1 ∧ b.countPieces 'k' = 1 ∧ NoPawnOnEndRanks b
        ∧ b.isInCheck fuel Colour.WHITE = Outcome.ok false
        ∧ b.isInCheck fuel Colour.BLACK = Outcome.ok false) := by
  unfold Board.isValidSetup
  by_cases hc : b.countPieces 'K' ≠ 1 ∨ b.countPieces 'k' ≠ 1
  · rw [if_pos hc]
    refine ⟨⟨false, rfl⟩, ?_⟩
    simp only [Outcome.ok.injEq, Bool.false_eq_true, false_iff]
    rintro ⟨h1, h2, _⟩
    rcases hc with h | h
    · exact h h1
    · exact h h2
  · rw [if_neg hc]
    push_neg at hc
    have hone := oneKing_of_counts hc.1 hc.2
    obtain ⟨rw, hrw⟩ := isInCheck_returns hf hone Colour.WHITE
    obtain ⟨rb, hrb⟩ := isInCheck_returns hf hone Colour.BLACK
    rw [← hasPawnsOnEndRanks_false, hrw, hrb]
    cases b.hasPawnsOnEndRanks <;> cases rw <;> cases rb <;> simp [hc.1, hc.2]

/-- C20: `isValidSetup()` returns, and it answers `true` exactly when `countPieces('K')` and
`countPieces('k')` are both 1, no pawn stands on rank 1 or rank 8, and `isInCheck` answers
`false` for White and for Black. In particular it answers `false` when a king count is not
1 (two White kings), when a pawn stands on an end rank, and when a king is in check. -/
theorem isValidSetup_iff (fuel : Nat) (b : Board) (hf : 8 ≤ fuel) :
    (∃ r, b.isValidSetup fuel = Outcome.ok r)
    ∧ (b.isValidSetup fuel = Outcome.ok true ↔
        b.countPieces 'K' = 1 ∧ b.countPieces 'k' = 1 ∧ NoPawnOnEndRanks b
        ∧ b.isInCheck fuel Colour.WHITE = Outcome.ok false
        ∧ b.isInCheck fuel Colour.BLACK = Outcome.ok false)
    ∧ (b.countPieces 'K' ≠ 1 ∨ b.countPieces 'k' ≠ 1 →
        b.isValidSetup fuel = Outcome.ok false)
    ∧ (¬ NoPawnOnEndRanks b → b.isValidSetup fuel = Outcome.ok false)
    ∧ (b.isInCheck fuel Colour.WHITE = Outcome.ok true
        ∨ b.isInCheck fuel Colour.BLACK = Outcome.ok true →
        b.isValidSetup fuel = Outcome.ok false) := by
  obtain ⟨⟨r, hr⟩, hiff⟩ := isValidSetup_spec b hf
  have hfalse : ¬(b.countPieces 'K' = 1 ∧ b.countPieces 'k' = 1 ∧ NoPawnOnEndRanks b
        ∧ b.isInCheck fuel Colour.WHITE = Outcome.ok false
        ∧ b.isInCheck fuel Colour.BLACK = Outcome.ok false) →
      b.isValidSetup fuel = Outcome.ok false := by
    intro hn
    cases r
    · exact hr
    · exact absurd (hiff.1 hr) hn
  refine ⟨⟨r, hr⟩, hiff, ?_, ?_, ?_⟩
  · intro h
    apply hfalse
    rintro ⟨h1, h2, _⟩
    rcases h with h | h
    · exact h h1
    · exact h h2
  · intro h
    apply hfalse
    rintro ⟨_, _, h3, _⟩
    exact h h3
  · intro h
    apply hfalse
    rintro ⟨_, _, _, h4, h5⟩
    rcases h with h | h
    · rw [h] at h4; cases h4
    · rw [h] at h5; cases h5

/-- Witness for C20: the starting position is accepted; a board with two White kings, a
board with a White pawn on a1 and a board whose White king is attacked are rejected. -/
theorem isValidSetup_iff_witness :
    8 ≤ 8
    ∧ startingBoard.isValidSetup 8 = Outcome.ok true
    ∧ twoWhiteKings.isValidSetup 8 = Outcome.ok false
    ∧ pawnOnFirstRank.isValidSetup 8 = Outcome.ok false
    ∧ checkDemo.isValidSetup 8 = Outcome.ok false :=
  ⟨le_refl 8,
    (isValidSetup_iff 8 startingBoard (le_refl 8)).2.1.2
      ⟨by decide, by decide, (hasPawnsOnEndRanks_false _).1 (by decide), by decide, by decide⟩,
    (isValidSetup_iff 8 twoWhiteKings (le_refl 8)).2.2.1 (Or.inl (by decide)),
    (isValidSetup_iff 8 pawnOnFirstRank (le_refl 8)).2.2.2.1
      (fun h => absurd ((hasPawnsOnEndRanks_false _).2 h) (by decide)),
    (isValidSetup_iff 8 checkDemo (le_refl 8)).2.2.2.2 (Or.inl (by decide))⟩

/-! ## Setup operations and counting -/

/-- Lower-casing sends exactly a letter and its capital to the letter. -/
theorem toLower_eq_iff (s c : Char) (hc : c ∈ ['k', 'q', 'r', 'b', 'n', 'p']) :
    s.toLower = c ↔ s = c ∨ s = c.toUpper := by
  constructor
  · intro h
    by_cases hu : s.toNat ≥ 65 ∧ s.toNat ≤ 90
    · right
      have hs : s = Char.ofNat s.toNat := (Char.ofNat_toNat s).symm
      obtain ⟨n, hn⟩ : ∃ n, s.toNat = n := ⟨_, rfl⟩
      rw [hn] at hu hs
      subst hs
      have h1 : 65 ≤ n := hu.1
      have h2 : n ≤ 90 := hu.2
      clear hu hn
      simp only [List.mem_cons, List.mem_singleton, List.not_mem_nil, or_false] at hc
      interval_cases n <;> rcases hc with rfl | rfl | rfl | rfl | rfl | rfl <;>
        first
        | rfl
        | exact absurd h (by decide)
    · left
      have : s.toLower = s := by
        unfold Char.toLower
        simp only [hu, if_false]
      rw [this] at h
      exact h
  · simp only [List.mem_cons, List.mem_singleton, List.not_mem_nil, or_false] at hc
    rintro (rfl | rfl) <;> rcases hc with rfl | rfl | rfl | rfl | rfl | rfl <;> rfl

theorem addPiece_table (b : Board) {s : Char} {t : PieceType} {c : Colour} {pos : Position}
    (hv : pos.isValid = true) (h : (s, t, c) ∈ symbolTable) :
    b.addPiece s pos
      = b.setGrid (idx (pos.row - 1)) (idx (pos.col - 1)) (some (Piece.create t c)) := by
  simp only [symbolTable, List.mem_cons, Prod.mk.injEq, List.mem_singleton, List.not_mem_nil,
    or_false] at h
  rcases h with h | h | h | h | h | h | h | h | h | h | h | h <;>
    obtain ⟨rfl, rfl, rfl⟩ := h <;>
    simp only [Board.addPiece, hv, Bool.not_true, Bool.false_eq_true, if_false] <;> rfl

theorem symbolTable_symbol {s : Char} {t : PieceType} {c : Colour}
    (h : (s, t, c) ∈ symbolTable) :
    (Piece.create t c).getSymbol = s ∧ (Piece.create t c).hasMoved = false := by
  simp only [symbolTable, List.mem_cons, Prod.mk.injEq, List.mem_singleton, List.not_mem_nil,
    or_false] at h
  rcases h with h | h | h | h | h | h | h | h | h | h | h | h <;>
    obtain ⟨rfl, rfl, rfl⟩ := h <;> exact ⟨rfl, rfl⟩

theorem addPiece_unknown (b : Board) {s : Char} (pos : Position) (h : s ∉ pieceSymbols) :
    b.addPiece s pos = b := by
  have key : ∀ c ∈ ['k', 'q', 'r', 'b', 'n', 'p'], s.toLower ≠ c := by
    intro c hc e
    apply h
    rcases (toLower_eq_iff s c hc).1 e with rfl | rfl <;>
      simp only [List.mem_cons, List.mem_singleton, List.not_mem_nil, or_false] at hc <;>
      rcases hc with rfl | rfl | rfl | rfl | rfl | rfl <;> decide
  unfold Board.addPiece
  split
  · rfl
  · simp only [key 'k' (by decide), key 'q' (by decide), key 'r' (by decide),
      key 'b' (by decide), key 'n' (by decide), key 'p' (by decide), if_false]

theorem addPiece_invalid (b : Board) (s : Char) {pos : Position} (h : pos.isValid = false) :
    b.addPiece s pos = b := by
  simp [Board.addPiece, h]

/-- C21: for an in-range `pos` and a symbol `s` of the table, after `addPiece(s, pos)` the
cell `pos` holds a newly created (unmoved) piece whose symbol is `s`, of the type and colour
the table gives for `s`, whatever stood there before; every other cell, the six castling
flags and the last-move record are as before. For an out-of-range `pos`, or a symbol outside
the table, the board is unchanged. -/
theorem addPiece_effect (b : Board) (s : Char) (pos : Position) :
    (pos.isValid = true → ∀ t c, (s, t, c) ∈ symbolTable →
      (b.addPiece s pos).getPiece pos = some (Piece.create t c)
      ∧ (Piece.create t c).getSymbol = s ∧ (Piece.create t c).hasMoved = false
      ∧ (∀ q, q ≠ pos → (b.addPiece s pos).getPiece q = b.getPiece q)
      ∧ castlingFlags (b.addPiece s pos) = castlingFlags b
      ∧ (b.addPiece s pos).lastMoveFrom = b.lastMoveFrom
      ∧ (b.addPiece s pos).lastMoveTo = b.lastMoveTo)
    ∧ (pos.isValid = false ∨ s ∉ pieceSymbols → b.addPiece s pos = b) := by
  constructor
  · intro hv t c h
    rw [addPiece_table b hv h]
    refine ⟨?_, (symbolTable_symbol h).1, (symbolTable_symbol h).2, ?_, rfl, rfl, rfl⟩
    · rw [getPiece_setGrid_pos _ _ hv, if_pos rfl]
    · intro q hq
      rw [getPiece_setGrid_pos _ _ hv, if_neg hq]
  · rintro (h | h)
    · exact addPiece_invalid b s h
    · exact addPiece_unknown b pos h

/-- Witness for C21: on the starting position `addPiece('n', e4)` puts an unmoved Black
knight on e4 and `addPiece('q', e2)` replaces the White pawn by a Black queen; `addPiece`
with the symbol `x`, or on the position (0, 5), changes nothing. -/
theorem addPiece_effect_witness :
    ((⟨4, 5⟩ : Position).isValid = true ∧ ('n', PieceType.Knight, Colour.BLACK) ∈ symbolTable
      ∧ (⟨2, 5⟩ : Position).isValid = true ∧ ('q', PieceType.Queen, Colour.BLACK) ∈ symbolTable
      ∧ 'x' ∉ pieceSymbols ∧ (⟨0, 5⟩ : Position).isValid = false)
    ∧ (startingBoard.addPiece 'n' ⟨4, 5⟩).getPiece ⟨4, 5⟩
        = some ⟨PieceType.Knight, Colour.BLACK, false⟩
    ∧ (startingBoard.addPiece 'q' ⟨2, 5⟩).getPiece ⟨2, 5⟩
        = some ⟨PieceType.Queen, Colour.BLACK, false⟩
    ∧ startingBoard.addPiece 'x' ⟨4, 5⟩ = startingBoard
    ∧ startingBoard.addPiece 'n' ⟨0, 5⟩ = startingBoard :=
  ⟨⟨rfl, by decide, rfl, by decide, by decide, rfl⟩,
    ((addPiece_effect startingBoard 'n' ⟨4, 5⟩).1 rfl PieceType.Knight Colour.BLACK
      (by decide)).1,
    ((addPiece_effect startingBoard 'q' ⟨2, 5⟩).1 rfl PieceType.Queen Colour.BLACK
      (by decide)).1,
    (addPiece_effect startingBoard 'x' ⟨4, 5⟩).2 (Or.inr (by decide)),
    (addPiece_effect startingBoard 'n' ⟨0, 5⟩).2 (Or.inl rfl)⟩

theorem countPieces_pred (p : Piece) {s : Char} {t : PieceType} {c : Colour}
    (h : (s, t, c) ∈ symbolTable) :
    (decide (p.getSymbol.toLower = s.toLower) && decide (p.getSymbol.isUpper = s.isUpper))
        = decide (p.getSymbol = s)
    ∧ (p.getSymbol = s ↔ Piece.create p.type p.colour = Piece.create t c) := by
  simp only [symbolTable, List.mem_cons, Prod.mk.injEq, List.mem_singleton, List.not_mem_nil,
    or_false] at h
  rcases p with ⟨pt, pc, pm⟩
  rcases h with h | h | h | h | h | h | h | h | h | h | h | h <;>
    obtain ⟨rfl, rfl, rfl⟩ := h <;> cases pt <;> cases pc <;>
    exact ⟨rfl, by simp [Piece.getSymbol, Piece.create]⟩

/-- C22: for a symbol `s` of the table, `countPieces(s)` is the number of cells whose piece
has exactly the symbol `s`, and these are the cells holding a piece of the type and the
colour that `s` stands for; a piece of the same type and the other colour has another
symbol and is not counted. -/
theorem countPieces_exact (b : Board) (s : Char) (t : PieceType) (c : Colour)
    (h : (s, t, c) ∈ symbolTable) :
    b.countPieces s = (cellsWithSymbol b s).length
    ∧ (∀ sq, sq ∈ cellsWithSymbol b s ↔
        ∃ p, b.grid sq.1 sq.2 = some p ∧ p.getSymbol = s)
    ∧ (∀ sq, sq ∈ cellsWithSymbol b s ↔
        ∃ p, b.grid sq.1 sq.2 = some p ∧ Piece.create p.type p.colour = Piece.create t c)
    ∧ (∀ sq p, b.grid sq.1 sq.2 = some p → p.colour ≠ c → sq ∉ cellsWithSymbol b s) := by
  have hmem : ∀ sq, sq ∈ cellsWithSymbol b s ↔
      ∃ p, b.grid sq.1 sq.2 = some p ∧ p.getSymbol = s := by
    intro sq
    simp only [cellsWithSymbol, List.mem_filter, mem_allSquares, true_and, decide_eq_true_eq,
      Option.map_eq_some']
  have hmem2 : ∀ sq, sq ∈ cellsWithSymbol b s ↔
      ∃ p, b.grid sq.1 sq.2 = some p ∧ Piece.create p.type p.colour = Piece.create t c := by
    intro sq
    rw [hmem]
    constructor
    · rintro ⟨p, hp, hs⟩
      exact ⟨p, hp, ((countPieces_pred p h).2).1 hs⟩
    · rintro ⟨p, hp, hs⟩
      exact ⟨p, hp, ((countPieces_pred p h).2).2 hs⟩
  refine ⟨?_, hmem, hmem2, ?_⟩
  · unfold Board.countPieces cellsWithSymbol
    simp only
    rw [← List.countP_eq_length_filter]
    congr 1
    funext sq
    cases hg : b.grid sq.1 sq.2 with
    | none => rfl
    | some p =>
      simp only [Option.map_some', Option.some.injEq]
      exact (countPieces_pred p h).1
  · intro sq p hp hc hin
    obtain ⟨q, hq, he⟩ := (hmem2 sq).1 hin
    rw [hp] at hq
    cases hq
    apply hc
    have := congrArg Piece.colour he
    exact this

/-- Witness for C22: on the starting position `countPieces('R')` is 2 (the Black rooks are
not counted) and `countPieces('p')` is 8. -/
theorem countPieces_exact_witness :
    (('R', PieceType.Rook, Colour.WHITE) ∈ symbolTable
      ∧ ('p', PieceType.Pawn false, Colour.BLACK) ∈ symbolTable)
    ∧ startingBoard.countPieces 'R' = (cellsWithSymbol startingBoard 'R').length
    ∧ cellsWithSymbol startingBoard 'R' = [(0, 0), (0, 7)]
    ∧ startingBoard.countPieces 'p' = (cellsWithSymbol startingBoard 'p').length
    ∧ (cellsWithSymbol startingBoard 'p').length = 8 :=
  ⟨⟨by decide, by decide⟩,
    (countPieces_exact startingBoard 'R' PieceType.Rook Colour.WHITE (by decide)).1,
    by decide,
    (countPieces_exact startingBoard 'p' (PieceType.Pawn false) Colour.BLACK (by decide)).1,
    by decide⟩

theorem removePiece_getPiece (b : Board) (pos q : Position) :
    (b.removePiece pos).getPiece q
      = if pos.isValid = true ∧ q = pos then none else b.getPiece q := by
  unfold Board.removePiece
  cases hv : pos.isValid with
  | false => simp
  | true =>
    simp only [Bool.not_true, Bool.false_eq_true, if_false, true_and]
    exact getPiece_setGrid_pos b pos hv none q

/-- C23: `Position::isValid` is true exactly when rank and file both lie in 1..8; `getPiece`
answers none for every position that is not valid and otherwise the content of the cell
(rank, file). That content is what was last written there: after `addPiece(s, pos)` the
created piece, after `removePiece(pos)` nothing, after a `makeMove` onto `pos` the piece that
arrived (and nothing on the square it left); placements and removals elsewhere and the
simulation of `wouldBeInCheck` do not change it. -/
theorem getPiece_contract (b : Board) (pos : Position) :
    (pos.isValid = true ↔ 1 ≤ pos.row ∧ pos.row ≤ 8 ∧ 1 ≤ pos.col ∧ pos.col ≤ 8)
    ∧ (pos.isValid = false → b.getPiece pos = none)
    ∧ (∀ r c : Fin 8, b.getPiece (posOf r c) = b.grid r c)
    ∧ (pos.isValid = true → ∃ r c : Fin 8, pos = posOf r c ∧ b.getPiece pos = b.grid r c)
    ∧ (pos.isValid = true → ∀ s t c, (s, t, c) ∈ symbolTable →
        (b.addPiece s pos).getPiece pos = some (Piece.create t c))
    ∧ (b.removePiece pos).getPiece pos = none
    ∧ (∀ fuel src p piece b', b.getPiece src = some piece →
        b.makeMove fuel src pos p = Outcome.ok b' →
        b'.getPiece pos = some (arrivalPiece piece pos p) ∧ b'.getPiece src = none)
    ∧ (∀ s q, q ≠ pos → (b.addPiece s q).getPiece pos = b.getPiece pos)
    ∧ (∀ q, q ≠ pos → (b.removePiece q).getPiece pos = b.getPiece pos)
    ∧ (∀ fuel src dst turn r b', b.wouldBeInCheck fuel src dst turn = Outcome.ok (r, b') →
        b'.getPiece pos = b.getPiece pos) := by
  refine ⟨Position.isValid_iff pos, getPiece_invalid b, getPiece_posOf b, ?_, ?_, ?_, ?_, ?_,
    ?_, ?_⟩
  · intro hv
    refine ⟨idx (pos.row - 1), idx (pos.col - 1), (posOf_idx hv).symm, getPiece_of_valid b hv⟩
  · intro hv s t c h
    rw [addPiece_table b hv h, getPiece_setGrid_pos _ _ hv, if_pos rfl]
  · rw [removePiece_getPiece]
    cases hv : pos.isValid with
    | false => simp [getPiece_invalid b hv]
    | true => simp
  · intro fuel src p piece b' hp hm
    exact makeMove_arrival hp hm
  · intro s q hq
    unfold Board.addPiece
    simp only []
    cases hv : q.isValid with
    | false => rfl
    | true =>
      have hne : pos ≠ q := fun e => hq e.symm
      simp only [Bool.not_true, Bool.false_eq_true, if_false]
      split_ifs <;> first
        | rfl
        | (rw [getPiece_setGrid_pos _ _ hv, if_neg hne])
  · intro q hq
    rw [removePiece_getPiece, if_neg]
    rintro ⟨_, e⟩
    exact hq e.symm
  · intro fuel src dst turn r b' h
    rw [wouldBeInCheck_restores h]

/-! ## Rook and queen -/

/-- The path loop answers `true` when the target lies `k` steps ahead, `k` is below the
fuel, and the `k` squares walked over are empty. -/
theorem pathClear_of_empty (b : Board) (dst : Position) (rs cs : Int) :
    ∀ (k fuel : Nat) (cur : Position), k < fuel →
      dst = ⟨cur.row + k * rs, cur.col + k * cs⟩ →
      (∀ j : Nat, j < k → b.getPiece ⟨cur.row + j * rs, cur.col + j * cs⟩ = none) →
      pathClear b dst rs cs fuel cur = Outcome.ok true := by
  intro k
  induction k with
  | zero =>
    intro fuel cur hk hd _
    cases fuel with
    | zero => omega
    | succ f =>
      have : cur = dst := by
        rw [hd]; simp
      simp [pathClear, this]
  | succ k ih =>
    intro fuel cur hk hd hfree
    cases fuel with
    | zero => omega
    | succ f =>
      simp only [pathClear]
      by_cases h1 : cur = dst
      · simp [h1]
      · have h0 := hfree 0 (by omega)
        simp only [Nat.cast_zero, zero_mul, add_zero] at h0
        simp only [h1, if_false, h0, Option.isSome_none, Bool.false_eq_true]
        apply ih f _ (by omega)
        · rw [hd]
          simp only [Position.mk.injEq]
          constructor <;> push_cast <;> ring
        · intro j hj
          have := hfree (j + 1) (by omega)
          refine Eq.trans (congrArg b.getPiece ?_) this
          simp only [Position.mk.injEq]
          constructor <;> push_cast <;> ring

/-- On a rank, a file or a diagonal, the path loop started one step from `src` answers
`true` exactly when every square strictly between `src` and `dst` is empty. -/
theorem pathClear_iff_pathEmpty (fuel : Nat) (hf : 7 ≤ fuel) (b : Board) (src dst : Position)
    (hs : src.isValid = true) (hd : dst.isValid = true)
    (hline : dst.row = src.row ∨ dst.col = src.col
      ∨ (dst.row - src.row).natAbs = (dst.col - src.col).natAbs) :
    pathClear b dst (stepOf src.row dst.row) (stepOf src.col dst.col) fuel
        ⟨src.row + stepOf src.row dst.row, src.col + stepOf src.col dst.col⟩ = Outcome.ok true
      ↔ PathEmpty b src dst := by
  rw [Position.isValid_iff] at hs hd
  rcases src with ⟨sr, sc⟩
  rcases dst with ⟨dr, dc⟩
  simp only at hs hd hline
  simp only [PathEmpty, pathSquare, chebyshev]
  constructor
  · intro h k hk0 hk
    obtain ⟨n, hn, hfree⟩ := pathClear_true b _ _ _ fuel _ h
    simp only [Position.mk.injEq] at hn
    have hkn : k - 1 < n := by
      unfold stepOf at hn
      split_ifs at hn <;> omega
    have := hfree (k - 1) hkn
    refine Eq.trans (congrArg b.getPiece ?_) this
    simp only [Position.mk.injEq]
    have hc : ((k - 1 : Nat) : Int) = (k : Int) - 1 := by omega
    rw [hc]
    constructor <;> ring
  · intro h
    by_cases he : dr = sr ∧ dc = sc
    · obtain ⟨rfl, rfl⟩ := he
      apply pathClear_of_empty b _ _ _ 0 fuel _ (by omega)
      · simp [stepOf]
      · intro j hj
        omega
    · apply pathClear_of_empty b _ _ _ (max (dr - sr).natAbs (dc - sc).natAbs - 1) fuel _
        (by omega)
      · simp only [Position.mk.injEq]
        unfold stepOf
        split_ifs <;> constructor <;> omega
      · intro j hj
        have := h (j + 1) (by omega) (by omega)
        refine Eq.trans (congrArg b.getPiece ?_) this
        simp only [Position.mk.injEq]
        constructor <;> push_cast <;> ring

/-- Value of `Rook::isValidMove` on the board. -/
theorem rook_isValidMove_iff (fuel : Nat) (hf : 7 ≤ fuel) (b : Board) (src dst : Position)
    (hs : src.isValid = true) (hd : dst.isValid = true) :
    Rook.isValidMove fuel src dst b = Outcome.ok true ↔
      (dst.row = src.row ∨ dst.col = src.col) ∧ PathEmpty b src dst := by
  unfold Rook.isValidMove
  by_cases hline : dst.row = src.row ∨ dst.col = src.col
  · have hn : ¬(src.row ≠ dst.row ∧ src.col ≠ dst.col) := by
      rintro ⟨h1, h2⟩
      rcases hline with h | h
      · exact h1 h.symm
      · exact h2 h.symm
    rw [if_neg hn]
    simp only
    rw [pathClear_iff_pathEmpty fuel hf b src dst hs hd
      (hline.elim Or.inl (fun h => Or.inr (Or.inl h)))]
    exact ⟨fun h => ⟨hline, h⟩, fun h => h.2⟩
  · have hp : src.row ≠ dst.row ∧ src.col ≠ dst.col := by
      constructor
      · intro e; exact hline (Or.inl e.symm)
      · intro e; exact hline (Or.inr e.symm)
    rw [if_pos hp]
    simp only [Outcome.ok.injEq, Bool.false_eq_true, false_iff]
    exact fun h => hline h.1

/-- Value of `Queen::isValidMove` on the board. -/
theorem queen_isValidMove_iff (fuel : Nat) (hf : 7 ≤ fuel) (b : Board) (src dst : Position)
    (hs : src.isValid = true) (hd : dst.isValid = true) :
    Queen.isValidMove fuel src dst b = Outcome.ok true ↔
      (dst.row = src.row ∨ dst.col = src.col
        ∨ (dst.row - src.row).natAbs = (dst.col - src.col).natAbs) ∧ PathEmpty b src dst := by
  unfold Queen.isValidMove
  simp only [iabs_eq]
  by_cases hline : dst.row = src.row ∨ dst.col = src.col
      ∨ (dst.row - src.row).natAbs = (dst.col - src.col).natAbs
  · have hn : ¬((!(decide (((dst.row - src.row).natAbs : Int) = 0)
        || decide (((dst.col - src.col).natAbs : Int) = 0))
        && !decide (((dst.row - src.row).natAbs : Int) = ((dst.col - src.col).natAbs : Int)))
        = true) := by
      simp only [Bool.and_eq_true, Bool.not_eq_true', Bool.or_eq_false_iff,
        decide_eq_false_iff_not, not_and]
      rintro ⟨h1, h2⟩ h3
      rcases hline with h | h | h
      · omega
      · omega
      · omega
    rw [if_neg hn, pathClear_iff_pathEmpty fuel hf b src dst hs hd hline]
    exact ⟨fun h => ⟨hline, h⟩, fun h => h.2⟩
  · have hp : ((!(decide (((dst.row - src.row).natAbs : Int) = 0)
        || decide (((dst.col - src.col).natAbs : Int) = 0))
        && !decide (((dst.row - src.row).natAbs : Int) = ((dst.col - src.col).natAbs : Int)))
        = true) := by
      simp only [Bool.and_eq_true, Bool.not_eq_true', Bool.or_eq_false_iff,
        decide_eq_false_iff_not]
      push_neg at hline
      refine ⟨⟨?_, ?_⟩, ?_⟩ <;> omega
    rw [if_pos hp]
    simp only [Outcome.ok.injEq, Bool.false_eq_true, false_iff]
    exact fun h => hline h.1

/-- Value of the rook and queen rules: for in-range squares, `Rook::isValidMove` returns, and
it is true exactly when `dst` lies on the rank or on the file of `src` and every square
strictly between them is empty; `Queen::isValidMove` returns, and it is true exactly when
`dst` lies on the rank, the file or a diagonal of `src` and every square strictly between
them is empty. Both answer `true` for `dst = src`. -/
theorem rook_queen_isValidMove_iff (fuel : Nat) (b : Board) (src dst : Position)
    (hf : 7 ≤ fuel) (hs : src.isValid = true) (hd : dst.isValid = true) :
    (Rook.isValidMove fuel src dst b = Outcome.ok true ↔
      (dst.row = src.row ∨ dst.col = src.col) ∧ PathEmpty b src dst)
    ∧ (Queen.isValidMove fuel src dst b = Outcome.ok true ↔
      (dst.row = src.row ∨ dst.col = src.col
        ∨ (dst.row - src.row).natAbs = (dst.col - src.col).natAbs) ∧ PathEmpty b src dst)
    ∧ (∃ r, Rook.isValidMove fuel src dst b = Outcome.ok r)
    ∧ (∃ r, Queen.isValidMove fuel src dst b = Outcome.ok r)
    ∧ Rook.isValidMove fuel src src b = Outcome.ok true
    ∧ Queen.isValidMove fuel src src b = Outcome.ok true := by
  have hempty : PathEmpty b src src := by
    intro k h0 hk
    simp only [chebyshev, sub_self, Int.natAbs_zero, max_self] at hk
    omega
  exact ⟨rook_isValidMove_iff fuel hf b src dst hs hd,
    queen_isValidMove_iff fuel hf b src dst hs hd,
    rook_isValidMove_returns fuel hf b src dst hs hd,
    queen_isValidMove_returns fuel hf b src dst hs hd,
    (rook_isValidMove_iff fuel hf b src src hs hs).2 ⟨Or.inl rfl, hempty⟩,
    (queen_isValidMove_iff fuel hf b src src hs hs).2 ⟨Or.inl rfl, hempty⟩⟩

/-- On `castleDemo` the rook h1 reaches f1 (g1 is empty), and on the starting position the
queen d1 does not reach d3 (d2 is occupied). -/
theorem rook_queen_examples :
    (7 ≤ 8 ∧ (⟨1, 8⟩ : Position).isValid = true ∧ (⟨1, 6⟩ : Position).isValid = true
      ∧ (⟨1, 4⟩ : Position).isValid = true ∧ (⟨3, 4⟩ : Position).isValid = true)
    ∧ (((1 : Int) = 1 ∨ (6 : Int) = 8) ∧ PathEmpty castleDemo ⟨1, 8⟩ ⟨1, 6⟩)
    ∧ ¬ PathEmpty startingBoard ⟨1, 4⟩ ⟨3, 4⟩ :=
  ⟨⟨by decide, rfl, rfl, rfl, rfl⟩,
    (rook_queen_isValidMove_iff 8 castleDemo ⟨1, 8⟩ ⟨1, 6⟩ (by decide) rfl rfl).1.1
      (by decide),
    fun h => absurd
      ((rook_queen_isValidMove_iff 8 startingBoard ⟨1, 4⟩ ⟨3, 4⟩ (by decide) rfl rfl).2.1.2
        ⟨Or.inr (Or.inl rfl), h⟩) (by decide)⟩

/-- C24 (failing input): on the starting position `Rook::isValidMove(a1, a1, board)` and
`Queen::isValidMove(d1, d1, board)` are true although `dst` does not differ from `src`: the
path loop ends at once and, unlike in `King::isValidMove`, nothing tests the two squares for
equality. -/
theorem rook_queen_accept_own_square :
    startingBoard.getPiece ⟨1, 1⟩ = some (Piece.create PieceType.Rook Colour.WHITE)
    ∧ startingBoard.getPiece ⟨1, 4⟩ = some (Piece.create PieceType.Queen Colour.WHITE)
    ∧ Rook.isValidMove 8 ⟨1, 1⟩ ⟨1, 1⟩ startingBoard = Outcome.ok true
    ∧ Queen.isValidMove 8 ⟨1, 4⟩ ⟨1, 4⟩ startingBoard = Outcome.ok true
    ∧ (Piece.create PieceType.Rook Colour.WHITE).isValidMove 8 ⟨1, 1⟩ ⟨1, 1⟩ startingBoard
        = Outcome.ok true :=
  ⟨rfl, rfl, by decide, by decide, by decide⟩

/-! ## Pawn and king -/

theorem pawn_isValidMove_spec (b : Board) (colour : Colour) (hasMoved : Bool)
    (src dst : Position) :
    Pawn.isValidMove colour hasMoved src dst b = true ↔
      (dst.col = src.col ∧ dst.row = src.row + forwardOf colour ∧ b.getPiece dst = none)
      ∨ (dst.col = src.col ∧ dst.row = src.row + 2 * forwardOf colour ∧ hasMoved = false
          ∧ b.getPiece dst = none ∧ b.getPiece ⟨src.row + forwardOf colour, src.col⟩ = none)
      ∨ (iabs (dst.col - src.col) = 1 ∧ dst.row = src.row + forwardOf colour
          ∧ ((∃ t, b.getPiece dst = some t ∧ t.colour ≠ colour)
              ∨ b.isEnPassant src dst colour = true)) := by
  have hdir : (if colour = Colour.WHITE then (1 : Int) else -1) = forwardOf colour := by
    cases colour <;> rfl
  unfold Pawn.isValidMove
  simp only [hdir, iabs_eq]
  generalize forwardOf colour = d
  by_cases hc : dst.col = src.col
  · have h0 : ((dst.col - src.col).natAbs : Int) = 0 := by omega
    have h1 : ¬ ((dst.col - src.col).natAbs : Int) = 1 := by omega
    simp only [h0, if_true, hc, true_and, h1, false_and, or_false]
    cases hg : b.getPiece dst <;> cases hm : b.getPiece ⟨src.row + d, src.col⟩ <;>
      cases hasMoved <;> simp <;> omega
  · have h0 : ¬ ((dst.col - src.col).natAbs : Int) = 0 := by omega
    simp only [h0, if_false, hc, false_and, false_or]
    by_cases h1 : ((dst.col - src.col).natAbs : Int) = 1 ∧ dst.row - src.row = d
    · have e : dst.row = src.row + d := by omega
      simp only [h1, and_self, if_true, e, true_and]
      cases hg : b.getPiece dst <;> cases b.isEnPassant src dst colour <;> simp
    · rw [if_neg h1]
      simp only [Bool.false_eq_true, false_iff]
      rintro ⟨h2, h3, _⟩
      exact h1 ⟨h2, by omega⟩

theorem promotionType_not_pawn {p : Char} {t : PieceType} (h : promotionType p = some t) :
    (Piece.create t Colour.WHITE).type.isPawn = false
    ∧ (Piece.create t Colour.BLACK).type.isPawn = false := by
  unfold promotionType at h
  split_ifs at h <;> cases h <;> exact ⟨rfl, rfl⟩

/-- A pawn found on the target after `makeMove` is the mover itself, marked as moved. -/
theorem arrivalPiece_pawn {piece : Piece} {dst : Position} {p : Char}
    (h : (arrivalPiece piece dst p).type.isPawn = true) :
    arrivalPiece piece dst p = piece.setHasMoved true := by
  unfold arrivalPiece at h ⊢
  split
  · rename_i hc
    rw [if_pos hc] at h
    cases ht : promotionType p with
    | none => rfl
    | some t =>
      rw [ht] at h
      simp only at h
      have := promotionType_not_pawn ht
      cases hcol : piece.colour <;> rw [hcol] at h
      · rw [this.1] at h; cases h
      · rw [this.2] at h; cases h
  · rfl

/-- C25: for a pawn of colour c with forward direction d, `Pawn::isValidMove(src, dst, board)`
is true exactly when (i) `dst` is on the same file one rank ahead and empty, or (ii) `dst` is
on the same file two ranks ahead, the pawn's has-moved flag is false and `dst` and the
square between are empty, or (iii) `dst` is one file away and one rank ahead and holds a
piece of the other colour or `isEnPassant(src, dst, c)` is true. So the pawn only ever moves
one or two ranks ahead; the pawn that `makeMove` leaves on its target has its has-moved
flag set, and a pawn with that flag set is never allowed a double step. -/
theorem pawn_isValidMove_iff (b : Board) (colour : Colour) (hasMoved : Bool)
    (src dst : Position) :
    (Pawn.isValidMove colour hasMoved src dst b = true ↔
      (dst.col = src.col ∧ dst.row = src.row + forwardOf colour ∧ b.getPiece dst = none)
      ∨ (dst.col = src.col ∧ dst.row = src.row + 2 * forwardOf colour ∧ hasMoved = false
          ∧ b.getPiece dst = none ∧ b.getPiece ⟨src.row + forwardOf colour, src.col⟩ = none)
      ∨ (iabs (dst.col - src.col) = 1 ∧ dst.row = src.row + forwardOf colour
          ∧ ((∃ t, b.getPiece dst = some t ∧ t.colour ≠ colour)
              ∨ b.isEnPassant src dst colour = true)))
    ∧ (Pawn.isValidMove colour hasMoved src dst b = true →
        dst.row = src.row + forwardOf colour ∨ dst.row = src.row + 2 * forwardOf colour)
    ∧ (dst.row = src.row + 2 * forwardOf colour →
        Pawn.isValidMove colour true src dst b = false)
    ∧ (∀ fuel p piece b', b.getPiece src = some piece → piece.type.isPawn = true →
        b.makeMove fuel src dst p = Outcome.ok b' →
        ∀ q, b'.getPiece dst = some q → q.type.isPawn = true →
          q = piece.setHasMoved true ∧ q.hasMoved = true) := by
  have hspec := pawn_isValidMove_spec b colour hasMoved src dst
  refine ⟨hspec, ?_, ?_, ?_⟩
  · intro h
    rcases hspec.1 h with h | h | h
    · exact Or.inl h.2.1
    · exact Or.inr h.2.1
    · exact Or.inl h.2.1
  · intro h2
    cases hv : Pawn.isValidMove colour true src dst b with
    | false => rfl
    | true =>
      exfalso
      have hd : forwardOf colour = 1 ∨ forwardOf colour = -1 := by
        cases colour
        · exact Or.inl rfl
        · exact Or.inr rfl
      rcases (pawn_isValidMove_spec b colour true src dst).1 hv with h | h | h
      · omega
      · exact absurd h.2.2.1 (by decide)
      · omega
  · intro fuel p piece b' hp hpawn hm q hq hqp
    rw [(makeMove_arrival hp hm).1] at hq
    simp only [Option.some.injEq] at hq
    subst hq
    rw [arrivalPiece_pawn hqp]
    exact ⟨rfl, rfl⟩

/-- Witness for C25: on the starting position the pawn e2 may step to e3 and to e4 but not
to e5, d3 or e1; after `makeMove(e2, e4)` the pawn on e4 has its has-moved flag set and its
double step to e6 is rejected. -/
theorem pawn_isValidMove_iff_witness :
    Pawn.isValidMove Colour.WHITE false ⟨2, 5⟩ ⟨3, 5⟩ startingBoard = true
    ∧ Pawn.isValidMove Colour.WHITE false ⟨2, 5⟩ ⟨4, 5⟩ startingBoard = true
    ∧ Pawn.isValidMove Colour.WHITE false ⟨2, 5⟩ ⟨5, 5⟩ startingBoard = false
    ∧ Pawn.isValidMove Colour.WHITE false ⟨2, 5⟩ ⟨3, 4⟩ startingBoard = false
    ∧ Pawn.isValidMove Colour.WHITE false ⟨2, 5⟩ ⟨1, 5⟩ startingBoard = false
    ∧ (startingBoard.makeMove 8 ⟨2, 5⟩ ⟨4, 5⟩ (Char.ofNat 0)).map
        (fun b => (b.getPiece ⟨4, 5⟩,
          Pawn.isValidMove Colour.WHITE true ⟨4, 5⟩ ⟨6, 5⟩ b))
      = Outcome.ok (some ⟨PieceType.Pawn false, Colour.WHITE, true⟩, false) :=
  ⟨(pawn_isValidMove_iff startingBoard Colour.WHITE false ⟨2, 5⟩ ⟨3, 5⟩).1.2
      (Or.inl ⟨rfl, rfl, rfl⟩),
    (pawn_isValidMove_iff startingBoard Colour.WHITE false ⟨2, 5⟩ ⟨4, 5⟩).1.2
      (Or.inr (Or.inl ⟨rfl, rfl, rfl, rfl, rfl⟩)),
    by decide, by decide, by decide, by decide⟩

theorem chebyshev_one_iff (src dst : Position) :
    chebyshev src dst = 1 ↔
      iabs (dst.row - src.row) ≤ 1 ∧ iabs (dst.col - src.col) ≤ 1
        ∧ ¬(iabs (dst.row - src.row) = 0 ∧ iabs (dst.col - src.col) = 0) := by
  simp only [chebyshev, iabs_eq]
  omega

/-- C26: for a king of colour c, `King::isValidMove(src, dst, board)` is true exactly when
`dst` is at Chebyshev distance 1 from `src`, or `dst` is on the rank of `src` two files
towards the h-file and `canCastleKingSide(c)` is true, or two files towards the a-file and
`canCastleQueenSide(c)` is true. The piece-level dispatch of a king is this rule; on a board
with at most one king of each colour it returns. -/
theorem king_isValidMove_iff (fuel : Nat) (b : Board) (c : Colour) (src dst : Position) :
    (King.isValidMove (fun k => b.isInCheck fuel k) c src dst b = Outcome.ok true ↔
      chebyshev src dst = 1
      ∨ (dst.row = src.row ∧ dst.col = src.col + 2
          ∧ b.canCastleKingSide fuel c = Outcome.ok true)
      ∨ (dst.row = src.row ∧ dst.col = src.col - 2
          ∧ b.canCastleQueenSide fuel c = Outcome.ok true))
    ∧ (∀ hasMoved, Piece.isValidMove fuel ⟨PieceType.King, c, hasMoved⟩ src dst b
        = King.isValidMove (fun k => b.isInCheck fuel k) c src dst b)
    ∧ (8 ≤ fuel → OneKingPerColour b →
        ∃ r, King.isValidMove (fun k => b.isInCheck fuel k) c src dst b = Outcome.ok r) := by
  refine ⟨?_, fun _ => rfl, ?_⟩
  · rw [chebyshev_one_iff]
    unfold King.isValidMove Board.canCastleKingSide Board.canCastleQueenSide
    simp only
    by_cases h1 : iabs (dst.row - src.row) ≤ 1 ∧ iabs (dst.col - src.col) ≤ 1
        ∧ ¬(iabs (dst.row - src.row) = 0 ∧ iabs (dst.col - src.col) = 0)
    · rw [if_pos h1]
      exact ⟨fun _ => Or.inl h1, fun _ => rfl⟩
    · rw [if_neg h1]
      by_cases h2 : iabs (dst.row - src.row) = 0 ∧ iabs (dst.col - src.col) = 2
      · rw [if_pos h2]
        have h2' := h2
        rw [iabs_eq, iabs_eq] at h2'
        by_cases h3 : dst.col > src.col
        · rw [if_pos h3]
          constructor
          · intro h
            exact Or.inr (Or.inl ⟨by omega, by omega, h⟩)
          · rintro (h | h | h)
            · exact absurd h h1
            · exact h.2.2
            · omega
        · rw [if_neg h3]
          constructor
          · intro h
            exact Or.inr (Or.inr ⟨by omega, by omega, h⟩)
          · rintro (h | h | h)
            · exact absurd h h1
            · omega
            · exact h.2.2
      · rw [if_neg h2]
        simp only [Outcome.ok.injEq, Bool.false_eq_true, false_iff]
        rintro (h | h | h)
        · exact h1 h
        · apply h2
          rw [iabs_eq, iabs_eq]
          omega
        · apply h2
          rw [iabs_eq, iabs_eq]
          omega
  · intro hf hone
    obtain ⟨hk, hq⟩ := @canCastleWith_returns (fun k => b.isInCheck fuel k) b c
      (isInCheck_returns hf hone c)
    unfold King.isValidMove
    simp only
    split_ifs
    · exact ⟨_, rfl⟩
    · exact hk
    · exact hq
    · exact ⟨_, rfl⟩

theorem castleDemo_oneKing : OneKingPerColour castleDemo := by
  apply oneKing_of_unique
  intro c
  cases c
  · exact ⟨(0, 4), by decide⟩
  · exact ⟨(0, 0), by decide⟩

/-- Witness for C26: on `castleDemo` the king e1 may step to d2, may castle to g1, and may
not go to c1 (no rook on a1) or to e3. -/
theorem king_isValidMove_iff_witness :
    (8 ≤ 8 ∧ OneKingPerColour castleDemo)
    ∧ King.isValidMove (fun k => castleDemo.isInCheck 8 k) Colour.WHITE ⟨1, 5⟩ ⟨2, 4⟩
        castleDemo = Outcome.ok true
    ∧ King.isValidMove (fun k => castleDemo.isInCheck 8 k) Colour.WHITE ⟨1, 5⟩ ⟨1, 7⟩
        castleDemo = Outcome.ok true
    ∧ King.isValidMove (fun k => castleDemo.isInCheck 8 k) Colour.WHITE ⟨1, 5⟩ ⟨1, 3⟩
        castleDemo = Outcome.ok false
    ∧ King.isValidMove (fun k => castleDemo.isInCheck 8 k) Colour.WHITE ⟨1, 5⟩ ⟨3, 5⟩
        castleDemo = Outcome.ok false
    ∧ ∃ r, King.isValidMove (fun k => castleDemo.isInCheck 8 k) Colour.WHITE ⟨1, 5⟩ ⟨1, 7⟩
        castleDemo = Outcome.ok r :=
  ⟨⟨le_refl 8, castleDemo_oneKing⟩,
    (king_isValidMove_iff 8 castleDemo Colour.WHITE ⟨1, 5⟩ ⟨2, 4⟩).1.2 (Or.inl (by decide)),
    (king_isValidMove_iff 8 castleDemo Colour.WHITE ⟨1, 5⟩ ⟨1, 7⟩).1.2
      (Or.inr (Or.inl ⟨rfl, rfl, by decide⟩)),
    by decide, by decide,
    (king_isValidMove_iff 8 castleDemo Colour.WHITE ⟨1, 5⟩ ⟨1, 7⟩).2.2 (le_refl 8)
      castleDemo_oneKing⟩

/-! ## Terminal scenarios -/

/-- C27: the back-rank mate. The board `backRankMate` holds exactly a Black king on h8, a
White rook on h1 and a White king on f7; on it `isInCheck(Black)` is true,
`isInCheckmate(Black)` is true and `isInStalemate(Black)` is false, and both terminal tests
leave the board as it was. -/
theorem backRankMate_scenario :
    (backRankMate.getPiece ⟨8, 8⟩ = some (Piece.create PieceType.King Colour.BLACK)
      ∧ backRankMate.getPiece ⟨1, 8⟩ = some (Piece.create PieceType.Rook Colour.WHITE)
      ∧ backRankMate.getPiece ⟨7, 6⟩ = some (Piece.create PieceType.King Colour.WHITE)
      ∧ pieceCount backRankMate = 3)
    ∧ backRankMate.isInCheck 8 Colour.BLACK = Outcome.ok true
    ∧ backRankMate.isInCheckmate 8 Colour.BLACK = Outcome.ok (true, backRankMate)
    ∧ backRankMate.isInStalemate 8 Colour.BLACK = Outcome.ok (false, backRankMate) := by
  obtain ⟨ic, found, hic, hm, hs, _⟩ :=
    mate_stale_values 8 (le_refl 8) backRankMate backRankMate_oneKing Colour.BLACK
  have h1 : backRankMate.isInCheck 8 Colour.BLACK = Outcome.ok true := by decide
  have h2 : (backRankMate.isInCheckmate 8 Colour.BLACK).map Prod.fst = Outcome.ok true := by
    decide
  have h3 : (backRankMate.isInStalemate 8 Colour.BLACK).map Prod.fst = Outcome.ok false := by
    decide
  refine ⟨⟨rfl, rfl, rfl, by decide⟩, h1, ?_, ?_⟩
  · rw [hm] at h2 ⊢
    simp only [Outcome.map, Outcome.bind_ok, Outcome.ok.injEq] at h2
    rw [h2]
  · rw [hs] at h3 ⊢
    simp only [Outcome.map, Outcome.bind_ok, Outcome.ok.injEq] at h3
    rw [h3]

theorem cornerStalemate_oneKing : OneKingPerColour cornerStalemate := by
  apply oneKing_of_unique
  intro c
  cases c
  · exact ⟨(0, 7), by decide⟩
  · exact ⟨(7, 0), by decide⟩

/-- C28: the stalemate scenario. The board `cornerStalemate` holds exactly a Black king on
a8, a White queen on b6 and a White king on h1; on it `isInCheck(Black)` is false,
`isInStalemate(Black)` is true and `isInCheckmate(Black)` is false, and both terminal tests
leave the board as it was. -/
theorem cornerStalemate_scenario :
    (cornerStalemate.getPiece ⟨8, 1⟩ = some (Piece.create PieceType.King Colour.BLACK)
      ∧ cornerStalemate.getPiece ⟨6, 2⟩ = some (Piece.create PieceType.Queen Colour.WHITE)
      ∧ cornerStalemate.getPiece ⟨1, 8⟩ = some (Piece.create PieceType.King Colour.WHITE)
      ∧ pieceCount cornerStalemate = 3)
    ∧ cornerStalemate.isInCheck 8 Colour.BLACK = Outcome.ok false
    ∧ cornerStalemate.isInStalemate 8 Colour.BLACK = Outcome.ok (true, cornerStalemate)
    ∧ cornerStalemate.isInCheckmate 8 Colour.BLACK = Outcome.ok (false, cornerStalemate) := by
  obtain ⟨ic, found, hic, hm, hs, _⟩ :=
    mate_stale_values 8 (le_refl 8) cornerStalemate cornerStalemate_oneKing Colour.BLACK
  have h1 : cornerStalemate.isInCheck 8 Colour.BLACK = Outcome.ok false := by decide
  have h2 : (cornerStalemate.isInCheckmate 8 Colour.BLACK).map Prod.fst
      = Outcome.ok false := by decide
  have h3 : (cornerStalemate.isInStalemate 8 Colour.BLACK).map Prod.fst
      = Outcome.ok true := by decide
  refine ⟨⟨rfl, rfl, rfl, by decide⟩, h1, ?_, ?_⟩
  · rw [hs] at h3 ⊢
    simp only [Outcome.map, Outcome.bind_ok, Outcome.ok.injEq] at h3
    rw [h3]
  · rw [hm] at h2 ⊢
    simp only [Outcome.map, Outcome.bind_ok, Outcome.ok.injEq] at h2
    rw [h2]

/-! ## Rook flags and rooks that are not in a corner -/

/-- C30 (failing input): after the legal game `rookLiftGame` (1. h4 a6 2. Rh3 b6 3. Ra3 c6)
the White rook that started on h1 stands on a3, the rook on a1 and the king on e1 have never
moved, and the queen-side rook flag of White is still clear. The legal move Ra3-b3 of that
rook, which starts from no corner square, sets the flag; from then on
`canCastleQueenSide(White)` must answer `false`. -/
theorem rook_flag_set_off_corner :
    playLegal 8 startingBoard Colour.WHITE rookLiftGame = some rookLiftBoard
    ∧ rookLiftBoard.getPiece ⟨3, 1⟩ = some ⟨PieceType.Rook, Colour.WHITE, true⟩
    ∧ rookLiftBoard.getPiece ⟨1, 1⟩ = some ⟨PieceType.Rook, Colour.WHITE, false⟩
    ∧ rookLiftBoard.getPiece ⟨1, 5⟩ = some ⟨PieceType.King, Colour.WHITE, false⟩
    ∧ castlingFlags rookLiftBoard = [false, false, true, false, false, false]
    ∧ rookLiftBoard.isValidMove 8 ⟨3, 1⟩ ⟨3, 2⟩ Colour.WHITE = Outcome.ok true
    ∧ (rookLiftBoard.wouldBeInCheck 8 ⟨3, 1⟩ ⟨3, 2⟩ Colour.WHITE).map Prod.fst
        = Outcome.ok false
    ∧ (rookLiftBoard.makeMove 8 ⟨3, 1⟩ ⟨3, 2⟩ (Char.ofNat 0)).map castlingFlags
        = Outcome.ok [false, false, true, true, false, false] := by
  refine ⟨?_, rfl, rfl, rfl, rfl, ?_, ?_, ?_⟩
  · rfl
  · decide
  · decide
  · rfl

/-! ## Change notification -/

/-- What the notification loop adds to the counter of a display: one per entry of the list
that names it. -/
theorem notifyLoop_count (o : Nat) (ho : o ≠ 0) :
    ∀ (l : List Nat) (counts : Nat → Nat),
      (l.foldl (fun counts observer =>
        if observer ≠ 0 then (fun o => if o = observer then counts o + 1 else counts o)
        else counts) counts) o = counts o + l.count o := by
  intro l
  induction l with
  | nil => intro counts; simp
  | cons a rest ih =>
    intro counts
    rw [List.foldl_cons, ih]
    by_cases ha : a = o
    · subst ha
      simp only [ne_eq, ho, not_false_eq_true, if_true, List.count_cons_self]
      omega
    · have hne : o ≠ a := fun e => ha e.symm
      rw [List.count_cons_of_ne hne]
      by_cases h0 : a ≠ 0
      · rw [if_pos h0]
        simp only [hne, if_false]
      · rw [if_neg h0]

theorem notifyObservers_notified (s : ObservedBoard) (o : Nat) (ho : o ≠ 0) :
    s.notifyObservers.notified o = s.notified o + s.observers.count o :=
  notifyLoop_count o ho s.observers s.notified

theorem notifyObservers_zero (s : ObservedBoard) :
    s.notifyObservers.notified 0 = s.notified 0 := by
  show (s.observers.foldl _ s.notified) 0 = s.notified 0
  generalize s.notified = counts
  induction s.observers generalizing counts with
  | nil => rfl
  | cons a rest ih =>
    rw [List.foldl_cons, ih]
    by_cases h0 : a ≠ 0
    · have : ¬ (0 = a) := fun e => h0 e.symm
      rw [if_pos h0]
      simp only [this, if_false]
    · rw [if_neg h0]

/-- A display that is not subscribed is not notified by any call. -/
theorem applyOp_unsubscribed {s s' : ObservedBoard} {op : SubjectOp} {o : Nat}
    (hmem : o ∉ s.observers) (hop : op ≠ SubjectOp.addObserver o)
    (h : s.applyOp op = Outcome.ok s') :
    o ∉ s'.observers ∧ s'.notified o = s.notified o := by
  have hn : ∀ t : ObservedBoard, o ∉ t.observers →
      o ∉ t.notifyObservers.observers ∧ t.notifyObservers.notified o = t.notified o := by
    intro t ht
    refine ⟨ht, ?_⟩
    by_cases ho : o = 0
    · subst ho
      exact notifyObservers_zero t
    · rw [notifyObservers_notified t o ho, List.count_eq_zero_of_not_mem ht]
      rfl
  cases op with
  | addPiece pieceChar pos =>
    simp only [ObservedBoard.applyOp, Outcome.ok.injEq] at h
    subst h
    unfold ObservedBoard.addPiece
    split
    · exact ⟨hmem, rfl⟩
    · exact hn _ hmem
  | removePiece pos =>
    simp only [ObservedBoard.applyOp, Outcome.ok.injEq] at h
    subst h
    unfold ObservedBoard.removePiece
    split
    · exact ⟨hmem, rfl⟩
    · exact hn _ hmem
  | makeMove fuel src dst promotion =>
    simp only [ObservedBoard.applyOp, ObservedBoard.makeMove] at h
    split at h
    · simp only [Outcome.ok.injEq] at h
      subst h
      exact ⟨hmem, rfl⟩
    · obtain ⟨b1, _, h⟩ := Outcome.bind_eq_ok.1 h
      simp only [Outcome.ok.injEq] at h
      subst h
      exact hn _ hmem
  | clear =>
    simp only [ObservedBoard.applyOp, Outcome.ok.injEq] at h
    subst h
    exact ⟨hmem, rfl⟩
  | setupStartingPosition =>
    simp only [ObservedBoard.applyOp, Outcome.ok.injEq] at h
    subst h
    exact hn _ hmem
  | notifyObservers =>
    simp only [ObservedBoard.applyOp, Outcome.ok.injEq] at h
    subst h
    exact hn _ hmem
  | addObserver observer =>
    simp only [ObservedBoard.applyOp, Outcome.ok.injEq] at h
    subst h
    have hne : observer ≠ o := by
      intro e
      apply hop
      rw [e]
    unfold ObservedBoard.addObserver
    split
    · refine ⟨?_, rfl⟩
      simp only [List.mem_append, List.mem_singleton, not_or]
      exact ⟨hmem, fun e => hne e.symm⟩
    · exact ⟨hmem, rfl⟩
  | removeObserver observer =>
    simp only [ObservedBoard.applyOp, Outcome.ok.injEq] at h
    subst h
    refine ⟨?_, rfl⟩
    simp only [ObservedBoard.removeObserver, List.mem_filter, not_and]
    intro hin
    exact absurd hin hmem

theorem runOps_unsubscribed {o : Nat} :
    ∀ (ops : List SubjectOp) (s s' : ObservedBoard), o ∉ s.observers →
      SubjectOp.addObserver o ∉ ops → s.runOps ops = Outcome.ok s' →
      s'.notified o = s.notified o := by
  intro ops
  induction ops with
  | nil =>
    intro s s' _ _ h
    simp only [ObservedBoard.runOps, Outcome.ok.injEq] at h
    rw [h]
  | cons op rest ih =>
    intro s s' hmem hops h
    simp only [ObservedBoard.runOps] at h
    obtain ⟨s1, h1, h2⟩ := Outcome.bind_eq_ok.1 h
    have hop : op ≠ SubjectOp.addObserver o := by
      intro e
      apply hops
      rw [e]
      exact List.mem_cons_self _ _
    obtain ⟨hm1, hn1⟩ := applyOp_unsubscribed hmem hop h1
    rw [ih s1 s' hm1 (fun hin => hops (List.mem_cons_of_mem _ hin)) h2, hn1]

theorem removeObserver_not_mem (s : ObservedBoard) (o : Nat) :
    o ∉ (s.removeObserver o).observers := by
  simp [ObservedBoard.removeObserver]

/-- What the mutating calls do notify: with the notifications counted per display, each of `addPiece` and
`removePiece` with an in-range position, `makeMove` from an occupied square (when it
returns) and `setupStartingPosition` adds to the counter of every display the number of its
subscriptions, which is exactly one for a display subscribed once; `clear` itself notifies
nobody; and a display removed by `removeObserver` receives no notification from any later
sequence of calls that does not subscribe it again. -/
theorem notification_contract (s : ObservedBoard) (o : Nat) (ho : o ≠ 0) :
    (∀ pieceChar pos, pos.isValid = true →
      (s.addPiece pieceChar pos).notified o = s.notified o + s.observers.count o)
    ∧ (∀ pos, pos.isValid = true →
      (s.removePiece pos).notified o = s.notified o + s.observers.count o)
    ∧ (∀ fuel src dst promotion piece b', s.board.getPiece src = some piece →
      s.board.makeMove fuel src dst promotion = Outcome.ok b' →
      ∃ s', s.makeMove fuel src dst promotion = Outcome.ok s' ∧ s'.board = b'
        ∧ s'.notified o = s.notified o + s.observers.count o)
    ∧ s.setupStartingPosition.notified o = s.notified o + s.observers.count o
    ∧ s.clear.notified o = s.notified o
    ∧ (∀ ops s', SubjectOp.addObserver o ∉ ops →
      (s.removeObserver o).runOps ops = Outcome.ok s' → s'.notified o = s.notified o) := by
  refine ⟨?_, ?_, ?_, ?_, rfl, ?_⟩
  · intro pieceChar pos hv
    simp only [ObservedBoard.addPiece, hv, Bool.not_true, Bool.false_eq_true, if_false]
    exact notifyObservers_notified _ o ho
  · intro pos hv
    simp only [ObservedBoard.removePiece, hv, Bool.not_true, Bool.false_eq_true, if_false]
    exact notifyObservers_notified _ o ho
  · intro fuel src dst promotion piece b' hp hm
    refine ⟨_, ?_, rfl, notifyObservers_notified { s with board := b' } o ho⟩
    simp only [ObservedBoard.makeMove, hp, hm, Outcome.bind_ok]
  · exact notifyObservers_notified _ o ho
  · intro ops s' hops h
    exact runOps_unsubscribed ops (s.removeObserver o) s' (removeObserver_not_mem s o) hops h

/-- Example for `notification_contract`: two displays, 1 and 2, subscribed once each to a new
board;
`addPiece('K', e1)` notifies both once; after `removeObserver(1)` the calls `addPiece`,
`makeMove` and `removePiece` notify display 2 only. -/
theorem notification_contract_witness :
    (1 : Nat) ≠ 0
    ∧ (((ObservedBoard.fresh.addObserver 1).addObserver 2).addPiece 'K' ⟨1, 5⟩).notified 1
        = 0 + 1
    ∧ ((((ObservedBoard.fresh.addObserver 1).addObserver 2).addPiece 'K' ⟨1, 5⟩).runOps
          [SubjectOp.removeObserver 1, SubjectOp.addPiece 'k' ⟨8, 5⟩,
            SubjectOp.makeMove 8 ⟨1, 5⟩ ⟨1, 4⟩ (Char.ofNat 0),
            SubjectOp.removePiece ⟨8, 5⟩]).map (fun s => (s.notified 1, s.notified 2))
        = Outcome.ok (1, 4) :=
  ⟨by decide,
    (notification_contract ((ObservedBoard.fresh.addObserver 1).addObserver 2) 1
      (by decide)).1 'K' ⟨1, 5⟩ rfl,
    by decide⟩

/-- C29 (failing input): with display 1 subscribed once, `clear` leaves its counter at 0, on
the new board and after an `addPiece` alike: the body of `clear` holds no call of
`notifyObservers`, unlike every other mutating call. And `addObserver` does not look for
duplicates: a display subscribed twice is notified twice by one `addPiece`. -/
theorem clear_does_not_notify :
    (ObservedBoard.fresh.addObserver 1).observers = [1]
    ∧ ((ObservedBoard.fresh.addObserver 1).clear).notified 1 = 0
    ∧ (((ObservedBoard.fresh.addObserver 1).addPiece 'K' ⟨1, 5⟩).clear).notified 1 = 1
    ∧ (((ObservedBoard.fresh.addObserver 1).addObserver 1).addPiece 'K' ⟨1, 5⟩).notified 1
        = 2 :=
  ⟨rfl, rfl, by decide, by decide⟩

/-! ## Rook moves away from the a- and h-file -/

/-- A rook that starts from a file other than a and h leaves the six castling flags as they
were. -/
theorem makeMove_rook_inner_file {fuel : Nat} {b b' : Board} {src dst : Position} {p : Char}
    {piece : Piece} (hp : b.getPiece src = some piece) (ht : piece.type = PieceType.Rook)
    (h1 : src.col ≠ 1) (h8 : src.col ≠ 8)
    (hm : b.makeMove fuel src dst p = Outcome.ok b') :
    castlingFlags b' = castlingFlags b := by
  obtain ⟨_, _, hd, hne⟩ := makeMove_last hp hm
  have hnp : piece.type.isPawn = false := by rw [ht]; rfl
  have hk : ¬(piece.type = PieceType.King ∧ iabs (dst.col - src.col) = 2) := by
    rw [ht]
    rintro ⟨e, _⟩
    cases e
  rw [makeMove_eq_settled p hp hd hne (enPassantStep_not_pawn hnp) (castleRook_other hk)] at hm
  simp only [Outcome.ok.injEq] at hm
  subst hm
  simp only [castlingFlags, settled, updateFlags, ht, if_true, h1, h8, if_false]
  split_ifs <;> first | rfl | contradiction

/-! ## What a move leaves on the board -/

theorem arrivalPiece_colour (piece : Piece) (dst : Position) (promotion : Char) :
    (arrivalPiece piece dst promotion).colour = piece.colour := by
  unfold arrivalPiece
  split
  · split
    · rfl
    · rfl
  · rfl

theorem arrivalPiece_type (piece : Piece) (dst : Position) (promotion : Char) :
    (arrivalPiece piece dst promotion).type = piece.type
      ∨ (piece.type.isPawn = true ∧ isPromotionRank piece.colour dst = true
          ∧ promotionType promotion = some (arrivalPiece piece dst promotion).type) := by
  unfold arrivalPiece
  split
  · rename_i h
    simp only [Bool.and_eq_true, decide_eq_true_eq] at h
    cases ht : promotionType promotion with
    | none => exact Or.inl rfl
    | some t =>
      refine Or.inr ⟨h.1.1, h.1.2, ?_⟩
      have ht2 := ht
      unfold promotionType at ht2
      split_ifs at ht2 <;> cases ht2 <;> simp [ht, Piece.create]
  · exact Or.inl rfl

theorem promotionType_not_king (promotion : Char) :
    promotionType promotion ≠ some PieceType.King := by
  unfold promotionType
  split_ifs <;> simp

theorem arrivalPiece_king {piece : Piece} {dst : Position} {promotion : Char}
    (h : (arrivalPiece piece dst promotion).type = PieceType.King) :
    piece.type = PieceType.King := by
  rcases arrivalPiece_type piece dst promotion with e | ⟨_, _, e⟩
  · rw [← e]; exact h
  · rw [h] at e
    exact absurd e (promotionType_not_king promotion)

/-- The turn-aware shape test returns on every board with at most one king per colour. -/
theorem Board.isValidMove_returns (fuel : Nat) (hf : 8 ≤ fuel) (b : Board)
    (hone : OneKingPerColour b) (src dst : Position) (turn : Colour) :
    ∃ v, b.isValidMove fuel src dst turn = Outcome.ok v := by
  unfold Board.isValidMove
  split
  · exact ⟨_, rfl⟩
  · rename_i hv
    simp only [Bool.or_eq_true, Bool.not_eq_true', not_or, Bool.not_eq_false] at hv
    obtain ⟨hs, hd⟩ := hv
    cases hp : b.getPiece src with
    | none => exact ⟨_, rfl⟩
    | some piece =>
      simp only
      split
      · exact ⟨_, rfl⟩
      · rename_i hc
        simp only [ne_eq, not_not] at hc
        split
        · exact ⟨_, rfl⟩
        · rename_i ht
          have hne : src ≠ dst := by
            rintro rfl
            rw [hp] at ht
            simp [hc] at ht
          unfold Piece.isValidMove Piece.isValidMoveWith
          cases hty : piece.type with
          | King =>
            simp only
            unfold King.isValidMove
            simp only
            have hret := @canCastleWith_returns (fun c => b.isInCheck fuel c) b piece.colour
              (isInCheck_returns hf hone piece.colour)
            split
            · exact ⟨_, rfl⟩
            · split
              · split
                · exact hret.1
                · exact hret.2
              · exact ⟨_, rfl⟩
          | Queen => exact queen_isValidMove_returns fuel (by omega) b src dst hs hd
          | Rook => exact rook_isValidMove_returns fuel (by omega) b src dst hs hd
          | Bishop => exact bishop_isValidMove_returns fuel (by omega) b src dst hs hd hne
          | Knight => exact ⟨_, rfl⟩
          | Pawn ep => exact ⟨_, rfl⟩

/-- The castling block leaves the board as it is, or moves the rook of a castle that the
matching test allows. -/
theorem castleRook_cases {fuel : Nat} {b b2 : Board} {piece : Piece} {src dst : Position}
    (h : castleRook fuel b piece src dst = Outcome.ok b2) (hp : b.getPiece src = some piece) :
    b2 = b
    ∨ (piece.type = PieceType.King
        ∧ b.canCastleKingSide fuel piece.colour = Outcome.ok true
        ∧ ∀ pos, b2.getPiece pos = if pos = ⟨src.row, 8⟩ then none
            else if pos = ⟨src.row, 6⟩ then b.getPiece ⟨src.row, 8⟩ else b.getPiece pos)
    ∨ (piece.type = PieceType.King
        ∧ b.canCastleQueenSide fuel piece.colour = Outcome.ok true
        ∧ ∀ pos, b2.getPiece pos = if pos = ⟨src.row, 1⟩ then none
            else if pos = ⟨src.row, 4⟩ then b.getPiece ⟨src.row, 1⟩ else b.getPiece pos) := by
  have hs := (Position.isValid_iff _).1 (getPiece_isValid hp)
  by_cases hk : piece.type = PieceType.King ∧ iabs (dst.col - src.col) = 2
  · have habs := hk.2
    rw [iabs_eq] at habs
    by_cases hdir : dst.col > src.col
    · cases hcan : b.canCastleKingSide fuel piece.colour with
      | ok r =>
        cases r
        · unfold castleRook at h
          have hnq : ¬ dst.col < src.col := by omega
          simp only [if_pos hk, if_pos hdir, hcan, Outcome.bind_ok, Bool.false_eq_true, if_false,
            if_neg hnq, Outcome.ok.injEq] at h
          exact Or.inl h.symm
        · by_cases h6 : src.col = 6
          · unfold castleRook at h
            have : src.col - 1 = 5 := by omega
            simp only [if_pos hk, if_pos hdir, hcan, Outcome.bind_ok, if_true, this] at h
            obtain ⟨_, _, h⟩ := Outcome.bind_eq_ok.1 h
            obtain ⟨_, _, h⟩ := Outcome.bind_eq_ok.1 h
            cases h
          · obtain ⟨b2', e, hcells, _⟩ :=
              @castleRook_kingSide fuel b piece src dst hk.1 (by omega) hcan ⟨hs.1, hs.2.1⟩ h6
            rw [e] at h
            simp only [Outcome.ok.injEq] at h
            subst h
            exact Or.inr (Or.inl ⟨hk.1, rfl, hcells⟩)
      | noReturn => unfold castleRook at h; simp [hk, hdir, hcan] at h
      | outOfBounds => unfold castleRook at h; simp [hk, hdir, hcan] at h
      | nullDeref => unfold castleRook at h; simp [hk, hdir, hcan] at h
      | useAfterFree => unfold castleRook at h; simp [hk, hdir, hcan] at h
    · have hlt : dst.col < src.col := by omega
      cases hcan : b.canCastleQueenSide fuel piece.colour with
      | ok r =>
        cases r
        · unfold castleRook at h
          simp only [if_pos hk, if_neg hdir, if_pos hlt, hcan, Outcome.bind_ok,
            Bool.false_eq_true, if_false, Outcome.ok.injEq] at h
          exact Or.inl h.symm
        · by_cases h4 : src.col = 4
          · unfold castleRook at h
            have : src.col - 1 = 3 := by omega
            simp only [if_pos hk, if_neg hdir, if_pos hlt, hcan, Outcome.bind_ok, if_true, this,
              Bool.false_eq_true, if_false] at h
            obtain ⟨_, _, h⟩ := Outcome.bind_eq_ok.1 h
            obtain ⟨_, _, h⟩ := Outcome.bind_eq_ok.1 h
            cases h
          · obtain ⟨b2', e, hcells, _⟩ :=
              @castleRook_queenSide fuel b piece src dst hk.1 (by omega) hcan ⟨hs.1, hs.2.1⟩ h4
            rw [e] at h
            simp only [Outcome.ok.injEq] at h
            subst h
            exact Or.inr (Or.inr ⟨hk.1, rfl, hcells⟩)
      | noReturn => unfold castleRook at h; simp [hk, hdir, hlt, hcan] at h
      | outOfBounds => unfold castleRook at h; simp [hk, hdir, hlt, hcan] at h
      | nullDeref => unfold castleRook at h; simp [hk, hdir, hlt, hcan] at h
      | useAfterFree => unfold castleRook at h; simp [hk, hdir, hlt, hcan] at h
  · rw [castleRook_other hk] at h
    simp only [Outcome.ok.injEq] at h
    exact Or.inl h.symm

/-- On a one-king board the castling block creates no king: every king of the board it
leaves stood on the same square before. -/
theorem castleRook_kings {fuel : Nat} {b b2 : Board} {piece : Piece} {src dst : Position}
    (h : castleRook fuel b piece src dst = Outcome.ok b2) (hp : b.getPiece src = some piece)
    (hone : OneKingPerColour b) (pos : Position) (q : Piece)
    (hq : b2.getPiece pos = some q) (hk : q.type = PieceType.King) :
    b.getPiece pos = some q := by
  rcases castleRook_cases h hp with rfl | ⟨hpk, hcan, hcells⟩ | ⟨hpk, hcan, hcells⟩
  · exact hq
  · obtain ⟨hking, ⟨r, hr, hrt, _⟩, _, _⟩ := canCastleKingSideWith_true hcan
    have hsrc : (⟨homeRank piece.colour, 5⟩ : Position) = src :=
      hone piece.colour _ _ hking ⟨piece, hp, hpk, rfl⟩
    rw [← hsrc] at hcells
    rw [hcells] at hq
    split_ifs at hq
    · rw [hr] at hq
      cases hq
      rw [hrt] at hk
      cases hk
    · exact hq
  · obtain ⟨hking, ⟨r, hr, hrt, _⟩, _, _⟩ := canCastleQueenSideWith_true hcan
    have hsrc : (⟨homeRank piece.colour, 5⟩ : Position) = src :=
      hone piece.colour _ _ hking ⟨piece, hp, hpk, rfl⟩
    rw [← hsrc] at hcells
    rw [hcells] at hq
    split_ifs at hq
    · rw [hr] at hq
      cases hq
      rw [hrt] at hk
      cases hk
    · exact hq

/-- A move applied to a board with at most one king per colour leaves such a board. -/
theorem makeMove_oneKing {fuel : Nat} {b b' : Board} {src dst : Position} {promotion : Char}
    (hone : OneKingPerColour b) (h : b.makeMove fuel src dst promotion = Outcome.ok b') :
    OneKingPerColour b' := by
  cases hp : b.getPiece src with
  | none =>
    rw [makeMove_empty hp] at h
    cases h
    exact hone
  | some piece =>
    have hs := getPiece_isValid hp
    rw [makeMove_blocks hp] at h
    obtain ⟨b1, h1, h⟩ := Outcome.bind_eq_ok.1 h
    obtain ⟨b2, h2, h⟩ := Outcome.bind_eq_ok.1 h
    obtain ⟨hd, hne⟩ := relocate_ok_inv h hs
    have hp1 : b1.getPiece src = some piece := by rw [enPassantStep_keeps_src h1]; exact hp
    have hp2 : b2.getPiece src = some piece := castleRook_src h2 hp1 hd
    rw [relocate_eq b2 piece src dst promotion hd hne hp2] at h
    simp only [Outcome.ok.injEq] at h
    subst h
    have k1 : ∀ pos q, b1.getPiece pos = some q → b.getPiece pos = some q := by
      intro pos q hq
      rw [enPassantStep_src h1 pos] at hq
      split_ifs at hq
      exact hq
    have hone1 : OneKingPerColour b1 := by
      rintro c p1 p2 ⟨q1, hq1, ht1, hc1⟩ ⟨q2, hq2, ht2, hc2⟩
      exact hone c p1 p2 ⟨q1, k1 _ _ hq1, ht1, hc1⟩ ⟨q2, k1 _ _ hq2, ht2, hc2⟩
    have key : ∀ c pos, Holds (settled b2 piece src dst promotion) pos PieceType.King c →
        Holds b (if pos = dst then src else pos) PieceType.King c ∧ (pos ≠ dst → pos ≠ src) := by
      rintro c pos ⟨q, hq, ht, hc⟩
      rw [settled_getPiece b2 piece src dst promotion hs hd pos] at hq
      by_cases e : pos = dst
      · rw [if_pos e] at hq
        simp only [Option.some.injEq] at hq
        subst hq
        rw [if_pos e]
        refine ⟨⟨piece, hp, arrivalPiece_king ht, ?_⟩, fun x => absurd e x⟩
        rw [← hc, arrivalPiece_colour]
      · rw [if_neg e] at hq
        by_cases e2 : pos = src
        · rw [if_pos e2] at hq
          cases hq
        · rw [if_neg e2] at hq
          rw [if_neg e]
          exact ⟨⟨q, k1 _ _ (castleRook_kings h2 hp1 hone1 pos q hq ht), ht, hc⟩, fun _ => e2⟩
    intro c p1 p2 h1' h2'
    obtain ⟨a1, n1⟩ := key c p1 h1'
    obtain ⟨a2, n2⟩ := key c p2 h2'
    have := hone c _ _ a1 a2
    by_cases e1 : p1 = dst <;> by_cases e2 : p2 = dst
    · rw [e1, e2]
    · rw [if_pos e1, if_neg e2] at this
      exact absurd this.symm (n2 e2)
    · rw [if_neg e1, if_pos e2] at this
      exact absurd this (n1 e1)
    · rw [if_neg e1, if_neg e2] at this
      exact this

/-! ## Ordinary moves, and the loops that need not end -/

/-- C35: `makeMove(src, dst, p)` with in-range squares that differ, a piece on `src`, no
en-passant capture (`isEnPassant` false) and no two-file king move returns on every board;
every cell other than `src` and `dst` is unchanged, `src` becomes empty, and `dst` holds a
piece of the mover's colour whose type is the mover's type unless the promotion block
replaced a pawn on its promotion rank by the piece type asked for. -/
theorem ordinary_move_frame (fuel : Nat) (b : Board) (src dst : Position) (p : Char)
    (piece : Piece) (hs : src.isValid = true) (hd : dst.isValid = true) (hne : src ≠ dst)
    (hp : b.getPiece src = some piece)
    (hep : b.isEnPassant src dst piece.colour = false)
    (hk : ¬(piece.type = PieceType.King ∧ iabs (dst.col - src.col) = 2)) :
    ∃ b', b.makeMove fuel src dst p = Outcome.ok b'
      ∧ (∀ pos, pos ≠ src → pos ≠ dst → b'.getPiece pos = b.getPiece pos)
      ∧ b'.getPiece src = none
      ∧ ∃ arrived, b'.getPiece dst = some arrived
          ∧ arrived.colour = piece.colour
          ∧ (arrived.type = piece.type
              ∨ (piece.type.isPawn = true ∧ isPromotionRank piece.colour dst = true
                  ∧ promotionType p = some arrived.type)) := by
  have h1 : enPassantStep b piece src dst = Outcome.ok b := by
    rw [enPassantStep_eq, hep]
    simp
  have h2 : castleRook fuel b piece src dst = Outcome.ok b := castleRook_other hk
  refine ⟨_, makeMove_eq_settled p hp hd hne h1 h2, ?_, ?_, ?_⟩
  · intro pos h3 h4
    rw [settled_getPiece b piece src dst p hs hd pos, if_neg h4, if_neg h3]
  · rw [settled_getPiece b piece src dst p hs hd src, if_neg hne, if_pos rfl]
  · refine ⟨arrivalPiece piece dst p, ?_, arrivalPiece_colour _ _ _, arrivalPiece_type _ _ _⟩
    rw [settled_getPiece b piece src dst p hs hd dst, if_pos rfl]

/-- Witness for C35: the double step e2-e4 on the starting position. -/
theorem ordinary_move_frame_witness :
    ((⟨2, 5⟩ : Position).isValid = true ∧ (⟨4, 5⟩ : Position).isValid = true
      ∧ (⟨2, 5⟩ : Position) ≠ ⟨4, 5⟩
      ∧ startingBoard.getPiece ⟨2, 5⟩ = some (Piece.create (PieceType.Pawn false) Colour.WHITE)
      ∧ startingBoard.isEnPassant ⟨2, 5⟩ ⟨4, 5⟩ Colour.WHITE = false)
    ∧ ∃ b', startingBoard.makeMove 8 ⟨2, 5⟩ ⟨4, 5⟩ (Char.ofNat 0) = Outcome.ok b'
      ∧ (∀ pos, pos ≠ ⟨2, 5⟩ → pos ≠ ⟨4, 5⟩ → b'.getPiece pos = startingBoard.getPiece pos)
      ∧ b'.getPiece ⟨2, 5⟩ = none
      ∧ ∃ arrived, b'.getPiece ⟨4, 5⟩ = some arrived
          ∧ arrived.colour = (Piece.create (PieceType.Pawn false) Colour.WHITE).colour
          ∧ (arrived.type = (Piece.create (PieceType.Pawn false) Colour.WHITE).type
              ∨ ((Piece.create (PieceType.Pawn false) Colour.WHITE).type.isPawn = true
                  ∧ isPromotionRank (Piece.create (PieceType.Pawn false) Colour.WHITE).colour
                      ⟨4, 5⟩ = true
                  ∧ promotionType (Char.ofNat 0) = some arrived.type)) :=
  ⟨⟨rfl, rfl, by decide, rfl, by decide⟩,
    ordinary_move_frame 8 startingBoard ⟨2, 5⟩ ⟨4, 5⟩ (Char.ofNat 0)
      (Piece.create (PieceType.Pawn false) Colour.WHITE) rfl rfl (by decide) rfl (by decide)
      (by decide)⟩

theorem wrapInt_pred (x : Int) (j : Nat) :
    wrapInt (wrapInt (x - j) + -1) = wrapInt (x - ((j + 1 : Nat) : Int)) := by
  unfold wrapInt
  push_cast
  omega

/-- While the walk of a bishop asked about its own square is off the board, the loop goes
on: `n` tests later `current` is `n` wrapped steps further down-left. -/
theorem pathClearInt_jump (b : Board) (dst : Position) (hd : dst.isValid = true)
    (r0 c0 : Int) :
    ∀ (n j0 fuel : Nat),
      (∀ j : Nat, j0 ≤ j → j < j0 + n →
        (⟨wrapInt (r0 - j), wrapInt (c0 - j)⟩ : Position).isValid = false) →
      pathClearInt b dst (-1) (-1) (n + fuel) ⟨wrapInt (r0 - j0), wrapInt (c0 - j0)⟩
        = pathClearInt b dst (-1) (-1) fuel
            ⟨wrapInt (r0 - ((j0 + n : Nat) : Int)), wrapInt (c0 - ((j0 + n : Nat) : Int))⟩ := by
  intro n
  induction n with
  | zero =>
    intro j0 fuel _
    simp
  | succ n ih =>
    intro j0 fuel h
    have hinv := h j0 (le_refl _) (by omega)
    have hne : (⟨wrapInt (r0 - j0), wrapInt (c0 - j0)⟩ : Position) ≠ dst := by
      intro e
      rw [e, hd] at hinv
      cases hinv
    have hg : b.getPiece ⟨wrapInt (r0 - j0), wrapInt (c0 - j0)⟩ = none :=
      getPiece_invalid b hinv
    have e1 : n + 1 + fuel = (n + fuel) + 1 := by omega
    rw [e1]
    simp only [pathClearInt, if_neg hne, hg, Option.isSome_none, Bool.false_eq_true, if_false]
    rw [wrapInt_pred, wrapInt_pred, ih (j0 + 1) fuel (fun j h1 h2 => h j (by omega) (by omega))]
    have e2 : j0 + 1 + n = j0 + (n + 1) := by omega
    rw [e2]

/-- A bishop on rank 1 or on the a-file asked about its own square: whatever the board, the
loop has not returned after 4294967288 tests. -/
theorem bishop_edge_stalls (b : Board) (pos : Position) (fuel : Nat)
    (hv : pos.isValid = true) (hedge : pos.row = 1 ∨ pos.col = 1) (hf : fuel ≤ 4294967288) :
    Bishop.isValidMove fuel pos pos b = Outcome.noReturn := by
  have hv2 := (Position.isValid_iff _).1 hv
  have hstart : Bishop.isValidMove fuel pos pos b
      = pathClearInt b pos (-1) (-1) fuel
          ⟨wrapInt (pos.row - 1 - ((0 : Nat) : Int)), wrapInt (pos.col - 1 - ((0 : Nat) : Int))⟩ := by
    simp only [Bishop.isValidMove, sub_self, ne_eq, not_true_eq_false, if_false, gt_iff_lt,
      lt_self_iff_false, Nat.cast_zero, sub_zero]
    rfl
  have hoff : ∀ j : Nat, 0 ≤ j → j < 0 + fuel →
      (⟨wrapInt (pos.row - 1 - j), wrapInt (pos.col - 1 - j)⟩ : Position).isValid = false := by
    intro j _ hj
    apply Bool.eq_false_iff.2
    intro h
    rw [Position.isValid_iff] at h
    simp only [wrapInt] at h
    omega
  have := pathClearInt_jump b pos hv (pos.row - 1) (pos.col - 1) fuel 0 0 hoff
  rw [Nat.add_zero] at this
  rw [hstart, this]
  rfl

/-- C36 (amended): on every board with at most one king per colour, whatever the castling
flags, `isInCheck` returns: a fuel of 8 (seven path steps and one nested call through the
castling tests) is enough for the recursion `isInCheck -> King::isValidMove ->
canCastle*Side -> isInCheck`. -/
theorem isInCheck_terminates_of_oneKing (b : Board) (c : Colour) (fuel : Nat)
    (hone : OneKingPerColour b) (hf : 8 ≤ fuel) :
    ∃ r, b.isInCheck fuel c = Outcome.ok r :=
  isInCheck_returns hf hone c

/-- Witness for C36 (amended): the board `checkDemo`. -/
theorem isInCheck_terminates_of_oneKing_witness :
    (OneKingPerColour checkDemo ∧ 8 ≤ 8)
    ∧ ∃ r, checkDemo.isInCheck 8 Colour.WHITE = Outcome.ok r :=
  ⟨⟨checkDemo_oneKing, le_refl 8⟩,
    isInCheck_terminates_of_oneKing checkDemo Colour.WHITE 8 checkDemo_oneKing (le_refl 8)⟩

/-- C36 (counterexample): `twoKingsBoard`, built by seven `addPiece` calls with all castling
flags still unset, holds two kings of each colour, and on it `isInCheck` of either colour
never returns, however much fuel the recursion is given. -/
theorem isInCheck_recursion_diverges :
    castlingFlags twoKingsBoard = [false, false, false, false, false, false]
    ∧ pieceCount twoKingsBoard = 7
    ∧ Holds twoKingsBoard ⟨1, 1⟩ PieceType.King Colour.WHITE
    ∧ Holds twoKingsBoard ⟨1, 5⟩ PieceType.King Colour.WHITE
    ∧ ∀ fuel c, twoKingsBoard.isInCheck fuel c = Outcome.noReturn :=
  ⟨rfl, by decide, ⟨_, rfl, rfl, rfl⟩, ⟨_, rfl, rfl, rfl⟩, twoKings_isInCheck_noReturn⟩

/-! ## Castling through an attacked square; the simulation and en passant -/

/-- C31: on `transitDemo` (White king e1 and rook h1 unmoved, f1 and g1 empty, Black rook f8
on the open f-file, Black king a8) the Black rook has `isValidMove(f8, f1, board)` true, so
the transit square f1 is attacked, and yet `canCastleKingSide(White)` is true,
`Board::isValidMove(e1, g1, White)` is true and `wouldBeInCheck(e1, g1, White)` is false. -/
theorem castling_ignores_transit_square :
    Holds transitDemo ⟨1, 5⟩ PieceType.King Colour.WHITE
    ∧ Holds transitDemo ⟨1, 8⟩ PieceType.Rook Colour.WHITE
    ∧ Holds transitDemo ⟨8, 1⟩ PieceType.King Colour.BLACK
    ∧ transitDemo.getPiece ⟨8, 6⟩ = some (Piece.create PieceType.Rook Colour.BLACK)
    ∧ transitDemo.getPiece ⟨1, 6⟩ = none ∧ transitDemo.getPiece ⟨1, 7⟩ = none
    ∧ castlingFlags transitDemo = [false, false, false, false, false, false]
    ∧ (Piece.create PieceType.Rook Colour.BLACK).isValidMove 8 ⟨8, 6⟩ ⟨1, 6⟩ transitDemo
        = Outcome.ok true
    ∧ transitDemo.canCastleKingSide 8 Colour.WHITE = Outcome.ok true
    ∧ transitDemo.isValidMove 8 ⟨1, 5⟩ ⟨1, 7⟩ Colour.WHITE = Outcome.ok true
    ∧ (transitDemo.wouldBeInCheck 8 ⟨1, 5⟩ ⟨1, 7⟩ Colour.WHITE).map Prod.fst
        = Outcome.ok false :=
  ⟨⟨_, rfl, rfl, rfl⟩, ⟨_, rfl, rfl, rfl⟩, ⟨_, rfl, rfl, rfl⟩, rfl, rfl, rfl, rfl, by decide,
    by decide, by decide, by decide⟩

/-- C34 (failing input): `pinnedPawnSetup` is accepted by `isValidSetup`; after Black's legal
double step d7-d5 the en-passant capture e5xd6 passes `Board::isValidMove` and
`wouldBeInCheck(e5, d6, White)` answers `false`, because the simulation leaves the captured
pawn on d5 between the rook a5 and the king h5; on the board that `makeMove(e5, d6)` leaves,
the pawn is gone and `isInCheck(White)` is `true`. -/
theorem wouldBeInCheck_misses_enPassant_removal :
    pinnedPawnSetup.isValidSetup 8 = Outcome.ok true
    ∧ playLegal 8 pinnedPawnSetup Colour.BLACK [(⟨7, 4⟩, ⟨5, 4⟩)] = some pinnedPawnBoard
    ∧ pinnedPawnBoard.isValidMove 8 ⟨5, 5⟩ ⟨6, 4⟩ Colour.WHITE = Outcome.ok true
    ∧ pinnedPawnBoard.isEnPassant ⟨5, 5⟩ ⟨6, 4⟩ Colour.WHITE = true
    ∧ (pinnedPawnBoard.wouldBeInCheck 8 ⟨5, 5⟩ ⟨6, 4⟩ Colour.WHITE).map Prod.fst
        = Outcome.ok false
    ∧ ((pinnedPawnBoard.makeMove 8 ⟨5, 5⟩ ⟨6, 4⟩ (Char.ofNat 0)).bind
        fun b => b.isInCheck 8 Colour.WHITE) = Outcome.ok true
    ∧ ((pinnedPawnBoard.makeMove 8 ⟨5, 5⟩ ⟨6, 4⟩ (Char.ofNat 0)).map
        fun b => b.getPiece ⟨5, 4⟩) = Outcome.ok none :=
  ⟨by decide, rfl, by decide, by decide, by decide, by decide, by decide⟩

/-! ## Generated moves pass the shape rules -/

/-- A square generated on a ray lies a listed number of steps from the source. -/
theorem slideRay_offset (b : Board) (colour : Colour) (src : Position) (dr dc : Int)
    (dst : Position) :
    ∀ l : List Int, dst ∈ slideRay b colour src dr dc l →
      ∃ m ∈ l, dst = ⟨src.row + m * dr, src.col + m * dc⟩ := by
  intro l
  induction l with
  | nil => intro h; simp [slideRay] at h
  | cons i rest ih =>
    intro h
    simp only [slideRay] at h
    split at h
    · simp at h
    · split at h
      · split at h
        · simp only [List.mem_singleton] at h
          exact ⟨i, List.mem_cons_self _ _, h⟩
        · simp at h
      · rcases List.mem_cons.1 h with h | h
        · exact ⟨i, List.mem_cons_self _ _, h⟩
        · obtain ⟨m, hm, e⟩ := ih h
          exact ⟨m, List.mem_cons_of_mem _ hm, e⟩

/-- The path loop started on the first square of a ray of consecutive step counts answers
`true` for every square generated on that ray. -/
theorem slideRay_pathClear (b : Board) (colour : Colour) (src : Position) (dr dc : Int)
    (dst : Position) :
    ∀ (rest : List Int) (k : Int) (fuel : Nat),
      List.Chain (fun x y => y = x + 1) k rest → rest.length < fuel →
      dst ∈ slideRay b colour src dr dc (k :: rest) →
      pathClear b dst dr dc fuel ⟨src.row + k * dr, src.col + k * dc⟩ = Outcome.ok true := by
  intro rest
  induction rest with
  | nil =>
    intro k fuel _ hf h
    obtain ⟨m, hm, e⟩ := slideRay_offset b colour src dr dc dst _ h
    simp only [List.mem_singleton] at hm
    subst hm
    obtain ⟨n, rfl⟩ : ∃ n, fuel = n + 1 := ⟨fuel - 1, by simp at hf; omega⟩
    simp [pathClear, e]
  | cons j rest ih =>
    intro k fuel hc hf h
    obtain ⟨n, rfl⟩ : ∃ n, fuel = n + 1 := ⟨fuel - 1, by simp at hf; omega⟩
    rw [List.chain_cons] at hc
    obtain ⟨hj, hc⟩ := hc
    by_cases e : (⟨src.row + k * dr, src.col + k * dc⟩ : Position) = dst
    · simp [pathClear, e]
    · simp only [pathClear, if_neg e]
      simp only [slideRay] at h
      split at h
      · simp at h
      · split at h
        · split at h
          · simp only [List.mem_singleton] at h
            exact absurd h.symm e
          · simp at h
        · rename_i hn
          rcases List.mem_cons.1 h with h | h
          · exact absurd h.symm e
          · simp only [hn, Option.isSome_none, Bool.false_eq_true, if_false]
            have := ih j n hc (by simp at hf ⊢; omega) h
            rw [hj] at this
            refine Eq.trans (congrArg _ ?_) this
            simp only [Position.mk.injEq]
            constructor <;> ring

theorem raySteps_chain : List.Chain (fun x y : Int => y = x + 1) 1 [2, 3, 4, 5, 6, 7] := by
  simp [List.chain_cons]

/-- A square generated by a sliding piece lies `m` steps (1 to 7) along one direction of its
table, and the path loop along that direction answers `true`. -/
theorem slideMoves_path (b : Board) (colour : Colour) (src dst : Position)
    (dirs : List (Int × Int)) (fuel : Nat) (hf : 7 ≤ fuel)
    (h : dst ∈ slideMoves b colour src dirs) :
    ∃ d ∈ dirs, ∃ m : Int, 1 ≤ m ∧ m ≤ 7
      ∧ dst = ⟨src.row + m * d.1, src.col + m * d.2⟩
      ∧ pathClear b dst d.1 d.2 fuel ⟨src.row + d.1, src.col + d.2⟩ = Outcome.ok true := by
  induction dirs with
  | nil => simp [slideMoves] at h
  | cons d rest ih =>
    simp only [slideMoves, List.mem_append] at h
    rcases h with h | h
    · refine ⟨d, List.mem_cons_self _ _, ?_⟩
      obtain ⟨m, hm, e⟩ := slideRay_offset b colour src d.1 d.2 dst _ h
      refine ⟨m, ?_, ?_, e, ?_⟩
      · simp [raySteps] at hm; omega
      · simp [raySteps] at hm; omega
      · have := slideRay_pathClear b colour src d.1 d.2 dst [2, 3, 4, 5, 6, 7] 1 fuel
          raySteps_chain (by simp; omega) h
        simpa using this
    · obtain ⟨d', hd', x⟩ := ih h
      exact ⟨d', List.mem_cons_of_mem _ hd', x⟩

theorem rook_generated_valid (b : Board) (colour : Colour) (src dst : Position) (fuel : Nat)
    (hf : 7 ≤ fuel) (h : dst ∈ slideMoves b colour src rookDirections) :
    Rook.isValidMove fuel src dst b = Outcome.ok true := by
  obtain ⟨d, hd, m, h1, h7, e, hp⟩ := slideMoves_path b colour src dst _ fuel hf h
  subst e
  unfold Rook.isValidMove
  simp only [rookDirections, List.mem_cons, List.mem_singleton, List.not_mem_nil, or_false] at hd
  rcases hd with rfl | rfl | rfl | rfl
  all_goals
    simp only [mul_zero, add_zero, mul_one, mul_neg, ne_eq, not_true_eq_false, false_and,
      and_false, if_false, stepOf, gt_iff_lt, lt_self_iff_false] at hp ⊢
  · rw [if_neg (by omega), if_pos (by omega)]; exact hp
  · rw [if_pos (by omega)]; exact hp
  · rw [if_neg (by omega), if_pos (by omega)]; exact hp
  · rw [if_pos (by omega)]; exact hp

theorem bishop_generated_valid (b : Board) (colour : Colour) (src dst : Position) (fuel : Nat)
    (hf : 7 ≤ fuel) (hs : src.isValid = true)
    (h : dst ∈ slideMoves b colour src bishopDirections) :
    Bishop.isValidMove fuel src dst b = Outcome.ok true := by
  have hdv := (slideMoves_sound b colour src _ dst h).1
  obtain ⟨d, hd, m, h1, h7, e, hp⟩ := slideMoves_path b colour src dst _ fuel hf h
  have hne : src ≠ dst := by
    intro e2
    rw [e] at e2
    have e3 := congrArg Position.row e2
    have e4 := congrArg Position.col e2
    simp only [bishopDirections, List.mem_cons, List.mem_singleton, List.not_mem_nil,
      or_false] at hd
    simp only at e3 e4
    rcases hd with rfl | rfl | rfl | rfl <;> simp only [mul_one, mul_neg] at e3 <;> omega
  rw [bishop_isValidMove_plain fuel b src dst hs hdv hne]
  subst e
  simp only [bishopDirections, List.mem_cons, List.mem_singleton, List.not_mem_nil,
    or_false] at hd
  rcases hd with rfl | rfl | rfl | rfl
  all_goals
    simp only [mul_one, mul_neg, iabs_eq, gt_iff_lt] at hp ⊢
  · rw [if_neg (by omega), if_neg (by omega), if_neg (by omega)]; exact hp
  · rw [if_neg (by omega), if_neg (by omega), if_pos (by omega)]; exact hp
  · rw [if_neg (by omega), if_pos (by omega), if_neg (by omega)]; exact hp
  · rw [if_neg (by omega), if_pos (by omega), if_pos (by omega)]; exact hp

theorem queen_generated_valid (b : Board) (colour : Colour) (src dst : Position) (fuel : Nat)
    (hf : 7 ≤ fuel) (h : dst ∈ slideMoves b colour src queenDirections) :
    Queen.isValidMove fuel src dst b = Outcome.ok true := by
  obtain ⟨d, hd, m, h1, h7, e, hp⟩ := slideMoves_path b colour src dst _ fuel hf h
  subst e
  unfold Queen.isValidMove
  simp only [queenDirections, List.mem_cons, List.mem_singleton, List.not_mem_nil,
    or_false] at hd
  have hq : ∀ (rs cs : Int), rs = 1 ∨ rs = 0 ∨ rs = -1 → cs = 1 ∨ cs = 0 ∨ cs = -1 →
      pathClear b ⟨src.row + m * rs, src.col + m * cs⟩ rs cs fuel
        ⟨src.row + rs, src.col + cs⟩ = Outcome.ok true →
      (if (!(decide (iabs (src.row + m * rs - src.row) = 0)
            || decide (iabs (src.col + m * cs - src.col) = 0))
          && !decide (iabs (src.row + m * rs - src.row) = iabs (src.col + m * cs - src.col)))
          = true
        then Outcome.ok false
        else pathClear b ⟨src.row + m * rs, src.col + m * cs⟩
          (stepOf src.row (src.row + m * rs)) (stepOf src.col (src.col + m * cs)) fuel
          ⟨src.row + stepOf src.row (src.row + m * rs),
            src.col + stepOf src.col (src.col + m * cs)⟩) = Outcome.ok true := by
    intro rs cs hrs hcs hp
    have e1 : stepOf src.row (src.row + m * rs) = rs := by
      unfold stepOf
      rcases hrs with rfl | rfl | rfl
      · rw [if_pos (by omega)]
      · rw [if_neg (by omega), if_neg (by omega)]
      · rw [if_neg (by omega), if_pos (by omega)]
    have e2 : stepOf src.col (src.col + m * cs) = cs := by
      unfold stepOf
      rcases hcs with rfl | rfl | rfl
      · rw [if_pos (by omega)]
      · rw [if_neg (by omega), if_neg (by omega)]
      · rw [if_neg (by omega), if_pos (by omega)]
    rw [e1, e2, if_neg]
    · exact hp
    · simp only [iabs_eq, Bool.and_eq_true, Bool.not_eq_true', Bool.or_eq_false_iff,
        decide_eq_false_iff_not, not_and, not_not]
      intro _
      rcases hrs with rfl | rfl | rfl <;> rcases hcs with rfl | rfl | rfl <;> omega
  rcases hd with rfl | rfl | rfl | rfl | rfl | rfl | rfl | rfl
  all_goals
    apply hq _ _ (by decide) (by decide) hp

theorem knight_generated_valid (b : Board) (colour : Colour) (src dst : Position)
    (h : dst ∈ Knight.getPossibleMoves colour src b) :
    Knight.isValidMove src dst = true := by
  unfold Knight.getPossibleMoves at h
  have h1 := (List.mem_filter.1 h).1
  simp only [knightMoves, List.map_cons, List.map_nil, List.mem_cons, List.mem_singleton,
    List.not_mem_nil, or_false] at h1
  rcases h1 with rfl | rfl | rfl | rfl | rfl | rfl | rfl | rfl <;>
    simp [Knight.isValidMove, iabs]

theorem pawn_generated_valid (b : Board) (colour : Colour) (hasMoved : Bool)
    (src dst : Position) (h : dst ∈ Pawn.getPossibleMoves colour hasMoved src b) :
    Pawn.isValidMove colour hasMoved src dst b = true := by
  rw [pawn_isValidMove_spec]
  simp only [Pawn.getPossibleMoves] at h
  have hdir : (if colour = Colour.WHITE then (1 : Int) else -1) = forwardOf colour := by
    cases colour <;> rfl
  rw [hdir] at h
  simp only [List.mem_append] at h
  rcases h with h | h
  · split at h
    · rename_i h1
      simp only [Bool.and_eq_true, Option.isNone_iff_eq_none] at h1
      rcases List.mem_cons.1 h with h | h
      · subst h
        exact Or.inl ⟨rfl, rfl, h1.2⟩
      · split at h
        · rename_i h2
          simp only [Bool.and_eq_true, Option.isNone_iff_eq_none, Bool.not_eq_true'] at h2
          simp only [List.mem_singleton] at h
          subst h
          exact Or.inr (Or.inl ⟨rfl, rfl, h2.1, h2.2.2, h1.2⟩)
        · simp at h
    · simp at h
  · right; right
    obtain ⟨h1, h2⟩ := List.mem_filter.1 h
    simp only [Bool.and_eq_true] at h2
    have h3 := h2.2
    unfold holdsEnemy at h3
    simp only [List.map_cons, List.map_nil, List.mem_cons, List.mem_singleton,
      List.not_mem_nil, or_false] at h1
    refine ⟨?_, ?_, Or.inl ?_⟩
    · rcases h1 with rfl | rfl <;> simp [iabs]
    · rcases h1 with rfl | rfl <;> rfl
    · cases hg : b.getPiece dst with
      | none => rw [hg] at h3; cases h3
      | some t =>
        rw [hg] at h3
        exact ⟨t, rfl, by simpa using h3⟩

/-- Every generated move passes the shape rule of its piece. -/
theorem generated_isValidMove (fuel : Nat) (hf : 7 ≤ fuel) (b : Board) (p : Piece)
    (src dst : Position) (moves : List Position) (hs : src.isValid = true)
    (hm : p.getPossibleMoves fuel src b = Outcome.ok moves) (hd : dst ∈ moves) :
    p.isValidMove fuel src dst b = Outcome.ok true := by
  unfold Piece.isValidMove Piece.isValidMoveWith
  unfold Piece.getPossibleMoves Piece.getPossibleMovesWith at hm
  cases ht : p.type with
  | King =>
    simp only [ht] at hm
    obtain ⟨d, hdm, hdd⟩ := kingMoves_adjacent _ p.colour src b _ _ hm dst hd
    rw [hdd]
    exact King.isValidMove_adjacent _ p.colour src b d hdm
  | Queen =>
    simp only [ht, Outcome.ok.injEq] at hm
    subst hm
    exact queen_generated_valid b p.colour src dst fuel hf hd
  | Rook =>
    simp only [ht, Outcome.ok.injEq] at hm
    subst hm
    exact rook_generated_valid b p.colour src dst fuel hf hd
  | Bishop =>
    simp only [ht, Outcome.ok.injEq] at hm
    subst hm
    exact bishop_generated_valid b p.colour src dst fuel hf hs hd
  | Knight =>
    simp only [ht, Outcome.ok.injEq] at hm
    subst hm
    simp only [Outcome.ok.injEq]
    exact knight_generated_valid b p.colour src dst hd
  | Pawn ep =>
    simp only [ht, Outcome.ok.injEq] at hm
    subst hm
    simp only [Outcome.ok.injEq]
    exact pawn_generated_valid b p.colour p.hasMoved src dst hd

/-- C32: for a Rook, Bishop, Queen or Knight `p` on an in-range square `src` and an in-range
square `dst` other than `src`, `getPossibleMoves` returns a list, `isValidMove` returns, and
`dst` is in the list if and only if `isValidMove(src, dst, board)` is true and `dst` holds no
piece of the colour of `p` (fuel 7 covers the longest path on the board). -/
theorem generation_agrees_with_validation (fuel : Nat) (b : Board) (p : Piece)
    (src dst : Position) (hf : 7 ≤ fuel)
    (ht : p.type = PieceType.Rook ∨ p.type = PieceType.Bishop ∨ p.type = PieceType.Queen
      ∨ p.type = PieceType.Knight)
    (hs : src.isValid = true) (hd : dst.isValid = true) (hne : dst ≠ src) :
    ∃ moves v, p.getPossibleMoves fuel src b = Outcome.ok moves
      ∧ p.isValidMove fuel src dst b = Outcome.ok v
      ∧ (dst ∈ moves ↔
          v = true ∧ ∀ t, b.getPiece dst = some t → t.colour ≠ p.colour) := by
  obtain ⟨moves, hm, hsound⟩ := getPossibleMoves_sound fuel b p src
  have hret : ∃ v, p.isValidMove fuel src dst b = Outcome.ok v := by
    unfold Piece.isValidMove Piece.isValidMoveWith
    rcases ht with ht | ht | ht | ht <;> simp only [ht]
    · exact rook_isValidMove_returns fuel hf b src dst hs hd
    · exact bishop_isValidMove_returns fuel hf b src dst hs hd (Ne.symm hne)
    · exact queen_isValidMove_returns fuel hf b src dst hs hd
    · exact ⟨_, rfl⟩
  obtain ⟨v, hv⟩ := hret
  refine ⟨moves, v, hm, hv, ?_⟩
  rw [← emptyOrEnemy_iff]
  constructor
  · intro h
    have := generated_isValidMove fuel hf b p src dst moves hs hm h
    rw [hv] at this
    simp only [Outcome.ok.injEq] at this
    exact ⟨this, (hsound dst h).2⟩
  · rintro ⟨rfl, he⟩
    unfold Piece.isValidMove Piece.isValidMoveWith at hv
    unfold Piece.getPossibleMoves Piece.getPossibleMovesWith at hm
    rcases ht with ht | ht | ht | ht <;> simp only [ht, Outcome.ok.injEq] at hv hm <;> subst hm
    · exact rook_moves_complete fuel b p.colour src dst hs hd (Ne.symm hne) he hv
    · exact bishop_moves_complete fuel b p.colour src dst hs hd (Ne.symm hne) he hv
    · exact queen_moves_complete fuel b p.colour src dst hs hd (Ne.symm hne) he hv
    · exact knight_moves_complete b p.colour src dst hd he hv

/-- Witness for C32: the knight b1 of the starting position and the square c3. -/
theorem generation_agrees_with_validation_witness :
    (7 ≤ 8 ∧ (⟨1, 2⟩ : Position).isValid = true ∧ (⟨3, 3⟩ : Position).isValid = true
      ∧ (⟨3, 3⟩ : Position) ≠ ⟨1, 2⟩
      ∧ startingBoard.getPiece ⟨1, 2⟩ = some (Piece.create PieceType.Knight Colour.WHITE))
    ∧ ∃ moves v,
        (Piece.create PieceType.Knight Colour.WHITE).getPossibleMoves 8 ⟨1, 2⟩ startingBoard
          = Outcome.ok moves
        ∧ (Piece.create PieceType.Knight Colour.WHITE).isValidMove 8 ⟨1, 2⟩ ⟨3, 3⟩
            startingBoard = Outcome.ok v
        ∧ ((⟨3, 3⟩ : Position) ∈ moves ↔
            v = true ∧ ∀ t, startingBoard.getPiece ⟨3, 3⟩ = some t →
              t.colour ≠ (Piece.create PieceType.Knight Colour.WHITE).colour) :=
  ⟨⟨by decide, rfl, rfl, by decide, rfl⟩,
    generation_agrees_with_validation 8 startingBoard
      (Piece.create PieceType.Knight Colour.WHITE) ⟨1, 2⟩ ⟨3, 3⟩ (by decide)
      (Or.inr (Or.inr (Or.inr rfl))) rfl rfl (by decide)⟩

/-- C33: for each of the six piece types, every board and every in-range square `src`
holding a piece of colour `c`, `getPossibleMoves` returns a list and every square of the
list passes `Board::isValidMove(src, dst, c)` (fuel 7 covers the longest path). -/
theorem generated_moves_are_valid (fuel : Nat) (b : Board) (c : Colour) (p : Piece)
    (src : Position) (hf : 7 ≤ fuel) (hp : b.getPiece src = some p) (hc : p.colour = c) :
    ∃ moves, p.getPossibleMoves fuel src b = Outcome.ok moves
      ∧ ∀ dst ∈ moves, b.isValidMove fuel src dst c = Outcome.ok true := by
  obtain ⟨moves, hm, hsound⟩ := getPossibleMoves_sound fuel b p src
  refine ⟨moves, hm, ?_⟩
  intro dst hd
  obtain ⟨hdv, he⟩ := hsound dst hd
  have hsv := getPiece_isValid hp
  unfold Board.isValidMove
  simp only [hsv, hdv, Bool.not_true, Bool.or_self, Bool.false_eq_true, if_false, hp, hc,
    ne_eq, not_true_eq_false]
  rw [hc] at he
  unfold emptyOrEnemy at he
  cases hg : b.getPiece dst with
  | none =>
    simp only [Bool.false_eq_true, if_false]
    exact generated_isValidMove fuel hf b p src dst moves hsv hm hd
  | some t =>
    rw [hg] at he
    simp only [decide_eq_true_eq] at he
    simp only [decide_eq_true_eq, if_neg he]
    exact generated_isValidMove fuel hf b p src dst moves hsv hm hd

/-- Witness for C33: the pawn e2 of the starting position. -/
theorem generated_moves_are_valid_witness :
    (7 ≤ 8
      ∧ startingBoard.getPiece ⟨2, 5⟩ = some (Piece.create (PieceType.Pawn false) Colour.WHITE)
      ∧ (Piece.create (PieceType.Pawn false) Colour.WHITE).colour = Colour.WHITE)
    ∧ ∃ moves,
        (Piece.create (PieceType.Pawn false) Colour.WHITE).getPossibleMoves 8 ⟨2, 5⟩
          startingBoard = Outcome.ok moves
        ∧ ∀ dst ∈ moves, startingBoard.isValidMove 8 ⟨2, 5⟩ dst Colour.WHITE
            = Outcome.ok true :=
  ⟨⟨by decide, rfl, rfl⟩,
    generated_moves_are_valid 8 startingBoard Colour.WHITE
      (Piece.create (PieceType.Pawn false) Colour.WHITE) ⟨2, 5⟩ (by decide) rfl rfl⟩

/-! ## The move list of the computer player -/

theorem moveStrings_ne_nil (piece : Piece) (src dst : Position) :
    Player.moveStrings piece src dst ≠ [] := by
  unfold Player.moveStrings
  split_ifs <;> simp

/-- The inner loop of `getAllLegalMoves` and the inner loop of the terminal tests try the
same moves: when every step returns, both hand the board back, and the list is non-empty
exactly when the search finds a move. -/
theorem movesOfPiece_tryMoves (fuel : Nat) (c : Colour) (piece : Piece) (src : Position)
    (b : Board) :
    ∀ moves : List Position,
      (∀ dst ∈ moves, ∃ v, b.isValidMove fuel src dst c = Outcome.ok v
        ∧ (v = true → ∃ w, b.wouldBeInCheck fuel src dst c = Outcome.ok (w, b))) →
      ∃ ms found, Player.movesOfPiece fuel c piece src moves b = Outcome.ok (ms, b)
        ∧ tryMoves fuel c src moves b = Outcome.ok (found, b)
        ∧ (found = true ↔ ms ≠ []) := by
  intro moves
  induction moves with
  | nil => intro _; exact ⟨[], false, rfl, rfl, by simp⟩
  | cons dst rest ih =>
    intro h
    obtain ⟨ms, found, hms, hfound, hiff⟩ := ih (fun d hd => h d (List.mem_cons_of_mem _ hd))
    obtain ⟨v, hv, hw⟩ := h dst (List.mem_cons_self _ _)
    simp only [Player.movesOfPiece, tryMoves, hv, Outcome.bind_ok]
    cases v with
    | false => exact ⟨ms, found, by simpa using hms, by simpa using hfound, hiff⟩
    | true =>
      obtain ⟨w, hw⟩ := hw rfl
      simp only [if_true, hw, hms, Outcome.bind_ok]
      cases w with
      | false =>
        refine ⟨Player.moveStrings piece src dst ++ ms, true, by simp, by simp, ?_⟩
        simp only [true_iff, ne_eq, List.append_eq_nil, not_and]
        intro e
        exact absurd e (moveStrings_ne_nil piece src dst)
      | true => exact ⟨ms, found, by simp, by simpa using hfound, hiff⟩

/-- The outer loops of `getAllLegalMoves` and of the terminal tests visit the same pieces:
when every step returns, both hand the board back, and the list of moves is non-empty
exactly when the search finds a move. -/
theorem collectMoves_findLegalMove (fuel : Nat) (c : Colour) (b : Board) :
    ∀ l : List (Fin 8 × Fin 8),
      (∀ sq ∈ l, ∀ p, b.grid sq.1 sq.2 = some p → p.colour = c →
        ∀ moves, p.getPossibleMoves fuel (posOf sq.1 sq.2) b = Outcome.ok moves →
        ∀ dst ∈ moves, ∃ v, b.isValidMove fuel (posOf sq.1 sq.2) dst c = Outcome.ok v
          ∧ (v = true →
            ∃ w, b.wouldBeInCheck fuel (posOf sq.1 sq.2) dst c = Outcome.ok (w, b))) →
      ∃ ms found, Player.collectMoves fuel c l b = Outcome.ok (ms, b)
        ∧ findLegalMove fuel c l b = Outcome.ok (found, b)
        ∧ (found = true ↔ ms ≠ []) := by
  intro l
  induction l with
  | nil => intro _; exact ⟨[], false, rfl, rfl, by simp⟩
  | cons sq rest ih =>
    intro h
    obtain ⟨ms, found, hms, hfound, hiff⟩ := ih (fun s hs => h s (List.mem_cons_of_mem _ hs))
    simp only [Player.collectMoves, findLegalMove, getPiece_posOf]
    cases hg : b.grid sq.1 sq.2 with
    | none => exact ⟨ms, found, hms, hfound, hiff⟩
    | some p =>
      by_cases hc : p.colour = c
      · obtain ⟨moves, hm, _⟩ := getPossibleMoves_sound fuel b p (posOf sq.1 sq.2)
        obtain ⟨ms1, fnd, hms1, hfnd, hfiff⟩ :=
          movesOfPiece_tryMoves fuel c p (posOf sq.1 sq.2) b moves
            (h sq (List.mem_cons_self _ _) p hg hc moves hm)
        simp only [hc, if_true, hm, hms1, hfnd, hms, Outcome.bind_ok]
        cases fnd with
        | true =>
          refine ⟨ms1 ++ ms, true, rfl, by simp, ?_⟩
          simp only [true_iff, ne_eq, List.append_eq_nil, not_and]
          intro e
          exact absurd e (hfiff.1 rfl)
        | false =>
          have e1 : ms1 = [] := by
            by_contra hne
            have := hfiff.2 hne
            cases this
          subst e1
          exact ⟨ms, found, by simp, by simpa using hfound, hiff⟩
      · exact ⟨ms, found, by simpa [hc] using hms, by simpa [hc] using hfound, hiff⟩

/-- On a one-king board every step of the enumeration returns and hands the board back. -/
theorem enumeration_total (fuel : Nat) (hf : 8 ≤ fuel) (b : Board)
    (hone : OneKingPerColour b) (c : Colour) :
    ∀ sq ∈ allSquares, ∀ p, b.grid sq.1 sq.2 = some p → p.colour = c →
      ∀ moves, p.getPossibleMoves fuel (posOf sq.1 sq.2) b = Outcome.ok moves →
      ∀ dst ∈ moves, ∃ v, b.isValidMove fuel (posOf sq.1 sq.2) dst c = Outcome.ok v
        ∧ (v = true →
          ∃ w, b.wouldBeInCheck fuel (posOf sq.1 sq.2) dst c = Outcome.ok (w, b)) := by
  intro sq _ p hg hpc moves hm dst hd
  have hp : b.getPiece (posOf sq.1 sq.2) = some p := by rw [getPiece_posOf]; exact hg
  obtain ⟨v, hv⟩ := isValidMove_returns_of_generated fuel (by omega) b c _ dst p moves hp hpc
    hm hd
  refine ⟨v, hv, fun _ => ?_⟩
  obtain ⟨moves', hm', hsound⟩ := getPossibleMoves_sound fuel b p (posOf sq.1 sq.2)
  rw [hm] at hm'
  cases hm'
  exact wouldBeInCheck_returns fuel hf b hone _ dst c p hp (hsound dst hd).1

/-- C38 (amended): on every board with at most one king per colour, `getAllLegalMoves`,
`isInCheckmate(c)` and `isInStalemate(c)` return and leave the board as it is, and the list
of moves is empty if and only if `isInCheckmate(c)` or `isInStalemate(c)` is true; hence when
neither is true the list has a non-zero size and `getMove` returns the entry
`rnd % legalMoves.size()` of the list for every value `rnd` of `rand()`. -/
theorem legalMoves_empty_iff_game_end (fuel : Nat) (b : Board) (c : Colour) (hf : 8 ≤ fuel)
    (hone : OneKingPerColour b) :
    ∃ ms mate stale, Player.getAllLegalMoves fuel c b = Outcome.ok (ms, b)
      ∧ b.isInCheckmate fuel c = Outcome.ok (mate, b)
      ∧ b.isInStalemate fuel c = Outcome.ok (stale, b)
      ∧ (ms = [] ↔ (mate = true ∨ stale = true))
      ∧ (mate = false → stale = false → ms.length ≠ 0
          ∧ ∀ rnd, ∃ mv ∈ ms, ComputerPlayer1.getMove fuel c b rnd = Outcome.ok (some mv, b)) := by
  obtain ⟨ms, found, hms, hfound, hiff⟩ :=
    collectMoves_findLegalMove fuel c b allSquares (enumeration_total fuel hf b hone c)
  obtain ⟨inCheck, hchk⟩ := isInCheck_returns hf hone c
  have hmate : b.isInCheckmate fuel c = Outcome.ok (inCheck && !found, b) := by
    unfold Board.isInCheckmate
    rw [hchk]
    cases inCheck <;> simp [hfound]
  have hstale : b.isInStalemate fuel c = Outcome.ok (!inCheck && !found, b) := by
    unfold Board.isInStalemate
    rw [hchk]
    cases inCheck <;> simp [hfound]
  have hempty : ms = [] ↔ found = false := by
    cases found with
    | true => simpa using hiff.1 rfl
    | false =>
      simp only [iff_true]
      by_contra hne
      have := hiff.2 hne
      cases this
  refine ⟨ms, _, _, hms, hmate, hstale, ?_, ?_⟩
  · rw [hempty]
    cases inCheck <;> cases found <;> simp
  · intro h1 h2
    have hne : ms ≠ [] := by
      rw [Ne, hempty]
      cases inCheck <;> cases found <;> simp_all
    have hlen : ms.length ≠ 0 := by
      intro e
      exact hne (List.length_eq_zero.1 e)
    refine ⟨hlen, fun rnd => ?_⟩
    have hlt : rnd % ms.length < ms.length := Nat.mod_lt _ (Nat.pos_of_ne_zero hlen)
    refine ⟨ms.get ⟨rnd % ms.length, hlt⟩, List.get_mem _ _ _, ?_⟩
    have hall : Player.getAllLegalMoves fuel c b = Outcome.ok (ms, b) := hms
    unfold ComputerPlayer1.getMove
    rw [hall]
    simp only [Outcome.bind_ok, if_neg hlen]
    rw [List.get?_eq_get hlt]

/-- Witness for C38 (amended): White on the starting position. -/
theorem legalMoves_empty_iff_game_end_witness :
    (8 ≤ 8 ∧ OneKingPerColour startingBoard)
    ∧ ∃ ms mate stale, Player.getAllLegalMoves 8 Colour.WHITE startingBoard
          = Outcome.ok (ms, startingBoard)
      ∧ startingBoard.isInCheckmate 8 Colour.WHITE = Outcome.ok (mate, startingBoard)
      ∧ startingBoard.isInStalemate 8 Colour.WHITE = Outcome.ok (stale, startingBoard)
      ∧ (ms = [] ↔ (mate = true ∨ stale = true))
      ∧ (mate = false → stale = false → ms.length ≠ 0
          ∧ ∀ rnd, ∃ mv ∈ ms, ComputerPlayer1.getMove 8 Colour.WHITE startingBoard rnd
              = Outcome.ok (some mv, startingBoard)) :=
  ⟨⟨le_refl 8, startingBoard_oneKing⟩,
    legalMoves_empty_iff_game_end 8 startingBoard Colour.WHITE (le_refl 8)
      startingBoard_oneKing⟩

/-- C38 (counterexample): on `twoKingsBoard` the list of legal moves of White is empty, so
that `getMove` takes a remainder by zero, and yet neither `isInCheckmate(White)` nor
`isInStalemate(White)` is true: both start with `isInCheck(White)`, which never returns. -/
theorem legalMoves_empty_without_game_end :
    (Player.getAllLegalMoves 8 Colour.WHITE twoKingsBoard).map Prod.fst = Outcome.ok []
    ∧ (∀ rnd, (ComputerPlayer1.getMove 8 Colour.WHITE twoKingsBoard rnd).map Prod.fst
        = Outcome.ok none)
    ∧ ∀ fuel, twoKingsBoard.isInCheckmate fuel Colour.WHITE = Outcome.noReturn
        ∧ twoKingsBoard.isInStalemate fuel Colour.WHITE = Outcome.noReturn := by
  have h1 : (Player.getAllLegalMoves 8 Colour.WHITE twoKingsBoard).map Prod.fst
      = Outcome.ok [] := by decide
  refine ⟨h1, ?_, ?_⟩
  · intro rnd
    obtain ⟨b', hb⟩ := Outcome.map_fst_eq_ok h1
    unfold ComputerPlayer1.getMove
    rw [hb]
    rfl
  · intro fuel
    unfold Board.isInCheckmate Board.isInStalemate
    rw [twoKings_isInCheck_noReturn]
    exact ⟨rfl, rfl⟩

/-! ## The standard starting position -/

/-- On the standard layout nobody is in check, whatever the flags and the fuel above 8. -/
theorem setup_isInCheck (b : Board) (n : Nat) (c : Colour) :
    b.setupStartingPosition.isInCheck (n + 8) c = Outcome.ok false := by
  cases c <;> rfl

theorem setup_counts (b : Board) :
    (['K', 'Q', 'R', 'B', 'N', 'P', 'k', 'q', 'r', 'b', 'n', 'p'].map
      b.setupStartingPosition.countPieces) = [1, 1, 2, 2, 2, 8, 1, 1, 2, 2, 2, 8] := by
  rfl

theorem setup_isValidSetup (b : Board) (n : Nat) :
    b.setupStartingPosition.isValidSetup (n + 8) = Outcome.ok true := by
  rfl

theorem setup_stalemate_value (b : Board) (n : Nat) (c : Colour) :
    (b.setupStartingPosition.isInStalemate (n + 8) c).map Prod.fst = Outcome.ok false := by
  cases c <;> rfl

theorem setup_oneKing (b : Board) : OneKingPerColour b.setupStartingPosition := by
  apply oneKing_of_counts
  · have := congrArg (fun l => l.get? 0) (setup_counts b)
    simpa using this
  · have := congrArg (fun l => l.get? 6) (setup_counts b)
    simpa using this

theorem setup_pieceCount (b : Board) : pieceCount b.setupStartingPosition = 32 := by
  rfl

/-- C39: after `setupStartingPosition()` on any board (whatever its cells, castling flags
and last-move record were) rank 1 holds, from file a to file h, the White rook, knight,
bishop, queen, king, bishop, knight and rook, rank 2 the eight White pawns, rank 7 the eight
Black pawns, rank 8 the Black rook, knight, bishop, queen, king, bishop, knight and rook,
ranks 3 to 6 are empty and no piece has moved; `countPieces` gives 1 king, 1 queen, 2 rooks,
2 bishops, 2 knights and 8 pawns for each colour, 32 cells are occupied, `isValidSetup()` is
true, and for both colours `isInCheck`, `isInCheckmate` and `isInStalemate` return `false`
and leave the board as it is (the fuel `n + 8` is any fuel of at least 8). -/
theorem starting_position_is_sound (b : Board) (n : Nat) :
    (([1, 2, 3, 4, 5, 6, 7, 8] : List Int).map
        fun file => b.setupStartingPosition.getPiece ⟨1, file⟩)
      = [some (Piece.create PieceType.Rook Colour.WHITE),
         some (Piece.create PieceType.Knight Colour.WHITE),
         some (Piece.create PieceType.Bishop Colour.WHITE),
         some (Piece.create PieceType.Queen Colour.WHITE),
         some (Piece.create PieceType.King Colour.WHITE),
         some (Piece.create PieceType.Bishop Colour.WHITE),
         some (Piece.create PieceType.Knight Colour.WHITE),
         some (Piece.create PieceType.Rook Colour.WHITE)]
    ∧ (([1, 2, 3, 4, 5, 6, 7, 8] : List Int).map
        fun file => b.setupStartingPosition.getPiece ⟨2, file⟩)
      = List.replicate 8 (some (Piece.create (PieceType.Pawn false) Colour.WHITE))
    ∧ (([1, 2, 3, 4, 5, 6, 7, 8] : List Int).map
        fun file => b.setupStartingPosition.getPiece ⟨7, file⟩)
      = List.replicate 8 (some (Piece.create (PieceType.Pawn false) Colour.BLACK))
    ∧ (([1, 2, 3, 4, 5, 6, 7, 8] : List Int).map
        fun file => b.setupStartingPosition.getPiece ⟨8, file⟩)
      = [some (Piece.create PieceType.Rook Colour.BLACK),
         some (Piece.create PieceType.Knight Colour.BLACK),
         some (Piece.create PieceType.Bishop Colour.BLACK),
         some (Piece.create PieceType.Queen Colour.BLACK),
         some (Piece.create PieceType.King Colour.BLACK),
         some (Piece.create PieceType.Bishop Colour.BLACK),
         some (Piece.create PieceType.Knight Colour.BLACK),
         some (Piece.create PieceType.Rook Colour.BLACK)]
    ∧ (∀ pos : Position, 3 ≤ pos.row → pos.row ≤ 6 →
        b.setupStartingPosition.getPiece pos = none)
    ∧ (∀ pos p, b.setupStartingPosition.getPiece pos = some p → p.hasMoved = false)
    ∧ (['K', 'Q', 'R', 'B', 'N', 'P', 'k', 'q', 'r', 'b', 'n', 'p'].map
        b.setupStartingPosition.countPieces) = [1, 1, 2, 2, 2, 8, 1, 1, 2, 2, 2, 8]
    ∧ pieceCount b.setupStartingPosition = 32
    ∧ b.setupStartingPosition.isValidSetup (n + 8) = Outcome.ok true
    ∧ ∀ c, b.setupStartingPosition.isInCheck (n + 8) c = Outcome.ok false
        ∧ b.setupStartingPosition.isInCheckmate (n + 8) c
            = Outcome.ok (false, b.setupStartingPosition)
        ∧ b.setupStartingPosition.isInStalemate (n + 8) c
            = Outcome.ok (false, b.setupStartingPosition) := by
  refine ⟨rfl, rfl, rfl, rfl, ?_, ?_, setup_counts b, setup_pieceCount b,
    setup_isValidSetup b n, ?_⟩
  · intro pos h3 h6
    by_cases hv : pos.isValid = true
    · obtain ⟨r, c, rfl⟩ := exists_cell_of_valid hv
      rw [getPiece_posOf]
      simp only [posOf] at h3 h6
      have h0 : r ≠ 0 := by rintro rfl; exact absurd h3 (by decide)
      have h1 : r ≠ 1 := by rintro rfl; exact absurd h3 (by decide)
      have h6' : r ≠ 6 := by rintro rfl; exact absurd h6 (by decide)
      have h7 : r ≠ 7 := by rintro rfl; exact absurd h6 (by decide)
      simp [Board.setupStartingPosition, h0, h1, h6', h7]
    · exact getPiece_invalid _ (by simpa using hv)
  · intro pos p h
    obtain ⟨r, c, rfl⟩ := exists_cell_of_valid (getPiece_isValid h)
    rw [getPiece_posOf] at h
    simp only [Board.setupStartingPosition] at h
    split_ifs at h <;> cases h <;> rfl
  · intro c
    obtain ⟨inCheck, found, hchk, hmate, hstale, _, _⟩ :=
      mate_stale_values (n + 8) (by omega) b.setupStartingPosition (setup_oneKing b) c
    rw [setup_isInCheck] at hchk
    simp only [Outcome.ok.injEq] at hchk
    subst hchk
    refine ⟨setup_isInCheck b n c, by simpa using hmate, ?_⟩
    have hval := setup_stalemate_value b n c
    rw [hstale] at hval
    simp only [Outcome.map, Outcome.bind_ok, Outcome.ok.injEq] at hval
    rw [hstale, hval]

/-! ## Moves of a human player -/

theorem Game.switchTurn_turn (g : Game) : g.switchTurn.currentTurn = g.currentTurn.enemy := rfl

theorem Game.updateScore_fields (g : Game) (w : Colour) :
    (g.updateScore w).board = g.board ∧ (g.updateScore w).currentTurn = g.currentTurn := by
  unfold Game.updateScore
  split <;> exact ⟨rfl, rfl⟩

/-- A setup accepted by `isValidSetup` has exactly one king of each colour; together with
`makeMove_oneKing` this makes `OneKingPerColour` an invariant of every game in progress. -/
theorem validSetup_oneKing {fuel : Nat} {b : Board} (hf : 8 ≤ fuel)
    (h : b.isValidSetup fuel = Outcome.ok true) : OneKingPerColour b := by
  have := ((isValidSetup_spec b hf).2).1 h
  exact oneKing_of_counts this.1 this.2.1

/-- C40: for every game in progress (its board has one king per colour, as every board
reached from the standard position or from an accepted setup has) `makePlayerMove` returns.
If `Board::isValidMove(curr, dest, turn)` is false or `wouldBeInCheck(curr, dest, turn)` is
true, the game is left exactly as it was: board, current turn, both scores and the
in-progress flag. Otherwise the board is the result of `makeMove(curr, dest, promotion)`, the
current turn is the opposite colour, and the board again has one king per colour. One of the
two cases always applies: both tests return. -/
theorem makePlayerMove_atomic (fuel : Nat) (g : Game) (curr dest : Position)
    (promotion : Char) (hf : 8 ≤ fuel) (hprog : g.gameInProgress = true)
    (hone : OneKingPerColour g.board) :
    ∃ g', g.makePlayerMove fuel curr dest promotion = Outcome.ok g'
      ∧ ((g.board.isValidMove fuel curr dest g.currentTurn = Outcome.ok false
            ∨ (g.board.wouldBeInCheck fuel curr dest g.currentTurn).map Prod.fst
                = Outcome.ok true)
          → g' = g)
      ∧ (g.board.isValidMove fuel curr dest g.currentTurn = Outcome.ok true →
          (g.board.wouldBeInCheck fuel curr dest g.currentTurn).map Prod.fst
            = Outcome.ok false →
          g.board.makeMove fuel curr dest promotion = Outcome.ok g'.board
            ∧ g'.currentTurn = g.currentTurn.enemy
            ∧ OneKingPerColour g'.board)
      ∧ ∃ valid, g.board.isValidMove fuel curr dest g.currentTurn = Outcome.ok valid
          ∧ (valid = true → ∃ exposed,
              g.board.wouldBeInCheck fuel curr dest g.currentTurn
                = Outcome.ok (exposed, g.board)) := by
  obtain ⟨valid, hv⟩ := Board.isValidMove_returns fuel hf g.board hone curr dest g.currentTurn
  cases valid with
  | false =>
    refine ⟨g, ?_, fun _ => rfl, ?_, false, hv, fun x => by cases x⟩
    · unfold Game.makePlayerMove
      simp [hprog, hv]
    · intro h
      rw [hv] at h
      cases h
  | true =>
    obtain ⟨hsv, hdv, piece, hp, hpc, he, _⟩ := isValidMove_true hv
    obtain ⟨w, hw⟩ := wouldBeInCheck_returns fuel hf g.board hone curr dest g.currentTurn piece
      hp hdv
    cases w with
    | true =>
      refine ⟨g, ?_, fun _ => rfl, ?_, true, hv, fun _ => ⟨true, hw⟩⟩
      · unfold Game.makePlayerMove
        simp only [hprog, Bool.not_true, Bool.false_eq_true, if_false, hv, Outcome.bind_ok, hw,
          if_true]
        rcases g with ⟨_, _, _, _, _, _⟩
        simp only at hprog
        subst hprog
        rfl
      · intro _ h
        rw [hw] at h
        simp [Outcome.map] at h
    | false =>
      have hne : curr ≠ dest := by
        rintro rfl
        unfold emptyOrEnemy at he
        rw [hp] at he
        simp [hpc] at he
      obtain ⟨b1, hm⟩ := @makeMove_returns fuel g.board curr dest promotion piece hf hone hp
        hdv hne
      have hone1 : OneKingPerColour b1 := makeMove_oneKing hone hm
      obtain ⟨inCheck, found, hchk, hmate, hstale, _, _⟩ :=
        mate_stale_values fuel hf b1 hone1 g.currentTurn.enemy
      have hrej : (g.board.isValidMove fuel curr dest g.currentTurn = Outcome.ok false
            ∨ (g.board.wouldBeInCheck fuel curr dest g.currentTurn).map Prod.fst
                = Outcome.ok true) → False := by
        rintro (h | h)
        · rw [hv] at h; cases h
        · rw [hw] at h; simp [Outcome.map] at h
      have hrun : ∃ g', g.makePlayerMove fuel curr dest promotion = Outcome.ok g'
          ∧ g'.board = b1 ∧ g'.currentTurn = g.currentTurn.enemy := by
        unfold Game.makePlayerMove
        simp only [hprog, Bool.not_true, Bool.false_eq_true, if_false, hv, Outcome.bind_ok, hw,
          hm, Game.switchTurn_turn, hmate]
        cases hmv : (inCheck && !found)
        · simp only [Bool.false_eq_true, if_false, hstale, Outcome.bind_ok]
          cases hsv2 : (!inCheck && !found)
          · simp only [Bool.false_eq_true, if_false, hchk, Outcome.bind_ok]
            exact ⟨_, rfl, rfl, rfl⟩
          · simp only [if_true]
            exact ⟨_, rfl, rfl, rfl⟩
        · simp only [if_true]
          refine ⟨_, rfl, ?_, ?_⟩
          · exact (Game.updateScore_fields _ _).1
          · exact (Game.updateScore_fields _ _).2
      obtain ⟨g', hg, hb, ht⟩ := hrun
      refine ⟨g', hg, fun h => absurd h hrej, ?_, true, hv, fun _ => ⟨false, hw⟩⟩
      intro _ _
      rw [hb]
      exact ⟨hm, ht, hone1⟩

/-- Witness for C40: the move e2-e4 in a new game on the starting position. -/
theorem makePlayerMove_atomic_witness :
    (8 ≤ 8 ∧ Game.standardStart.gameInProgress = true
      ∧ OneKingPerColour Game.standardStart.board)
    ∧ ∃ g', Game.standardStart.makePlayerMove 8 ⟨2, 5⟩ ⟨4, 5⟩ (Char.ofNat 0) = Outcome.ok g'
      ∧ ((Game.standardStart.board.isValidMove 8 ⟨2, 5⟩ ⟨4, 5⟩
              Game.standardStart.currentTurn = Outcome.ok false
            ∨ (Game.standardStart.board.wouldBeInCheck 8 ⟨2, 5⟩ ⟨4, 5⟩
                Game.standardStart.currentTurn).map Prod.fst = Outcome.ok true)
          → g' = Game.standardStart)
      ∧ (Game.standardStart.board.isValidMove 8 ⟨2, 5⟩ ⟨4, 5⟩
            Game.standardStart.currentTurn = Outcome.ok true →
          (Game.standardStart.board.wouldBeInCheck 8 ⟨2, 5⟩ ⟨4, 5⟩
            Game.standardStart.currentTurn).map Prod.fst = Outcome.ok false →
          Game.standardStart.board.makeMove 8 ⟨2, 5⟩ ⟨4, 5⟩ (Char.ofNat 0)
              = Outcome.ok g'.board
            ∧ g'.currentTurn = Game.standardStart.currentTurn.enemy
            ∧ OneKingPerColour g'.board)
      ∧ ∃ valid, Game.standardStart.board.isValidMove 8 ⟨2, 5⟩ ⟨4, 5⟩
            Game.standardStart.currentTurn = Outcome.ok valid
          ∧ (valid = true → ∃ exposed,
              Game.standardStart.board.wouldBeInCheck 8 ⟨2, 5⟩ ⟨4, 5⟩
                Game.standardStart.currentTurn
                = Outcome.ok (exposed, Game.standardStart.board)) :=
  ⟨⟨le_refl 8, rfl, startingBoard_oneKing⟩,
    makePlayerMove_atomic 8 Game.standardStart ⟨2, 5⟩ ⟨4, 5⟩ (Char.ofNat 0) (le_refl 8) rfl
      startingBoard_oneKing⟩

end Chess
